import Mathlib

/-!
# Application phase of the multilevel ILU preconditioner (`MILUsolve.c`)

Shallow embedding of `crs_Axpy_kernel`, `solve_milu`, `MILUsolve` and
`MILUsolve_2args`.

* `double` values are modelled by exact rationals (`ℚ`), so every statement
  below is a statement in exact arithmetic.
* `int` values are modelled by `Int`; the 32-bit products `n * n` and
  `nrows * nrows` are reduced with two's-complement wraparound (`mul32`).
* An `emxArray` is a list; its `size[0]` is the list's length.  An access
  outside `[0, size[0])` stops the run with a `Fault`.
* The three buffers a solve mutates (`b`, `b_y1`, `y2`) form the state `St`;
  a fault carries the state in which it was raised.
-/

namespace MILU

/-! ## Machine model -/

/-- The mutable buffers: `b`, `b_y1`, `y2` of `solve_milu`, and the output
vector `y` of `crs_Axpy_kernel`. -/
inductive Buf where
  | b
  | y1
  | y2
  | y
  deriving DecidableEq, Repr

/-- Abnormal terminations: the `m2c_error` condition of the source, and
accesses outside an array's bounds. -/
inductive Fault where
  | BufferTooSmall
  | Load (i : Int)
  | Store (buf : Buf) (i : Int)
  deriving DecidableEq, Repr

/-- Read `a[i]` for a C `int` index. -/
def rd {α : Type} (a : List α) (i : Int) : Option α :=
  if 0 ≤ i then a.get? i.toNat else none

/-- Write `a[i] = v` for a C `int` index. -/
def wr {α : Type} (a : List α) (i : Int) (v : α) : Option (List α) :=
  if 0 ≤ i ∧ i.toNat < a.length then some (a.set i.toNat v) else none

/-- Runs over a state `σ`: a value, or a fault with the state at the raise. -/
abbrev Run (σ α : Type) := Except (Fault × σ) α

/-- Checked read inside a run. -/
def load {σ α : Type} (a : List α) (i : Int) (s : σ) : Run σ α :=
  match rd a i with
  | some v => .ok v
  | none => .error (Fault.Load i, s)

/-- The loop `for (i = lo; i < lo + cnt; i++) body`. -/
def forUp {ε ρ : Type} (body : Int → ρ → Except ε ρ) : Int → Nat → ρ → Except ε ρ
  | _, 0, r => .ok r
  | i, c + 1, r => (body i r).bind (forUp body (i + 1) c)

/-- The loop `for (i = hi; i > hi - cnt; i--) body`. -/
def forDown {ε ρ : Type} (body : Int → ρ → Except ε ρ) : Int → Nat → ρ → Except ε ρ
  | _, 0, r => .ok r
  | i, c + 1, r => (body i r).bind (forDown body (i - 1) c)

/-- Two's-complement reduction of an integer to the range of a 32-bit `int`. -/
def wrap32 (x : Int) : Int := (x + 2147483648) % 4294967296 - 2147483648

/-- The 32-bit product of two `int`s. -/
def mul32 (a b : Int) : Int := wrap32 (a * b)

/-! ## Data model (`emxArray_struct0_T`) -/

/-- Compressed-column triangular factor (`L`, `U`). -/
structure CCS where
  nrows : Int
  col_ptr : List Int
  row_ind : List Int
  val : List ℚ
  deriving Repr

/-- Compressed-row coupling block (`negE`, `negF`). -/
structure CRS where
  nrows : Int
  row_ptr : List Int
  col_ind : List Int
  val : List ℚ
  deriving Repr

/-- One level of the multilevel factorization (`struct0_T`). -/
structure Level where
  L : CCS
  U : CCS
  d : List ℚ
  p : List Int
  q : List Int
  rowscal : List ℚ
  colscal : List ℚ
  negE : CRS
  negF : CRS
  deriving Repr

/-- The buffers `b`, `b_y1`, `y2` of `solve_milu`. -/
structure St where
  b : List ℚ
  b_y1 : List ℚ
  y2 : List ℚ
  deriving DecidableEq, Repr

/-- Checked `b->data[i] = v`. -/
def store_b (i : Int) (v : ℚ) (s : St) : Run St St :=
  match wr s.b i v with
  | some l => .ok { s with b := l }
  | none => .error (Fault.Store Buf.b i, s)

/-- Checked `b_y1->data[i] = v`. -/
def store_y1 (i : Int) (v : ℚ) (s : St) : Run St St :=
  match wr s.b_y1 i v with
  | some l => .ok { s with b_y1 := l }
  | none => .error (Fault.Store Buf.y1 i, s)

/-- Checked `y2->data[i] = v`. -/
def store_y2 (i : Int) (v : ℚ) (s : St) : Run St St :=
  match wr s.y2 i v with
  | some l => .ok { s with y2 := l }
  | none => .error (Fault.Store Buf.y2 i, s)

/-! ## `crs_Axpy_kernel` -/

/-- Inner loop of `crs_Axpy_kernel`:
`for (j = ...; j < row_ptr[i+1]; j++) t += val[j-1] * x[col_ind[j-1]-1]`. -/
def crs_row (col_ind : List Int) (val x : List ℚ) (y : List ℚ) :
    Int → Nat → ℚ → Run (List ℚ) ℚ
  | _, 0, t => .ok t
  | j, c + 1, t => do
    let v ← load val (j - 1) y
    let ci ← load col_ind (j - 1) y
    let xv ← load x (ci - 1) y
    crs_row col_ind val x y (j + 1) c (t + v * xv)

/-- Body of the outer loop of `crs_Axpy_kernel` for row `i`. -/
def crs_body (row_ptr col_ind : List Int) (val x : List ℚ) (i : Int) (y : List ℚ) :
    Run (List ℚ) (List ℚ) := do
  let t ← load y i y
  let lo ← load row_ptr i y
  let hi ← load row_ptr (i + 1) y
  let t ← crs_row col_ind val x y lo (hi - lo).toNat t
  match wr y i t with
  | some l => .ok l
  | none => .error (Fault.Store Buf.y i, y)

/-- The kernel `crs_Axpy_kernel(row_ptr, col_ind, val, x, y, nrows)`; the result is
the new content of `y`. -/
def crs_Axpy_kernel (row_ptr col_ind : List Int) (val x y : List ℚ) (nrows : Int) :
    Run (List ℚ) (List ℚ) :=
  forUp (crs_body row_ptr col_ind val x) 0 nrows.toNat y

/-! ## `solve_milu` -/

/-- The statement `b_y1[r-1] -= val[k] * b_y1[j-1]` with `r = row_ind[k]`, shared by the
forward sweep through `L` and the backward sweep through `U`. -/
def col_update (A : CCS) (j k : Int) (s : St) : Run St St := do
  let r ← load A.row_ind k s
  let yr ← load s.b_y1 (r - 1) s
  let v ← load A.val k s
  let yj ← load s.b_y1 (j - 1) s
  store_y1 (r - 1) (yr - v * yj) s

/-- The loop `for (k = col_ptr[j-1] - 1; k + 1 < col_ptr[j]; k++)` over the stored
entries of column `j` (1-based). -/
def col_sweep (A : CCS) (j : Int) (s : St) : Run St St := do
  let lo ← load A.col_ptr (j - 1) s
  let hi ← load A.col_ptr j s
  forUp (col_update A j) (lo - 1) (hi - lo).toNat s

/-- The statement `b_y1[i] /= d[i]` (lines 94-96). -/
def div_body (lv : Level) (i : Int) (s : St) : Run St St := do
  let yi ← load s.b_y1 i s
  let di ← load lv.d i s
  store_y1 i (yi / di) s

/-- The sparse branch of the fine-block solve (lines 85-104, repeated at lines
137-156): forward sweep through `L`, division by `d`, backward sweep through `U`. -/
def sparse_solve (lv : Level) (nB : Int) (s : St) : Run St St := do
  let s ← forUp (col_sweep lv.L) 1 (lv.L.col_ptr.length - 1) s
  let s ← forUp (div_body lv) 0 nB.toNat s
  forDown (col_sweep lv.U) ((lv.U.col_ptr.length : Int) - 1) (lv.U.col_ptr.length - 1) s

/-- Inner loop of the dense forward elimination:
`for (i = j; i + 1 <= nB; i++) { b_y1[i] -= U.val[k] * b_y1[j-1]; k++; }`;
the loop state is the buffers together with the running index `k`. -/
def dense_fwd_inner (lv : Level) (j : Int) (i : Int) (sk : St × Int) : Run St (St × Int) := do
  let yi ← load sk.1.b_y1 i sk.1
  let u ← load lv.U.val sk.2 sk.1
  let yj ← load sk.1.b_y1 (j - 1) sk.1
  let s ← store_y1 i (yi - u * yj) sk.1
  pure (s, sk.2 + 1)

/-- Outer loop body of the dense forward elimination: `k += j;` then the inner loop. -/
def dense_fwd (lv : Level) (nB : Int) (j : Int) (sk : St × Int) : Run St (St × Int) :=
  forUp (dense_fwd_inner lv j) j (nB - j).toNat (sk.1, sk.2 + j)

/-- Inner loop of the dense back substitution:
`for (i = j; i > 0; i--) { k--; b_y1[i-1] -= U.val[k] * b_y1[j]; }`. -/
def dense_bwd_inner (lv : Level) (j : Int) (i : Int) (sk : St × Int) : Run St (St × Int) := do
  let yi ← load sk.1.b_y1 (i - 1) sk.1
  let u ← load lv.U.val (sk.2 - 1) sk.1
  let yj ← load sk.1.b_y1 j sk.1
  let s ← store_y1 (i - 1) (yi - u * yj) sk.1
  pure (s, sk.2 - 1)

/-- Outer loop body of the dense back substitution: `b_y1[j] /= U.val[k];`, the inner
loop, then `k = ((k - nB) + j) - 1;`. -/
def dense_bwd (lv : Level) (nB : Int) (j : Int) (sk : St × Int) : Run St (St × Int) := do
  let yj ← load sk.1.b_y1 j sk.1
  let u ← load lv.U.val sk.2 sk.1
  let s ← store_y1 j (yj / u) sk.1
  let sk ← forDown (dense_bwd_inner lv j) j j.toNat (s, sk.2)
  pure (sk.1, ((sk.2 - nB) + j) - 1)

/-- The dense branch of the fine-block solve (lines 65-83). -/
def dense_solve (lv : Level) (nB : Int) (s : St) : Run St St := do
  let sk ← forUp (dense_fwd lv nB) 1 nB.toNat (s, 0)
  let sk ← forDown (dense_bwd lv nB) (lv.L.nrows - 1) lv.L.nrows.toNat
    (sk.1, mul32 lv.L.nrows lv.L.nrows - 1)
  pure sk.1

/-- The dispatch test of line 63:
`L.val->size[0] == 0 && U.val->size[0] == n * n`. -/
def dense_test (lv : Level) (n : Int) : Bool :=
  decide ((lv.L.val.length : Int) = 0) && decide ((lv.U.val.length : Int) = mul32 n n)

/-- The statement `b_y1[i] = rowscal[p[i] - 1] * b[(p[i] + offset) - 1]` (line 48). -/
def gather_fine (lv : Level) (offset : Int) (i : Int) (s : St) : Run St St := do
  let pi ← load lv.p i s
  let r ← load lv.rowscal (pi - 1) s
  let v ← load s.b ((pi + offset) - 1) s
  store_y1 i (r * v) s

/-- The statement `y2[i - nB] = rowscal[p[i] - 1] * b[(p[i] + offset) - 1]` (line 53). -/
def gather_trail (lv : Level) (offset nB : Int) (i : Int) (s : St) : Run St St := do
  let pi ← load lv.p i s
  let r ← load lv.rowscal (pi - 1) s
  let v ← load s.b ((pi + offset) - 1) s
  store_y2 (i - nB) (r * v) s

/-- Gather loops of lines 47-55: the fine part into `b_y1`, the trailing part
into `y2`, both permuted by `p` and scaled by `rowscal`. -/
def gather (lv : Level) (offset nB n : Int) (s : St) : Run St St := do
  let s ← forUp (gather_fine lv offset) 0 nB.toNat s
  forUp (gather_trail lv offset nB) lv.L.nrows (n - lv.L.nrows).toNat s

/-- The statement `b[offset + i] = b_y1[i]` (line 59). -/
def write_back_body (offset : Int) (i : Int) (s : St) : Run St St := do
  let v ← load s.b_y1 i s
  store_b (offset + i) v s

/-- Lines 58-60: `b[offset + i] = b_y1[i]` for `i < nB`. -/
def write_back (offset nB : Int) (s : St) : Run St St :=
  forUp (write_back_body offset) 0 nB.toNat s

/-- Lines 108-114: the size check and `y2 += negE * b_y1`. -/
def couple_E (lv : Level) (s : St) : Run St St :=
  if (s.y2.length : Int) < lv.negE.nrows then .error (Fault.BufferTooSmall, s)
  else
    match crs_Axpy_kernel lv.negE.row_ptr lv.negE.col_ind lv.negE.val s.b_y1 s.y2
        lv.negE.nrows with
    | .ok y => .ok { s with y2 := y }
    | .error (f, y) => .error (f, { s with y2 := y })

/-- The statement `b[(offset + nB) + i] = y2[i]` (line 117). -/
def store_trailing_body (offset nB : Int) (i : Int) (s : St) : Run St St := do
  let v ← load s.y2 i s
  store_b ((offset + nB) + i) v s

/-- Lines 115-118: `b[(offset + nB) + i] = y2[i]` for `i < n - nB`. -/
def store_trailing (lv : Level) (offset nB n : Int) (s : St) : Run St St :=
  forUp (store_trailing_body offset nB) 0 (n - lv.L.nrows).toNat s

/-- The statement `b_y1[i] = b[offset + i]` (line 122). -/
def reload_fine (offset : Int) (i : Int) (s : St) : Run St St := do
  let v ← load s.b (offset + i) s
  store_y1 i v s

/-- The statement `y2[i] = b[(offset + nB) + i]` (line 127). -/
def reload_trail (offset nB : Int) (i : Int) (s : St) : Run St St := do
  let v ← load s.b ((offset + nB) + i) s
  store_y2 i v s

/-- Lines 121-128: reload `b_y1` and `y2` from `b` after the recursive call. -/
def reload (lv : Level) (offset nB n : Int) (s : St) : Run St St := do
  let s ← forUp (reload_fine offset) 0 nB.toNat s
  forUp (reload_trail offset nB) 0 (n - lv.L.nrows).toNat s

/-- Lines 130-136: the size check and `b_y1 += negF * y2`. -/
def couple_F (lv : Level) (s : St) : Run St St :=
  if (s.b_y1.length : Int) < lv.negF.nrows then .error (Fault.BufferTooSmall, s)
  else
    match crs_Axpy_kernel lv.negF.row_ptr lv.negF.col_ind lv.negF.val s.y2 s.b_y1
        lv.negF.nrows with
    | .ok y => .ok { s with b_y1 := y }
    | .error (f, y) => .error (f, { s with b_y1 := y })

/-- The statement `b[(q[i] + offset) - 1] = b_y1[i] * colscal[q[i] - 1]` (line 160). -/
def scatter_fine (lv : Level) (offset : Int) (i : Int) (s : St) : Run St St := do
  let qi ← load lv.q i s
  let v ← load s.b_y1 i s
  let c ← load lv.colscal (qi - 1) s
  store_b ((qi + offset) - 1) (v * c) s

/-- The statement `b[(q[i] + offset) - 1] = y2[i - nB] * colscal[q[i] - 1]` (line 165). -/
def scatter_trail (lv : Level) (offset nB : Int) (i : Int) (s : St) : Run St St := do
  let qi ← load lv.q i s
  let v ← load s.y2 (i - nB) s
  let c ← load lv.colscal (qi - 1) s
  store_b ((qi + offset) - 1) (v * c) s

/-- Scatter loops of lines 159-167: the fine part from `b_y1`, the trailing part
from `y2`, permuted by `q` and scaled by `colscal`. -/
def scatter (lv : Level) (offset nB n : Int) (s : St) : Run St St := do
  let s ← forUp (scatter_fine lv offset) 0 nB.toNat s
  forUp (scatter_trail lv offset nB) lv.L.nrows (n - lv.L.nrows).toNat s

/-- The recursive level solver `solve_milu(M, lvl, b, offset, b_y1, y2)`. -/
def solve_milu (M : List Level) (lvl : Nat) (offset : Int) (s : St) : Run St St :=
  match h : rd M ((lvl : Int) - 1) with
  | none => .error (Fault.Load ((lvl : Int) - 1), s)
  | some lv =>
    let nB := lv.L.nrows
    let n := lv.L.nrows + lv.negE.nrows
    (gather lv offset nB n s).bind fun s =>
    (if n > lv.L.nrows then write_back offset nB s else .ok s).bind fun s =>
    (if dense_test lv n then dense_solve lv nB s else sparse_solve lv nB s).bind fun s =>
    (if n > lv.L.nrows then
      (couple_E lv s).bind fun s =>
      (store_trailing lv offset nB n s).bind fun s =>
      (solve_milu M (lvl + 1) (offset + lv.L.nrows) s).bind fun s =>
      (reload lv offset nB n s).bind fun s =>
      (couple_F lv s).bind fun s =>
      sparse_solve lv nB s
    else .ok s).bind fun s =>
    scatter lv offset nB n s
termination_by M.length + 1 - lvl
decreasing_by
  have h1 : rd M ((lvl : Int) - 1) = some lv := h
  unfold rd at h1
  split at h1
  · have h2 := List.get?_eq_some.1 h1
    obtain ⟨h3, _⟩ := h2
    omega
  · exact absurd h1 (by simp)

/-! ## Entry points -/

/-- The entry point `MILUsolve(M, b, b_y1, y2)`. -/
def MILUsolve (M : List Level) (b b_y1 y2 : List ℚ) : Run St St :=
  solve_milu M 1 0 ⟨b, b_y1, y2⟩

/-- The entry point `MILUsolve_2args(M, b)`; the result is the final content of `b`. -/
def MILUsolve_2args (M : List Level) (b : List ℚ) : Run St (List ℚ) :=
  match rd M 0 with
  | none => .error (Fault.Load 0, ⟨b, [], []⟩)
  | some lv =>
    let u0 := lv.L.nrows
    let u1 := lv.negE.nrows
    let u1 := if u0 > u1 then u0 else u1
    let b_y1 := List.replicate u1.toNat (0 : ℚ)
    let y2 := List.replicate lv.negE.nrows.toNat (0 : ℚ)
    (solve_milu M 1 0 ⟨b, b_y1, y2⟩).map fun s => s.b

/-! ## Specification-level definitions -/

/-- The auto-sizing entry point as the specification words it: scratch vectors of zeros
of lengths `max(level1.L.nrows, level1.negE.nrows)` and `level1.negE.nrows`, then
`Solve`; only `rhs` is returned. -/
def SolveAutoScratch_spec (lv : Level) (rest : List Level) (b : List ℚ) : Run St (List ℚ) :=
  (MILUsolve (lv :: rest) b (List.replicate (max lv.L.nrows lv.negE.nrows).toNat 0)
    (List.replicate lv.negE.nrows.toNat 0)).map fun s => s.b

/-- A compressed-row block with `m` rows and no stored entry. -/
def emptyCRS (m : Nat) : CRS := ⟨m, List.replicate (m + 1) 1, [], []⟩

/-- A compressed-column factor of order `m` with no stored entry. -/
def emptyCCS (m : Nat) : CCS := ⟨m, List.replicate (m + 1) 1, [], []⟩

/-- The identity permutation `1, 2, ..., m` in 1-based storage. -/
def idPerm (m : Nat) : List Int := (List.range m).map fun (i : Nat) => (i : Int) + 1

/-- The trivial level with fine block of size `nB` and trailing block of size `nT`:
no stored entries in `L`, `U`, `negE`, `negF`, unit `d` and scalings, identity
permutations. -/
def trivLevel (nB nT : Nat) : Level :=
  { L := emptyCCS nB
    U := emptyCCS nB
    d := List.replicate nB 1
    p := idPerm (nB + nT)
    q := idPerm (nB + nT)
    rowscal := List.replicate (nB + nT) 1
    colscal := List.replicate (nB + nT) 1
    negE := emptyCRS nT
    negF := emptyCRS nB }

/-- The single level of the concrete 3x3 scenario, with the factor data as the
specification lists them. -/
def scenarioLevel : Level :=
  { L := ⟨3, [1, 2, 3, 3], [2, 3], [1/4, 2/5]⟩
    U := ⟨3, [1, 1, 2, 3], [1, 2], [1/4, 4/11]⟩
    d := [4, 11/4, 8/5]
    p := [1, 2, 3]
    q := [1, 2, 3]
    rowscal := [1, 1, 1]
    colscal := [1, 1, 1]
    negE := emptyCRS 0
    negF := emptyCRS 3 }

/-- The exact `L D U` factors of `[[4,1,0],[1,3,1],[0,1,2]]`: as `scenarioLevel`, with
`L[2,1] = 4/11` and `d[2] = 18/11`. -/
def exactLevel : Level :=
  { scenarioLevel with
    L := ⟨3, [1, 2, 3, 3], [2, 3], [1/4, 4/11]⟩
    d := [4, 11/4, 18/11] }

/-- The fault of a run is not the `BufferTooSmall` condition. -/
def NotBTS {σ : Type} (e : Fault × σ) : Prop := e.1 ≠ Fault.BufferTooSmall

/-- Value of `a[i]` for a C index, `0` outside the bounds. -/
def at0 (a : List ℚ) (i : Int) : ℚ := (rd a i).getD 0

/-- Value of the integer array entry `a[i]` for a C index, `0` outside the bounds. -/
def atI (a : List Int) (i : Int) : Int := (rd a i).getD 0

/-- The storage positions `lo, lo + 1, ..., lo + cnt - 1` in ascending order. -/
def positions (lo : Int) (cnt : Nat) : List Int :=
  (List.range cnt).map fun (k : Nat) => lo + (k : Int)

/-- The 1-based storage positions of row `i` of a compressed-row matrix: the half-open
range `[row_ptr[i], row_ptr[i+1])`, ascending. -/
def row_positions (row_ptr : List Int) (i : Int) : List Int :=
  positions (atI row_ptr i) (atI row_ptr (i + 1) - atI row_ptr i).toNat

/-- The value the specification assigns to `y_new[i]`: the terms
`val[j] * x[col_ind[j]]` of row `i` added to `y0` one after the other in ascending
storage order. -/
def row_acc (row_ptr col_ind : List Int) (val x : List ℚ) (i : Int) (y0 : ℚ) : ℚ :=
  (row_positions row_ptr i).foldl
    (fun t j => t + at0 val (j - 1) * at0 x (atI col_ind (j - 1) - 1)) y0

/-- A compressed-row matrix with `nrows` rows that is valid for an `x` of length `xlen`:
`row_ptr` has `nrows + 1` entries, every stored position of a row lies inside `val` and
`col_ind`, and every referenced column lies inside `x`. -/
def crs_valid (row_ptr col_ind : List Int) (val : List ℚ) (xlen : Nat) (nrows : Int) : Prop :=
  nrows + 1 ≤ (row_ptr.length : Int) ∧
  ∀ i ∈ positions 0 nrows.toNat, ∀ j ∈ row_positions row_ptr i,
    1 ≤ j ∧ j ≤ (val.length : Int) ∧ j ≤ (col_ind.length : Int) ∧
      1 ≤ atI col_ind (j - 1) ∧ atI col_ind (j - 1) ≤ (xlen : Int)

instance (row_ptr col_ind : List Int) (val : List ℚ) (xlen : Nat) (nrows : Int) :
    Decidable (crs_valid row_ptr col_ind val xlen nrows) := by
  unfold crs_valid
  infer_instance

/-- The list `a2` is `a` with the entries at the indices `lo ≤ j < lo + k` replaced by
`f j`. -/
def Upd (a a2 : List ℚ) (lo : Int) (k : Nat) (f : Int → ℚ) : Prop :=
  a2.length = a.length ∧
    ∀ j : Int, at0 a2 j = if lo ≤ j ∧ j < lo + (k : Int) then f j else at0 a j

/-- The value gathered for local index `i`: `rowscal[p[i]-1] * b[(p[i]+offset)-1]`. -/
def gval (lv : Level) (offset : Int) (b : List ℚ) (i : Int) : ℚ :=
  at0 lv.rowscal (atI lv.p i - 1) * at0 b ((atI lv.p i + offset) - 1)

/-- The entries `p[0], ..., p[n-1]` exist and are valid 1-based indices into `rowscal`
and, shifted by `offset`, into a buffer of length `blen`. -/
def gather_ok (lv : Level) (offset n : Int) (blen : Nat) : Prop :=
  n ≤ (lv.p.length : Int) ∧
  ∀ i ∈ positions 0 n.toNat,
    1 ≤ atI lv.p i ∧ atI lv.p i ≤ (lv.rowscal.length : Int) ∧
      1 ≤ atI lv.p i + offset ∧ atI lv.p i + offset ≤ (blen : Int)

/-- The list `a2` is `a` with the entries at the indices `idx i`, `0 ≤ i < m`, replaced by
`f i`. -/
def Scat (a a2 : List ℚ) (idx : Int → Int) (m : Int) (f : Int → ℚ) : Prop :=
  a2.length = a.length ∧
    (∀ i : Int, 0 ≤ i → i < m → at0 a2 (idx i) = f i) ∧
    (∀ j : Int, (∀ i : Int, 0 ≤ i → i < m → idx i ≠ j) → at0 a2 j = at0 a j)

/-- The value scattered from local index `i`: `b_y1[i] * colscal[q[i]-1]` for `i < nB`,
`y2[i-nB] * colscal[q[i]-1]` for `i ≥ nB`. -/
def sval (lv : Level) (nB : Int) (y1 y2 : List ℚ) (i : Int) : ℚ :=
  (if i < nB then at0 y1 i else at0 y2 (i - nB)) * at0 lv.colscal (atI lv.q i - 1)

/-- The entries `q[0], ..., q[n-1]` exist, are pairwise different, and are valid 1-based
indices into `colscal` and, shifted by `offset`, into a buffer of length `blen`. -/
def scatter_ok (lv : Level) (offset n : Int) (blen : Nat) : Prop :=
  n ≤ (lv.q.length : Int) ∧
  (∀ i ∈ positions 0 n.toNat,
    1 ≤ atI lv.q i ∧ atI lv.q i ≤ (lv.colscal.length : Int) ∧
      1 ≤ atI lv.q i + offset ∧ atI lv.q i + offset ≤ (blen : Int)) ∧
  ∀ i ∈ positions 0 n.toNat, ∀ j ∈ positions 0 n.toNat, atI lv.q i = atI lv.q j → i = j

/-- The 0-based storage positions of column `c` (0-based) of a compressed-column factor:
`col_ptr[c] - 1, ..., col_ptr[c+1] - 2`. -/
def col_positions (A : CCS) (c : Int) : List Int :=
  positions (atI A.col_ptr c - 1) (atI A.col_ptr (c + 1) - atI A.col_ptr c).toNat

/-- The stored value at position `k`, counted for row `i` (0-based) only. -/
def entry_at (A : CCS) (i k : Int) : ℚ :=
  if atI A.row_ind k = i + 1 then at0 A.val k else 0

/-- The matrix entry in row `i`, column `c` (0-based) that the storage represents: the
sum of the stored values of column `c` whose row index is `i + 1`. -/
def col_entry (A : CCS) (i c : Int) : ℚ :=
  ((col_positions A c).map (entry_at A i)).sum

/-- A compressed-column factor of order `m`: `col_ptr` has `m + 1` entries, the stored
positions of every column lie inside `row_ind` and `val`, and the row indices lie in
`1..m`. -/
def ccs_valid (A : CCS) (m : Int) : Prop :=
  (A.col_ptr.length : Int) = m + 1 ∧
  ∀ c ∈ positions 0 m.toNat, ∀ k ∈ col_positions A c,
    0 ≤ k ∧ k < (A.row_ind.length : Int) ∧ k < (A.val.length : Int) ∧
      1 ≤ atI A.row_ind k ∧ atI A.row_ind k ≤ m

/-- Every stored entry lies strictly below the diagonal. -/
def strict_lower (A : CCS) (m : Int) : Prop :=
  ∀ c ∈ positions 0 m.toNat, ∀ k ∈ col_positions A c, c + 1 < atI A.row_ind k

/-- Every stored entry lies strictly above the diagonal. -/
def strict_upper (A : CCS) (m : Int) : Prop :=
  ∀ c ∈ positions 0 m.toNat, ∀ k ∈ col_positions A c, atI A.row_ind k < c + 1

/-- The first `m` entries of a buffer as a vector. -/
def vec (a : List ℚ) (m : Nat) : Fin m → ℚ := fun i => at0 a ((i : Nat) : Int)

/-- The unit triangular matrix `I + A` of order `m` that a compressed-column factor with
stored strictly-triangular entries represents. -/
def unit_tri (A : CCS) (m : Nat) : Matrix (Fin m) (Fin m) ℚ :=
  fun i j => (if i = j then 1 else 0) + col_entry A ((i : Nat) : Int) ((j : Nat) : Int)

/-- The fine block `(I + L) * diag(d) * (I + U)` of a sparse level. -/
def fine_matrix (lv : Level) (m : Nat) : Matrix (Fin m) (Fin m) ℚ :=
  unit_tri lv.L m * Matrix.diagonal (vec lv.d m) * unit_tri lv.U m

/-- A sparse fine block of order `m`: `L` stores entries strictly below the diagonal, `U`
strictly above it, both with column pointers of length `m + 1` and row indices in
`1..m`, and `d` has `m` nonzero entries. -/
def sparse_ok (lv : Level) (m : Nat) : Prop :=
  lv.L.nrows = (m : Int) ∧ ccs_valid lv.L m ∧ strict_lower lv.L m ∧
    ccs_valid lv.U m ∧ strict_upper lv.U m ∧ (m : Int) ≤ (lv.d.length : Int) ∧
    ∀ i ∈ positions 0 m, at0 lv.d i ≠ 0

/-- The list `p` is a bijection onto `{1..m}` in 1-based storage: `m` entries, each in
`1..m`, no duplicates, full coverage. -/
def perm_ok (p : List Int) (m : Nat) : Prop :=
  (p.length : Int) = (m : Int) ∧
  (∀ i ∈ positions 0 m, 1 ≤ atI p i ∧ atI p i ≤ (m : Int)) ∧
  (∀ i ∈ positions 0 m, ∀ j ∈ positions 0 m, atI p i = atI p j → i = j) ∧
  (∀ r ∈ positions 0 m, ∃ i ∈ positions 0 m, atI p i = r + 1)

/-- The matrix `P` of a 1-based index list `p`: `(P v)[i] = v[p[i]]`. -/
def perm_matrix (p : List Int) (m : Nat) : Matrix (Fin m) (Fin m) ℚ :=
  fun i r => if atI p ((i : Nat) : Int) = ((r : Nat) : Int) + 1 then 1 else 0

/-- The matrix of claim C2 as the specification writes it:
`P_r^T * Drow * (L diag(d) U) * Dcol * P_c`. -/
def claimed_matrix (lv : Level) (m : Nat) : Matrix (Fin m) (Fin m) ℚ :=
  (perm_matrix lv.p m).transpose * Matrix.diagonal (vec lv.rowscal m) * fine_matrix lv m *
    Matrix.diagonal (vec lv.colscal m) * perm_matrix lv.q m

/-- The matrix whose system a single sparse level solves:
`Drow⁻¹ * P_p^T * (L diag(d) U) * P_q * Dcol⁻¹`. -/
def solved_matrix (lv : Level) (m : Nat) : Matrix (Fin m) (Fin m) ℚ :=
  Matrix.diagonal (fun i => (vec lv.rowscal m i)⁻¹) * (perm_matrix lv.p m).transpose *
    fine_matrix lv m * perm_matrix lv.q m * Matrix.diagonal (fun i => (vec lv.colscal m i)⁻¹)

/-- The scaling vector has at least `m` entries, none of them zero. -/
def scal_ok (v : List ℚ) (m : Nat) : Prop :=
  (m : Int) ≤ (v.length : Int) ∧ ∀ i ∈ positions 0 m, at0 v i ≠ 0

/-- The entries `a[off], ..., a[off + m - 1]` of a buffer as a vector. -/
def seg (a : List ℚ) (off : Int) (m : Nat) : Fin m → ℚ :=
  fun i => at0 a (off + ((i : Nat) : Int))

/-- A 1x1 level with trivial factors and row scaling `2`. -/
def scaledLevel : Level := { trivLevel 1 0 with rowscal := [2] }

/-- A 2x2 sparse level with `L[1,0] = 3`, `U[0,1] = 5`, `d = [2, 7]`, both permutations
the transposition, row scaling `[2, 3]` and column scaling `[5, 7]`. -/
def sampleLevel : Level :=
  { L := ⟨2, [1, 2, 2], [2], [3]⟩
    U := ⟨2, [1, 1, 2], [1], [5]⟩
    d := [2, 7]
    p := [2, 1]
    q := [2, 1]
    rowscal := [2, 3]
    colscal := [5, 7]
    negE := emptyCRS 0
    negF := emptyCRS 2 }

/-- The list `a2` is `a` with the entries at the indices `lo ≤ j < hi` replaced by `f j`. -/
def UpdR (a a2 : List ℚ) (lo hi : Int) (f : Int → ℚ) : Prop :=
  a2.length = a.length ∧ ∀ j : Int, at0 a2 j = if lo ≤ j ∧ j < hi then f j else at0 a j

/-- Entry `(i, c)` (0-based) of the packed dense buffer read column-major with `m` rows. -/
def dense_at (A : List ℚ) (m : Nat) (i c : Int) : ℚ := at0 A (c * (m : Int) + i)

/-- Entry `(i, c)` of the strictly lower part of the packed buffer. -/
def lower_entry (A : List ℚ) (m : Nat) (i c : Int) : ℚ :=
  if c < i ∧ i < (m : Int) then dense_at A m i c else 0

/-- Entry `(i, c)` of the upper triangle of the packed buffer, diagonal included. -/
def upper_entry (A : List ℚ) (m : Nat) (i c : Int) : ℚ :=
  if 0 ≤ i ∧ i ≤ c then dense_at A m i c else 0

/-- The unit lower-triangular factor `Lp` carrying the strictly lower part of the packed
buffer. -/
def dense_lower (A : List ℚ) (m : Nat) : Matrix (Fin m) (Fin m) ℚ :=
  fun i j => (if i = j then 1 else 0) + lower_entry A m ((i : Nat) : Int) ((j : Nat) : Int)

/-- The upper-triangular factor `Up`: the upper triangle of the packed buffer including
its diagonal. -/
def dense_upper (A : List ℚ) (m : Nat) : Matrix (Fin m) (Fin m) ℚ :=
  fun i j => upper_entry A m ((i : Nat) : Int) ((j : Nat) : Int)

/-- A packed dense buffer of order `m`: `m * m` entries, a size that a 32-bit `int` can
hold, and a nonzero diagonal. -/
def dense_ok (lv : Level) (m : Nat) : Prop :=
  lv.L.nrows = (m : Int) ∧ lv.U.val.length = m * m ∧ m * m < 2147483648 ∧
    ∀ i ∈ positions 0 m, dense_at lv.U.val m i i ≠ 0

/-- A single dense level of order 2 with packed buffer `[2, 3, 1, 4]` (column-major),
identity permutations and unit scaling. -/
def denseLevel : Level :=
  { L := ⟨2, [], [], []⟩
    U := ⟨2, [], [], [2, 3, 1, 4]⟩
    d := []
    p := idPerm 2
    q := idPerm 2
    rowscal := List.replicate 2 1
    colscal := List.replicate 2 1
    negE := emptyCRS 0
    negF := emptyCRS 2 }

/-- The stored value at the 1-based position `k` of a compressed-row block, counted for
column `j` (0-based) only. -/
def crs_entry_at (A : CRS) (j k : Int) : ℚ :=
  if atI A.col_ind (k - 1) = j + 1 then at0 A.val (k - 1) else 0

/-- The matrix entry in row `i`, column `j` (0-based) that a compressed-row block
represents: the sum of the stored values of row `i` whose column index is `j + 1`. -/
def crs_entry (A : CRS) (i j : Int) : ℚ :=
  ((row_positions A.row_ptr i).map (crs_entry_at A j)).sum

/-- The `r x c` matrix that a compressed-row block represents. -/
def crs_matrix (A : CRS) (r c : Nat) : Matrix (Fin r) (Fin c) ℚ :=
  fun i j => crs_entry A ((i : Nat) : Int) ((j : Nat) : Int)

/-- The chain of trivial levels with fine-block sizes `sizes`: level `k` has the fine block
`sizes[k]` and, as trailing block, everything the later levels handle. -/
def trivChain : List Nat → List Level
  | [] => []
  | nB :: rest => trivLevel nB rest.sum :: trivChain rest

/-- A level with a 2x2 sparse fine block (`L[1,0] = 3`, `U[0,1] = 5`, `d = [2, 7]`, so
`B = [[2, 10], [6, 37]]`), a trailing block of size 1, `E = [11, 13]`, `F = [17; 19]`,
identity permutations and unit scaling. -/
def coupledLevel : Level :=
  { L := ⟨2, [1, 2, 2], [2], [3]⟩
    U := ⟨2, [1, 1, 2], [1], [5]⟩
    d := [2, 7]
    p := idPerm 3
    q := idPerm 3
    rowscal := List.replicate 3 1
    colscal := List.replicate 3 1
    negE := ⟨1, [1, 3], [1, 2], [-11, -13]⟩
    negF := ⟨2, [1, 2, 3], [1, 1], [-17, -19]⟩ }


/-- The lengths of the two scratch buffers. -/
def lens (s : St) : Nat × Nat := (s.b_y1.length, s.y2.length)

/-- A run that started with scratch buffers of the lengths of `s` ends well: it keeps
these lengths, or it stops with a fault other than `BufferTooSmall`.  The projection `π`
extracts the buffers from the loop state. -/
def GoodOn {ρ : Type} (π : ρ → St) (s : St) (r : Run St ρ) : Prop :=
  match r with
  | .ok r2 => lens (π r2) = lens s
  | .error e => e.1 ≠ Fault.BufferTooSmall

/-- The level whose trailing block is nonempty is followed by a level of that size. -/
def next_n (rest : List Level) : Option Int :=
  match rest with
  | [] => none
  | nx :: _ => some (nx.L.nrows + nx.negE.nrows)

/-- A well-formed chain of levels: at every level `nB ≥ 1`, `negE.nrows = n - nB ≥ 0`,
`negF.nrows = nB`, and a level with a nonempty trailing block is followed by a level of
total size `n - nB`. -/
def chain_ok : List Level → Prop
  | [] => True
  | lv :: rest => 1 ≤ lv.L.nrows ∧ 0 ≤ lv.negE.nrows ∧ lv.negF.nrows = lv.L.nrows ∧
      (0 < lv.negE.nrows → next_n rest = some lv.negE.nrows ∧ chain_ok rest)

/-- Scratch lengths `l1` (for `b_y1`) and `l2` (for `y2`) suffice at every level the
recursion visits: `nB ≤ l1`, `negF.nrows ≤ l1`, `negE.nrows ≤ l2`. -/
def fits : List Level → Int → Int → Prop
  | [], _, _ => True
  | lv :: rest, l1, l2 => lv.L.nrows ≤ l1 ∧ lv.negF.nrows ≤ l1 ∧ lv.negE.nrows ≤ l2 ∧
      (0 < lv.negE.nrows → fits rest l1 l2)



/-- The dense-mode signal as the specification words it: `L`'s value array is empty and
`U`'s value buffer has exactly `nB²` entries, `nB` the size of the level's fine block. -/
def dense_signal_spec (lv : Level) : Bool :=
  decide ((lv.L.val.length : Int) = 0) &&
    decide ((lv.U.val.length : Int) = lv.L.nrows * lv.L.nrows)

/-- A compressed-column array of order 2 whose only stored entry, value `3`, lies in
row 1 of column 2: above the diagonal. -/
def upperInL : CCS := ⟨2, [1, 1, 2], [1], [3]⟩

/-- A compressed-column array of order 2 whose only stored entry, value `3`, lies in
row 1 of column 1: on the diagonal. -/
def diagInL : CCS := ⟨2, [1, 2, 2], [1], [3]⟩




/-- The matrix of the fine block of a level in the representation the data say it has:
`Lp * Up` from the packed buffer when the specification's dense signal holds (`L.val`
empty, `U.val` of `nB²` entries), `(I + L) * diag(d) * (I + U)` otherwise. -/
def level_fine_matrix (lv : Level) (m : Nat) : Matrix (Fin m) (Fin m) ℚ :=
  if dense_signal_spec lv then dense_lower lv.U.val m * dense_upper lv.U.val m
  else fine_matrix lv m

/-- The fine block of order `m` is well formed in the representation the data say it has:
a packed buffer with nonzero diagonal when the specification's dense signal holds,
strictly triangular `L`, `U` and a nonzero `d` otherwise. -/
def fine_ok (lv : Level) (m : Nat) : Prop :=
  if dense_signal_spec lv then dense_ok lv m else sparse_ok lv m



/-- Index-level well-formedness of one level with fine block of size `m` and trailing
block of size `t`: `p`, `q` bijections onto `1..m+t`, scalings of at least `m + t`
entries, `negE` a valid `t x m` block, `negF` a valid `m x t` block; a level in dense
mode (the specification's signal: `L.val` empty and `U.val` of `m * m` entries) is
terminal and the size `m * m` of its buffer fits an `int`; every other level has valid
`L` and `U` of order `m` and a `d` of at least `m` entries.  The conditions are
conditions on the data alone: the dispatch test of the code does not enter. -/
def level_valid (lv : Level) (m t : Nat) : Prop :=
  lv.L.nrows = (m : Int) ∧ lv.negE.nrows = (t : Int) ∧
  perm_ok lv.p (m + t) ∧ perm_ok lv.q (m + t) ∧
  ((m + t : Nat) : Int) ≤ (lv.rowscal.length : Int) ∧
  ((m + t : Nat) : Int) ≤ (lv.colscal.length : Int) ∧
  crs_valid lv.negE.row_ptr lv.negE.col_ind lv.negE.val m lv.negE.nrows ∧
  lv.negF.nrows = (m : Int) ∧
  crs_valid lv.negF.row_ptr lv.negF.col_ind lv.negF.val t lv.negF.nrows ∧
  (if dense_signal_spec lv then t = 0 ∧ m * m < 2147483648
  else ccs_valid lv.L m ∧ ccs_valid lv.U m ∧ (m : Int) ≤ (lv.d.length : Int))

/-- Index-level well-formedness of a chain of levels of total size `n`: every level is
valid, and a level with a nonempty trailing block of size `t` is followed by a
well-formed chain of total size `t`. -/
def chain_valid : List Level → Nat → Prop
  | [], _ => False
  | lv :: rest, n => ∃ m t : Nat, n = m + t ∧ level_valid lv m t ∧
      (0 < t → chain_valid rest t)

/-- The sizes on which the 32-bit dispatch test of line 63 decides as the specification's
dense signal does: at every level the recursion visits the product `n * n` is below
`2^31`, and the `U` of a level with a trailing block stores at most `nB (nB - 1) / 2`
values (what a strictly upper triangular factor of order `nB` can hold). -/
def chain_small : List Level → Prop
  | [] => True
  | lv :: rest =>
      (lv.L.nrows + lv.negE.nrows) * (lv.L.nrows + lv.negE.nrows) < 2147483648 ∧
      (0 < lv.negE.nrows →
        2 * (lv.U.val.length : Int) ≤ lv.L.nrows * (lv.L.nrows - 1) ∧ chain_small rest)



/-- The level solver `solve_milu`, instrumented: next to the final buffers a run that
returns yields the list of the invocations `(lvl, offset)` of the level solver it made,
the outer call first. -/
def solve_milu_tr (M : List Level) (lvl : Nat) (offset : Int) (s : St) :
    Run St (St × List (Nat × Int)) :=
  match h : rd M ((lvl : Int) - 1) with
  | none => .error (Fault.Load ((lvl : Int) - 1), s)
  | some lv =>
    let nB := lv.L.nrows
    let n := lv.L.nrows + lv.negE.nrows
    (gather lv offset nB n s).bind fun s =>
    (if n > lv.L.nrows then write_back offset nB s else .ok s).bind fun s =>
    (if dense_test lv n then dense_solve lv nB s else sparse_solve lv nB s).bind fun s =>
    (if n > lv.L.nrows then
      (couple_E lv s).bind fun s =>
      (store_trailing lv offset nB n s).bind fun s =>
      (solve_milu_tr M (lvl + 1) (offset + lv.L.nrows) s).bind fun r =>
      (reload lv offset nB n r.1).bind fun s =>
      (couple_F lv s).bind fun s =>
      (sparse_solve lv nB s).bind fun s => .ok (s, r.2)
    else .ok (s, [])).bind fun r =>
    (scatter lv offset nB n r.1).bind fun s => .ok (s, (lvl, offset) :: r.2)
termination_by M.length + 1 - lvl
decreasing_by
  have h1 : rd M ((lvl : Int) - 1) = some lv := h
  unfold rd at h1
  split at h1
  · have h2 := List.get?_eq_some.1 h1
    obtain ⟨h3, _⟩ := h2
    omega
  · exact absurd h1 (by simp)

/-- The invocations the recursion makes on the levels `M`, entered at level number `lvl`
with offset `offset`: the level itself, then, when `n > nB` (line 107), the invocations
of the recursive call of line 120 at level `lvl + 1` with offset `offset + nB`. -/
def calls : List Level → Nat → Int → List (Nat × Int)
  | [], _, _ => []
  | lv :: rest, lvl, offset =>
    (lvl, offset) ::
      (if lv.L.nrows + lv.negE.nrows > lv.L.nrows then
        calls rest (lvl + 1) (offset + lv.L.nrows)
      else [])

/-- One invocation per level of `M`, in the order of the chain: level `lvl + k` at the
offset `offset` plus the sum of the fine-block sizes of the `k` levels before it. -/
def call_list : List Level → Nat → Int → List (Nat × Int)
  | [], _, _ => []
  | lv :: rest, lvl, offset => (lvl, offset) :: call_list rest (lvl + 1) (offset + lv.L.nrows)

/-- The chain ends at its first level without trailing block: `negE.nrows > 0` on every
level but the last, `negE.nrows = 0` on the last. -/
def terminal_at_end : List Level → Prop
  | [] => False
  | [lv] => lv.negE.nrows = 0
  | lv :: nx :: rest => 0 < lv.negE.nrows ∧ terminal_at_end (nx :: rest)


/-- The frame of `crs_Axpy_kernel` on `y`: the length, the entries at indices
`i ≥ nrows`, and the entries of the rows `i < nrows` whose range
`[row_ptr[i], row_ptr[i+1])` is empty are those of the initial `y`. -/
def kernel_frame (row_ptr : List Int) (nrows : Int) (y y2 : List ℚ) : Prop :=
  y2.length = y.length ∧
  (∀ i : Int, nrows ≤ i → at0 y2 i = at0 y i) ∧
  (∀ i : Int, 0 ≤ i → i < nrows → atI row_ptr (i + 1) ≤ atI row_ptr i → at0 y2 i = at0 y i)

/-- The final content of `y` of a run of the kernel: the result of a run that returns,
the content at the fault of a run that stops. -/
def final_y (r : Run (List ℚ) (List ℚ)) : List ℚ :=
  match r with
  | .ok y2 => y2
  | .error e => e.2

/-- A well-formed chain of levels of total size `n`: every level is valid at the index
level (`level_valid`) and has a well-formed fine block in the representation its data
signal (`fine_ok`: strictly triangular `L`, `U` and nonzero `d`, or a packed buffer with
nonzero diagonal), and a level with a nonempty trailing block of size `t` is followed by
a well-formed chain of total size `t`. -/
def chain_wf : List Level → Nat → Prop
  | [], _ => False
  | lv :: rest, n => ∃ m t : Nat, n = m + t ∧ level_valid lv m t ∧ fine_ok lv m ∧
      (0 < t → chain_wf rest t)



/-- The entrywise combination `α * b + β * c` of two vectors stored as lists. -/
def lin_comb (α β : ℚ) (b c : List ℚ) : List ℚ := List.zipWith (fun x y => α * x + β * y) b c

/-! ## Input conversion of the MATLAB drivers (`DGNLilupackfactor.c`,
`ZHPDilupackfactor.c`) -/

/-- Checked array read of the conversion code; an access outside the array stops the
run. -/
def get {α : Type} (a : List α) (i : Int) : Except Unit α :=
  match rd a i with
  | some v => .ok v
  | none => .error ()

/-- Checked array write of the conversion code. -/
def put {α : Type} (a : List α) (i : Int) (v : α) : Except Unit (List α) :=
  match wr a i v with
  | some l => .ok l
  | none => .error ()

/-- The arrays `A.ia`, `A.ja`, `A.a` of the `Zmat` the Hermitian driver fills; a
`doublecomplex` is the pair of its fields `r` and `i`. -/
structure ZSt where
  ia : List Int
  ja : List Int
  a : List (ℚ × ℚ)

/-- Body of the inner loop of `ZHPDilupackfactor.c`, lines 172-185, for column `i` and
input position `j`:
`k = A_ja[j]; if (k >= i) { l = A.ia[i+1]-1; A.ja[l] = k+1; A.a[l].r = A_valuesR[j];
A.a[l].i = -A_valuesI[j]; A.ia[i+1] = l+2; }`. -/
def zhpd_inner (A_ja : List Int) (A_R A_I : List ℚ) (i j : Int) (s : ZSt) :
    Except Unit ZSt := do
  let k ← get A_ja j
  if k ≥ i then
    let e ← get s.ia (i + 1)
    let l := e - 1
    let ja ← put s.ja l (k + 1)
    let re ← get A_R j
    let im ← get A_I j
    let a ← put s.a l (re, -im)
    let ia ← put s.ia (i + 1) (l + 2)
    pure ⟨ia, ja, a⟩
  else pure s

/-- Body of the outer loop of `ZHPDilupackfactor.c`, lines 170-186, for column `i`:
`A.ia[i+1] = A.ia[i];` then the inner loop over `j = A_ia[i], ..., A_ia[i+1] - 1`. -/
def zhpd_outer (A_ia A_ja : List Int) (A_R A_I : List ℚ) (i : Int) (s : ZSt) :
    Except Unit ZSt := do
  let v ← get s.ia i
  let ia ← put s.ia (i + 1) v
  let lo ← get A_ia i
  let hi ← get A_ia (i + 1)
  forUp (zhpd_inner A_ja A_R A_I i) lo (hi - lo).toNat ⟨ia, s.ja, s.a⟩

/-- The conversion of `ZHPDilupackfactor.c`, lines 169-187: `A.ia[0] = 1;` then the loop
over the columns `i = 0, ..., ncols - 1`.  The state `s` holds the freshly allocated
arrays, whose initial content is arbitrary.  Indices are mathematical integers, which is
what the C variables hold while the number of stored entries is below `2^31`. -/
def zhpd_convert (ncols : Nat) (A_ia A_ja : List Int) (A_R A_I : List ℚ) (s : ZSt) :
    Except Unit ZSt := do
  let ia ← put s.ia 0 1
  forUp (zhpd_outer A_ia A_ja A_R A_I) 0 ncols ⟨ia, s.ja, s.a⟩

/-- The input positions of column `c` of the compressed-column input:
`A_ia[c], ..., A_ia[c+1] - 1`. -/
def in_positions (A_ia : List Int) (c : Int) : List Int :=
  positions (atI A_ia c) (atI A_ia (c + 1) - atI A_ia c).toNat

/-- The entries block `i` has to hold: those stored entries of input column `i` whose
row index `k` satisfies `k ≥ i`, in their stored order, each as the pair of `k + 1`
and the complex conjugate of its value. -/
def zkept (A_ia A_ja : List Int) (A_R A_I : List ℚ) (i : Int) : List (Int × (ℚ × ℚ)) :=
  ((in_positions A_ia i).filter fun j => decide (atI A_ja j ≥ i)).map
    fun j => (atI A_ja j + 1, (at0 A_R j, -at0 A_I j))

/-- The blocks `0, ..., c - 1` one after the other. -/
def zflat (A_ia A_ja : List Int) (A_R A_I : List ℚ) : Nat → List (Int × (ℚ × ℚ))
  | 0 => []
  | c + 1 => zflat A_ia A_ja A_R A_I c ++ zkept A_ia A_ja A_R A_I (c : Int)

/-- A valid 0-based compressed-column input with `n` columns: `n + 1` column pointers,
nondecreasing from a nonnegative first one, every input position inside the index and
value arrays. -/
def csc_valid (n : Nat) (A_ia : List Int) (len : Nat) : Prop :=
  A_ia.length = n + 1 ∧ 0 ≤ atI A_ia 0 ∧
  (∀ c : Nat, c < n → atI A_ia (c : Int) ≤ atI A_ia ((c : Int) + 1)) ∧
  atI A_ia (n : Int) ≤ (len : Int)

/-- Block `i` of the result: the entries of `A.ja` and `A.a` at the 0-based positions
`A.ia[i] - 1, ..., A.ia[i+1] - 2`. -/
def zblock (s : ZSt) (i : Int) : List (Int × (ℚ × ℚ)) :=
  ((s.ja.zip s.a).drop (atI s.ia i - 1).toNat).take (atI s.ia (i + 1) - atI s.ia i).toNat

/-- Complex conjugate of a `doublecomplex` given as the pair `(r, i)`. -/
def zconj (z : ℚ × ℚ) : ℚ × ℚ := (z.1, -z.2)

/-- Entry `(r, c)` (0-based) of the matrix the compressed-column input represents: the sum
of the stored values of column `c` whose row index is `r`. -/
def zin_entry (A_ia A_ja : List Int) (A_R A_I : List ℚ) (r c : Int) : ℚ × ℚ :=
  (((in_positions A_ia c).filter fun j => decide (atI A_ja j = r)).map
    fun j => (at0 A_R j, at0 A_I j)).sum

/-- Entry `(r, c)` (0-based) of the matrix the result represents when its blocks are read
as rows: the sum of the values of block `r` whose index is `c + 1`. -/
def zout_entry (s : ZSt) (r c : Int) : ℚ × ℚ :=
  (((zblock s r).filter fun e => decide (e.1 = c + 1)).map Prod.snd).sum

/-- Column pointers of the compressed-column storage of the Hermitian matrix
`[[2, 1+i], [1-i, 3]]`. -/
def hermIa : List Int := [0, 2, 4]

/-- Row indices of the compressed-column storage of `[[2, 1+i], [1-i, 3]]`. -/
def hermJa : List Int := [0, 1, 0, 1]

/-- Real parts of the stored values of `[[2, 1+i], [1-i, 3]]`, column by column. -/
def hermR : List ℚ := [2, 1, 1, 3]

/-- Imaginary parts of the stored values of `[[2, 1+i], [1-i, 3]]`, column by column. -/
def hermI : List ℚ := [0, -1, 1, 0]

/-- Freshly allocated output arrays for a 2x2 input with `nnz = 4`. -/
def hermOut : ZSt := ⟨[7, 7, 7], [9, 9, 9, 9], [(5, 5), (5, 5), (5, 5), (5, 5)]⟩

/-- The arrays of the general driver: the counter array `ibuff` and the arrays `A.ia`,
`A.ja`, `A.a` of the `Dmat` it fills. -/
structure DSt where
  ibuff : List Int
  ia : List Int
  ja : List Int
  a : List ℚ

/-- The loop header `for (j = A_ia[i]; j < A_ia[i + 1]; j++)` over the stored entries of
input column `i`, around the body `inner i j`. -/
def for_entries {σ : Type} (A_ia : List Int) (inner : Int → Int → σ → Except Unit σ)
    (i : Int) (s : σ) : Except Unit σ := do
  let lo ← get A_ia i
  let hi ← get A_ia (i + 1)
  forUp (inner i) lo (hi - lo).toNat s

/-- The statement `ibuff[i] = 0` (`DGNLilupackfactor.c`, line 148). -/
def dgnl_zero (i : Int) (s : DSt) : Except Unit DSt := do
  let ib ← put s.ibuff i 0
  pure { s with ibuff := ib }

/-- The statements `k = A_ja[j]; ibuff[k + 1]++;` (lines 152-153). -/
def dgnl_count (A_ja : List Int) (_i j : Int) (s : DSt) : Except Unit DSt := do
  let k ← get A_ja j
  let v ← get s.ibuff (k + 1)
  let ib ← put s.ibuff (k + 1) (v + 1)
  pure { s with ibuff := ib }

/-- The statement `ibuff[i + 1] += ibuff[i]` (line 160). -/
def dgnl_prefix (i : Int) (s : DSt) : Except Unit DSt := do
  let v ← get s.ibuff (i + 1)
  let u ← get s.ibuff i
  let ib ← put s.ibuff (i + 1) (v + u)
  pure { s with ibuff := ib }

/-- The statements `l = A_ja[j]; k = ibuff[l]; A.ja[k] = i + 1; A.a[k++] = A_valuesR[j];
ibuff[l] = k;` (lines 165-171). -/
def dgnl_fill (A_ja : List Int) (A_R : List ℚ) (i j : Int) (s : DSt) : Except Unit DSt := do
  let l ← get A_ja j
  let k ← get s.ibuff l
  let ja ← put s.ja k (i + 1)
  let v ← get A_R j
  let a ← put s.a k v
  let ib ← put s.ibuff l (k + 1)
  pure ⟨ib, s.ia, ja, a⟩

/-- The statement `A.ia[i] = ibuff[i - 1] + 1` (line 176). -/
def dgnl_ia (i : Int) (s : DSt) : Except Unit DSt := do
  let v ← get s.ibuff (i - 1)
  let ia ← put s.ia i (v + 1)
  pure { s with ia := ia }

/-- The conversion of `DGNLilupackfactor.c`, lines 147-177: clear the counters, count
the entries of every row, turn the counts into row starts, move every entry to its row,
and write the 1-based row pointers.  The state `s` holds the freshly allocated arrays,
whose initial content is arbitrary.  `n` is `A.nr = mrows = ncols`: an input that is not
square is rejected before (line 114).  Indices and counters are mathematical integers,
which is what the C variables hold while the number of stored entries is below `2^31`. -/
def dgnl_convert (n : Nat) (A_ia A_ja : List Int) (A_R : List ℚ) (s : DSt) :
    Except Unit DSt := do
  let s ← forUp dgnl_zero 0 (n + 1) s
  let s ← forUp (for_entries A_ia (dgnl_count A_ja)) 0 n s
  let s ← forUp dgnl_prefix 0 n s
  let s ← forUp (for_entries A_ia (dgnl_fill A_ja A_R)) 0 n s
  let s ← forDown dgnl_ia (n : Int) n s
  let ia ← put s.ia 0 1
  pure { s with ia := ia }

/-- The visits `(i, j)` of the nested loop over the stored entries of the columns
`0, ..., c - 1`, in the order of the loop. -/
def visits (A_ia : List Int) : Nat → List (Int × Int)
  | 0 => []
  | c + 1 => visits A_ia c ++ (in_positions A_ia (c : Int)).map fun j => ((c : Int), j)

/-- The number of visits in `V` whose entry lies in row `r`. -/
def cntV (A_ja : List Int) (V : List (Int × Int)) (r : Int) : Nat :=
  (V.filter fun v => decide (atI A_ja v.2 = r)).length

/-- The entries of row `r` among the visits `V`, in the order of the visits, each as the
pair of its 1-based column index and its value. -/
def blockV (A_ja : List Int) (A_R : List ℚ) (V : List (Int × Int)) (r : Int) :
    List (Int × ℚ) :=
  (V.filter fun v => decide (atI A_ja v.2 = r)).map fun v => (v.1 + 1, at0 A_R v.2)

/-- The number of visits in `V` whose entry lies in a row before `r`. -/
def dstart (A_ja : List Int) (V : List (Int × Int)) : Nat → Nat
  | 0 => 0
  | r + 1 => dstart A_ja V r + cntV A_ja V (r : Int)

/-- Row `i` of the result: the entries of `A.ja` and `A.a` at the 0-based positions
`A.ia[i] - 1, ..., A.ia[i+1] - 2`. -/
def dblock (s : DSt) (i : Int) : List (Int × ℚ) :=
  ((s.ja.zip s.a).drop (atI s.ia i - 1).toNat).take (atI s.ia (i + 1) - atI s.ia i).toNat

/-- Entry `(r, c)` (0-based) of the matrix the compressed-column input represents: the sum
of the stored values of column `c` whose row index is `r`. -/
def din_entry (A_ia A_ja : List Int) (A_R : List ℚ) (r c : Int) : ℚ :=
  (((in_positions A_ia c).filter fun j => decide (atI A_ja j = r)).map fun j => at0 A_R j).sum

/-- Entry `(r, c)` (0-based) of the matrix the compressed-row result represents: the sum of
the values of row `r` whose column index is `c + 1`. -/
def dout_entry (s : DSt) (r c : Int) : ℚ :=
  (((dblock s r).filter fun e => decide (e.1 = c + 1)).map Prod.snd).sum

/-- The row indices of the compressed-column input with `n` columns lie in `0..n-1`. -/
def rows_valid (n : Nat) (A_ia A_ja : List Int) : Prop :=
  ∀ c : Nat, c < n → ∀ j ∈ in_positions A_ia (c : Int), 0 ≤ atI A_ja j ∧ atI A_ja j < (n : Int)


/-- Column pointers of a sample 3 x 3 input `[[1, 0, 2], [0, 3, 0], [4, 5, 6]]` in 0-based
compressed-column form. -/
def dgnlIa : List Int := [0, 2, 4, 6]

/-- Row indices of the sample input. -/
def dgnlJa : List Int := [0, 2, 1, 2, 0, 2]

/-- Values of the sample input. -/
def dgnlR : List ℚ := [1, 4, 3, 5, 2, 6]

/-- Freshly allocated buffers for the sample input, with arbitrary content. -/
def dgnlOut : DSt := ⟨[9, 9, 9, 9], [8, 8, 8, 8], [7, 7, 7, 7, 7, 7], [5, 5, 5, 5, 5, 5]⟩


/-! ## Basic facts about the machine model -/

theorem rd_natCast {α : Type} (a : List α) (k : Nat) : rd a (k : Int) = a.get? k := by
  simp [rd]

theorem rd_neg {α : Type} (a : List α) (i : Int) (h : i < 0) : rd a i = none := by
  simp [rd]
  omega

theorem load_ok {σ α : Type} {a : List α} {i : Int} {s : σ} {v : α} (h : rd a i = some v) :
    load a i s = .ok v := by
  simp [load, h]

/-- A failed `load` is never the `BufferTooSmall` condition. -/
theorem load_fault {σ α : Type} {a : List α} {i : Int} {s t : σ} {f : Fault}
    (h : load a i s = .error (f, t)) : f ≠ Fault.BufferTooSmall := by
  unfold load at h
  cases hr : rd a i with
  | none =>
    rw [hr] at h
    simp only [Except.error.injEq, Prod.mk.injEq] at h
    rw [← h.1]
    simp
  | some v =>
    rw [hr] at h
    simp at h

/-- Faults of a `forUp` loop come from its body. -/
theorem forUp_fault {ε ρ : Type} (body : Int → ρ → Except ε ρ) (P : ε → Prop)
    (hb : ∀ i r e, body i r = .error e → P e) :
    ∀ (cnt : Nat) (lo : Int) (r : ρ) (e : ε), forUp body lo cnt r = .error e → P e := by
  intro cnt
  induction cnt with
  | zero =>
    intro lo r e h
    simp [forUp] at h
  | succ c ih =>
    intro lo r e h
    simp only [forUp] at h
    cases hbr : body lo r with
    | error e2 =>
      rw [hbr] at h
      simp only [Except.bind] at h
      have : e2 = e := by injection h
      rw [← this]
      exact hb lo r e2 hbr
    | ok r2 =>
      rw [hbr] at h
      simp only [Except.bind] at h
      exact ih (lo + 1) r2 e h

/-- Faults of a `forDown` loop come from its body. -/
theorem forDown_fault {ε ρ : Type} (body : Int → ρ → Except ε ρ) (P : ε → Prop)
    (hb : ∀ i r e, body i r = .error e → P e) :
    ∀ (cnt : Nat) (hi : Int) (r : ρ) (e : ε), forDown body hi cnt r = .error e → P e := by
  intro cnt
  induction cnt with
  | zero =>
    intro hi r e h
    simp [forDown] at h
  | succ c ih =>
    intro hi r e h
    simp only [forDown] at h
    cases hbr : body hi r with
    | error e2 =>
      rw [hbr] at h
      simp only [Except.bind] at h
      have : e2 = e := by injection h
      rw [← this]
      exact hb hi r e2 hbr
    | ok r2 =>
      rw [hbr] at h
      simp only [Except.bind] at h
      exact ih (hi - 1) r2 e h

/-- Faults of a sequential composition come from one of its two parts. -/
theorem bind_fault {ε α β : Type} (P : ε → Prop) (m : Except ε α) (f : α → Except ε β)
    (hm : ∀ e, m = .error e → P e) (hf : ∀ a e, f a = .error e → P e) :
    ∀ e, (m >>= f) = .error e → P e := by
  intro e h
  cases hm2 : m with
  | error e2 =>
    rw [hm2] at h
    have : e2 = e := by
      simp only [bind, Except.bind] at h
      injection h
    rw [← this]
    exact hm e2 hm2
  | ok a =>
    rw [hm2] at h
    exact hf a e h

theorem load_notBTS {σ α : Type} (a : List α) (i : Int) (s : σ) :
    ∀ e, load a i s = .error e → NotBTS e := by
  intro e h
  obtain ⟨f, t⟩ := e
  exact load_fault h

theorem crs_row_notBTS (col_ind : List Int) (val x y : List ℚ) :
    ∀ (c : Nat) (j : Int) (t : ℚ) e, crs_row col_ind val x y j c t = .error e → NotBTS e := by
  intro c
  induction c with
  | zero =>
    intro j t e h
    simp [crs_row] at h
  | succ c ih =>
    intro j t e h
    unfold crs_row at h
    revert h
    refine bind_fault NotBTS _ _ (load_notBTS _ _ _) ?_ e
    intro v
    refine bind_fault NotBTS _ _ (load_notBTS _ _ _) ?_
    intro ci
    refine bind_fault NotBTS _ _ (load_notBTS _ _ _) ?_
    intro xv e2 h2
    exact ih _ _ e2 h2

theorem crs_body_notBTS (row_ptr col_ind : List Int) (val x : List ℚ) (i : Int) (y : List ℚ) :
    ∀ e, crs_body row_ptr col_ind val x i y = .error e → NotBTS e := by
  unfold crs_body
  refine bind_fault NotBTS _ _ (load_notBTS _ _ _) ?_
  intro t
  refine bind_fault NotBTS _ _ (load_notBTS _ _ _) ?_
  intro lo
  refine bind_fault NotBTS _ _ (load_notBTS _ _ _) ?_
  intro hi
  refine bind_fault NotBTS _ _ (crs_row_notBTS _ _ _ _ _ _ _) ?_
  intro t2 e h
  split at h
  · simp at h
  · simp only [Except.error.injEq] at h
    rw [← h]
    simp [NotBTS]

/-- The kernel itself never raises `BufferTooSmall`. -/
theorem crs_Axpy_kernel_fault {row_ptr col_ind : List Int} {val x y : List ℚ} {nrows : Int}
    {f : Fault} {t : List ℚ}
    (h : crs_Axpy_kernel row_ptr col_ind val x y nrows = .error (f, t)) :
    f ≠ Fault.BufferTooSmall :=
  forUp_fault _ NotBTS (crs_body_notBTS row_ptr col_ind val x) _ _ _ _ h

/-! ## Loop rules and the kernel -/

theorem rd_at0 {a : List ℚ} {i : Int} (h0 : 0 ≤ i) (h1 : i < (a.length : Int)) :
    rd a i = some (at0 a i) := by
  have h2 : i.toNat < a.length := by omega
  simp [at0, rd, h0, List.getElem?_eq_getElem h2]

theorem rd_atI {a : List Int} {i : Int} (h0 : 0 ≤ i) (h1 : i < (a.length : Int)) :
    rd a i = some (atI a i) := by
  have h2 : i.toNat < a.length := by omega
  simp [atI, rd, h0, List.getElem?_eq_getElem h2]

theorem wr_ok {α : Type} {a : List α} {i : Int} (v : α) (h0 : 0 ≤ i)
    (h1 : i < (a.length : Int)) : wr a i v = some (a.set i.toNat v) := by
  have h2 : i.toNat < a.length := by omega
  simp [wr, h0, h2]

theorem at0_set_eq {a : List ℚ} {i : Int} (v : ℚ) (h0 : 0 ≤ i) (h1 : i < (a.length : Int)) :
    at0 (a.set i.toNat v) i = v := by
  have h2 : i.toNat < a.length := by omega
  simp [at0, rd, h0, List.getElem?_set, h2]

theorem at0_set_ne {a : List ℚ} {i j : Int} (v : ℚ) (h0 : 0 ≤ i) (hij : i ≠ j) :
    at0 (a.set i.toNat v) j = at0 a j := by
  unfold at0 rd
  split
  · have h3 : i.toNat ≠ j.toNat := by omega
    simp [List.getElem?_set, h3]
  · rfl

theorem positions_succ (lo : Int) (c : Nat) :
    positions lo (c + 1) = lo :: positions (lo + 1) c := by
  simp only [positions, List.range_succ_eq_map, List.map_cons, List.map_map]
  refine congrArg₂ _ (by simp) ?_
  apply List.map_congr_left
  intro k _
  simp only [Function.comp, Nat.succ_eq_add_one, Nat.cast_add, Nat.cast_one]
  ring

theorem mem_positions {lo : Int} {cnt : Nat} {j : Int} :
    j ∈ positions lo cnt ↔ lo ≤ j ∧ j < lo + cnt := by
  simp only [positions, List.mem_map, List.mem_range]
  constructor
  · rintro ⟨k, hk, rfl⟩
    omega
  · rintro ⟨h1, h2⟩
    refine ⟨(j - lo).toNat, by omega, by omega⟩

/-- Loop rule for `forUp`: an invariant indexed by the number of completed iterations. -/
theorem forUp_inv {ε ρ : Type} (body : Int → ρ → Except ε ρ) :
    ∀ (cnt : Nat) (lo : Int) (P : Nat → ρ → Prop) (r : ρ), P 0 r →
      (∀ (k : Nat) (r : ρ), k < cnt → P k r →
        ∃ r2, body (lo + (k : Int)) r = .ok r2 ∧ P (k + 1) r2) →
      ∃ r2, forUp body lo cnt r = .ok r2 ∧ P cnt r2 := by
  intro cnt
  induction cnt with
  | zero =>
    intro lo P r h0 _
    exact ⟨r, rfl, h0⟩
  | succ c ih =>
    intro lo P r h0 hstep
    obtain ⟨r1, hb, hP1⟩ := hstep 0 r (Nat.succ_pos c) h0
    simp only [Nat.cast_zero, add_zero] at hb
    obtain ⟨r2, hl, hP2⟩ := ih (lo + 1) (fun k => P (k + 1)) r1 hP1 (by
      intro k r hk hP
      obtain ⟨r3, hb3, hP3⟩ := hstep (k + 1) r (by omega) hP
      refine ⟨r3, ?_, hP3⟩
      rw [← hb3]
      congr 1
      push_cast
      ring)
    refine ⟨r2, ?_, hP2⟩
    simp only [forUp, hb, Except.bind]
    exact hl

/-- Loop rule for `forDown`. -/
theorem forDown_inv {ε ρ : Type} (body : Int → ρ → Except ε ρ) :
    ∀ (cnt : Nat) (hi : Int) (P : Nat → ρ → Prop) (r : ρ), P 0 r →
      (∀ (k : Nat) (r : ρ), k < cnt → P k r →
        ∃ r2, body (hi - (k : Int)) r = .ok r2 ∧ P (k + 1) r2) →
      ∃ r2, forDown body hi cnt r = .ok r2 ∧ P cnt r2 := by
  intro cnt
  induction cnt with
  | zero =>
    intro hi P r h0 _
    exact ⟨r, rfl, h0⟩
  | succ c ih =>
    intro hi P r h0 hstep
    obtain ⟨r1, hb, hP1⟩ := hstep 0 r (Nat.succ_pos c) h0
    simp only [Nat.cast_zero, sub_zero] at hb
    obtain ⟨r2, hl, hP2⟩ := ih (hi - 1) (fun k => P (k + 1)) r1 hP1 (by
      intro k r hk hP
      obtain ⟨r3, hb3, hP3⟩ := hstep (k + 1) r (by omega) hP
      refine ⟨r3, ?_, hP3⟩
      rw [← hb3]
      congr 1
      push_cast
      ring)
    refine ⟨r2, ?_, hP2⟩
    simp only [forDown, hb, Except.bind]
    exact hl

/-- The inner loop of the kernel returns the ascending fold of the row's terms. -/
theorem crs_row_run (col_ind : List Int) (val x y : List ℚ) :
    ∀ (c : Nat) (j : Int) (t : ℚ),
      (∀ k ∈ positions j c, 1 ≤ k ∧ k ≤ (val.length : Int) ∧ k ≤ (col_ind.length : Int) ∧
        1 ≤ atI col_ind (k - 1) ∧ atI col_ind (k - 1) ≤ (x.length : Int)) →
      crs_row col_ind val x y j c t = .ok ((positions j c).foldl
        (fun t k => t + at0 val (k - 1) * at0 x (atI col_ind (k - 1) - 1)) t) := by
  intro c
  induction c with
  | zero =>
    intro j t _
    simp [crs_row, positions]
  | succ c ih =>
    intro j t hv
    rw [positions_succ] at hv ⊢
    obtain ⟨h1, h2, h3, h4, h5⟩ := hv j (List.mem_cons_self _ _)
    have e1 : load val (j - 1) y = .ok (at0 val (j - 1)) :=
      load_ok (rd_at0 (by omega) (by omega))
    have e2 : load col_ind (j - 1) y = .ok (atI col_ind (j - 1)) :=
      load_ok (rd_atI (by omega) (by omega))
    have e3 : load x (atI col_ind (j - 1) - 1) y = .ok (at0 x (atI col_ind (j - 1) - 1)) :=
      load_ok (rd_at0 (by omega) (by omega))
    simp only [crs_row, e1, e2, e3, bind, Except.bind, List.foldl_cons]
    exact ih (j + 1) _ (fun k hk => hv k (List.mem_cons_of_mem _ hk))

/-- Run of the kernel on a valid matrix: it returns a vector of the same length whose
first `nrows` entries are the accumulated rows and whose other entries are unchanged. -/
theorem crs_Axpy_kernel_run (row_ptr col_ind : List Int) (val x y : List ℚ) (nrows : Int)
    (hy : nrows ≤ (y.length : Int))
    (hv : crs_valid row_ptr col_ind val x.length nrows) :
    ∃ y2, crs_Axpy_kernel row_ptr col_ind val x y nrows = .ok y2 ∧
      y2.length = y.length ∧
      (∀ i : Int, 0 ≤ i → i < nrows →
        at0 y2 i = row_acc row_ptr col_ind val x i (at0 y i)) ∧
      (∀ i : Int, nrows ≤ i → at0 y2 i = at0 y i) := by
  obtain ⟨hrp, hrows⟩ := hv
  have key := forUp_inv (crs_body row_ptr col_ind val x) nrows.toNat 0
    (fun k w => w.length = y.length ∧
      (∀ i : Int, 0 ≤ i → i < (k : Int) →
        at0 w i = row_acc row_ptr col_ind val x i (at0 y i)) ∧
      (∀ i : Int, (k : Int) ≤ i → at0 w i = at0 y i)) y
    ⟨rfl, fun i h0 h1 => absurd h1 (by simpa using h0), fun _ _ => rfl⟩
    (by
      intro k w hk ⟨hlen, hlo, hhi⟩
      simp only [zero_add]
      have hk0 : (0 : Int) ≤ (k : Int) := Int.natCast_nonneg k
      have hkn : (k : Int) < nrows := by omega
      have e1 : load w (k : Int) w = .ok (at0 w k) :=
        load_ok (rd_at0 hk0 (by omega))
      have e2 : load row_ptr (k : Int) w = .ok (atI row_ptr k) :=
        load_ok (rd_atI hk0 (by omega))
      have e3 : load row_ptr ((k : Int) + 1) w = .ok (atI row_ptr (k + 1)) :=
        load_ok (rd_atI (by omega) (by omega))
      have hmem : (k : Int) ∈ positions 0 nrows.toNat := mem_positions.2 ⟨hk0, by omega⟩
      have e4 := crs_row_run col_ind val x w
        (atI row_ptr (k + 1) - atI row_ptr k).toNat (atI row_ptr k) (at0 w k)
        (fun j hj => hrows k hmem j hj)
      have e5 := wr_ok (a := w) (i := (k : Int))
        (row_acc row_ptr col_ind val x k (at0 w k)) hk0 (by omega)
      refine ⟨w.set k (row_acc row_ptr col_ind val x k (at0 w k)), ?_, ?_, ?_, ?_⟩
      · simp only [crs_body, e1, e2, e3, e4, bind, Except.bind]
        rw [show (List.foldl (fun t j => t + at0 val (j - 1) * at0 x (atI col_ind (j - 1) - 1))
            (at0 w k) (positions (atI row_ptr k) (atI row_ptr (k + 1) - atI row_ptr k).toNat))
            = row_acc row_ptr col_ind val x k (at0 w k) from rfl, e5]
        simp
      · simp [hlen]
      · intro i h0 h1
        by_cases hik : i = (k : Int)
        · subst hik
          have := at0_set_eq (a := w) (i := (k : Int))
            (row_acc row_ptr col_ind val x k (at0 w k)) hk0 (by omega)
          simp only [Int.toNat_ofNat] at this
          rw [this, hhi k le_rfl]
        · have := at0_set_ne (a := w) (i := (k : Int)) (j := i)
            (row_acc row_ptr col_ind val x k (at0 w k)) hk0 (fun h => hik h.symm)
          simp only [Int.toNat_ofNat] at this
          rw [this]
          exact hlo i h0 (by push_cast at h1; omega)
      · intro i hi
        have := at0_set_ne (a := w) (i := (k : Int)) (j := i)
          (row_acc row_ptr col_ind val x k (at0 w k)) hk0 (by push_cast at hi; omega)
        simp only [Int.toNat_ofNat] at this
        rw [this]
        exact hhi i (by push_cast at hi; omega))
  obtain ⟨y2, hrun, hlen, hlo, hhi⟩ := key
  refine ⟨y2, hrun, hlen, ?_, ?_⟩
  · intro i h0 h1
    exact hlo i h0 (by omega)
  · intro i hi
    by_cases hn : 0 ≤ nrows
    · exact hhi i (by omega)
    · by_cases hi0 : 0 ≤ i
      · exact hhi i (by omega)
      · simp [at0, rd, hi0]

/-! ## Entry points, size checks, concrete runs -/

/-- C10: `MILUsolve` is the level solver at level 1, offset 0, and `MILUsolve_2args`
returns the `rhs` that `MILUsolve` leaves when run with zero scratch vectors of lengths
`max(L.nrows, negE.nrows)` and `negE.nrows` of level 1. -/
theorem entry_points_refine (M : List Level) (lv : Level) (rest : List Level)
    (b s1 s2 : List ℚ) :
    MILUsolve M b s1 s2 = solve_milu M 1 0 ⟨b, s1, s2⟩ ∧
    MILUsolve_2args (lv :: rest) b = SolveAutoScratch_spec lv rest b := by
  refine ⟨rfl, ?_⟩
  have hmax : (if lv.L.nrows > lv.negE.nrows then lv.L.nrows else lv.negE.nrows)
      = max lv.L.nrows lv.negE.nrows := by
    split <;> omega
  have h0 : rd (lv :: rest) 0 = some lv := by simp [rd]
  simp only [MILUsolve_2args, SolveAutoScratch_spec, MILUsolve, h0, hmax]

/-- C7: the accumulate steps 5a and 5e raise `BufferTooSmall` exactly when the
destination is shorter than the block's row count; the state at the raise is the
state in which the step started (no accumulation has been performed), and no
`BufferTooSmall` is raised when the destination has at least `nrows` entries. -/
theorem buffer_check (lv : Level) (s : St) :
    (((s.y2.length : Int) < lv.negE.nrows →
        couple_E lv s = .error (Fault.BufferTooSmall, s)) ∧
      (lv.negE.nrows ≤ (s.y2.length : Int) →
        ∀ t, couple_E lv s ≠ .error (Fault.BufferTooSmall, t))) ∧
    (((s.b_y1.length : Int) < lv.negF.nrows →
        couple_F lv s = .error (Fault.BufferTooSmall, s)) ∧
      (lv.negF.nrows ≤ (s.b_y1.length : Int) →
        ∀ t, couple_F lv s ≠ .error (Fault.BufferTooSmall, t))) := by
  refine ⟨⟨?_, ?_⟩, ?_, ?_⟩
  · intro h
    simp [couple_E, h]
  · intro h t
    have hn : ¬ ((s.y2.length : Int) < lv.negE.nrows) := by omega
    simp only [couple_E, hn, if_false]
    cases hk : crs_Axpy_kernel lv.negE.row_ptr lv.negE.col_ind lv.negE.val s.b_y1 s.y2
        lv.negE.nrows with
    | ok y => simp
    | error e =>
      obtain ⟨f, y⟩ := e
      have hf := crs_Axpy_kernel_fault hk
      simp only [ne_eq, Except.error.injEq, Prod.mk.injEq, not_and]
      intro hfe
      exact absurd hfe hf
  · intro h
    simp [couple_F, h]
  · intro h t
    have hn : ¬ ((s.b_y1.length : Int) < lv.negF.nrows) := by omega
    simp only [couple_F, hn, if_false]
    cases hk : crs_Axpy_kernel lv.negF.row_ptr lv.negF.col_ind lv.negF.val s.y2 s.b_y1
        lv.negF.nrows with
    | ok y => simp
    | error e =>
      obtain ⟨f, y⟩ := e
      have hf := crs_Axpy_kernel_fault hk
      simp only [ne_eq, Except.error.injEq, Prod.mk.injEq, not_and]
      intro hfe
      exact absurd hfe hf

/-- C8: with `nTrail = 1` at level 1 and an empty `y2`, the run stops in the gather
loop of lines 52-55 with a store to `y2[0]`, outside the bound of `y2`, before the
size check of line 108 is reached. -/
theorem gather_overruns_y2 :
    MILUsolve [trivLevel 1 1, trivLevel 1 0] [1, 1] [0] [] =
      .error (Fault.Store Buf.y2 0, ⟨[1, 1], [1], []⟩) := by
  with_unfolding_all rfl

/-- In exact arithmetic the ascending accumulation of a row is `y0` plus the sum of the
row's terms. -/
theorem row_acc_eq_add_sum (row_ptr col_ind : List Int) (val x : List ℚ) (i : Int) (y0 : ℚ) :
    row_acc row_ptr col_ind val x i y0 =
      y0 + ((row_positions row_ptr i).map
        (fun j => at0 val (j - 1) * at0 x (atI col_ind (j - 1) - 1))).sum := by
  unfold row_acc
  generalize row_positions row_ptr i = l
  induction l generalizing y0 with
  | nil => simp
  | cons a l ih =>
    simp only [List.foldl_cons, List.map_cons, List.sum_cons]
    rw [ih]
    ring

/-- C1: on a valid compressed-row matrix, with `x` long enough for every referenced
column and `len(y) >= nrows`, the kernel returns a `y` of the same length in which every
row `i` in `[0, nrows)` holds `y_old[i]` plus the terms `val[j] * x[col_ind[j]]` of the
stored positions `[row_ptr[i], row_ptr[i+1])`, added in ascending storage order. -/
theorem crs_Axpy_kernel_accumulates (row_ptr col_ind : List Int) (val x y : List ℚ)
    (nrows : Int) (hy : nrows ≤ (y.length : Int))
    (hv : crs_valid row_ptr col_ind val x.length nrows) :
    ∃ y2, crs_Axpy_kernel row_ptr col_ind val x y nrows = .ok y2 ∧
      y2.length = y.length ∧
      ∀ i : Int, 0 ≤ i → i < nrows →
        at0 y2 i = row_acc row_ptr col_ind val x i (at0 y i) ∧
        at0 y2 i = at0 y i + ((row_positions row_ptr i).map
          (fun j => at0 val (j - 1) * at0 x (atI col_ind (j - 1) - 1))).sum := by
  obtain ⟨y2, hrun, hlen, hlo, _⟩ := crs_Axpy_kernel_run row_ptr col_ind val x y nrows hy hv
  refine ⟨y2, hrun, hlen, fun i h0 h1 => ⟨hlo i h0 h1, ?_⟩⟩
  rw [hlo i h0 h1, row_acc_eq_add_sum]

/-- Instance of C1: the matrix `[[2, 3], [0, 5]]` applied to `x = [1, 10]` and
accumulated into `y = [100, 200]`. -/
theorem crs_Axpy_kernel_accumulates_witness :
    ∃ y2, crs_Axpy_kernel [1, 3, 4] [1, 2, 2] [2, 3, 5] [1, 10] [100, 200] 2 = .ok y2 ∧
      y2.length = [(100 : ℚ), 200].length ∧
      ∀ i : Int, 0 ≤ i → i < 2 →
        at0 y2 i = row_acc [1, 3, 4] [1, 2, 2] [2, 3, 5] [1, 10] i (at0 [100, 200] i) ∧
        at0 y2 i = at0 [100, 200] i + ((row_positions [1, 3, 4] i).map
          (fun j => at0 [2, 3, 5] (j - 1) * at0 [1, 10] (atI [1, 2, 2] (j - 1) - 1))).sum :=
  crs_Axpy_kernel_accumulates [1, 3, 4] [1, 2, 2] [2, 3, 5] [1, 10] [100, 200] 2
    (by decide) (by decide)

/-- Counterexample to C5 as stated: on the factor data of the scenario the solve returns
`[39/176, 5/44, 23/16]`, whose last component differs from `13/9` by more than
`1e-10`. -/
theorem scenario_off_tolerance :
    MILUsolve_2args [scenarioLevel] [1, 2, 3] = .ok [39/176, 5/44, 23/16] ∧
      ¬ (|(23/16 : ℚ) - 13/9| ≤ 1/10000000000) := by
  refine ⟨by with_unfolding_all rfl, ?_⟩
  norm_num [abs_le]

/-- C5 (amended): on the factor data of the scenario the solve returns exactly
`[39/176, 5/44, 23/16]`; this is the solution of `(L diag(d) U) x = b`, where
`L diag(d) U = [[4,1,0],[1,3,1],[0,11/10,2]]`, and it matches the direct solution
`[2/9, 1/9, 13/9]` of `M x = b` to within `1/144` in every component.  With the exact
factors of `M` (`L[2,1] = 4/11`, `d[2] = 18/11`) the solve returns `[2/9, 1/9, 13/9]`. -/
theorem scenario_exact :
    MILUsolve [scenarioLevel] [1, 2, 3] [0, 0, 0] [] =
        .ok ⟨[39/176, 5/44, 23/16], [39/176, 5/44, 23/16], []⟩ ∧
      Matrix.mulVec !![(4 : ℚ), 1, 0; 1, 3, 1; 0, 11/10, 2] ![39/176, 5/44, 23/16]
        = ![1, 2, 3] ∧
      (|(39/176 : ℚ) - 2/9| ≤ 1/144 ∧ |(5/44 : ℚ) - 1/9| ≤ 1/144 ∧
        |(23/16 : ℚ) - 13/9| ≤ 1/144) ∧
      MILUsolve [exactLevel] [1, 2, 3] [0, 0, 0] [] =
        .ok ⟨[2/9, 1/9, 13/9], [2/9, 1/9, 13/9], []⟩ ∧
      Matrix.mulVec !![(4 : ℚ), 1, 0; 1, 3, 1; 0, 1, 2] ![2/9, 1/9, 13/9] = ![1, 2, 3] := by
  refine ⟨by with_unfolding_all rfl, ?_, ?_, by with_unfolding_all rfl, ?_⟩
  · ext i
    fin_cases i <;> simp [Matrix.mulVec, Matrix.dotProduct, Fin.sum_univ_three] <;> norm_num
  · refine ⟨?_, ?_, ?_⟩ <;> norm_num [abs_le]
  · ext i
    fin_cases i <;> simp [Matrix.mulVec, Matrix.dotProduct, Fin.sum_univ_three] <;> norm_num

theorem Upd_zero (a : List ℚ) (lo : Int) (f : Int → ℚ) : Upd a a lo 0 f := by
  refine ⟨rfl, fun j => ?_⟩
  have : ¬ (lo ≤ j ∧ j < lo + ((0 : Nat) : Int)) := by
    simp only [Nat.cast_zero, add_zero]
    omega
  rw [if_neg this]

theorem Upd_step {a a2 : List ℚ} {lo : Int} {k : Nat} {f : Int → ℚ} (h : Upd a a2 lo k f)
    (h0 : 0 ≤ lo + (k : Int)) (h1 : lo + (k : Int) < (a.length : Int)) :
    Upd a (a2.set (lo + (k : Int)).toNat (f (lo + (k : Int)))) lo (k + 1) f := by
  obtain ⟨hlen, hpt⟩ := h
  refine ⟨by simp [hlen], fun j => ?_⟩
  by_cases hj : j = lo + (k : Int)
  · subst hj
    rw [at0_set_eq _ h0 (by omega), if_pos]
    push_cast
    omega
  · rw [at0_set_ne _ h0 (fun h => hj h.symm), hpt j]
    have : (lo ≤ j ∧ j < lo + (k : Int)) ↔ (lo ≤ j ∧ j < lo + ((k + 1 : Nat) : Int)) := by
      push_cast
      omega
    simp only [this]

/-- Inside an updated list, an index that has not been reached keeps its value. -/
theorem Upd_next {a a2 : List ℚ} {lo : Int} {k : Nat} {f : Int → ℚ} (h : Upd a a2 lo k f)
    (j : Int) (hj : lo + (k : Int) ≤ j) : at0 a2 j = at0 a j := by
  rw [h.2 j, if_neg]
  omega

theorem store_y1_ok {i : Int} (v : ℚ) {s : St} (h0 : 0 ≤ i) (h1 : i < (s.b_y1.length : Int)) :
    store_y1 i v s = .ok { s with b_y1 := s.b_y1.set i.toNat v } := by
  simp [store_y1, wr_ok v h0 h1]

theorem store_y2_ok {i : Int} (v : ℚ) {s : St} (h0 : 0 ≤ i) (h1 : i < (s.y2.length : Int)) :
    store_y2 i v s = .ok { s with y2 := s.y2.set i.toNat v } := by
  simp [store_y2, wr_ok v h0 h1]

theorem store_b_ok {i : Int} (v : ℚ) {s : St} (h0 : 0 ≤ i) (h1 : i < (s.b.length : Int)) :
    store_b i v s = .ok { s with b := s.b.set i.toNat v } := by
  simp [store_b, wr_ok v h0 h1]

/-- Run of the gather loops (lines 47-55). -/
theorem gather_run (lv : Level) (offset : Int) (s : St)
    (hB : 0 ≤ lv.L.nrows) (hT : 0 ≤ lv.negE.nrows)
    (hp : gather_ok lv offset (lv.L.nrows + lv.negE.nrows) s.b.length)
    (h1 : lv.L.nrows ≤ (s.b_y1.length : Int)) (h2 : lv.negE.nrows ≤ (s.y2.length : Int)) :
    ∃ s2, gather lv offset lv.L.nrows (lv.L.nrows + lv.negE.nrows) s = .ok s2 ∧
      s2.b = s.b ∧
      Upd s.b_y1 s2.b_y1 0 lv.L.nrows.toNat (gval lv offset s.b) ∧
      Upd s.y2 s2.y2 0 lv.negE.nrows.toNat (fun j => gval lv offset s.b (lv.L.nrows + j)) := by
  obtain ⟨hplen, hpv⟩ := hp
  have hpos : ∀ i : Int, 0 ≤ i → i < lv.L.nrows + lv.negE.nrows →
      1 ≤ atI lv.p i ∧ atI lv.p i ≤ (lv.rowscal.length : Int) ∧
        1 ≤ atI lv.p i + offset ∧ atI lv.p i + offset ≤ (s.b.length : Int) :=
    fun i h0 h1 => hpv i (mem_positions.2 ⟨h0, by omega⟩)
  -- first loop
  obtain ⟨sa, ha, hab, hay2, hay1⟩ := forUp_inv (gather_fine lv offset) lv.L.nrows.toNat 0
    (fun k w => w.b = s.b ∧ w.y2 = s.y2 ∧ Upd s.b_y1 w.b_y1 0 k (gval lv offset s.b)) s
    ⟨rfl, rfl, Upd_zero _ _ _⟩
    (by
      intro k w hk ⟨hwb, hwy2, hU⟩
      simp only [zero_add]
      have hk0 : (0 : Int) ≤ (k : Int) := Int.natCast_nonneg k
      obtain ⟨q1, q2, q3, q4⟩ := hpos k hk0 (by omega)
      have e1 : load lv.p (k : Int) w = .ok (atI lv.p k) := load_ok (rd_atI hk0 (by omega))
      have e2 : load lv.rowscal (atI lv.p k - 1) w = .ok (at0 lv.rowscal (atI lv.p k - 1)) :=
        load_ok (rd_at0 (by omega) (by omega))
      have e3 : load w.b ((atI lv.p k + offset) - 1) w
          = .ok (at0 s.b ((atI lv.p k + offset) - 1)) := by
        rw [hwb]
        exact load_ok (rd_at0 (by omega) (by omega))
      have e4 := store_y1_ok (i := (k : Int)) (s := w)
        (at0 lv.rowscal (atI lv.p k - 1) * at0 s.b ((atI lv.p k + offset) - 1)) hk0
        (by rw [hU.1]; omega)
      refine ⟨_, (by simp only [gather_fine, e1, e2, e3, bind, Except.bind]; exact e4), ?_⟩
      refine ⟨hwb, hwy2, ?_⟩
      have := Upd_step hU (by simp) (by simp only [zero_add]; omega)
      simpa [gval] using this)
  -- second loop
  obtain ⟨sb, hb, hbb, hby1, hby2⟩ := forUp_inv (gather_trail lv offset lv.L.nrows) lv.negE.nrows.toNat lv.L.nrows
    (fun k w => w.b = s.b ∧ w.b_y1 = sa.b_y1 ∧
      Upd s.y2 w.y2 0 k (fun j => gval lv offset s.b (lv.L.nrows + j))) sa
    ⟨hab, rfl, by rw [hay2]; exact Upd_zero _ _ _⟩
    (by
      intro k w hk ⟨hwb, hwy1, hU⟩
      have hk0 : (0 : Int) ≤ (k : Int) := Int.natCast_nonneg k
      obtain ⟨q1, q2, q3, q4⟩ := hpos (lv.L.nrows + k) (by omega) (by omega)
      have e1 : load lv.p (lv.L.nrows + (k : Int)) w = .ok (atI lv.p (lv.L.nrows + k)) :=
        load_ok (rd_atI (by omega) (by omega))
      have e2 : load lv.rowscal (atI lv.p (lv.L.nrows + k) - 1) w
          = .ok (at0 lv.rowscal (atI lv.p (lv.L.nrows + k) - 1)) :=
        load_ok (rd_at0 (by omega) (by omega))
      have e3 : load w.b ((atI lv.p (lv.L.nrows + k) + offset) - 1) w
          = .ok (at0 s.b ((atI lv.p (lv.L.nrows + k) + offset) - 1)) := by
        rw [hwb]
        exact load_ok (rd_at0 (by omega) (by omega))
      have hidx : lv.L.nrows + (k : Int) - lv.L.nrows = (k : Int) := by ring
      have e4 := store_y2_ok (i := (k : Int)) (s := w)
        (at0 lv.rowscal (atI lv.p (lv.L.nrows + k) - 1) *
          at0 s.b ((atI lv.p (lv.L.nrows + k) + offset) - 1)) hk0
        (by rw [hU.1]; omega)
      refine ⟨_, (by simp only [gather_trail, e1, e2, e3, hidx, bind, Except.bind]; exact e4), ?_⟩
      refine ⟨hwb, hwy1, ?_⟩
      have := Upd_step hU (by simp) (by simp only [zero_add]; omega)
      simpa [gval] using this)
  refine ⟨sb, ?_, hbb, by rw [hby1]; exact hay1, hby2⟩
  have hcnt : (lv.L.nrows + lv.negE.nrows - lv.L.nrows).toNat = lv.negE.nrows.toNat := by
    congr 1
    ring
  simp only [gather, hcnt, bind, Except.bind, ha]
  exact hb

theorem Upd_refl_of_eq {a a2 : List ℚ} (h : a2 = a) (lo : Int) (f : Int → ℚ) :
    Upd a a2 lo 0 f := by
  rw [h]
  exact Upd_zero a lo f

/-- Run of the write-back loop (lines 58-60). -/
theorem write_back_run (offset nB : Int) (s : St) (ho : 0 ≤ offset)
    (hb : offset + nB ≤ (s.b.length : Int)) (h1 : nB ≤ (s.b_y1.length : Int)) :
    ∃ s2, write_back offset nB s = .ok s2 ∧ s2.b_y1 = s.b_y1 ∧ s2.y2 = s.y2 ∧
      Upd s.b s2.b offset nB.toNat (fun j => at0 s.b_y1 (j - offset)) := by
  unfold write_back
  refine forUp_inv (write_back_body offset) nB.toNat 0
    (fun k w => w.b_y1 = s.b_y1 ∧ w.y2 = s.y2 ∧
      Upd s.b w.b offset k (fun j => at0 s.b_y1 (j - offset))) s
    ⟨rfl, rfl, Upd_zero _ _ _⟩ ?_
  intro k w hk ⟨hw1, hw2, hU⟩
  simp only [zero_add]
  have hk0 : (0 : Int) ≤ (k : Int) := Int.natCast_nonneg k
  have e1 : load w.b_y1 (k : Int) w = .ok (at0 s.b_y1 k) := by
    rw [hw1]
    exact load_ok (rd_at0 hk0 (by omega))
  have e2 := store_b_ok (i := offset + (k : Int)) (s := w) (at0 s.b_y1 k) (by omega)
    (by rw [hU.1]; omega)
  refine ⟨_, (by simp only [write_back_body, e1, bind, Except.bind]; exact e2), ?_⟩
  refine ⟨hw1, hw2, ?_⟩
  have := Upd_step hU (by omega) (by omega)
  simpa using this

/-- Run of the loop that stores the trailing part (lines 115-118). -/
theorem store_trailing_run (lv : Level) (offset : Int) (s : St) (hB : 0 ≤ lv.L.nrows)
    (ho : 0 ≤ offset)
    (hb : offset + lv.L.nrows + lv.negE.nrows ≤ (s.b.length : Int))
    (h2 : lv.negE.nrows ≤ (s.y2.length : Int)) :
    ∃ s2, store_trailing lv offset lv.L.nrows (lv.L.nrows + lv.negE.nrows) s = .ok s2 ∧
      s2.b_y1 = s.b_y1 ∧ s2.y2 = s.y2 ∧
      Upd s.b s2.b (offset + lv.L.nrows) lv.negE.nrows.toNat
        (fun j => at0 s.y2 (j - (offset + lv.L.nrows))) := by
  have hcnt : (lv.L.nrows + lv.negE.nrows - lv.L.nrows).toNat = lv.negE.nrows.toNat := by
    congr 1
    ring
  unfold store_trailing
  rw [hcnt]
  refine forUp_inv (store_trailing_body offset lv.L.nrows) lv.negE.nrows.toNat 0
    (fun k w => w.b_y1 = s.b_y1 ∧ w.y2 = s.y2 ∧
      Upd s.b w.b (offset + lv.L.nrows) k (fun j => at0 s.y2 (j - (offset + lv.L.nrows)))) s
    ⟨rfl, rfl, Upd_zero _ _ _⟩ ?_
  intro k w hk ⟨hw1, hw2, hU⟩
  simp only [zero_add]
  have hk0 : (0 : Int) ≤ (k : Int) := Int.natCast_nonneg k
  have e1 : load w.y2 (k : Int) w = .ok (at0 s.y2 k) := by
    rw [hw2]
    exact load_ok (rd_at0 hk0 (by omega))
  have e2 := store_b_ok (i := offset + lv.L.nrows + (k : Int)) (s := w) (at0 s.y2 k)
    (by omega) (by rw [hU.1]; omega)
  refine ⟨_, (by simp only [store_trailing_body, e1, bind, Except.bind]; exact e2), ?_⟩
  refine ⟨hw1, hw2, ?_⟩
  have := Upd_step hU (by omega) (by omega)
  simpa using this

/-- Run of the reload loops (lines 121-128). -/
theorem reload_run (lv : Level) (offset : Int) (s : St) (hB : 0 ≤ lv.L.nrows)
    (hT : 0 ≤ lv.negE.nrows) (ho : 0 ≤ offset)
    (hb : offset + lv.L.nrows + lv.negE.nrows ≤ (s.b.length : Int))
    (h1 : lv.L.nrows ≤ (s.b_y1.length : Int)) (h2 : lv.negE.nrows ≤ (s.y2.length : Int)) :
    ∃ s2, reload lv offset lv.L.nrows (lv.L.nrows + lv.negE.nrows) s = .ok s2 ∧
      s2.b = s.b ∧
      Upd s.b_y1 s2.b_y1 0 lv.L.nrows.toNat (fun j => at0 s.b (offset + j)) ∧
      Upd s.y2 s2.y2 0 lv.negE.nrows.toNat (fun j => at0 s.b ((offset + lv.L.nrows) + j)) := by
  obtain ⟨sa, ha, hab, hay2, hay1⟩ := forUp_inv (reload_fine offset) lv.L.nrows.toNat 0
    (fun k w => w.b = s.b ∧ w.y2 = s.y2 ∧
      Upd s.b_y1 w.b_y1 0 k (fun j => at0 s.b (offset + j))) s
    ⟨rfl, rfl, Upd_zero _ _ _⟩
    (by
      intro k w hk ⟨hwb, hwy2, hU⟩
      simp only [zero_add]
      have hk0 : (0 : Int) ≤ (k : Int) := Int.natCast_nonneg k
      have e1 : load w.b (offset + (k : Int)) w = .ok (at0 s.b (offset + k)) := by
        rw [hwb]
        exact load_ok (rd_at0 (by omega) (by omega))
      have e2 := store_y1_ok (i := (k : Int)) (s := w) (at0 s.b (offset + k)) hk0
        (by rw [hU.1]; omega)
      refine ⟨_, (by simp only [reload_fine, e1, bind, Except.bind]; exact e2), ?_⟩
      refine ⟨hwb, hwy2, ?_⟩
      have := Upd_step hU (by simp) (by simp only [zero_add]; omega)
      simpa using this)
  obtain ⟨sb, hb2, hbb, hby1, hby2⟩ := forUp_inv (reload_trail offset lv.L.nrows)
    lv.negE.nrows.toNat 0
    (fun k w => w.b = s.b ∧ w.b_y1 = sa.b_y1 ∧
      Upd s.y2 w.y2 0 k (fun j => at0 s.b ((offset + lv.L.nrows) + j))) sa
    ⟨hab, rfl, Upd_refl_of_eq hay2 _ _⟩
    (by
      intro k w hk ⟨hwb, hwy1, hU⟩
      simp only [zero_add]
      have hk0 : (0 : Int) ≤ (k : Int) := Int.natCast_nonneg k
      have e1 : load w.b ((offset + lv.L.nrows) + (k : Int)) w
          = .ok (at0 s.b ((offset + lv.L.nrows) + k)) := by
        rw [hwb]
        exact load_ok (rd_at0 (by omega) (by omega))
      have e2 := store_y2_ok (i := (k : Int)) (s := w) (at0 s.b ((offset + lv.L.nrows) + k))
        hk0 (by rw [hU.1]; omega)
      refine ⟨_, (by simp only [reload_trail, e1, bind, Except.bind]; exact e2), ?_⟩
      refine ⟨hwb, hwy1, ?_⟩
      have := Upd_step hU (by simp) (by simp only [zero_add]; omega)
      simpa using this)
  refine ⟨sb, ?_, hbb, by rw [hby1]; exact hay1, hby2⟩
  have hcnt : (lv.L.nrows + lv.negE.nrows - lv.L.nrows).toNat = lv.negE.nrows.toNat := by
    congr 1
    ring
  simp only [reload, hcnt, bind, Except.bind, ha]
  exact hb2

/-- Run of the division loop (lines 94-96). -/
theorem div_run (lv : Level) (nB : Int) (s : St) (hd : nB ≤ (lv.d.length : Int))
    (h1 : nB ≤ (s.b_y1.length : Int)) :
    ∃ s2, forUp (div_body lv) 0 nB.toNat s = .ok s2 ∧ s2.b = s.b ∧ s2.y2 = s.y2 ∧
      Upd s.b_y1 s2.b_y1 0 nB.toNat (fun j => at0 s.b_y1 j / at0 lv.d j) := by
  refine forUp_inv (div_body lv) nB.toNat 0
    (fun k w => w.b = s.b ∧ w.y2 = s.y2 ∧
      Upd s.b_y1 w.b_y1 0 k (fun j => at0 s.b_y1 j / at0 lv.d j)) s
    ⟨rfl, rfl, Upd_zero _ _ _⟩ ?_
  intro k w hk ⟨hwb, hw2, hU⟩
  simp only [zero_add]
  have hk0 : (0 : Int) ≤ (k : Int) := Int.natCast_nonneg k
  have e1 : load w.b_y1 (k : Int) w = .ok (at0 s.b_y1 k) := by
    rw [← Upd_next hU k (by simp)]
    exact load_ok (rd_at0 hk0 (by rw [hU.1]; omega))
  have e2 : load lv.d (k : Int) w = .ok (at0 lv.d k) := load_ok (rd_at0 hk0 (by omega))
  have e3 := store_y1_ok (i := (k : Int)) (s := w) (at0 s.b_y1 k / at0 lv.d k) hk0
    (by rw [hU.1]; omega)
  refine ⟨_, (by simp only [div_body, e1, e2, bind, Except.bind]; exact e3), ?_⟩
  refine ⟨hwb, hw2, ?_⟩
  have := Upd_step hU (by simp) (by simp only [zero_add]; omega)
  simpa using this

theorem Scat_step {a a2 : List ℚ} {idx : Int → Int} {m : Int} {f : Int → ℚ}
    (h : Scat a a2 idx m f) (hm : 0 ≤ m) (h0 : 0 ≤ idx m) (h1 : idx m < (a.length : Int))
    (hinj : ∀ i : Int, 0 ≤ i → i < m → idx i ≠ idx m) :
    Scat a (a2.set (idx m).toNat (f m)) idx (m + 1) f := by
  obtain ⟨hlen, hin, hout⟩ := h
  refine ⟨by simp [hlen], ?_, ?_⟩
  · intro i hi0 hi1
    by_cases him : i = m
    · subst him
      exact at0_set_eq _ h0 (by omega)
    · rw [at0_set_ne _ h0 (fun h => hinj i hi0 (by omega) h.symm)]
      exact hin i hi0 (by omega)
  · intro j hj
    rw [at0_set_ne _ h0 (hj m hm (by omega))]
    exact hout j (fun i hi0 hi1 => hj i hi0 (by omega))

/-- Run of the scatter loops (lines 159-167). -/
theorem scatter_run (lv : Level) (offset : Int) (s : St)
    (hB : 0 ≤ lv.L.nrows) (hT : 0 ≤ lv.negE.nrows)
    (hq : scatter_ok lv offset (lv.L.nrows + lv.negE.nrows) s.b.length)
    (h1 : lv.L.nrows ≤ (s.b_y1.length : Int)) (h2 : lv.negE.nrows ≤ (s.y2.length : Int)) :
    ∃ s2, scatter lv offset lv.L.nrows (lv.L.nrows + lv.negE.nrows) s = .ok s2 ∧
      s2.b_y1 = s.b_y1 ∧ s2.y2 = s.y2 ∧
      Scat s.b s2.b (fun i => (atI lv.q i + offset) - 1) (lv.L.nrows + lv.negE.nrows)
        (sval lv lv.L.nrows s.b_y1 s.y2) := by
  obtain ⟨hqlen, hqv, hqinj⟩ := hq
  have hpos : ∀ i : Int, 0 ≤ i → i < lv.L.nrows + lv.negE.nrows →
      1 ≤ atI lv.q i ∧ atI lv.q i ≤ (lv.colscal.length : Int) ∧
        1 ≤ atI lv.q i + offset ∧ atI lv.q i + offset ≤ (s.b.length : Int) :=
    fun i h0 h1 => hqv i (mem_positions.2 ⟨h0, by omega⟩)
  have hinj : ∀ i j : Int, 0 ≤ i → i < lv.L.nrows + lv.negE.nrows → 0 ≤ j →
      j < lv.L.nrows + lv.negE.nrows → i ≠ j →
      (atI lv.q i + offset) - 1 ≠ (atI lv.q j + offset) - 1 := by
    intro i j hi0 hi1 hj0 hj1 hij h
    exact hij (hqinj i (mem_positions.2 ⟨hi0, by omega⟩) j (mem_positions.2 ⟨hj0, by omega⟩)
      (by omega))
  obtain ⟨sa, ha, hay1, hay2, haS⟩ := forUp_inv (scatter_fine lv offset) lv.L.nrows.toNat 0
    (fun k w => w.b_y1 = s.b_y1 ∧ w.y2 = s.y2 ∧
      Scat s.b w.b (fun i => (atI lv.q i + offset) - 1) k (sval lv lv.L.nrows s.b_y1 s.y2)) s
    ⟨rfl, rfl, rfl, fun i h0 h1 => absurd h1 (by simpa using h0), fun _ _ => rfl⟩
    (by
      intro k w hk ⟨hw1, hw2, hS⟩
      simp only [zero_add]
      have hk0 : (0 : Int) ≤ (k : Int) := Int.natCast_nonneg k
      obtain ⟨q1, q2, q3, q4⟩ := hpos k hk0 (by omega)
      have e1 : load lv.q (k : Int) w = .ok (atI lv.q k) := load_ok (rd_atI hk0 (by omega))
      have e2 : load w.b_y1 (k : Int) w = .ok (at0 s.b_y1 k) := by
        rw [hw1]
        exact load_ok (rd_at0 hk0 (by omega))
      have e3 : load lv.colscal (atI lv.q k - 1) w = .ok (at0 lv.colscal (atI lv.q k - 1)) :=
        load_ok (rd_at0 (by omega) (by omega))
      have e4 := store_b_ok (i := (atI lv.q k + offset) - 1) (s := w)
        (at0 s.b_y1 k * at0 lv.colscal (atI lv.q k - 1)) (by omega) (by rw [hS.1]; omega)
      refine ⟨_, (by simp only [scatter_fine, e1, e2, e3, bind, Except.bind]; exact e4), ?_⟩
      refine ⟨hw1, hw2, ?_⟩
      have := Scat_step hS hk0 (by show 0 ≤ atI lv.q k + offset - 1; omega)
        (by show atI lv.q k + offset - 1 < _; omega)
        (fun i hi0 hi1 => hinj i k hi0 (by omega) hk0 (by omega) (by omega))
      have hv : sval lv lv.L.nrows s.b_y1 s.y2 k
          = at0 s.b_y1 k * at0 lv.colscal (atI lv.q k - 1) := by
        simp only [sval]
        rw [if_pos (by omega)]
      rw [hv] at this
      simpa using this)
  obtain ⟨sb, hb, hby1, hby2, hbS⟩ := forUp_inv (scatter_trail lv offset lv.L.nrows)
    lv.negE.nrows.toNat lv.L.nrows
    (fun k w => w.b_y1 = s.b_y1 ∧ w.y2 = s.y2 ∧
      Scat s.b w.b (fun i => (atI lv.q i + offset) - 1) (lv.L.nrows + k)
        (sval lv lv.L.nrows s.b_y1 s.y2)) sa
    ⟨hay1, hay2, by
      have : lv.L.nrows + ((0 : Nat) : Int) = ((lv.L.nrows.toNat : Nat) : Int) := by
        simp only [Nat.cast_zero, add_zero]
        omega
      rw [this]
      exact haS⟩
    (by
      intro k w hk ⟨hw1, hw2, hS⟩
      have hk0 : (0 : Int) ≤ (k : Int) := Int.natCast_nonneg k
      obtain ⟨q1, q2, q3, q4⟩ := hpos (lv.L.nrows + k) (by omega) (by omega)
      have e1 : load lv.q (lv.L.nrows + (k : Int)) w = .ok (atI lv.q (lv.L.nrows + k)) :=
        load_ok (rd_atI (by omega) (by omega))
      have hidx : lv.L.nrows + (k : Int) - lv.L.nrows = (k : Int) := by ring
      have e2 : load w.y2 (k : Int) w = .ok (at0 s.y2 k) := by
        rw [hw2]
        exact load_ok (rd_at0 hk0 (by omega))
      have e3 : load lv.colscal (atI lv.q (lv.L.nrows + k) - 1) w
          = .ok (at0 lv.colscal (atI lv.q (lv.L.nrows + k) - 1)) :=
        load_ok (rd_at0 (by omega) (by omega))
      have e4 := store_b_ok (i := (atI lv.q (lv.L.nrows + k) + offset) - 1) (s := w)
        (at0 s.y2 k * at0 lv.colscal (atI lv.q (lv.L.nrows + k) - 1)) (by omega)
        (by rw [hS.1]; omega)
      refine ⟨_, (by simp only [scatter_trail, e1, hidx, e2, e3, bind, Except.bind];
                      exact e4), ?_⟩
      refine ⟨hw1, hw2, ?_⟩
      have := Scat_step hS (by omega)
        (by show 0 ≤ atI lv.q (lv.L.nrows + k) + offset - 1; omega)
        (by show atI lv.q (lv.L.nrows + k) + offset - 1 < _; omega)
        (fun i hi0 hi1 => hinj i (lv.L.nrows + k) hi0 (by omega) (by omega) (by omega)
          (by omega))
      have hv : sval lv lv.L.nrows s.b_y1 s.y2 (lv.L.nrows + k)
          = at0 s.y2 k * at0 lv.colscal (atI lv.q (lv.L.nrows + k) - 1) := by
        simp only [sval]
        rw [if_neg (by omega), hidx]
      rw [hv] at this
      have hk1 : lv.L.nrows + ((k + 1 : Nat) : Int) = lv.L.nrows + (k : Int) + 1 := by
        push_cast
        ring
      rw [hk1]
      exact this)
  refine ⟨sb, ?_, hby1, hby2, ?_⟩
  · have hcnt : (lv.L.nrows + lv.negE.nrows - lv.L.nrows).toNat = lv.negE.nrows.toNat := by
      congr 1
      ring
    simp only [scatter, hcnt, bind, Except.bind, ha]
    exact hb
  · have : lv.L.nrows + lv.negE.nrows = lv.L.nrows + ((lv.negE.nrows.toNat : Nat) : Int) := by
      omega
    rw [this]
    exact hbS

theorem positions_snoc (lo : Int) (c : Nat) :
    positions lo (c + 1) = positions lo c ++ [lo + (c : Int)] := by
  simp [positions, List.range_succ]

/-- Run of one column of a sweep: every entry of `b_y1` loses the column's entry in its
row times `b_y1[j-1]`, provided the column stores no diagonal entry. -/
theorem col_sweep_run (A : CCS) (j : Int) (s : St) (hj : 1 ≤ j)
    (hcp : j < (A.col_ptr.length : Int))
    (hv : ∀ k ∈ col_positions A (j - 1),
      0 ≤ k ∧ k < (A.row_ind.length : Int) ∧ k < (A.val.length : Int) ∧
        1 ≤ atI A.row_ind k ∧ atI A.row_ind k ≤ (s.b_y1.length : Int) ∧ atI A.row_ind k ≠ j)
    (hy : j ≤ (s.b_y1.length : Int)) :
    ∃ s2, col_sweep A j s = .ok s2 ∧ s2.b = s.b ∧ s2.y2 = s.y2 ∧
      s2.b_y1.length = s.b_y1.length ∧
      ∀ i : Int, at0 s2.b_y1 i = at0 s.b_y1 i - col_entry A i (j - 1) * at0 s.b_y1 (j - 1) := by
  have e1 : load A.col_ptr (j - 1) s = .ok (atI A.col_ptr (j - 1)) :=
    load_ok (rd_atI (by omega) (by omega))
  have e2 : load A.col_ptr j s = .ok (atI A.col_ptr j) := load_ok (rd_atI (by omega) hcp)
  have hj1 : j - 1 + 1 = j := by ring
  unfold col_positions at hv
  rw [hj1] at hv
  simp only [col_sweep, e1, e2, bind, Except.bind, col_entry, col_positions, hj1]
  generalize atI A.col_ptr (j - 1) - 1 = lo at hv ⊢
  have hcnt : (atI A.col_ptr j - atI A.col_ptr (j - 1)).toNat
      = (atI A.col_ptr j - atI A.col_ptr (j - 1)).toNat := rfl
  generalize (atI A.col_ptr j - atI A.col_ptr (j - 1)).toNat = cnt at hv ⊢
  obtain ⟨s2, hrun, hb, hy2, hlen, hpt⟩ := forUp_inv (col_update A j) cnt lo
    (fun t w => w.b = s.b ∧ w.y2 = s.y2 ∧ w.b_y1.length = s.b_y1.length ∧
      ∀ i : Int, at0 w.b_y1 i
        = at0 s.b_y1 i - ((positions lo t).map (entry_at A i)).sum * at0 s.b_y1 (j - 1)) s
    ⟨rfl, rfl, rfl, fun i => by simp [positions]⟩
    (by
      intro t w ht ⟨hwb, hw2, hlen, hpt⟩
      obtain ⟨v1, v2, v3, v4, v5, v6⟩ := hv (lo + t) (mem_positions.2 ⟨by omega, by omega⟩)
      have hdiag : ((positions lo t).map (entry_at A (j - 1))).sum = 0 := by
        apply List.sum_eq_zero
        intro x hx
        obtain ⟨k, hk, rfl⟩ := List.mem_map.1 hx
        have hk2 : k ∈ positions lo cnt := by
          rw [mem_positions] at hk ⊢
          omega
        have := (hv k hk2).2.2.2.2.2
        simp only [entry_at, hj1, if_neg this]
      have hyj : at0 w.b_y1 (j - 1) = at0 s.b_y1 (j - 1) := by
        rw [hpt (j - 1), hdiag]
        ring
      have f1 : load A.row_ind (lo + (t : Int)) w = .ok (atI A.row_ind (lo + t)) :=
        load_ok (rd_atI v1 v2)
      have f2 : load w.b_y1 (atI A.row_ind (lo + t) - 1) w
          = .ok (at0 w.b_y1 (atI A.row_ind (lo + t) - 1)) :=
        load_ok (rd_at0 (by omega) (by rw [hlen]; omega))
      have f3 : load A.val (lo + (t : Int)) w = .ok (at0 A.val (lo + t)) :=
        load_ok (rd_at0 v1 v3)
      have f4 : load w.b_y1 (j - 1) w = .ok (at0 s.b_y1 (j - 1)) := by
        rw [← hyj]
        exact load_ok (rd_at0 (by omega) (by rw [hlen]; omega))
      have f5 := store_y1_ok (i := atI A.row_ind (lo + t) - 1) (s := w)
        (at0 w.b_y1 (atI A.row_ind (lo + t) - 1) - at0 A.val (lo + t) * at0 s.b_y1 (j - 1))
        (by omega) (by rw [hlen]; omega)
      refine ⟨_, (by simp only [col_update, f1, f2, f3, f4, bind, Except.bind]; exact f5), ?_⟩
      refine ⟨hwb, hw2, by simp [hlen], ?_⟩
      intro i
      simp only [positions_snoc, List.map_append, List.sum_append, List.map_cons, List.map_nil,
        List.sum_cons, List.sum_nil, add_zero]
      by_cases hi : i = atI A.row_ind (lo + t) - 1
      · subst hi
        rw [at0_set_eq _ (by omega) (by rw [hlen]; omega), hpt]
        simp only [entry_at, sub_add_cancel, if_true]
        ring
      · rw [at0_set_ne _ (by omega) (fun h => hi h.symm), hpt]
        have : atI A.row_ind (lo + t) ≠ i + 1 := by omega
        simp only [entry_at, if_neg this, add_zero])
  exact ⟨s2, hrun, hb, hy2, hlen, hpt⟩

theorem sweep_step (E : Int → Int → ℚ) (y0 w w2 : Int → ℚ) (S : Finset ℕ) (c : ℕ)
    (hc : c ∉ S)
    (hinv : ∀ i, y0 i = w i + ∑ c2 in S, E i (c2 : Int) * w (c2 : Int))
    (hstep : ∀ i, w2 i = w i - E i (c : Int) * w (c : Int))
    (hz : ∀ c2 ∈ insert c S, E (c2 : Int) (c : Int) = 0) :
    ∀ i, y0 i = w2 i + ∑ c2 in insert c S, E i (c2 : Int) * w2 (c2 : Int) := by
  have hw : ∀ c2 ∈ insert c S, w2 (c2 : Int) = w (c2 : Int) := by
    intro c2 h2
    rw [hstep, hz c2 h2]
    ring
  intro i
  rw [Finset.sum_congr rfl (fun c2 h2 => by rw [hw c2 h2]), Finset.sum_insert hc, hinv i,
    hstep i]
  ring

theorem col_entry_zero (A : CCS) (i c : Int)
    (h : ∀ k ∈ col_positions A c, atI A.row_ind k ≠ i + 1) : col_entry A i c = 0 := by
  unfold col_entry
  apply List.sum_eq_zero
  intro x hx
  obtain ⟨k, hk, rfl⟩ := List.mem_map.1 hx
  simp only [entry_at, if_neg (h k hk)]

/-- Run of the forward sweep through a strictly lower factor: the old `b_y1` is
`(I + A)` applied to the new one. -/
theorem fwd_sweep_run (A : CCS) (m : Int) (s : St) (hm : 0 ≤ m) (hv : ccs_valid A m)
    (hs : strict_lower A m) (hy : m ≤ (s.b_y1.length : Int)) :
    ∃ s2, forUp (col_sweep A) 1 (A.col_ptr.length - 1) s = .ok s2 ∧ s2.b = s.b ∧
      s2.y2 = s.y2 ∧ s2.b_y1.length = s.b_y1.length ∧
      ∀ i : Int, at0 s.b_y1 i = at0 s2.b_y1 i +
        ∑ c in Finset.range m.toNat, col_entry A i (c : Int) * at0 s2.b_y1 (c : Int) := by
  obtain ⟨hcp, hval⟩ := hv
  have hcnt : A.col_ptr.length - 1 = m.toNat := by omega
  rw [hcnt]
  refine forUp_inv (col_sweep A) m.toNat 1
    (fun k w => w.b = s.b ∧ w.y2 = s.y2 ∧ w.b_y1.length = s.b_y1.length ∧
      ∀ i : Int, at0 s.b_y1 i = at0 w.b_y1 i +
        ∑ c in Finset.range k, col_entry A i (c : Int) * at0 w.b_y1 (c : Int)) s
    ⟨rfl, rfl, rfl, fun i => by simp⟩ ?_
  intro k w hk ⟨hwb, hw2, hlen, hinv⟩
  have hk0 : (0 : Int) ≤ (k : Int) := Int.natCast_nonneg k
  have hkm : (k : Int) ∈ positions 0 m.toNat := mem_positions.2 ⟨hk0, by omega⟩
  have hjk : (1 : Int) + (k : Int) - 1 = (k : Int) := by ring
  obtain ⟨w2, hrun, hb2, hy2, hlen2, hpt⟩ := col_sweep_run A (1 + (k : Int)) w (by omega)
    (by omega)
    (by
      rw [hjk]
      intro p hp
      obtain ⟨a1, a2, a3, a4, a5⟩ := hval k hkm p hp
      have a6 := hs k hkm p hp
      exact ⟨a1, a2, a3, a4, by rw [hlen]; omega, by omega⟩)
    (by rw [hlen]; omega)
  rw [hjk] at hpt
  refine ⟨w2, hrun, hb2.trans hwb, hy2.trans hw2, hlen2.trans hlen, ?_⟩
  rw [Finset.range_succ]
  refine sweep_step (col_entry A) (at0 s.b_y1) (at0 w.b_y1) (at0 w2.b_y1) (Finset.range k) k
    (by simp) hinv hpt ?_
  intro c2 h2
  apply col_entry_zero
  intro p hp
  have a6 := hs k hkm p hp
  have : c2 ≤ k := by
    rcases Finset.mem_insert.1 h2 with h | h
    · omega
    · exact le_of_lt (Finset.mem_range.1 h)
  omega

/-- Run of the backward sweep through a strictly upper factor: the old `b_y1` is
`(I + A)` applied to the new one. -/
theorem bwd_sweep_run (A : CCS) (m : Int) (s : St) (hm : 0 ≤ m) (hv : ccs_valid A m)
    (hs : strict_upper A m) (hy : m ≤ (s.b_y1.length : Int)) :
    ∃ s2, forDown (col_sweep A) ((A.col_ptr.length : Int) - 1) (A.col_ptr.length - 1) s
        = .ok s2 ∧ s2.b = s.b ∧
      s2.y2 = s.y2 ∧ s2.b_y1.length = s.b_y1.length ∧
      ∀ i : Int, at0 s.b_y1 i = at0 s2.b_y1 i +
        ∑ c in Finset.range m.toNat, col_entry A i (c : Int) * at0 s2.b_y1 (c : Int) := by
  obtain ⟨hcp, hval⟩ := hv
  have hcnt : A.col_ptr.length - 1 = m.toNat := by omega
  have hhi : (A.col_ptr.length : Int) - 1 = m := by omega
  rw [hcnt, hhi]
  have key := forDown_inv (col_sweep A) m.toNat m
    (fun k w => w.b = s.b ∧ w.y2 = s.y2 ∧ w.b_y1.length = s.b_y1.length ∧
      ∀ i : Int, at0 s.b_y1 i = at0 w.b_y1 i +
        ∑ c in Finset.Ico (m.toNat - k) m.toNat,
          col_entry A i (c : Int) * at0 w.b_y1 (c : Int)) s
    ⟨rfl, rfl, rfl, fun i => by simp⟩ (by
      intro k w hk ⟨hwb, hw2, hlen, hinv⟩
      have hk0 : (0 : Int) ≤ (k : Int) := Int.natCast_nonneg k
      have hc : ((m.toNat - (k + 1) : Nat) : Int) = m - (k : Int) - 1 := by omega
      have hcm : ((m.toNat - (k + 1) : Nat) : Int) ∈ positions 0 m.toNat :=
        mem_positions.2 ⟨by omega, by omega⟩
      obtain ⟨w2, hrun, hb2, hy2, hlen2, hpt⟩ := col_sweep_run A (m - (k : Int)) w (by omega)
        (by omega)
        (by
          rw [← hc]
          intro p hp
          obtain ⟨a1, a2, a3, a4, a5⟩ := hval _ hcm p hp
          have a6 := hs _ hcm p hp
          exact ⟨a1, a2, a3, a4, by rw [hlen]; omega, by omega⟩)
        (by rw [hlen]; omega)
      rw [← hc] at hpt
      refine ⟨w2, hrun, hb2.trans hwb, hy2.trans hw2, hlen2.trans hlen, ?_⟩
      have hins : Finset.Ico (m.toNat - (k + 1)) m.toNat
          = insert (m.toNat - (k + 1)) (Finset.Ico (m.toNat - k) m.toNat) := by
        have h1 : m.toNat - k = (m.toNat - (k + 1)) + 1 := by omega
        rw [h1, Nat.Ico_insert_succ_left]
        omega
      rw [hins]
      refine sweep_step (col_entry A) (at0 s.b_y1) (at0 w.b_y1) (at0 w2.b_y1)
        (Finset.Ico (m.toNat - k) m.toNat) (m.toNat - (k + 1)) (by simp; omega) hinv hpt ?_
      intro c2 h2
      apply col_entry_zero
      intro p hp
      have a6 := hs _ hcm p hp
      have : m.toNat - (k + 1) ≤ c2 := by
        rcases Finset.mem_insert.1 h2 with h | h
        · omega
        · have := (Finset.mem_Ico.1 h).1
          omega
      omega)
  obtain ⟨s2, hrun, hb, hy2, hlen, hpt⟩ := key
  refine ⟨s2, hrun, hb, hy2, hlen, ?_⟩
  intro i
  have := hpt i
  rw [Nat.sub_self, ← Finset.range_eq_Ico] at this
  exact this

theorem unit_tri_mulVec (A : CCS) (m : Nat) (w : List ℚ) (i : Fin m) :
    (unit_tri A m).mulVec (vec w m) i = at0 w ((i : Nat) : Int) +
      ∑ c in Finset.range m, col_entry A ((i : Nat) : Int) (c : Int) * at0 w (c : Int) := by
  simp only [Matrix.mulVec, Matrix.dotProduct, unit_tri, vec, add_mul, Finset.sum_add_distrib,
    ite_mul, one_mul, zero_mul, Finset.sum_ite_eq, Finset.mem_univ, if_true]
  congr 1
  exact Fin.sum_univ_eq_sum_range
    (fun c => col_entry A ((i : Nat) : Int) (c : Int) * at0 w (c : Int)) m

/-- Run of the sparse fine-block solve: the fine block applied to the new `b_y1` gives
the old one. -/
theorem sparse_solve_run (lv : Level) (m : Nat) (s : St) (hok : sparse_ok lv m)
    (hy : (m : Int) ≤ (s.b_y1.length : Int)) :
    ∃ s2, sparse_solve lv lv.L.nrows s = .ok s2 ∧ s2.b = s.b ∧ s2.y2 = s.y2 ∧
      s2.b_y1.length = s.b_y1.length ∧
      (fine_matrix lv m).mulVec (vec s2.b_y1 m) = vec s.b_y1 m := by
  obtain ⟨hm, hL, hLs, hU, hUs, hd, hdz⟩ := hok
  have hm0 : (0 : Int) ≤ (m : Int) := Int.natCast_nonneg m
  obtain ⟨s1, r1, b1, y1, l1, p1⟩ := fwd_sweep_run lv.L m s hm0 hL hLs hy
  obtain ⟨s2, r2, b2, y2, u2⟩ := div_run lv m s1 hd (by rw [l1]; exact hy)
  obtain ⟨s3, r3, b3, y3, l3, p3⟩ := bwd_sweep_run lv.U m s2 hm0 hU hUs
    (by rw [u2.1, l1]; exact hy)
  refine ⟨s3, ?_, (b3.trans b2).trans b1, (y3.trans y2).trans y1,
    (l3.trans u2.1).trans l1, ?_⟩
  · simp only [sparse_solve, bind, Except.bind, r1, hm, r2]
    exact r3
  · simp only [Int.toNat_ofNat] at p1 p3
    have hUz : (unit_tri lv.U m).mulVec (vec s3.b_y1 m) = vec s2.b_y1 m := by
      ext i
      rw [unit_tri_mulVec]
      exact (p3 _).symm
    have hDz : (Matrix.diagonal (vec lv.d m)).mulVec (vec s2.b_y1 m) = vec s1.b_y1 m := by
      ext i
      rw [Matrix.mulVec_diagonal]
      simp only [vec]
      have hi : ((i : Nat) : Int) < (m : Int) := by exact_mod_cast i.2
      rw [u2.2 i, if_pos ⟨by omega, by simp⟩]
      have hne := hdz ((i : Nat) : Int) (mem_positions.2 ⟨by omega, by simp⟩)
      field_simp
    have hLz : (unit_tri lv.L m).mulVec (vec s1.b_y1 m) = vec s.b_y1 m := by
      ext i
      rw [unit_tri_mulVec]
      exact (p1 _).symm
    rw [fine_matrix, ← Matrix.mulVec_mulVec, ← Matrix.mulVec_mulVec, hUz, hDz, hLz]

/-- Unfolding of `solve_milu` at an existing level. -/
theorem solve_milu_eq (M : List Level) (lvl : Nat) (offset : Int) (s : St) (lv : Level)
    (h : rd M ((lvl : Int) - 1) = some lv) :
    solve_milu M lvl offset s =
      (gather lv offset lv.L.nrows (lv.L.nrows + lv.negE.nrows) s).bind fun s =>
      (if lv.L.nrows + lv.negE.nrows > lv.L.nrows then write_back offset lv.L.nrows s
        else .ok s).bind fun s =>
      (if dense_test lv (lv.L.nrows + lv.negE.nrows) then dense_solve lv lv.L.nrows s
        else sparse_solve lv lv.L.nrows s).bind fun s =>
      (if lv.L.nrows + lv.negE.nrows > lv.L.nrows then
        (couple_E lv s).bind fun s =>
        (store_trailing lv offset lv.L.nrows (lv.L.nrows + lv.negE.nrows) s).bind fun s =>
        (solve_milu M (lvl + 1) (offset + lv.L.nrows) s).bind fun s =>
        (reload lv offset lv.L.nrows (lv.L.nrows + lv.negE.nrows) s).bind fun s =>
        (couple_F lv s).bind fun s =>
        sparse_solve lv lv.L.nrows s
      else .ok s).bind fun s =>
      scatter lv offset lv.L.nrows (lv.L.nrows + lv.negE.nrows) s := by
  rw [solve_milu]
  split
  · rename_i h2
    rw [h] at h2
    exact absurd h2 (by simp)
  · rename_i lv2 h2
    rw [h] at h2
    have : lv = lv2 := by injection h2
    subst this
    rfl

/-- A level without trailing block: gather, fine-block solve, scatter. -/
theorem solve_milu_last (M : List Level) (lvl : Nat) (offset : Int) (s : St) (lv : Level)
    (h : rd M ((lvl : Int) - 1) = some lv) (hT : lv.negE.nrows = 0) :
    solve_milu M lvl offset s =
      (gather lv offset lv.L.nrows (lv.L.nrows + lv.negE.nrows) s).bind fun s =>
      (if dense_test lv (lv.L.nrows + lv.negE.nrows) then dense_solve lv lv.L.nrows s
        else sparse_solve lv lv.L.nrows s).bind fun s =>
      scatter lv offset lv.L.nrows (lv.L.nrows + lv.negE.nrows) s := by
  rw [solve_milu_eq M lvl offset s lv h]
  have hn : ¬ (lv.L.nrows + lv.negE.nrows > lv.L.nrows) := by omega
  simp only [hn, if_false]
  cases gather lv offset lv.L.nrows (lv.L.nrows + lv.negE.nrows) s with
  | error e => rfl
  | ok s1 => simp only [Except.bind]

theorem perm_matrix_mulVec (p : List Int) (m : Nat) (f : Fin m → ℚ) (g : Int → ℚ)
    (hfg : ∀ r : Fin m, f r = g ((r : Nat) : Int)) (i : Fin m)
    (hp : 1 ≤ atI p ((i : Nat) : Int) ∧ atI p ((i : Nat) : Int) ≤ (m : Int)) :
    (perm_matrix p m).mulVec f i = g (atI p ((i : Nat) : Int) - 1) := by
  simp only [Matrix.mulVec, Matrix.dotProduct, perm_matrix, ite_mul, one_mul, zero_mul]
  have hlt : (atI p ((i : Nat) : Int) - 1).toNat < m := by omega
  rw [Finset.sum_eq_single (⟨(atI p ((i : Nat) : Int) - 1).toNat, hlt⟩ : Fin m)]
  · have : ((((atI p ((i : Nat) : Int) - 1).toNat : Nat) : Int)) = atI p ((i : Nat) : Int) - 1 := by
      omega
    simp only [this, sub_add_cancel, if_true, hfg]
  · intro r _ hr
    rw [if_neg]
    intro h
    apply hr
    apply Fin.ext
    simp only
    omega
  · intro h
    exact absurd (Finset.mem_univ _) h

theorem perm_matrix_transpose_mulVec (p : List Int) (m : Nat) (hp : perm_ok p m)
    (f : Fin m → ℚ) (g : Int → ℚ)
    (hfg : ∀ i : Fin m, f i = g (atI p ((i : Nat) : Int) - 1)) (r : Fin m) :
    (perm_matrix p m).transpose.mulVec f r = g ((r : Nat) : Int) := by
  obtain ⟨_, _, hinj, hsur⟩ := hp
  have hr : ((r : Nat) : Int) ∈ positions 0 m :=
    mem_positions.2 ⟨by omega, by have := r.2; omega⟩
  obtain ⟨i, hi, hpi⟩ := hsur _ hr
  obtain ⟨hi0, hi1⟩ := mem_positions.1 hi
  have hlt : i.toNat < m := by omega
  have hcast : ((i.toNat : Nat) : Int) = i := by omega
  simp only [Matrix.mulVec, Matrix.dotProduct, Matrix.transpose_apply, perm_matrix, ite_mul,
    one_mul, zero_mul]
  rw [Finset.sum_eq_single (⟨i.toNat, hlt⟩ : Fin m)]
  · simp only [hcast, hpi, if_true]
    rw [hfg]
    simp only [hcast, hpi, add_sub_cancel_right]
  · intro j _ hj
    rw [if_neg]
    intro h
    apply hj
    apply Fin.ext
    simp only
    have hjm : ((j : Nat) : Int) ∈ positions 0 m :=
      mem_positions.2 ⟨by omega, by have := j.2; omega⟩
    have := hinj _ hjm i hi (by rw [h, hpi])
    omega
  · intro h
    exact absurd (Finset.mem_univ _) h

theorem at0_ext {a b : List ℚ} (hlen : a.length = b.length) (h : ∀ j : Int, at0 a j = at0 b j) :
    a = b := by
  apply List.ext_getElem hlen
  intro n h1 h2
  have := h (n : Int)
  simp only [at0, rd, Int.natCast_nonneg, if_true, Int.toNat_ofNat, List.get?_eq_getElem?,
    List.getElem?_eq_getElem h1, List.getElem?_eq_getElem h2, Option.getD_some] at this
  exact this

theorem Upd_zero_eq {a a2 : List ℚ} {lo : Int} {f : Int → ℚ} (h : Upd a a2 lo 0 f) : a2 = a := by
  apply at0_ext h.1
  intro j
  rw [h.2 j, if_neg]
  simp only [Nat.cast_zero, add_zero]
  omega

/-- Run of a level without trailing block that takes the sparse path: the fine block
applied to the solved vector `z` gives the gathered right-hand side, and `b` receives
the scatter of `z`. -/
theorem single_sparse_run (M : List Level) (lvl : Nat) (offset : Int) (s : St) (lv : Level)
    (m : Nat) (h : rd M ((lvl : Int) - 1) = some lv) (hT : lv.negE.nrows = 0)
    (hsp : dense_test lv (lv.L.nrows + lv.negE.nrows) = false) (hok : sparse_ok lv m)
    (hp : gather_ok lv offset m s.b.length) (hq : scatter_ok lv offset m s.b.length)
    (hy : (m : Int) ≤ (s.b_y1.length : Int)) :
    ∃ s2, solve_milu M lvl offset s = .ok s2 ∧ s2.y2 = s.y2 ∧
      s2.b_y1.length = s.b_y1.length ∧
      (fine_matrix lv m).mulVec (vec s2.b_y1 m)
        = (fun i : Fin m => gval lv offset s.b ((i : Nat) : Int)) ∧
      Scat s.b s2.b (fun i => (atI lv.q i + offset) - 1) m (sval lv m s2.b_y1 s.y2) := by
  have hm : lv.L.nrows = (m : Int) := hok.1
  have hn : lv.L.nrows + lv.negE.nrows = (m : Int) := by omega
  have hm0 : (0 : Int) ≤ (m : Int) := Int.natCast_nonneg m
  obtain ⟨s1, r1, b1, u1, v1⟩ := gather_run lv offset s (by omega) (by omega)
    (by rw [hn]; exact hp) (by omega) (by omega)
  rw [hT] at v1
  have hy2 : s1.y2 = s.y2 := Upd_zero_eq v1
  obtain ⟨s2, r2, b2, y2, l2, p2⟩ := sparse_solve_run lv m s1 hok (by rw [u1.1]; exact hy)
  obtain ⟨s3, r3, y13, y23, S3⟩ := scatter_run lv offset s2 (by omega) (by omega)
    (by rw [hn, b2, b1]; exact hq) (by rw [l2, u1.1]; omega) (by rw [y2, hy2]; omega)
  refine ⟨s3, ?_, (y23.trans y2).trans hy2, ?_, ?_, ?_⟩
  · rw [solve_milu_last M lvl offset s lv h hT]
    simp only [r1, Except.bind, hsp, Bool.false_eq_true, if_false, r2]
    exact r3
  · rw [y13, l2, u1.1]
  · rw [y13, p2]
    ext i
    simp only [vec]
    have hi : ((i : Nat) : Int) < (m : Int) := by exact_mod_cast i.2
    rw [u1.2, if_pos ⟨by omega, by rw [hm]; simp⟩]
  · rw [hn, hm, b2, b1, y2, hy2] at S3
    rw [y13]
    exact S3

theorem gather_ok_of_perm {lv : Level} {m : Nat} {blen : Nat} (hp : perm_ok lv.p m)
    (hr : (m : Int) ≤ (lv.rowscal.length : Int)) (hb : (m : Int) ≤ (blen : Int)) :
    gather_ok lv 0 m blen := by
  obtain ⟨hlen, hrange, _, _⟩ := hp
  refine ⟨by omega, ?_⟩
  intro i hi
  simp only [Int.toNat_ofNat] at hi
  obtain ⟨h1, h2⟩ := hrange i hi
  exact ⟨h1, by omega, by omega, by omega⟩

theorem scatter_ok_of_perm {lv : Level} {m : Nat} {blen : Nat} (hq : perm_ok lv.q m)
    (hc : (m : Int) ≤ (lv.colscal.length : Int)) (hb : (m : Int) ≤ (blen : Int)) :
    scatter_ok lv 0 m blen := by
  obtain ⟨hlen, hrange, hinj, _⟩ := hq
  refine ⟨by omega, ?_, ?_⟩
  · intro i hi
    simp only [Int.toNat_ofNat] at hi
    obtain ⟨h1, h2⟩ := hrange i hi
    exact ⟨h1, by omega, by omega, by omega⟩
  · intro i hi j hj
    simp only [Int.toNat_ofNat] at hi hj
    exact hinj i hi j hj

/-- The matrix equation solved by a single sparse level at offset 0. -/
theorem single_sparse_matrix (lv : Level) (m : Nat) (b x z : List ℚ)
    (hp : perm_ok lv.p m) (hq : perm_ok lv.q m)
    (hr : scal_ok lv.rowscal m) (hc : scal_ok lv.colscal m)
    (hz : (fine_matrix lv m).mulVec (vec z m)
      = (fun i : Fin m => gval lv 0 b ((i : Nat) : Int)))
    (hx : ∀ i : Int, 0 ≤ i → i < (m : Int) →
      at0 x ((atI lv.q i + 0) - 1) = at0 z i * at0 lv.colscal (atI lv.q i - 1)) :
    (solved_matrix lv m).mulVec (vec x m) = vec b m := by
  have hmem : ∀ i : Fin m, ((i : Nat) : Int) ∈ positions 0 m := fun i =>
    mem_positions.2 ⟨by omega, by have := i.2; omega⟩
  have h1 : (Matrix.diagonal (fun i => (vec lv.colscal m i)⁻¹)).mulVec (vec x m)
      = fun r : Fin m => (at0 lv.colscal ((r : Nat) : Int))⁻¹ * at0 x ((r : Nat) : Int) := by
    ext r
    rw [Matrix.mulVec_diagonal]
    rfl
  have h2 : (perm_matrix lv.q m).mulVec
      (fun r : Fin m => (at0 lv.colscal ((r : Nat) : Int))⁻¹ * at0 x ((r : Nat) : Int))
      = vec z m := by
    ext i
    rw [perm_matrix_mulVec lv.q m _ (fun j => (at0 lv.colscal j)⁻¹ * at0 x j) (fun _ => rfl) i
      (hq.2.1 _ (hmem i))]
    have hi : ((i : Nat) : Int) < (m : Int) := by exact_mod_cast i.2
    have hx2 := hx ((i : Nat) : Int) (by omega) hi
    simp only [add_zero] at hx2
    obtain ⟨q1, q2⟩ := hq.2.1 _ (hmem i)
    have hne : at0 lv.colscal (atI lv.q ((i : Nat) : Int) - 1) ≠ 0 :=
      hc.2 _ (mem_positions.2 ⟨by omega, by omega⟩)
    rw [hx2]
    simp only [vec]
    field_simp
  have h3 : (perm_matrix lv.p m).transpose.mulVec
      (fun i : Fin m => gval lv 0 b ((i : Nat) : Int))
      = fun r : Fin m => at0 lv.rowscal ((r : Nat) : Int) * at0 b ((r : Nat) : Int) := by
    ext r
    rw [perm_matrix_transpose_mulVec lv.p m hp _ (fun j => at0 lv.rowscal j * at0 b j)
      (fun i => by simp only [gval, add_zero]) r]
  have h4 : (Matrix.diagonal (fun i => (vec lv.rowscal m i)⁻¹)).mulVec
      (fun r : Fin m => at0 lv.rowscal ((r : Nat) : Int) * at0 b ((r : Nat) : Int))
      = vec b m := by
    ext r
    rw [Matrix.mulVec_diagonal]
    have hne : at0 lv.rowscal ((r : Nat) : Int) ≠ 0 := hr.2 _ (hmem r)
    simp only [vec]
    field_simp
  rw [solved_matrix, ← Matrix.mulVec_mulVec, ← Matrix.mulVec_mulVec, ← Matrix.mulVec_mulVec,
    ← Matrix.mulVec_mulVec, h1, h2, hz, h3, h4]

/-- C2 (amended): for a single sparse level whose `L` and `U` store strictly triangular
entries, with `d` and the scalings free of zeros and `p`, `q` bijections onto `1..m`,
the solve returns `x` with `M x = b` for
`M = Drow⁻¹ * P_p^T * (L diag(d) U) * P_q * Dcol⁻¹`, where `(P_p v)[i] = v[p[i]]`. -/
theorem single_level_sparse_solves (lv : Level) (rest : List Level) (m : Nat)
    (b y1 y2 : List ℚ) (hT : lv.negE.nrows = 0)
    (hsp : dense_test lv (lv.L.nrows + lv.negE.nrows) = false) (hok : sparse_ok lv m)
    (hp : perm_ok lv.p m) (hq : perm_ok lv.q m)
    (hr : scal_ok lv.rowscal m) (hc : scal_ok lv.colscal m)
    (hb : b.length = m) (hy : (m : Int) ≤ (y1.length : Int)) :
    ∃ s2, MILUsolve (lv :: rest) b y1 y2 = .ok s2 ∧ s2.b.length = m ∧
      (solved_matrix lv m).mulVec (vec s2.b m) = vec b m := by
  have h0 : rd (lv :: rest) (((1 : Nat) : Int) - 1) = some lv := by simp [rd]
  obtain ⟨s2, hrun, _, _, hz, hS⟩ := single_sparse_run (lv :: rest) 1 0 ⟨b, y1, y2⟩ lv m h0 hT
    hsp hok (gather_ok_of_perm hp hr.1 (by simp [hb]))
    (scatter_ok_of_perm hq hc.1 (by simp [hb])) hy
  refine ⟨s2, hrun, by rw [hS.1]; exact hb, ?_⟩
  refine single_sparse_matrix lv m b s2.b s2.b_y1 hp hq hr hc hz ?_
  intro i hi0 hi1
  rw [hS.2.1 i hi0 hi1]
  simp only [sval, if_pos hi1]

theorem sampleLevel_sparse_ok : sparse_ok sampleLevel 2 := by
  refine ⟨rfl, by unfold ccs_valid; decide, by unfold strict_lower; decide,
    by unfold ccs_valid; decide, by unfold strict_upper; decide, by decide, ?_⟩
  intro i hi
  simp only [positions, List.range_succ, List.range_zero, List.nil_append, List.map_cons,
    List.map_nil, List.cons_append, List.mem_cons, List.mem_singleton] at hi
  rcases hi with rfl | rfl | h
  · norm_num [at0, rd, sampleLevel]
  · norm_num [at0, rd, sampleLevel]
  · simp at h

theorem sampleLevel_scal_ok :
    scal_ok sampleLevel.rowscal 2 ∧ scal_ok sampleLevel.colscal 2 := by
  refine ⟨⟨by decide, ?_⟩, ⟨by decide, ?_⟩⟩ <;>
  · intro i hi
    simp only [positions, List.range_succ, List.range_zero, List.nil_append, List.map_cons,
      List.map_nil, List.cons_append, List.mem_cons, List.mem_singleton] at hi
    rcases hi with rfl | rfl | h
    · norm_num [at0, rd, sampleLevel]
    · norm_num [at0, rd, sampleLevel]
    · simp at h

/-- Instance of C2 (amended): the 2x2 level `sampleLevel` with right-hand side `[1, 2]`. -/
theorem single_level_sparse_solves_witness :
    ∃ s2, MILUsolve [sampleLevel] [1, 2] [0, 0] [] = .ok s2 ∧ s2.b.length = 2 ∧
      (solved_matrix sampleLevel 2).mulVec (vec s2.b 2) = vec [1, 2] 2 :=
  single_level_sparse_solves sampleLevel [] 2 [1, 2] [0, 0] [] rfl (by decide)
    sampleLevel_sparse_ok (by unfold perm_ok; decide) (by unfold perm_ok; decide)
    sampleLevel_scal_ok.1 sampleLevel_scal_ok.2 rfl (by decide)

/-- Counterexample to C2 as stated: the 1x1 level with trivial factors and
`rowscal = [2]` meets the claim's hypotheses, the solve returns `x = [2]` for `b = [1]`,
and the claimed matrix `P_r^T * Drow * (L diag(d) U) * Dcol * P_c = [2]` gives
`M x = [4]`, not `b`. -/
theorem scaled_level_refutes_claimed_matrix :
    (scaledLevel.negE.nrows = 0 ∧
      dense_test scaledLevel (scaledLevel.L.nrows + scaledLevel.negE.nrows) = false ∧
      sparse_ok scaledLevel 1 ∧ perm_ok scaledLevel.p 1 ∧ perm_ok scaledLevel.q 1 ∧
      scal_ok scaledLevel.rowscal 1 ∧ scal_ok scaledLevel.colscal 1) ∧
    MILUsolve [scaledLevel] [1] [0] [] = .ok ⟨[2], [2], []⟩ ∧
    (claimed_matrix scaledLevel 1).mulVec (vec [2] 1) ≠ vec [1] 1 := by
  have hpos : ∀ i : Int, i ∈ positions 0 1 → i = 0 := by
    intro i hi
    have := mem_positions.1 hi
    omega
  refine ⟨⟨rfl, by decide, ?_, by unfold perm_ok; decide, by unfold perm_ok; decide, ?_, ?_⟩,
    by with_unfolding_all rfl, ?_⟩
  · refine ⟨rfl, by unfold ccs_valid; decide, by unfold strict_lower; decide,
      by unfold ccs_valid; decide, by unfold strict_upper; decide, by decide, ?_⟩
    intro i hi
    rw [hpos i hi]
    norm_num [at0, rd, scaledLevel, trivLevel]
  · refine ⟨by decide, ?_⟩
    intro i hi
    rw [hpos i hi]
    norm_num [at0, rd, scaledLevel]
  · refine ⟨by decide, ?_⟩
    intro i hi
    rw [hpos i hi]
    norm_num [at0, rd, scaledLevel, trivLevel]
  · intro h
    have h0 := congrFun h 0
    norm_num [claimed_matrix, Matrix.mulVec, Matrix.dotProduct, Matrix.mul_apply, fine_matrix,
      unit_tri, perm_matrix, vec, col_entry, col_positions, positions, entry_at, atI, at0, rd,
      scaledLevel, trivLevel, emptyCCS, idPerm, Matrix.diagonal] at h0

theorem UpdR_of_Upd {a a2 : List ℚ} {lo : Int} {k : Nat} {f : Int → ℚ} (h : Upd a a2 lo k f) :
    UpdR a a2 lo (lo + (k : Int)) f := h

theorem UpdR_empty (a : List ℚ) (lo : Int) (f : Int → ℚ) : UpdR a a lo lo f := by
  refine ⟨rfl, fun j => ?_⟩
  rw [if_neg]
  omega

theorem UpdR_step_down {a a2 : List ℚ} {lo hi : Int} {f : Int → ℚ} (h : UpdR a a2 lo hi f)
    (h0 : 0 ≤ lo - 1) (h1 : lo - 1 < (a.length : Int)) (hle : lo ≤ hi) :
    UpdR a (a2.set (lo - 1).toNat (f (lo - 1))) (lo - 1) hi f := by
  obtain ⟨hlen, hpt⟩ := h
  refine ⟨by simp [hlen], fun j => ?_⟩
  by_cases hj : j = lo - 1
  · subst hj
    rw [at0_set_eq _ h0 (by omega), if_pos]
    omega
  · rw [at0_set_ne _ h0 (fun h => hj h.symm), hpt j]
    have : (lo ≤ j ∧ j < hi) ↔ (lo - 1 ≤ j ∧ j < hi) := by omega
    simp only [this]

/-- Run of one column of the dense forward elimination: the running index moves from
`(j-1) m` to `j m`, and every entry of `b_y1` below row `j-1` loses its entry of column
`j-1` times `b_y1[j-1]`. -/
theorem dense_fwd_run (lv : Level) (m : Nat) (j : Int) (s : St) (hj1 : 1 ≤ j)
    (hjm : j ≤ (m : Int)) (hA : lv.U.val.length = m * m)
    (hy : (m : Int) ≤ (s.b_y1.length : Int)) :
    ∃ s2, dense_fwd lv m j (s, (j - 1) * (m : Int)) = .ok (s2, j * (m : Int)) ∧ s2.b = s.b ∧
      s2.y2 = s.y2 ∧ s2.b_y1.length = s.b_y1.length ∧
      ∀ i : Int, at0 s2.b_y1 i
        = at0 s.b_y1 i - lower_entry lv.U.val m i (j - 1) * at0 s.b_y1 (j - 1) := by
  obtain ⟨⟨s2, k2⟩, hrun, hk, hb, hy2, hU⟩ := forUp_inv (dense_fwd_inner lv j)
    ((m : Int) - j).toNat j
    (fun t (wk : St × Int) => wk.2 = (j - 1) * (m : Int) + j + (t : Int) ∧ wk.1.b = s.b ∧
      wk.1.y2 = s.y2 ∧
      Upd s.b_y1 wk.1.b_y1 j t
        (fun i => at0 s.b_y1 i - dense_at lv.U.val m i (j - 1) * at0 s.b_y1 (j - 1)))
    (s, (j - 1) * (m : Int) + j)
    ⟨by simp, rfl, rfl, Upd_zero _ _ _⟩
    (by
      intro t ⟨w, k⟩ ht ⟨hk, hwb, hw2, hU⟩
      simp only at hk hwb hw2 hU
      have ht0 : (0 : Int) ≤ (t : Int) := Int.natCast_nonneg t
      have hAlen : (lv.U.val.length : Int) = (m : Int) * (m : Int) := by
        rw [hA]
        push_cast
        ring
      have hkb : 0 ≤ k ∧ k < (lv.U.val.length : Int) := by
        rw [hAlen, hk]
        have hjt : j + (t : Int) < (m : Int) := by omega
        have g1 : 0 ≤ (j - 1) * (m : Int) := mul_nonneg (by omega) (by omega)
        have g2 : j * (m : Int) ≤ (m : Int) * (m : Int) :=
          mul_le_mul_of_nonneg_right hjm (by omega)
        have g3 : (j - 1) * (m : Int) = j * (m : Int) - (m : Int) := by ring
        constructor
        · omega
        · omega
      have e1 : load w.b_y1 (j + (t : Int)) w = .ok (at0 s.b_y1 (j + t)) := by
        rw [← Upd_next hU (j + t) le_rfl]
        exact load_ok (rd_at0 (by omega) (by rw [hU.1]; omega))
      have e2 : load lv.U.val k w = .ok (dense_at lv.U.val m (j + t) (j - 1)) := by
        have : dense_at lv.U.val m (j + t) (j - 1) = at0 lv.U.val k := by
          rw [dense_at, hk]
          congr 1
          ring
        rw [this]
        exact load_ok (rd_at0 hkb.1 hkb.2)
      have e3 : load w.b_y1 (j - 1) w = .ok (at0 s.b_y1 (j - 1)) := by
        have : at0 w.b_y1 (j - 1) = at0 s.b_y1 (j - 1) := by
          rw [hU.2, if_neg]
          omega
        rw [← this]
        exact load_ok (rd_at0 (by omega) (by rw [hU.1]; omega))
      have e4 := store_y1_ok (i := j + (t : Int)) (s := w)
        (at0 s.b_y1 (j + t) - dense_at lv.U.val m (j + t) (j - 1) * at0 s.b_y1 (j - 1))
        (by omega) (by rw [hU.1]; omega)
      refine ⟨_, (by simp only [dense_fwd_inner, e1, e2, e3, e4, bind, Except.bind, pure,
        Except.pure]; rfl), ?_⟩
      refine ⟨?_, hwb, hw2, ?_⟩
      · simp only [hk]
        push_cast
        ring
      · exact Upd_step hU (by omega) (by omega))
  simp only at hk hb hy2 hU
  refine ⟨s2, ?_, hb, hy2, hU.1, ?_⟩
  · have hk3 : k2 = j * (m : Int) := by
      rw [hk]
      have : ((((m : Int) - j).toNat : Nat) : Int) = (m : Int) - j := by omega
      rw [this]
      ring
    rw [← hk3]
    simp only [dense_fwd]
    exact hrun
  · intro i
    rw [hU.2 i]
    have : ((((m : Int) - j).toNat : Nat) : Int) = (m : Int) - j := by omega
    rw [this]
    by_cases hi : j ≤ i ∧ i < j + ((m : Int) - j)
    · rw [if_pos hi, lower_entry, if_pos ⟨by omega, by omega⟩]
    · rw [if_neg hi, lower_entry, if_neg (by omega)]
      ring

/-- Run of the dense forward elimination (lines 65-72): the old `b_y1` is the unit lower
factor applied to the new one; the running index ends at `m * m`. -/
theorem dense_fwd_loop_run (lv : Level) (m : Nat) (s : St) (hA : lv.U.val.length = m * m)
    (hy : (m : Int) ≤ (s.b_y1.length : Int)) :
    ∃ s2, forUp (dense_fwd lv m) 1 m (s, 0) = .ok (s2, (m : Int) * (m : Int)) ∧ s2.b = s.b ∧
      s2.y2 = s.y2 ∧ s2.b_y1.length = s.b_y1.length ∧
      ∀ i : Int, at0 s.b_y1 i = at0 s2.b_y1 i +
        ∑ c in Finset.range m, lower_entry lv.U.val m i (c : Int) * at0 s2.b_y1 (c : Int) := by
  obtain ⟨⟨s2, k2⟩, hrun, hk, hb, hy2, hlen, hpt⟩ := forUp_inv (dense_fwd lv m) m 1
    (fun k (wk : St × Int) => wk.2 = (k : Int) * (m : Int) ∧ wk.1.b = s.b ∧ wk.1.y2 = s.y2 ∧
      wk.1.b_y1.length = s.b_y1.length ∧
      ∀ i : Int, at0 s.b_y1 i = at0 wk.1.b_y1 i +
        ∑ c in Finset.range k, lower_entry lv.U.val m i (c : Int) * at0 wk.1.b_y1 (c : Int))
    (s, 0) ⟨by simp, rfl, rfl, rfl, fun i => by simp⟩
    (by
      intro k ⟨w, kk⟩ hk ⟨hkk, hwb, hw2, hlen, hinv⟩
      simp only at hkk hwb hw2 hlen hinv
      have hjk : (1 : Int) + (k : Int) - 1 = (k : Int) := by ring
      obtain ⟨w2, hrun, hb2, hy2, hlen2, hpt⟩ := dense_fwd_run lv m (1 + (k : Int)) w (by omega)
        (by omega) hA (by rw [hlen]; exact hy)
      rw [hjk] at hrun hpt
      refine ⟨(w2, (1 + (k : Int)) * (m : Int)), (by rw [hkk]; exact hrun), ?_⟩
      refine ⟨?_, hb2.trans hwb, hy2.trans hw2, hlen2.trans hlen, ?_⟩
      · simp only
        push_cast
        ring
      · simp only
        rw [Finset.range_succ]
        refine sweep_step (lower_entry lv.U.val m) (at0 s.b_y1) (at0 w.b_y1) (at0 w2.b_y1)
          (Finset.range k) k (by simp) hinv hpt ?_
        intro c2 h2
        have : c2 ≤ k := by
          rcases Finset.mem_insert.1 h2 with h | h
          · omega
          · exact le_of_lt (Finset.mem_range.1 h)
        rw [lower_entry, if_neg]
        omega)
  simp only at hk hb hy2 hlen hpt
  rw [hk] at hrun
  exact ⟨s2, hrun, hb, hy2, hlen, hpt⟩

/-- Run of one column of the dense back substitution: `b_y1[j]` is divided by the diagonal
entry, the entries above it lose their entry of column `j` times the new `b_y1[j]`, and
the running index moves from the diagonal of column `j` to that of column `j - 1`. -/
theorem dense_bwd_run (lv : Level) (m : Nat) (j : Int) (s : St) (hj0 : 0 ≤ j)
    (hjm : j < (m : Int)) (hA : lv.U.val.length = m * m)
    (hy : (m : Int) ≤ (s.b_y1.length : Int)) :
    ∃ s2, dense_bwd lv m j (s, j * (m : Int) + j)
        = .ok (s2, (j - 1) * (m : Int) + (j - 1)) ∧ s2.b = s.b ∧
      s2.y2 = s.y2 ∧ s2.b_y1.length = s.b_y1.length ∧
      at0 s2.b_y1 j = at0 s.b_y1 j / dense_at lv.U.val m j j ∧
      (∀ i : Int, 0 ≤ i → i < j →
        at0 s2.b_y1 i = at0 s.b_y1 i - dense_at lv.U.val m i j * at0 s2.b_y1 j) ∧
      (∀ i : Int, i < 0 ∨ j < i → at0 s2.b_y1 i = at0 s.b_y1 i) := by
  have hAlen : (lv.U.val.length : Int) = (m : Int) * (m : Int) := by
    rw [hA]
    push_cast
    ring
  have g2 : (j + 1) * (m : Int) ≤ (m : Int) * (m : Int) :=
    mul_le_mul_of_nonneg_right (by omega) (by omega)
  have g3 : (j + 1) * (m : Int) = j * (m : Int) + (m : Int) := by ring
  have g1 : 0 ≤ j * (m : Int) := mul_nonneg hj0 (by omega)
  have e1 : load s.b_y1 j s = .ok (at0 s.b_y1 j) := load_ok (rd_at0 hj0 (by omega))
  have e2 : load lv.U.val (j * (m : Int) + j) s = .ok (dense_at lv.U.val m j j) :=
    load_ok (rd_at0 (by omega) (by omega))
  have e3 := store_y1_ok (i := j) (s := s) (at0 s.b_y1 j / dense_at lv.U.val m j j) hj0
    (by omega)
  obtain ⟨s1, hs1⟩ : ∃ s1 : St, s1 =
      { s with b_y1 := s.b_y1.set j.toNat (at0 s.b_y1 j / dense_at lv.U.val m j j) } :=
    ⟨_, rfl⟩
  rw [← hs1] at e3
  have hs1len : s1.b_y1.length = s.b_y1.length := by
    rw [hs1]
    simp
  have hs1j : at0 s1.b_y1 j = at0 s.b_y1 j / dense_at lv.U.val m j j := by
    rw [hs1]
    exact at0_set_eq _ hj0 (by omega)
  have hs1ne : ∀ i : Int, i ≠ j → at0 s1.b_y1 i = at0 s.b_y1 i := by
    intro i hi
    rw [hs1]
    exact at0_set_ne _ hj0 (fun h => hi h.symm)
  obtain ⟨⟨s2, k2⟩, hrun, hk, hb, hy2, hU⟩ := forDown_inv (dense_bwd_inner lv j) j.toNat j
    (fun t (wk : St × Int) => wk.2 = j * (m : Int) + j - (t : Int) ∧ wk.1.b = s1.b ∧
      wk.1.y2 = s1.y2 ∧
      UpdR s1.b_y1 wk.1.b_y1 (j - (t : Int)) j
        (fun i => at0 s1.b_y1 i - dense_at lv.U.val m i j * at0 s1.b_y1 j))
    (s1, j * (m : Int) + j)
    ⟨by simp, rfl, rfl, by simpa using UpdR_empty s1.b_y1 j _⟩
    (by
      intro t ⟨w, k⟩ ht ⟨hk, hwb, hw2, hU⟩
      simp only at hk hwb hw2 hU
      have ht0 : (0 : Int) ≤ (t : Int) := Int.natCast_nonneg t
      have hlo : j - (t : Int) - 1 < j - (t : Int) := by omega
      have f1 : load w.b_y1 (j - (t : Int) - 1) w = .ok (at0 s1.b_y1 (j - t - 1)) := by
        have : at0 w.b_y1 (j - t - 1) = at0 s1.b_y1 (j - t - 1) := by
          rw [hU.2, if_neg]
          omega
        rw [← this]
        exact load_ok (rd_at0 (by omega) (by rw [hU.1, hs1len]; omega))
      have f2 : load lv.U.val (k - 1) w = .ok (dense_at lv.U.val m (j - t - 1) j) := by
        have : dense_at lv.U.val m (j - t - 1) j = at0 lv.U.val (k - 1) := by
          rw [dense_at, hk]
          congr 1
          ring
        rw [this]
        exact load_ok (rd_at0 (by omega) (by omega))
      have f3 : load w.b_y1 j w = .ok (at0 s1.b_y1 j) := by
        have : at0 w.b_y1 j = at0 s1.b_y1 j := by
          rw [hU.2, if_neg]
          omega
        rw [← this]
        exact load_ok (rd_at0 hj0 (by rw [hU.1, hs1len]; omega))
      have f4 := store_y1_ok (i := j - (t : Int) - 1) (s := w)
        (at0 s1.b_y1 (j - t - 1) - dense_at lv.U.val m (j - t - 1) j * at0 s1.b_y1 j)
        (by omega) (by rw [hU.1, hs1len]; omega)
      refine ⟨_, (by simp only [dense_bwd_inner, f1, f2, f3, f4, bind, Except.bind, pure,
        Except.pure]; rfl), ?_⟩
      refine ⟨?_, hwb, hw2, ?_⟩
      · simp only [hk]
        push_cast
        ring
      · have := UpdR_step_down hU (by omega) (by rw [hs1len]; omega) (by omega)
        have hcast : j - ((t + 1 : Nat) : Int) = j - (t : Int) - 1 := by
          push_cast
          ring
        simp only [hcast]
        exact this)
  simp only at hk hb hy2 hU
  have hjt : ((j.toNat : Nat) : Int) = j := by omega
  rw [hjt] at hk hU
  refine ⟨s2, ?_, ?_, ?_, ?_, ?_, ?_, ?_⟩
  · simp only [dense_bwd, e1, e2, e3, bind, Except.bind, hrun, pure, Except.pure]
    congr 2
    rw [hk]
    ring
  · rw [hb, hs1]
  · rw [hy2, hs1]
  · rw [hU.1, hs1len]
  · rw [hU.2, if_neg (by omega), hs1j]
  · intro i hi0 hij
    have : at0 s2.b_y1 j = at0 s1.b_y1 j := by
      rw [hU.2, if_neg (by omega)]
    rw [this, hU.2, if_pos ⟨by omega, hij⟩]
    simp only
    rw [hs1ne i (by omega)]
  · intro i hi
    rw [hU.2, if_neg (by omega), hs1ne i (by omega)]

theorem back_step (U : Int → Int → ℚ) (y0 w w2 : Int → ℚ) (m c : ℕ) (hc : c < m)
    (hinv : ∀ i : Int, 0 ≤ i → i < (m : Int) →
      y0 i = (if ((c + 1 : Nat) : Int) ≤ i then 0 else w i) +
        ∑ c2 in Finset.Ico (c + 1) m, U i (c2 : Int) * w (c2 : Int))
    (hdiag : U (c : Int) (c : Int) ≠ 0)
    (hup : ∀ i : Int, (c : Int) < i → U i (c : Int) = 0)
    (h1 : w2 (c : Int) = w (c : Int) / U (c : Int) (c : Int))
    (h2 : ∀ i : Int, 0 ≤ i → i < (c : Int) → w2 i = w i - U i (c : Int) * w2 (c : Int))
    (h3 : ∀ i : Int, (c : Int) < i → w2 i = w i) :
    ∀ i : Int, 0 ≤ i → i < (m : Int) →
      y0 i = (if (c : Int) ≤ i then 0 else w2 i) +
        ∑ c2 in Finset.Ico c m, U i (c2 : Int) * w2 (c2 : Int) := by
  intro i hi0 him
  have hins : Finset.Ico c m = insert c (Finset.Ico (c + 1) m) := by
    rw [Nat.Ico_insert_succ_left hc]
  have hnot : c ∉ Finset.Ico (c + 1) m := by simp
  have hsum : ∑ c2 in Finset.Ico (c + 1) m, U i (c2 : Int) * w2 (c2 : Int)
      = ∑ c2 in Finset.Ico (c + 1) m, U i (c2 : Int) * w (c2 : Int) := by
    apply Finset.sum_congr rfl
    intro c2 h
    have := (Finset.mem_Ico.1 h).1
    rw [h3 (c2 : Int) (by omega)]
  rw [hins, Finset.sum_insert hnot, hsum, hinv i hi0 him]
  push_cast
  rcases lt_trichotomy i (c : Int) with hlt | heq | hgt
  · rw [if_neg (by omega), if_neg (by omega), h2 i hi0 hlt]
    ring
  · subst heq
    rw [if_neg (by omega), if_pos le_rfl, h1]
    field_simp
  · rw [if_pos (by omega), if_pos (by omega), hup i hgt]
    ring

/-- Run of the dense back substitution (lines 74-83): the old `b_y1` is the upper factor
applied to the new one. -/
theorem dense_bwd_loop_run (lv : Level) (m : Nat) (s : St) (hA : lv.U.val.length = m * m)
    (hd : ∀ i ∈ positions 0 m, dense_at lv.U.val m i i ≠ 0)
    (hy : (m : Int) ≤ (s.b_y1.length : Int)) :
    ∃ s2 k2, forDown (dense_bwd lv m) ((m : Int) - 1) m (s, (m : Int) * (m : Int) - 1)
        = .ok (s2, k2) ∧ s2.b = s.b ∧
      s2.y2 = s.y2 ∧ s2.b_y1.length = s.b_y1.length ∧
      (∀ i : Int, 0 ≤ i → i < (m : Int) → at0 s.b_y1 i =
        ∑ c in Finset.range m, upper_entry lv.U.val m i (c : Int) * at0 s2.b_y1 (c : Int)) ∧
      (∀ i : Int, i < 0 ∨ (m : Int) ≤ i → at0 s2.b_y1 i = at0 s.b_y1 i) := by
  obtain ⟨⟨s2, k2⟩, hrun, hk, hb, hy2, hlen, hpt, hout⟩ := forDown_inv (dense_bwd lv m) m
    ((m : Int) - 1)
    (fun k (wk : St × Int) =>
      wk.2 = ((m : Int) - 1 - (k : Int)) * (m : Int) + ((m : Int) - 1 - (k : Int)) ∧
      wk.1.b = s.b ∧ wk.1.y2 = s.y2 ∧ wk.1.b_y1.length = s.b_y1.length ∧
      (∀ i : Int, 0 ≤ i → i < (m : Int) →
        at0 s.b_y1 i = (if (((m - k : Nat)) : Int) ≤ i then 0 else at0 wk.1.b_y1 i) +
          ∑ c in Finset.Ico (m - k) m,
            upper_entry lv.U.val m i (c : Int) * at0 wk.1.b_y1 (c : Int)) ∧
      (∀ i : Int, i < 0 ∨ (m : Int) ≤ i → at0 wk.1.b_y1 i = at0 s.b_y1 i))
    (s, (m : Int) * (m : Int) - 1)
    ⟨by simp only [Nat.cast_zero, sub_zero]; ring, rfl, rfl, rfl,
      fun i hi0 him => by
        simp only [Nat.sub_zero, Finset.Ico_self, Finset.sum_empty, add_zero]
        rw [if_neg (by omega)],
      fun _ _ => rfl⟩
    (by
      intro k ⟨w, kk⟩ hk ⟨hkk, hwb, hw2, hlen, hinv, hout⟩
      simp only at hkk hwb hw2 hlen hinv hout
      have hc : ((m - (k + 1) : Nat) : Int) = (m : Int) - 1 - (k : Int) := by omega
      obtain ⟨w2, hrun, hb2, hy2, hlen2, q1, q2, q3⟩ := dense_bwd_run lv m
        ((m : Int) - 1 - (k : Int)) w (by omega) (by omega) hA (by rw [hlen]; exact hy)
      refine ⟨(w2, ((m : Int) - 1 - (k : Int) - 1) * (m : Int)
        + ((m : Int) - 1 - (k : Int) - 1)), (by rw [hkk]; exact hrun), ?_⟩
      refine ⟨?_, hb2.trans hwb, hy2.trans hw2, hlen2.trans hlen, ?_, ?_⟩
      · simp only
        push_cast
        ring
      · simp only
        have hmk : m - k = (m - (k + 1)) + 1 := by omega
        rw [hmk] at hinv
        rw [← hc] at q1 q2 q3
        have hdd := hd ((m - (k + 1) : Nat) : Int) (mem_positions.2 ⟨by omega, by omega⟩)
        refine back_step (upper_entry lv.U.val m) (at0 s.b_y1) (at0 w.b_y1) (at0 w2.b_y1) m
          (m - (k + 1)) (by omega) hinv ?_ ?_ ?_
          (fun i hi0 hi1 => by
            rw [upper_entry, if_pos ⟨hi0, by omega⟩]
            exact q2 i hi0 hi1)
          (fun i hi => q3 i (Or.inr hi))
        · rw [upper_entry, if_pos ⟨by omega, le_rfl⟩]
          exact hdd
        · intro i hi
          rw [upper_entry, if_neg (by omega)]
        · rw [q1, upper_entry, if_pos ⟨by omega, le_rfl⟩]
      · simp only
        intro i hi
        rw [q3 i (by omega), hout i hi])
  simp only at hk hb hy2 hlen hpt hout
  refine ⟨s2, k2, hrun, hb, hy2, hlen, ?_, hout⟩
  intro i hi0 him
  have := hpt i hi0 him
  rw [Nat.sub_self, ← Finset.range_eq_Ico, if_pos (by simpa using hi0)] at this
  rw [this]
  ring

theorem wrap32_small (x : Int) (h0 : 0 ≤ x) (h1 : x < 2147483648) : wrap32 x = x := by
  unfold wrap32
  omega

/-- Run of the dense fine-block solve: `Lp * Up` applied to the new `b_y1` gives the old
one. -/
theorem dense_solve_run (lv : Level) (m : Nat) (s : St) (hok : dense_ok lv m)
    (hy : (m : Int) ≤ (s.b_y1.length : Int)) :
    ∃ s2, dense_solve lv lv.L.nrows s = .ok s2 ∧ s2.b = s.b ∧ s2.y2 = s.y2 ∧
      s2.b_y1.length = s.b_y1.length ∧
      (dense_lower lv.U.val m * dense_upper lv.U.val m).mulVec (vec s2.b_y1 m)
        = vec s.b_y1 m := by
  obtain ⟨hm, hA, hrep, hd⟩ := hok
  obtain ⟨s1, r1, b1, y1, l1, p1⟩ := dense_fwd_loop_run lv m s hA hy
  obtain ⟨s2, k2, r2, b2, y2, l2, p2, _⟩ := dense_bwd_loop_run lv m s1 hA hd
    (by rw [l1]; exact hy)
  have hmul : mul32 (m : Int) (m : Int) = (m : Int) * (m : Int) := by
    unfold mul32
    apply wrap32_small
    · positivity
    · have : ((m * m : Nat) : Int) < 2147483648 := by omega
      push_cast at this
      exact this
  refine ⟨s2, ?_, b2.trans b1, y2.trans y1, l2.trans l1, ?_⟩
  · simp only [dense_solve, hm, Int.toNat_ofNat, r1, bind, Except.bind, hmul, r2, pure,
      Except.pure]
  · have hUz : (dense_upper lv.U.val m).mulVec (vec s2.b_y1 m) = vec s1.b_y1 m := by
      ext i
      have hi : ((i : Nat) : Int) < (m : Int) := by exact_mod_cast i.2
      simp only [Matrix.mulVec, Matrix.dotProduct, dense_upper, vec]
      rw [p2 _ (by omega) hi]
      exact Fin.sum_univ_eq_sum_range
        (fun c => upper_entry lv.U.val m ((i : Nat) : Int) (c : Int) * at0 s2.b_y1 (c : Int)) m
    have hLz : (dense_lower lv.U.val m).mulVec (vec s1.b_y1 m) = vec s.b_y1 m := by
      ext i
      simp only [Matrix.mulVec, Matrix.dotProduct, dense_lower, vec, add_mul,
        Finset.sum_add_distrib, ite_mul, one_mul, zero_mul, Finset.sum_ite_eq, Finset.mem_univ,
        if_true]
      refine Eq.trans ?_ (p1 ((i : Nat) : Int)).symm
      refine congrArg (fun t => at0 s1.b_y1 ((i : Nat) : Int) + t) ?_
      exact Fin.sum_univ_eq_sum_range
        (fun c => lower_entry lv.U.val m ((i : Nat) : Int) (c : Int) * at0 s1.b_y1 (c : Int)) m
    rw [← Matrix.mulVec_mulVec, hUz, hLz]

/-- Run of a level without trailing block, for any fine-block solve that inverts a
matrix `F`: `F` applied to the solved vector gives the gathered right-hand side, and `b`
receives the scatter of the solved vector. -/
theorem single_level_run (M : List Level) (lvl : Nat) (offset : Int) (s : St) (lv : Level)
    (m : Nat) (F : Matrix (Fin m) (Fin m) ℚ) (h : rd M ((lvl : Int) - 1) = some lv)
    (hT : lv.negE.nrows = 0) (hm : lv.L.nrows = (m : Int))
    (hfine : ∀ s1 : St, (m : Int) ≤ (s1.b_y1.length : Int) →
      ∃ s2, (if dense_test lv (lv.L.nrows + lv.negE.nrows) then dense_solve lv lv.L.nrows s1
          else sparse_solve lv lv.L.nrows s1) = .ok s2 ∧ s2.b = s1.b ∧ s2.y2 = s1.y2 ∧
        s2.b_y1.length = s1.b_y1.length ∧ F.mulVec (vec s2.b_y1 m) = vec s1.b_y1 m)
    (hp : gather_ok lv offset m s.b.length) (hq : scatter_ok lv offset m s.b.length)
    (hy : (m : Int) ≤ (s.b_y1.length : Int)) :
    ∃ s2, solve_milu M lvl offset s = .ok s2 ∧ s2.y2 = s.y2 ∧
      s2.b_y1.length = s.b_y1.length ∧
      F.mulVec (vec s2.b_y1 m) = (fun i : Fin m => gval lv offset s.b ((i : Nat) : Int)) ∧
      Scat s.b s2.b (fun i => (atI lv.q i + offset) - 1) m (sval lv m s2.b_y1 s.y2) := by
  have hn : lv.L.nrows + lv.negE.nrows = (m : Int) := by omega
  have hm0 : (0 : Int) ≤ (m : Int) := Int.natCast_nonneg m
  obtain ⟨s1, r1, b1, u1, v1⟩ := gather_run lv offset s (by omega) (by omega)
    (by rw [hn]; exact hp) (by omega) (by omega)
  rw [hT] at v1
  have hy2 : s1.y2 = s.y2 := Upd_zero_eq v1
  obtain ⟨s2, r2, b2, y2, l2, p2⟩ := hfine s1 (by rw [u1.1]; exact hy)
  obtain ⟨s3, r3, y13, y23, S3⟩ := scatter_run lv offset s2 (by omega) (by omega)
    (by rw [hn, b2, b1]; exact hq) (by rw [l2, u1.1]; omega) (by rw [y2, hy2]; omega)
  refine ⟨s3, ?_, (y23.trans y2).trans hy2, ?_, ?_, ?_⟩
  · rw [solve_milu_last M lvl offset s lv h hT]
    simp only [r1, Except.bind, r2]
    exact r3
  · rw [y13, l2, u1.1]
  · rw [y13, p2]
    ext i
    simp only [vec]
    have hi : ((i : Nat) : Int) < (m : Int) := by exact_mod_cast i.2
    rw [u1.2, if_pos ⟨by omega, by rw [hm]; simp⟩]
  · rw [hn, hm, b2, b1, y2, hy2] at S3
    rw [y13]
    exact S3

theorem idPerm_length (m : Nat) : (idPerm m).length = m := by
  simp [idPerm]

theorem atI_idPerm (m : Nat) (i : Int) (h0 : 0 ≤ i) (h1 : i < (m : Int)) :
    atI (idPerm m) i = i + 1 := by
  have h2 : i.toNat < m := by omega
  simp only [atI, rd, h0, if_true, idPerm, List.get?_eq_getElem?, List.getElem?_map,
    List.getElem?_range h2, Option.map_some', Option.getD_some]
  omega

theorem at0_replicate_one (m : Nat) (i : Int) (h0 : 0 ≤ i) (h1 : i < (m : Int)) :
    at0 (List.replicate m (1 : ℚ)) i = 1 := by
  have h2 : i.toNat < m := by omega
  simp [at0, rd, h0, List.getElem?_replicate, h2]

theorem perm_ok_idPerm (m : Nat) : perm_ok (idPerm m) m := by
  refine ⟨by simp [idPerm_length], ?_, ?_, ?_⟩
  · intro i hi
    obtain ⟨h0, h1⟩ := mem_positions.1 hi
    rw [atI_idPerm m i h0 (by omega)]
    omega
  · intro i hi j hj h
    obtain ⟨h0, h1⟩ := mem_positions.1 hi
    obtain ⟨g0, g1⟩ := mem_positions.1 hj
    rw [atI_idPerm m i h0 (by omega), atI_idPerm m j g0 (by omega)] at h
    omega
  · intro r hr
    obtain ⟨h0, h1⟩ := mem_positions.1 hr
    exact ⟨r, hr, atI_idPerm m r h0 (by omega)⟩

/-- C3: a single dense level (empty `L.val`, `U.val` a buffer of `nB * nB` entries read
column-major, nonzero diagonal) with identity permutations and unit scaling leaves in
`rhs` the `x` with `(Lp Up) x = b`, `Lp` the unit lower factor carrying the strictly
lower part of the buffer and `Up` its upper triangle including the diagonal. -/
theorem single_level_dense_solves (lv : Level) (rest : List Level) (m : Nat)
    (b y1 y2 : List ℚ) (hT : lv.negE.nrows = 0) (hL : lv.L.val = [])
    (hok : dense_ok lv m) (hp : lv.p = idPerm m) (hq : lv.q = idPerm m)
    (hr : lv.rowscal = List.replicate m 1) (hc : lv.colscal = List.replicate m 1)
    (hb : b.length = m) (hy : (m : Int) ≤ (y1.length : Int)) :
    ∃ s2, MILUsolve (lv :: rest) b y1 y2 = .ok s2 ∧ s2.b.length = m ∧
      (dense_lower lv.U.val m * dense_upper lv.U.val m).mulVec (vec s2.b m) = vec b m := by
  have h0 : rd (lv :: rest) (((1 : Nat) : Int) - 1) = some lv := by simp [rd]
  have hm : lv.L.nrows = (m : Int) := hok.1
  have hdt : dense_test lv (lv.L.nrows + lv.negE.nrows) = true := by
    have hmul : mul32 (m : Int) (m : Int) = (m : Int) * (m : Int) := by
      unfold mul32
      apply wrap32_small
      · positivity
      · have : ((m * m : Nat) : Int) < 2147483648 := by
          have := hok.2.2.1
          omega
        push_cast at this
        exact this
    simp only [dense_test, hL, List.length_nil, Nat.cast_zero, decide_True, Bool.true_and,
      hT, add_zero, hm, hmul, hok.2.1, decide_eq_true_eq]
    push_cast
    ring
  have hpo : perm_ok lv.p m := by rw [hp]; exact perm_ok_idPerm m
  have hqo : perm_ok lv.q m := by rw [hq]; exact perm_ok_idPerm m
  obtain ⟨s2, hrun, _, _, hz, hS⟩ := single_level_run (lv :: rest) 1 0 ⟨b, y1, y2⟩ lv m
    (dense_lower lv.U.val m * dense_upper lv.U.val m) h0 hT hm
    (fun s1 h1 => by
      rw [if_pos hdt]
      exact dense_solve_run lv m s1 hok h1)
    (gather_ok_of_perm hpo (by rw [hr]; simp) (by simp [hb]))
    (scatter_ok_of_perm hqo (by rw [hc]; simp) (by simp [hb])) hy
  refine ⟨s2, hrun, by rw [hS.1]; exact hb, ?_⟩
  have hx : vec s2.b m = vec s2.b_y1 m := by
    ext i
    have hi : ((i : Nat) : Int) < (m : Int) := by exact_mod_cast i.2
    have := hS.2.1 ((i : Nat) : Int) (by omega) hi
    simp only [hq, atI_idPerm m _ (Int.natCast_nonneg _) hi, add_zero, add_sub_cancel_right, sval,
      if_pos hi, hc, at0_replicate_one m _ (Int.natCast_nonneg _) hi, mul_one] at this
    exact this
  rw [hx, hz]
  ext i
  have hi : ((i : Nat) : Int) < (m : Int) := by exact_mod_cast i.2
  simp only [gval, hp, atI_idPerm m _ (Int.natCast_nonneg _) hi, add_zero, add_sub_cancel_right,
    hr, at0_replicate_one m _ (Int.natCast_nonneg _) hi, one_mul, vec]

/-- Instance of C3: the packed 2x2 buffer `[2, 3, 1, 4]` (`Lp = [[1,0],[3,1]]`,
`Up = [[2,1],[0,4]]`) with right-hand side `[1, 2]`. -/
theorem single_level_dense_solves_witness :
    ∃ s2, MILUsolve [denseLevel] [1, 2] [0, 0] [] = .ok s2 ∧ s2.b.length = 2 ∧
      (dense_lower denseLevel.U.val 2 * dense_upper denseLevel.U.val 2).mulVec (vec s2.b 2)
        = vec [1, 2] 2 :=
  single_level_dense_solves denseLevel [] 2 [1, 2] [0, 0] [] rfl rfl
    ⟨rfl, rfl, by decide, by
      intro i hi
      simp only [positions, List.range_succ, List.range_zero, List.nil_append, List.map_cons,
        List.map_nil, List.cons_append, List.mem_cons, List.mem_singleton] at hi
      rcases hi with rfl | rfl | h
      · norm_num [dense_at, at0, rd, denseLevel]
      · have h3 : Int.toNat 3 = 3 := rfl
        norm_num [dense_at, at0, rd, denseLevel, h3]
      · simp at h⟩
    rfl rfl rfl rfl rfl (by decide)

theorem crs_valid_mono {row_ptr col_ind : List Int} {val : List ℚ} {xlen xlen2 : Nat}
    {nrows : Int} (h : crs_valid row_ptr col_ind val xlen nrows) (hle : xlen ≤ xlen2) :
    crs_valid row_ptr col_ind val xlen2 nrows := by
  obtain ⟨h1, h2⟩ := h
  refine ⟨h1, fun i hi j hj => ?_⟩
  obtain ⟨a1, a2, a3, a4, a5⟩ := h2 i hi j hj
  exact ⟨a1, a2, a3, a4, by omega⟩

/-- The sum of a row's terms is the row of the represented matrix applied to `x`. -/
theorem crs_row_sum (A : CRS) (x : List ℚ) (c : Nat) (l : List Int)
    (hl : ∀ k ∈ l, 1 ≤ atI A.col_ind (k - 1) ∧ atI A.col_ind (k - 1) ≤ (c : Int)) :
    (l.map (fun k => at0 A.val (k - 1) * at0 x (atI A.col_ind (k - 1) - 1))).sum
      = ∑ j in Finset.range c, (l.map (crs_entry_at A (j : Int))).sum * at0 x (j : Int) := by
  induction l with
  | nil => simp
  | cons a l ih =>
    simp only [List.map_cons, List.sum_cons, add_mul, Finset.sum_add_distrib]
    rw [ih (fun k hk => hl k (List.mem_cons_of_mem _ hk))]
    congr 1
    obtain ⟨h1, h2⟩ := hl a (List.mem_cons_self _ _)
    rw [Finset.sum_eq_single (atI A.col_ind (a - 1) - 1).toNat]
    · have : (((atI A.col_ind (a - 1) - 1).toNat : Nat) : Int) = atI A.col_ind (a - 1) - 1 := by
        omega
      simp only [crs_entry_at, this, sub_add_cancel, if_true]
    · intro j _ hj
      have : atI A.col_ind (a - 1) ≠ (j : Int) + 1 := by omega
      simp only [crs_entry_at, if_neg this, zero_mul]
    · intro h
      exfalso
      apply h
      rw [Finset.mem_range]
      omega

/-- Run of step 5a (lines 108-114) in matrix form: `y2` gains `negE` applied to `b_y1`. -/
theorem couple_E_run (lv : Level) (m t : Nat) (s : St) (ht : lv.negE.nrows = (t : Int))
    (hv : crs_valid lv.negE.row_ptr lv.negE.col_ind lv.negE.val m lv.negE.nrows)
    (hy1 : (m : Int) ≤ (s.b_y1.length : Int)) (hy2 : (t : Int) ≤ (s.y2.length : Int)) :
    ∃ s2, couple_E lv s = .ok s2 ∧ s2.b = s.b ∧ s2.b_y1 = s.b_y1 ∧
      s2.y2.length = s.y2.length ∧
      vec s2.y2 t = vec s.y2 t + (crs_matrix lv.negE t m).mulVec (vec s.b_y1 m) := by
  have hv2 : crs_valid lv.negE.row_ptr lv.negE.col_ind lv.negE.val s.b_y1.length
      lv.negE.nrows := crs_valid_mono hv (by omega)
  obtain ⟨y, hrun, hlen, hlo, _⟩ := crs_Axpy_kernel_run lv.negE.row_ptr lv.negE.col_ind
    lv.negE.val s.b_y1 s.y2 lv.negE.nrows (by omega) hv2
  have hn : ¬ ((s.y2.length : Int) < lv.negE.nrows) := by omega
  refine ⟨{ s with y2 := y }, by simp only [couple_E, hn, if_false, hrun], rfl, rfl, hlen, ?_⟩
  ext i
  have hi : ((i : Nat) : Int) < (t : Int) := by exact_mod_cast i.2
  simp only [vec, Pi.add_apply, Matrix.mulVec, Matrix.dotProduct, crs_matrix]
  rw [hlo _ (by omega) (by omega), row_acc_eq_add_sum]
  congr 1
  rw [crs_row_sum lv.negE s.b_y1 m _ (fun k hk => by
    have := hv.2 ((i : Nat) : Int) (mem_positions.2 ⟨by omega, by omega⟩) k hk
    exact ⟨this.2.2.2.1, this.2.2.2.2⟩)]
  exact (Fin.sum_univ_eq_sum_range (fun j => (List.map (crs_entry_at lv.negE (j : Int))
    (row_positions lv.negE.row_ptr ((i : Nat) : Int))).sum * at0 s.b_y1 (j : Int)) m).symm

/-- Run of step 5e (lines 130-136) in matrix form: `b_y1` gains `negF` applied to `y2`. -/
theorem couple_F_run (lv : Level) (m t : Nat) (s : St) (hm : lv.negF.nrows = (m : Int))
    (hv : crs_valid lv.negF.row_ptr lv.negF.col_ind lv.negF.val t lv.negF.nrows)
    (hy1 : (m : Int) ≤ (s.b_y1.length : Int)) (hy2 : (t : Int) ≤ (s.y2.length : Int)) :
    ∃ s2, couple_F lv s = .ok s2 ∧ s2.b = s.b ∧ s2.y2 = s.y2 ∧
      s2.b_y1.length = s.b_y1.length ∧
      vec s2.b_y1 m = vec s.b_y1 m + (crs_matrix lv.negF m t).mulVec (vec s.y2 t) := by
  have hv2 : crs_valid lv.negF.row_ptr lv.negF.col_ind lv.negF.val s.y2.length
      lv.negF.nrows := crs_valid_mono hv (by omega)
  obtain ⟨y, hrun, hlen, hlo, _⟩ := crs_Axpy_kernel_run lv.negF.row_ptr lv.negF.col_ind
    lv.negF.val s.y2 s.b_y1 lv.negF.nrows (by omega) hv2
  have hn : ¬ ((s.b_y1.length : Int) < lv.negF.nrows) := by omega
  refine ⟨{ s with b_y1 := y }, by simp only [couple_F, hn, if_false, hrun], rfl, rfl, hlen, ?_⟩
  ext i
  have hi : ((i : Nat) : Int) < (m : Int) := by exact_mod_cast i.2
  simp only [vec, Pi.add_apply, Matrix.mulVec, Matrix.dotProduct, crs_matrix]
  rw [hlo _ (by omega) (by omega), row_acc_eq_add_sum]
  congr 1
  rw [crs_row_sum lv.negF s.y2 t _ (fun k hk => by
    have := hv.2 ((i : Nat) : Int) (mem_positions.2 ⟨by omega, by omega⟩) k hk
    exact ⟨this.2.2.2.1, this.2.2.2.2⟩)]
  exact (Fin.sum_univ_eq_sum_range (fun j => (List.map (crs_entry_at lv.negF (j : Int))
    (row_positions lv.negF.row_ptr ((i : Nat) : Int))).sum * at0 s.y2 (j : Int)) t).symm

theorem gather_ok_of_perm_at {lv : Level} {n : Nat} {blen : Nat} {offset : Int}
    (hp : perm_ok lv.p n) (hr : (n : Int) ≤ (lv.rowscal.length : Int)) (ho : 0 ≤ offset)
    (hb : offset + (n : Int) ≤ (blen : Int)) : gather_ok lv offset n blen := by
  obtain ⟨hlen, hrange, _, _⟩ := hp
  refine ⟨by omega, ?_⟩
  intro i hi
  simp only [Int.toNat_ofNat] at hi
  obtain ⟨h1, h2⟩ := hrange i hi
  exact ⟨h1, by omega, by omega, by omega⟩

theorem scatter_ok_of_perm_at {lv : Level} {n : Nat} {blen : Nat} {offset : Int}
    (hq : perm_ok lv.q n) (hc : (n : Int) ≤ (lv.colscal.length : Int)) (ho : 0 ≤ offset)
    (hb : offset + (n : Int) ≤ (blen : Int)) : scatter_ok lv offset n blen := by
  obtain ⟨hlen, hrange, hinj, _⟩ := hq
  refine ⟨by omega, ?_, ?_⟩
  · intro i hi
    simp only [Int.toNat_ofNat] at hi
    obtain ⟨h1, h2⟩ := hrange i hi
    exact ⟨h1, by omega, by omega, by omega⟩
  · intro i hi j hj
    simp only [Int.toNat_ofNat] at hi hj
    exact hinj i hi j hj

/-- Run of a sparse level with a trailing block, given the contract of the next level
(it inverts `S` on its segment of `b`, changes nothing else of `b`, keeps the lengths):
with `y1`, `y2` the gathered parts, the run computes `z1` with `B z1 = y1`, `x2` with
`S x2 = y2 + negE z1`, `x1` with `B x1 = y1 + negF x2`, and scatters `(x1, x2)`. -/
theorem level_run (M : List Level) (lvl : Nat) (offset : Int) (s : St) (lv : Level)
    (m t : Nat) (S : Matrix (Fin t) (Fin t) ℚ) (h : rd M ((lvl : Int) - 1) = some lv)
    (ht : lv.negE.nrows = (t : Int)) (htpos : 0 < t)
    (hsp : dense_test lv (lv.L.nrows + lv.negE.nrows) = false) (hok : sparse_ok lv m)
    (hE : crs_valid lv.negE.row_ptr lv.negE.col_ind lv.negE.val m lv.negE.nrows)
    (hFn : lv.negF.nrows = (m : Int))
    (hF : crs_valid lv.negF.row_ptr lv.negF.col_ind lv.negF.val t lv.negF.nrows)
    (hp : perm_ok lv.p (m + t)) (hq : perm_ok lv.q (m + t))
    (hr : ((m + t : Nat) : Int) ≤ (lv.rowscal.length : Int))
    (hc : ((m + t : Nat) : Int) ≤ (lv.colscal.length : Int))
    (ho : 0 ≤ offset) (hb : offset + ((m + t : Nat) : Int) ≤ (s.b.length : Int))
    (hy1 : (m : Int) ≤ (s.b_y1.length : Int)) (hy2 : (t : Int) ≤ (s.y2.length : Int))
    (hrec : ∀ s1 : St, s1.b.length = s.b.length → s1.b_y1.length = s.b_y1.length →
      s1.y2.length = s.y2.length →
      ∃ s2, solve_milu M (lvl + 1) (offset + (m : Int)) s1 = .ok s2 ∧
        s2.b.length = s1.b.length ∧ s2.b_y1.length = s1.b_y1.length ∧
        s2.y2.length = s1.y2.length ∧
        (∀ i : Int, i < offset + (m : Int) ∨ offset + (m : Int) + (t : Int) ≤ i →
          at0 s2.b i = at0 s1.b i) ∧
        S.mulVec (seg s2.b (offset + (m : Int)) t) = seg s1.b (offset + (m : Int)) t) :
    ∃ s2, ∃ z1 : Fin m → ℚ, solve_milu M lvl offset s = .ok s2 ∧
      s2.b.length = s.b.length ∧ s2.b_y1.length = s.b_y1.length ∧
      s2.y2.length = s.y2.length ∧
      (∀ j : Int, j < offset ∨ offset + ((m + t : Nat) : Int) ≤ j → at0 s2.b j = at0 s.b j) ∧
      (fine_matrix lv m).mulVec z1 = (fun i : Fin m => gval lv offset s.b ((i : Nat) : Int)) ∧
      S.mulVec (vec s2.y2 t)
        = (fun i : Fin t => gval lv offset s.b ((m : Int) + ((i : Nat) : Int)))
          + (crs_matrix lv.negE t m).mulVec z1 ∧
      (fine_matrix lv m).mulVec (vec s2.b_y1 m)
        = (fun i : Fin m => gval lv offset s.b ((i : Nat) : Int))
          + (crs_matrix lv.negF m t).mulVec (vec s2.y2 t) ∧
      ∀ i : Int, 0 ≤ i → i < ((m + t : Nat) : Int) →
        at0 s2.b ((atI lv.q i + offset) - 1) = sval lv m s2.b_y1 s2.y2 i := by
  have hm : lv.L.nrows = (m : Int) := hok.1
  have hn : lv.L.nrows + lv.negE.nrows = ((m + t : Nat) : Int) := by
    push_cast
    omega
  have hgt : lv.L.nrows + lv.negE.nrows > lv.L.nrows := by omega
  have hmt : ((m + t : Nat) : Int) = (m : Int) + (t : Int) := by push_cast; ring
  -- gather
  obtain ⟨s1, r1, b1, u1, v1⟩ := gather_run lv offset s (by omega) (by omega)
    (by rw [hn]; exact gather_ok_of_perm_at hp hr ho hb) (by omega) (by omega)
  -- write back
  obtain ⟨s2, r2, y12, y22, w2⟩ := write_back_run offset lv.L.nrows s1 ho
    (by rw [b1]; omega) (by rw [u1.1]; omega)
  -- first fine-block solve
  obtain ⟨s3, r3, b3, y23, l3, p3⟩ := sparse_solve_run lv m s2 hok
    (by rw [y12, u1.1]; exact hy1)
  -- coupling with negE
  obtain ⟨s4, r4, b4, y14, l4, p4⟩ := couple_E_run lv m t s3 ht hE
    (by rw [l3, y12, u1.1]; exact hy1) (by rw [y23, y22, v1.1]; exact hy2)
  -- store the trailing part
  have hb4 : s4.b.length = s.b.length := by rw [b4, b3, w2.1, b1]
  obtain ⟨s5, r5, y15, y25, w5⟩ := store_trailing_run lv offset s4 (by omega) ho
    (by rw [hb4]; omega) (by rw [l4, y23, y22, v1.1]; omega)
  have hb5 : s5.b.length = s.b.length := by rw [w5.1, hb4]
  have h15 : s5.b_y1.length = s.b_y1.length := by rw [y15, y14, l3, y12, u1.1]
  have h25 : s5.y2.length = s.y2.length := by rw [y25, l4, y23, y22, v1.1]
  -- recursive call
  obtain ⟨s6, r6, hb6, h16, h26, f6, p6⟩ := hrec s5 hb5 h15 h25
  -- reload
  obtain ⟨s7, r7, b7, u7, v7⟩ := reload_run lv offset s6 (by omega) (by omega) ho
    (by rw [hb6, hb5]; omega) (by rw [h16, h15]; omega) (by rw [h26, h25]; omega)
  -- coupling with negF
  obtain ⟨s8, r8, b8, y28, l8, p8⟩ := couple_F_run lv m t s7 hFn hF
    (by rw [u7.1, h16, h15]; exact hy1) (by rw [v7.1, h26, h25]; exact hy2)
  -- second fine-block solve
  obtain ⟨s9, r9, b9, y29, l9, p9⟩ := sparse_solve_run lv m s8 hok
    (by rw [l8, u7.1, h16, h15]; exact hy1)
  -- scatter
  have hb9 : s9.b.length = s.b.length := by rw [b9, b8, b7, hb6, hb5]
  obtain ⟨s10, r10, y110, y210, S10⟩ := scatter_run lv offset s9 (by omega) (by omega)
    (by rw [hn, hb9]; exact scatter_ok_of_perm_at hq hc ho hb)
    (by rw [l9, l8, u7.1, h16, h15]; omega) (by rw [y29, y28, v7.1, h26, h25]; omega)
  -- the gathered vectors
  have hy1v : vec s1.b_y1 m = (fun i : Fin m => gval lv offset s.b ((i : Nat) : Int)) := by
    ext i
    have hi : ((i : Nat) : Int) < (m : Int) := by exact_mod_cast i.2
    simp only [vec]
    rw [u1.2, if_pos ⟨by omega, by rw [hm]; simp⟩]
  have hy2v : vec s1.y2 t
      = (fun i : Fin t => gval lv offset s.b ((m : Int) + ((i : Nat) : Int))) := by
    ext i
    have hi : ((i : Nat) : Int) < (t : Int) := by exact_mod_cast i.2
    simp only [vec]
    rw [v1.2, if_pos ⟨by omega, by rw [ht]; simp⟩, hm]
  -- what the recursion was handed and what it returned
  have hseg5 : seg s5.b (offset + (m : Int)) t = vec s4.y2 t := by
    ext i
    have hi : ((i : Nat) : Int) < (t : Int) := by exact_mod_cast i.2
    simp only [seg, vec]
    rw [w5.2, if_pos ⟨by omega, by rw [hm, ht]; simp⟩, hm]
    simp only [add_sub_cancel_left]
  have hx2 : vec s7.y2 t = seg s6.b (offset + (m : Int)) t := by
    ext i
    have hi : ((i : Nat) : Int) < (t : Int) := by exact_mod_cast i.2
    simp only [seg, vec]
    rw [v7.2, if_pos ⟨by omega, by rw [ht]; simp⟩, hm]
  have hy1r : vec s7.b_y1 m = vec s1.b_y1 m := by
    ext i
    have hi : ((i : Nat) : Int) < (m : Int) := by exact_mod_cast i.2
    simp only [vec]
    rw [u7.2, if_pos ⟨by omega, by rw [hm]; simp⟩]
    simp only
    rw [f6 _ (Or.inl (by omega)), w5.2, if_neg (by omega), b4, b3, w2.2,
      if_pos ⟨by omega, by rw [hm]; simp⟩]
    simp only [add_sub_cancel_left]
  refine ⟨s10, vec s3.b_y1 m, ?_, ?_, ?_, ?_, ?_, ?_, ?_, ?_, ?_⟩
  · rw [solve_milu_eq M lvl offset s lv h]
    rw [hm] at r1 r2 r3 r5 r7 r9 r10 hgt hsp
    simp only [hm, r1, Except.bind, hgt, if_true, r2, hsp, Bool.false_eq_true, if_false, r3, r4,
      r5, r6, r7, r8, r9]
    exact r10
  · rw [S10.1, hb9]
  · rw [y110, l9, l8, u7.1, h16, h15]
  · rw [y210, y29, y28, v7.1, h26, h25]
  · intro j hj
    have hnot : ∀ i : Int, 0 ≤ i → i < lv.L.nrows + lv.negE.nrows →
        (atI lv.q i + offset) - 1 ≠ j := by
      intro i hi0 hi1
      obtain ⟨q1, q2⟩ := hq.2.1 i (mem_positions.2 ⟨hi0, by omega⟩)
      omega
    rw [S10.2.2 j hnot, b9, b8, b7, f6 j (by omega), w5.2, if_neg (by omega), b4, b3, w2.2,
      if_neg (by omega), b1]
  · rw [p3, y12, hy1v]
  · rw [y210, y29, y28, hx2, p6, hseg5, p4, y23, y22, hy2v]
  · rw [y110, p9, p8, hy1r, hy1v, y210, y29, y28]
  · intro i hi0 hi1
    have := S10.2.1 i hi0 (by omega)
    rw [this, hm, y110, y210]

theorem atI_replicate_one (m : Nat) (i : Int) (h0 : 0 ≤ i) (h1 : i < (m : Int)) :
    atI (List.replicate m (1 : Int)) i = 1 := by
  have h2 : i.toNat < m := by omega
  simp [atI, rd, h0, List.getElem?_replicate, h2]

theorem col_positions_emptyCCS (m : Nat) (c : Int) (h0 : 0 ≤ c) (h1 : c < (m : Int)) :
    col_positions (emptyCCS m) c = [] := by
  simp only [col_positions, emptyCCS]
  rw [atI_replicate_one (m + 1) c h0 (by push_cast; omega),
    atI_replicate_one (m + 1) (c + 1) (by omega) (by push_cast; omega)]
  simp [positions]

theorem ccs_valid_emptyCCS (m : Nat) : ccs_valid (emptyCCS m) m := by
  refine ⟨by simp [emptyCCS], ?_⟩
  intro c hc k hk
  obtain ⟨h0, h1⟩ := mem_positions.1 hc
  rw [col_positions_emptyCCS m c h0 (by omega)] at hk
  simp at hk

theorem strict_lower_emptyCCS (m : Nat) : strict_lower (emptyCCS m) m := by
  intro c hc k hk
  obtain ⟨h0, h1⟩ := mem_positions.1 hc
  rw [col_positions_emptyCCS m c h0 (by omega)] at hk
  simp at hk

theorem strict_upper_emptyCCS (m : Nat) : strict_upper (emptyCCS m) m := by
  intro c hc k hk
  obtain ⟨h0, h1⟩ := mem_positions.1 hc
  rw [col_positions_emptyCCS m c h0 (by omega)] at hk
  simp at hk

theorem sparse_ok_trivLevel (nB nT : Nat) : sparse_ok (trivLevel nB nT) nB := by
  refine ⟨rfl, ccs_valid_emptyCCS nB, strict_lower_emptyCCS nB, ccs_valid_emptyCCS nB,
    strict_upper_emptyCCS nB, by simp [trivLevel], ?_⟩
  intro i hi
  obtain ⟨h0, h1⟩ := mem_positions.1 hi
  simp only [trivLevel]
  rw [at0_replicate_one nB i h0 (by omega)]
  exact one_ne_zero

theorem unit_tri_emptyCCS (m : Nat) : unit_tri (emptyCCS m) m = 1 := by
  ext i j
  have hj : ((j : Nat) : Int) < (m : Int) := by exact_mod_cast j.2
  simp only [unit_tri, col_entry, col_positions_emptyCCS m _ (Int.natCast_nonneg _) hj,
    List.map_nil, List.sum_nil, add_zero, Matrix.one_apply]

theorem fine_matrix_trivLevel (nB nT : Nat) : fine_matrix (trivLevel nB nT) nB = 1 := by
  have hd : Matrix.diagonal (vec (trivLevel nB nT).d nB) = 1 := by
    have hv : vec (trivLevel nB nT).d nB = fun _ => 1 := by
      ext i
      have hi : ((i : Nat) : Int) < (nB : Int) := by exact_mod_cast i.2
      simp only [vec, trivLevel]
      exact at0_replicate_one nB _ (Int.natCast_nonneg _) hi
    rw [hv, Matrix.diagonal_one]
  simp only [fine_matrix, hd]
  simp only [trivLevel, unit_tri_emptyCCS, mul_one]

theorem row_positions_emptyCRS (m : Nat) (i : Int) (h0 : 0 ≤ i) (h1 : i < (m : Int)) :
    row_positions (emptyCRS m).row_ptr i = [] := by
  simp only [row_positions, emptyCRS]
  rw [atI_replicate_one (m + 1) i h0 (by push_cast; omega),
    atI_replicate_one (m + 1) (i + 1) (by omega) (by push_cast; omega)]
  simp [positions]

theorem crs_valid_emptyCRS (m c : Nat) :
    crs_valid (emptyCRS m).row_ptr (emptyCRS m).col_ind (emptyCRS m).val c (emptyCRS m).nrows := by
  refine ⟨by simp [emptyCRS], ?_⟩
  intro i hi j hj
  obtain ⟨h0, h1⟩ := mem_positions.1 hi
  simp only [emptyCRS, Int.toNat_ofNat] at h1
  rw [row_positions_emptyCRS m i h0 (by omega)] at hj
  simp at hj

theorem crs_matrix_emptyCRS (m c : Nat) : crs_matrix (emptyCRS m) m c = 0 := by
  ext i j
  have hi : ((i : Nat) : Int) < (m : Int) := by exact_mod_cast i.2
  simp only [crs_matrix, crs_entry, row_positions_emptyCRS m _ (Int.natCast_nonneg _) hi,
    List.map_nil, List.sum_nil, Matrix.zero_apply]

/-- A trivial level of size `n` with `1 ≤ n < 65536` is not dispatched to the dense
branch: `n * n` does not wrap to the size `0` of its empty `U.val`. -/
theorem dense_test_trivLevel (nB nT : Nat) (h1 : 1 ≤ nB + nT) (h2 : nB + nT < 65536) :
    dense_test (trivLevel nB nT)
      ((trivLevel nB nT).L.nrows + (trivLevel nB nT).negE.nrows) = false := by
  have hn : (trivLevel nB nT).L.nrows + (trivLevel nB nT).negE.nrows = ((nB + nT : Nat) : Int) := by
    simp [trivLevel, emptyCCS, emptyCRS]
  rw [hn]
  generalize nB + nT = n at h1 h2
  have hsq1 : (1 : Int) ≤ (n : Int) * (n : Int) := by
    have : (1 : Int) ≤ (n : Int) := by exact_mod_cast h1
    nlinarith
  have hsq2 : (n : Int) * (n : Int) < 4294967296 := by
    have : (n : Int) ≤ 65535 := by omega
    nlinarith
  have hne : mul32 (n : Int) (n : Int) ≠ 0 := by
    unfold mul32 wrap32
    omega
  simp only [dense_test, trivLevel, emptyCCS, List.length_nil, Nat.cast_zero, decide_True,
    Bool.true_and, decide_eq_false_iff_not]
  exact fun h => hne h.symm

theorem get?_append_cons {α : Type} (l1 : List α) (a : α) (l2 : List α) :
    (l1 ++ a :: l2).get? l1.length = some a := by
  induction l1 with
  | nil => rfl
  | cons x l1 ih =>
    simp only [List.cons_append, List.length_cons, List.get?_cons_succ]
    exact ih

theorem rd_append_cons {α : Type} (l1 : List α) (a : α) (l2 : List α) :
    rd (l1 ++ a :: l2) (((l1.length + 1 : Nat) : Int) - 1) = some a := by
  have h : ((l1.length + 1 : Nat) : Int) - 1 = ((l1.length : Nat) : Int) := by
    push_cast
    ring
  rw [h, rd_natCast]
  exact get?_append_cons l1 a l2

theorem gval_trivLevel (nB nT : Nat) (offset : Int) (b : List ℚ) (i : Int) (h0 : 0 ≤ i)
    (h1 : i < ((nB + nT : Nat) : Int)) :
    gval (trivLevel nB nT) offset b i = at0 b (offset + i) := by
  simp only [gval, trivLevel]
  rw [atI_idPerm (nB + nT) i h0 h1, add_sub_cancel_right,
    at0_replicate_one (nB + nT) i h0 h1, one_mul]
  congr 1
  ring

theorem sval_trivLevel (nB nT : Nat) (y1 y2 : List ℚ) (i : Int) (h0 : 0 ≤ i)
    (h1 : i < ((nB + nT : Nat) : Int)) :
    sval (trivLevel nB nT) nB y1 y2 i
      = if i < (nB : Int) then at0 y1 i else at0 y2 (i - (nB : Int)) := by
  simp only [sval, trivLevel]
  rw [atI_idPerm (nB + nT) i h0 h1, add_sub_cancel_right,
    at0_replicate_one (nB + nT) i h0 h1, mul_one]

/-- Two buffers that agree outside a segment and on it are equal. -/
theorem eq_of_segment {a a2 : List ℚ} (offset : Int) (n : Nat) (hlen : a2.length = a.length)
    (hout : ∀ j : Int, j < offset ∨ offset + (n : Int) ≤ j → at0 a2 j = at0 a j)
    (hin : ∀ i : Int, 0 ≤ i → i < (n : Int) → at0 a2 (offset + i) = at0 a (offset + i)) :
    a2 = a := by
  apply at0_ext hlen
  intro j
  by_cases hj : j < offset ∨ offset + (n : Int) ≤ j
  · exact hout j hj
  · have := hin (j - offset) (by omega) (by omega)
    rw [show offset + (j - offset) = j by ring] at this
    exact this

/-- Run of a chain of trivial levels whose total size stays below 65536: every level
leaves `b` as it found it and keeps the lengths of the scratch buffers. -/
theorem trivChain_run : ∀ (suf : List Nat) (pre : List Level) (s : St) (offset : Int),
    suf ≠ [] → (∀ x ∈ suf, 1 ≤ x) → suf.sum < 65536 → 0 ≤ offset →
    offset + ((suf.sum : Nat) : Int) ≤ (s.b.length : Int) →
    (∀ x ∈ suf, x ≤ s.b_y1.length) → suf.tail.sum ≤ s.y2.length →
    ∃ s2, solve_milu (pre ++ trivChain suf) (pre.length + 1) offset s = .ok s2 ∧
      s2.b = s.b ∧ s2.b_y1.length = s.b_y1.length ∧ s2.y2.length = s.y2.length := by
  intro suf
  induction suf with
  | nil =>
    intro pre s offset hne
    exact absurd rfl hne
  | cons nB rest ih =>
    intro pre s offset _ hpos hsum ho hb hy1 hy2
    have hrd : rd (pre ++ trivChain (nB :: rest)) (((pre.length + 1 : Nat) : Int) - 1)
        = some (trivLevel nB rest.sum) := rd_append_cons pre _ _
    have hnB1 : 1 ≤ nB := hpos nB (List.mem_cons_self _ _)
    have hnBy : nB ≤ s.b_y1.length := hy1 nB (List.mem_cons_self _ _)
    simp only [List.sum_cons] at hsum hb
    simp only [List.tail_cons] at hy2
    have hLn : (trivLevel nB rest.sum).L.nrows = (nB : Int) := rfl
    have hEn : (trivLevel nB rest.sum).negE.nrows = ((rest.sum : Nat) : Int) := rfl
    by_cases hrest : rest = []
    · -- the last level
      subst hrest
      simp only [List.sum_nil, add_zero] at hsum hb hrd hLn hEn
      obtain ⟨s2, hrun, hy2s, hy1s, hz, hS⟩ := single_level_run (pre ++ trivChain [nB])
        (pre.length + 1) offset s (trivLevel nB 0) nB 1 hrd rfl rfl
        (fun s1 h1 => by
          rw [if_neg (by rw [dense_test_trivLevel nB 0 (by omega) (by omega)]; simp)]
          have := sparse_solve_run (trivLevel nB 0) nB s1 (sparse_ok_trivLevel nB 0) h1
          rw [fine_matrix_trivLevel] at this
          exact this)
        (gather_ok_of_perm_at (perm_ok_idPerm nB) (by simp [trivLevel]) ho (by omega))
        (scatter_ok_of_perm_at (perm_ok_idPerm nB) (by simp [trivLevel]) ho (by omega))
        (by omega)
      refine ⟨s2, hrun, ?_, hy1s, by rw [hy2s]⟩
      apply eq_of_segment offset nB hS.1
      · intro j hj
        apply hS.2.2 j
        intro i hi0 hi1
        simp only [trivLevel]
        rw [atI_idPerm (nB + 0) i hi0 (by simpa using hi1)]
        omega
      · intro i hi0 hi1
        have e1 := hS.2.1 i hi0 hi1
        simp only [trivLevel] at e1
        rw [atI_idPerm (nB + 0) i hi0 (by simpa using hi1)] at e1
        have e2 := sval_trivLevel nB 0 s2.b_y1 s.y2 i hi0 (by simpa using hi1)
        simp only [trivLevel] at e2
        rw [show i + 1 + offset - 1 = offset + i by ring, e2, if_pos hi1] at e1
        rw [e1]
        have e3 := congrFun hz ⟨i.toNat, by omega⟩
        simp only [Matrix.one_mulVec, vec, Int.toNat_of_nonneg hi0] at e3
        rw [e3]
        exact gval_trivLevel nB 0 offset s.b i hi0 (by simpa using hi1)
    · -- a level with a trailing block
      have hrpos : ∀ x ∈ rest, 1 ≤ x := fun x hx => hpos x (List.mem_cons_of_mem _ hx)
      have ht0 : 0 < rest.sum := by
        cases rest with
        | nil => exact absurd rfl hrest
        | cons a r =>
          have := hrpos a (List.mem_cons_self _ _)
          simp only [List.sum_cons]
          omega
      have hrt : rest.tail.sum ≤ rest.sum := by
        cases rest with
        | nil => simp
        | cons a r => simp
      have happ : pre ++ trivChain (nB :: rest)
          = (pre ++ [trivLevel nB rest.sum]) ++ trivChain rest := by
        simp [trivChain]
      obtain ⟨s2, z1, hrun, hbl, hy1s, hy2s, hfr, hz1, hx2, hx1, hsc⟩ := level_run
        (pre ++ trivChain (nB :: rest)) (pre.length + 1) offset s (trivLevel nB rest.sum) nB
        rest.sum 1 hrd rfl ht0
        (dense_test_trivLevel nB rest.sum (by omega) (by omega))
        (sparse_ok_trivLevel nB rest.sum) (crs_valid_emptyCRS rest.sum nB) rfl
        (crs_valid_emptyCRS nB rest.sum) (perm_ok_idPerm _) (perm_ok_idPerm _)
        (by simp [trivLevel]) (by simp [trivLevel]) ho (by omega) (by omega)
        (by omega)
        (fun s1 h1 h2 h3 => by
          obtain ⟨s3, r3, b3, l3, m3⟩ := ih (pre ++ [trivLevel nB rest.sum]) s1
            (offset + (nB : Int)) hrest hrpos
            (by omega) (by omega) (by rw [h1]; omega)
            (fun x hx => by rw [h2]; exact hy1 x (List.mem_cons_of_mem _ hx))
            (by rw [h3]; omega)
          rw [← happ] at r3
          simp only [List.length_append, List.length_singleton] at r3
          exact ⟨s3, r3, by rw [b3], l3, m3, fun i _ => by rw [b3],
            by rw [b3, Matrix.one_mulVec]⟩)
      refine ⟨s2, hrun, ?_, hy1s, hy2s⟩
      rw [fine_matrix_trivLevel] at hz1 hx1
      simp only [Matrix.one_mulVec, trivLevel, crs_matrix_emptyCRS, Matrix.zero_mulVec,
        add_zero] at hz1 hx2 hx1
      apply eq_of_segment offset (nB + rest.sum) hbl hfr
      intro i hi0 hi1
      have e1 := hsc i hi0 hi1
      simp only [trivLevel] at e1
      rw [atI_idPerm (nB + rest.sum) i hi0 hi1] at e1
      have e2 := sval_trivLevel nB rest.sum s2.b_y1 s2.y2 i hi0 hi1
      simp only [trivLevel] at e2
      rw [show i + 1 + offset - 1 = offset + i by ring, e2] at e1
      rw [e1]
      by_cases him : i < (nB : Int)
      · rw [if_pos him]
        have e3 := congrFun hx1 ⟨i.toNat, by omega⟩
        simp only [vec, Int.toNat_of_nonneg hi0] at e3
        rw [e3]
        have := gval_trivLevel nB rest.sum offset s.b i hi0 hi1
        simp only [trivLevel] at this
        exact this
      · rw [if_neg him]
        have e3 := congrFun hx2 ⟨(i - (nB : Int)).toNat, by omega⟩
        simp only [vec, Int.toNat_of_nonneg (show 0 ≤ i - (nB : Int) by omega)] at e3
        rw [e3]
        have := gval_trivLevel nB rest.sum offset s.b i hi0 hi1
        simp only [trivLevel] at this
        rw [show (nB : Int) + (i - (nB : Int)) = i by ring]
        exact this

theorem vec_ofFn (m : Nat) (v : Fin m → ℚ) : vec (List.ofFn v) m = v := by
  ext i
  simp only [vec, at0, rd, Int.natCast_nonneg, if_true, Int.toNat_ofNat,
    List.get?_eq_getElem?]
  rw [List.getElem?_eq_getElem (by simp)]
  simp

/-- The fine block of a valid sparse level is invertible: the sparse solve produces a
preimage of every vector. -/
theorem fine_matrix_isUnit (lv : Level) (m : Nat) (hok : sparse_ok lv m) :
    IsUnit (fine_matrix lv m) := by
  rw [← Matrix.mulVec_surjective_iff_isUnit]
  intro v
  obtain ⟨s2, _, _, _, _, h⟩ := sparse_solve_run lv m ⟨[], List.ofFn v, []⟩ hok (by simp)
  exact ⟨vec s2.b_y1 m, by rw [h, vec_ofFn]⟩

/-- The block elimination identity behind the two-level solve: if `B z = b1`,
`S x2 = b2 + negE z` and `B x1 = b1 + negF x2`, then `(x1, x2)` solves the block system
`[[B, F], [E, S + E B⁻¹ F]]` with `E = -negE`, `F = -negF`. -/
theorem block_elimination {m t : Nat} (B : Matrix (Fin m) (Fin m) ℚ)
    (nE : Matrix (Fin t) (Fin m) ℚ) (nF : Matrix (Fin m) (Fin t) ℚ)
    (S : Matrix (Fin t) (Fin t) ℚ) (hB : IsUnit B) (b1 z x1 : Fin m → ℚ) (b2 x2 : Fin t → ℚ)
    (hz : B.mulVec z = b1) (hx2 : S.mulVec x2 = b2 + nE.mulVec z)
    (hx1 : B.mulVec x1 = b1 + nF.mulVec x2) :
    (Matrix.fromBlocks B (-nF) (-nE) (S + (-nE) * B⁻¹ * (-nF))).mulVec (Sum.elim x1 x2)
      = Sum.elim b1 b2 := by
  have hdet : IsUnit B.det := (Matrix.isUnit_iff_isUnit_det B).1 hB
  have hinv : B⁻¹ * B = 1 := Matrix.nonsing_inv_mul B hdet
  have hz2 : z = B⁻¹.mulVec b1 := by
    rw [← hz, Matrix.mulVec_mulVec, hinv, Matrix.one_mulVec]
  have hx12 : x1 = B⁻¹.mulVec b1 + B⁻¹.mulVec (nF.mulVec x2) := by
    rw [← Matrix.mulVec_add, ← hx1, Matrix.mulVec_mulVec, hinv, Matrix.one_mulVec]
  have e1 : B.mulVec x1 + (-nF).mulVec x2 = b1 := by
    rw [hx1, Matrix.neg_mulVec]
    abel
  have e2 : (-nE).mulVec x1 + (S + (-nE) * B⁻¹ * (-nF)).mulVec x2 = b2 := by
    rw [Matrix.add_mulVec, hx2, hz2, hx12, ← Matrix.mulVec_mulVec, ← Matrix.mulVec_mulVec]
    simp only [Matrix.neg_mulVec, Matrix.mulVec_neg, Matrix.mulVec_add, neg_neg]
    abel
  rw [Matrix.fromBlocks_mulVec, Sum.elim_comp_inl, Sum.elim_comp_inr, e1, e2]

/-- Without wraparound the dispatch test fails on a level with a trailing block whose `U`
stores at most `nB (nB - 1) / 2` values. -/
theorem dense_test_false_of_bound (lv : Level) (hT : 0 < lv.negE.nrows) (hB : 0 ≤ lv.L.nrows)
    (hU : 2 * (lv.U.val.length : Int) ≤ lv.L.nrows * (lv.L.nrows - 1))
    (hsq : (lv.L.nrows + lv.negE.nrows) * (lv.L.nrows + lv.negE.nrows) < 2147483648) :
    dense_test lv (lv.L.nrows + lv.negE.nrows) = false := by
  have hw : mul32 (lv.L.nrows + lv.negE.nrows) (lv.L.nrows + lv.negE.nrows)
      = (lv.L.nrows + lv.negE.nrows) * (lv.L.nrows + lv.negE.nrows) :=
    wrap32_small _ (mul_self_nonneg _) hsq
  have hlt : (lv.U.val.length : Int)
      < (lv.L.nrows + lv.negE.nrows) * (lv.L.nrows + lv.negE.nrows) := by
    nlinarith [mul_nonneg hB hB, mul_nonneg hB (le_of_lt hT), mul_pos hT hT]
  simp only [dense_test, hw, Bool.and_eq_false_imp, decide_eq_true_eq, decide_eq_false_iff_not]
  intro _
  omega

/-- Without wraparound the dispatch test on a level without trailing block is the
specification's dense signal. -/
theorem dense_test_eq_signal (lv : Level) (hT : lv.negE.nrows = 0)
    (hsq : (lv.L.nrows + lv.negE.nrows) * (lv.L.nrows + lv.negE.nrows) < 2147483648) :
    dense_test lv (lv.L.nrows + lv.negE.nrows) = dense_signal_spec lv := by
  have hw : mul32 (lv.L.nrows + lv.negE.nrows) (lv.L.nrows + lv.negE.nrows)
      = (lv.L.nrows + lv.negE.nrows) * (lv.L.nrows + lv.negE.nrows) :=
    wrap32_small _ (mul_self_nonneg _) hsq
  rw [hT, add_zero] at hw
  simp only [dense_test, dense_signal_spec, hT, add_zero, hw]

/-- The dispatch of the code is the dispatch of the specification on every level with
`nB ≥ 1` whose `n * n` does not wrap and whose `U`, if the level has a trailing block,
stores at most `nB (nB - 1) / 2` values: the dense path is taken exactly when `L.val` is
empty and `U.val` has `nB²` entries. -/
theorem dispatch_exact (lv : Level) (hB : 1 ≤ lv.L.nrows) (hT : 0 ≤ lv.negE.nrows)
    (hsq : (lv.L.nrows + lv.negE.nrows) * (lv.L.nrows + lv.negE.nrows) < 2147483648)
    (hU : 0 < lv.negE.nrows → 2 * (lv.U.val.length : Int) ≤ lv.L.nrows * (lv.L.nrows - 1)) :
    dense_test lv (lv.L.nrows + lv.negE.nrows) = dense_signal_spec lv := by
  by_cases h0 : lv.negE.nrows = 0
  · exact dense_test_eq_signal lv h0 hsq
  · have hpos : 0 < lv.negE.nrows := by omega
    rw [dense_test_false_of_bound lv hpos (by omega) (hU hpos) hsq]
    have hne : (lv.U.val.length : Int) ≠ lv.L.nrows * lv.L.nrows := by
      have := hU hpos
      nlinarith
    simp only [dense_signal_spec, hne, decide_False, Bool.and_false]

/-- On a valid level whose sizes are small the dispatch test of the code is the
specification's signal, and the facts the selected branch relies on hold: a level sent to
the dense branch is terminal with a buffer of `m * m < 2^31` entries, a level sent to the
sparse branch has valid `L`, `U` and `d`. -/
theorem level_dispatch (lv : Level) (m t : Nat) (hlv : level_valid lv m t)
    (hsq : (lv.L.nrows + lv.negE.nrows) * (lv.L.nrows + lv.negE.nrows) < 2147483648)
    (hU : 0 < lv.negE.nrows → 2 * (lv.U.val.length : Int) ≤ lv.L.nrows * (lv.L.nrows - 1)) :
    dense_test lv (lv.L.nrows + lv.negE.nrows) = dense_signal_spec lv ∧
      (if dense_test lv (lv.L.nrows + lv.negE.nrows) then
        t = 0 ∧ lv.U.val.length = m * m ∧ m * m < 2147483648
      else ccs_valid lv.L m ∧ ccs_valid lv.U m ∧ (m : Int) ≤ (lv.d.length : Int)) := by
  obtain ⟨hm, ht, _, _, _, _, _, _, _, hd⟩ := hlv
  have hdt : dense_test lv (lv.L.nrows + lv.negE.nrows) = dense_signal_spec lv := by
    by_cases ht0 : t = 0
    · exact dense_test_eq_signal lv (by rw [ht, ht0]; rfl) hsq
    · have hpos : 0 < lv.negE.nrows := by
        rw [ht]
        exact_mod_cast Nat.pos_of_ne_zero ht0
      rw [dense_test_false_of_bound lv hpos (by rw [hm]; exact Int.natCast_nonneg _)
        (hU hpos) hsq]
      by_cases hs : dense_signal_spec lv = true
      · rw [if_pos hs] at hd
        exact absurd hd.1 ht0
      · exact (Bool.eq_false_iff.2 hs).symm
  refine ⟨hdt, ?_⟩
  rw [hdt]
  by_cases hs : dense_signal_spec lv = true
  · rw [if_pos hs] at hd ⊢
    refine ⟨hd.1, ?_, hd.2⟩
    simp only [dense_signal_spec, Bool.and_eq_true, decide_eq_true_eq, hm] at hs
    exact_mod_cast hs.2
  · rw [if_neg hs] at hd ⊢
    exact hd

/-- The two-level coupling where the dispatch test does not wrap: for a two-level
factorization whose level 1 has identity permutations, unit scaling, a sparse fine block
`B = (I + L) diag(d) (I + U)` whose `U` stores at most `nB (nB - 1) / 2` values, total
size `n` with `n * n < 2^31` and coupling blocks `negE = -E`, `negF = -F`, and whose
level 2 inverts a matrix `S` on its segment of `b`, the solve leaves `x = (x1, x2)` with
`[[B, F], [E, C]] x = b`, `C = S + E B⁻¹ F`. -/
theorem two_level_block_solve (M : List Level) (lv : Level) (m t : Nat)
    (S : Matrix (Fin t) (Fin t) ℚ) (b y1 y2 : List ℚ) (h : rd M 0 = some lv)
    (ht : lv.negE.nrows = (t : Int)) (htpos : 0 < t)
    (hsq : (lv.L.nrows + lv.negE.nrows) * (lv.L.nrows + lv.negE.nrows) < 2147483648)
    (hU : 2 * (lv.U.val.length : Int) ≤ lv.L.nrows * (lv.L.nrows - 1)) (hok : sparse_ok lv m)
    (hE : crs_valid lv.negE.row_ptr lv.negE.col_ind lv.negE.val m lv.negE.nrows)
    (hFn : lv.negF.nrows = (m : Int))
    (hF : crs_valid lv.negF.row_ptr lv.negF.col_ind lv.negF.val t lv.negF.nrows)
    (hp : lv.p = idPerm (m + t)) (hq : lv.q = idPerm (m + t))
    (hr : lv.rowscal = List.replicate (m + t) 1) (hc : lv.colscal = List.replicate (m + t) 1)
    (hb : b.length = m + t) (hy1 : (m : Int) ≤ (y1.length : Int))
    (hy2 : (t : Int) ≤ (y2.length : Int))
    (hS : ∀ s1 : St, s1.b.length = b.length → s1.b_y1.length = y1.length →
      s1.y2.length = y2.length →
      ∃ s2, solve_milu M 2 (m : Int) s1 = .ok s2 ∧
        s2.b.length = s1.b.length ∧ s2.b_y1.length = s1.b_y1.length ∧
        s2.y2.length = s1.y2.length ∧
        (∀ i : Int, i < (m : Int) ∨ (m : Int) + (t : Int) ≤ i → at0 s2.b i = at0 s1.b i) ∧
        S.mulVec (seg s2.b (m : Int) t) = seg s1.b (m : Int) t) :
    ∃ s2, MILUsolve M b y1 y2 = .ok s2 ∧
      (Matrix.fromBlocks (fine_matrix lv m) (-(crs_matrix lv.negF m t))
        (-(crs_matrix lv.negE t m))
        (S + (-(crs_matrix lv.negE t m)) * (fine_matrix lv m)⁻¹ * (-(crs_matrix lv.negF m t)))
        ).mulVec (Sum.elim (vec s2.b m) (seg s2.b (m : Int) t))
        = Sum.elim (vec b m) (seg b (m : Int) t) := by
  have h0 : rd M (((1 : Nat) : Int) - 1) = some lv := by simpa using h
  have hsp := dense_test_false_of_bound lv (by rw [ht]; exact_mod_cast htpos)
    (by rw [hok.1]; exact Int.natCast_nonneg _) hU hsq
  obtain ⟨s2, z1, hrun, _, _, _, _, hz1, hx2, hx1, hsc⟩ := level_run M 1 0 ⟨b, y1, y2⟩ lv m t S
    h0 ht htpos hsp hok hE hFn hF (by rw [hp]; exact perm_ok_idPerm _)
    (by rw [hq]; exact perm_ok_idPerm _) (by rw [hr]; simp) (by rw [hc]; simp) le_rfl
    (by simp [hb]) hy1 hy2
    (fun s1 h1 h2 h3 => by
      have := hS s1 h1 h2 h3
      rw [show (1 + 1 : Nat) = 2 from rfl]
      simp only [zero_add]
      exact this)
  refine ⟨s2, hrun, ?_⟩
  have hg1 : (fun i : Fin m => gval lv 0 b ((i : Nat) : Int)) = vec b m := by
    ext i
    have hi : ((i : Nat) : Int) < ((m + t : Nat) : Int) := by
      have := i.2
      omega
    simp only [gval, hp, atI_idPerm (m + t) _ (Int.natCast_nonneg _) hi, add_zero,
      add_sub_cancel_right, hr, at0_replicate_one (m + t) _ (Int.natCast_nonneg _) hi, one_mul,
      vec]
  have hg2 : (fun i : Fin t => gval lv 0 b ((m : Int) + ((i : Nat) : Int)))
      = seg b (m : Int) t := by
    ext i
    have hi0 : (0 : Int) ≤ (m : Int) + ((i : Nat) : Int) := by omega
    have hi : (m : Int) + ((i : Nat) : Int) < ((m + t : Nat) : Int) := by
      have := i.2
      omega
    simp only [gval, hp, atI_idPerm (m + t) _ hi0 hi, add_zero, add_sub_cancel_right, hr,
      at0_replicate_one (m + t) _ hi0 hi, one_mul, seg]
  have hsv : ∀ i : Int, 0 ≤ i → i < ((m + t : Nat) : Int) →
      at0 s2.b i = if i < (m : Int) then at0 s2.b_y1 i else at0 s2.y2 (i - (m : Int)) := by
    intro i hi0 hi1
    have := hsc i hi0 hi1
    simp only [hq, atI_idPerm (m + t) i hi0 hi1, add_zero, add_sub_cancel_right, sval, hc,
      at0_replicate_one (m + t) i hi0 hi1, mul_one] at this
    exact this
  have hv1 : vec s2.b m = vec s2.b_y1 m := by
    ext i
    have hi : ((i : Nat) : Int) < (m : Int) := by exact_mod_cast i.2
    simp only [vec]
    rw [hsv _ (Int.natCast_nonneg _) (by omega), if_pos hi]
  have hv2 : seg s2.b (m : Int) t = vec s2.y2 t := by
    ext i
    have hi : ((i : Nat) : Int) < (t : Int) := by exact_mod_cast i.2
    simp only [vec, seg]
    rw [hsv _ (by omega) (by omega), if_neg (by omega), add_sub_cancel_left]
  rw [hv1, hv2]
  rw [hg1] at hz1 hx1
  rw [hg2] at hx2
  exact block_elimination (fine_matrix lv m) (crs_matrix lv.negE t m) (crs_matrix lv.negF m t) S
    (fine_matrix_isUnit lv m hok) (vec b m) z1 (vec s2.b_y1 m) (seg b (m : Int) t)
    (vec s2.y2 t) hz1 hx2 hx1

theorem coupledLevel_sparse_ok : sparse_ok coupledLevel 2 := by
  refine ⟨rfl, by unfold ccs_valid; decide, by unfold strict_lower; decide,
    by unfold ccs_valid; decide, by unfold strict_upper; decide, by decide, ?_⟩
  intro i hi
  simp only [positions, List.range_succ, List.range_zero, List.nil_append, List.map_cons,
    List.map_nil, List.cons_append, List.mem_cons, List.mem_singleton] at hi
  rcases hi with rfl | rfl | h
  · norm_num [at0, rd, coupledLevel]
  · norm_num [at0, rd, coupledLevel]
  · simp at h

/-- A trailing 1x1 identity level inverts the 1x1 identity matrix on its entry of `b`. -/
theorem identity_level_contract (lv : Level) (offset : Int) (s1 : St) (ho : 0 ≤ offset)
    (hb : offset + 1 ≤ (s1.b.length : Int)) (hy : 1 ≤ s1.b_y1.length) :
    ∃ s2, solve_milu [lv, trivLevel 1 0] 2 offset s1 = .ok s2 ∧
      s2.b.length = s1.b.length ∧ s2.b_y1.length = s1.b_y1.length ∧
      s2.y2.length = s1.y2.length ∧
      (∀ i : Int, i < offset ∨ offset + ((1 : Nat) : Int) ≤ i → at0 s2.b i = at0 s1.b i) ∧
      (1 : Matrix (Fin 1) (Fin 1) ℚ).mulVec (seg s2.b offset 1) = seg s1.b offset 1 := by
  obtain ⟨s2, hrun, hbe, h1, h2⟩ := trivChain_run [1] [lv] s1 offset (by simp) (by simp)
    (by simp) ho (by simpa using hb) (by simpa using hy) (by simp)
  exact ⟨s2, hrun, by rw [hbe], h1, h2, fun i _ => by rw [hbe], by rw [hbe, Matrix.one_mulVec]⟩

/-- Instance of the two-level coupling: level 1 with `B = [[2, 10], [6, 37]]`, `E = [11, 13]`, `F = [17; 19]`,
level 2 the 1x1 identity, right-hand side `[1, 2, 3]`. -/
theorem two_level_block_solve_witness :
    ∃ s2, MILUsolve [coupledLevel, trivLevel 1 0] [1, 2, 3] [0, 0] [0] = .ok s2 ∧
      (Matrix.fromBlocks (fine_matrix coupledLevel 2) (-(crs_matrix coupledLevel.negF 2 1))
        (-(crs_matrix coupledLevel.negE 1 2))
        (1 + (-(crs_matrix coupledLevel.negE 1 2)) * (fine_matrix coupledLevel 2)⁻¹ *
          (-(crs_matrix coupledLevel.negF 2 1)))
        ).mulVec (Sum.elim (vec s2.b 2) (seg s2.b ((2 : Nat) : Int) 1))
        = Sum.elim (vec [1, 2, 3] 2) (seg [1, 2, 3] ((2 : Nat) : Int) 1) :=
  two_level_block_solve [coupledLevel, trivLevel 1 0] coupledLevel 2 1 1 [1, 2, 3] [0, 0] [0]
    (by simp [rd]) rfl (by decide) (by decide) (by decide) coupledLevel_sparse_ok (by decide) rfl
    (by decide) rfl rfl rfl rfl rfl (by decide) (by decide)
    (fun s1 h1 h2 _ =>
      identity_level_contract coupledLevel 2 s1 (by decide)
        (by rw [h1]; decide) (by rw [h2]; decide))

/-- Identity round trip below the wraparound threshold: on a chain of trivial levels of
total size less than 65536 the solve leaves `rhs` equal to `b`, and a second solve on the
result returns `b` again. -/
theorem trivChain_round_trip (sizes : List Nat) (b y1 y2 : List ℚ) (hne : sizes ≠ [])
    (hpos : ∀ x ∈ sizes, 1 ≤ x) (hsum : sizes.sum < 65536) (hb : b.length = sizes.sum)
    (hy1 : ∀ x ∈ sizes, x ≤ y1.length) (hy2 : sizes.tail.sum ≤ y2.length) :
    ∃ s2, MILUsolve (trivChain sizes) b y1 y2 = .ok s2 ∧ s2.b = b ∧
      ∃ s3, MILUsolve (trivChain sizes) s2.b s2.b_y1 s2.y2 = .ok s3 ∧ s3.b = b := by
  obtain ⟨s2, r2, b2, l2, m2⟩ := trivChain_run sizes [] ⟨b, y1, y2⟩ 0 hne hpos hsum le_rfl
    (by simp [hb]) hy1 hy2
  obtain ⟨s3, r3, b3, _, _⟩ := trivChain_run sizes [] s2 0 hne hpos hsum le_rfl
    (by rw [b2]; simp [hb]) (fun x hx => by rw [l2]; exact hy1 x hx) (by rw [m2]; exact hy2)
  refine ⟨s2, r2, b2, s3, ?_, by rw [b3, b2]⟩
  exact r3

theorem forUp_first_error {ε ρ : Type} (body : Int → ρ → Except ε ρ) (lo : Int) (c : Nat) (r : ρ)
    (e : ε) (h : body lo r = .error e) : forUp body lo (c + 1) r = .error e := by
  simp only [forUp, h, Except.bind]

theorem bind_ok_eq {ε α β : Type} {m : Except ε α} {a : α} (f : α → Except ε β)
    (h : m = .ok a) : m.bind f = f a := by
  subst h
  rfl

theorem bind_error_eq {ε α β : Type} {m : Except ε α} {e : ε} (f : α → Except ε β)
    (h : m = .error e) : m.bind f = .error e := by
  subst h
  rfl

/-- A single trivial level whose size `n ≥ 2` makes the 32-bit product `n * n` wrap to `0`
is dispatched to the dense branch and stops at the read of `U.val[1]`. -/
theorem trivial_dense_misdispatch (n : Nat) (hn : 2 ≤ n) (hw : mul32 (n : Int) (n : Int) = 0)
    (b y1 y2 : List ℚ) (hb : b.length = n) (hy : n ≤ y1.length) :
    ∃ s1, MILUsolve [trivLevel n 0] b y1 y2 = .error (Fault.Load 1, s1) ∧ s1.b = b := by
  have h0 : rd [trivLevel n 0] (((1 : Nat) : Int) - 1) = some (trivLevel n 0) := by
    simp [rd]
  have hLn : (trivLevel n 0).L.nrows = (n : Int) := rfl
  have hEn : (trivLevel n 0).negE.nrows = ((0 : Nat) : Int) := rfl
  have hrs : (trivLevel n 0).rowscal.length = n + 0 := List.length_replicate _ _
  obtain ⟨s1, r1, b1, u1, _⟩ := gather_run (trivLevel n 0) 0 ⟨b, y1, y2⟩ (by rw [hLn]; omega)
    (by rw [hEn]; omega)
    (by
      have := @gather_ok_of_perm_at (trivLevel n 0) (n + 0) b.length 0
        (perm_ok_idPerm _) (by rw [hrs]) le_rfl (by rw [hb]; simp)
      rw [hLn, hEn]
      exact this)
    (by rw [hLn]; exact_mod_cast hy) (by rw [hEn]; simp)
  have hlen1 : s1.b_y1.length = y1.length := u1.1
  have hdt : dense_test (trivLevel n 0)
      ((trivLevel n 0).L.nrows + (trivLevel n 0).negE.nrows) = true := by
    rw [hLn, hEn]
    simp only [dense_test, trivLevel, emptyCCS, List.length_nil, Nat.cast_zero, add_zero, hw,
      decide_True, Bool.and_self]
  have e1 : load s1.b_y1 1 s1 = .ok (at0 s1.b_y1 1) :=
    load_ok (rd_at0 (by omega) (by rw [hlen1]; omega))
  have e2 : load (trivLevel n 0).U.val (0 + 1) s1 = .error (Fault.Load 1, s1) := by
    simp [load, rd, trivLevel, emptyCCS]
  have hinner : dense_fwd_inner (trivLevel n 0) 1 1 (s1, 0 + 1)
      = .error (Fault.Load 1, s1) := by
    simp only [dense_fwd_inner, e1, e2, bind, Except.bind]
  have houter : dense_fwd (trivLevel n 0) (trivLevel n 0).L.nrows 1 (s1, 0)
      = .error (Fault.Load 1, s1) := by
    rw [hLn]
    have hc : ((n : Int) - 1).toNat = (n - 2) + 1 := by omega
    simp only [dense_fwd, hc]
    exact forUp_first_error _ _ _ _ _ hinner
  have hsolve : dense_solve (trivLevel n 0) (trivLevel n 0).L.nrows s1
      = .error (Fault.Load 1, s1) := by
    have hc : (trivLevel n 0).L.nrows.toNat = (n - 1) + 1 := by
      rw [hLn]
      omega
    simp only [dense_solve, hc, forUp_first_error _ _ _ _ _ houter, bind, Except.bind]
  refine ⟨s1, ?_, b1⟩
  show solve_milu [trivLevel n 0] 1 0 _ = _
  rw [solve_milu_last [trivLevel n 0] 1 0 _ (trivLevel n 0) h0 rfl, bind_ok_eq _ r1]
  rw [hdt, if_pos rfl]
  exact bind_error_eq _ hsolve

/-- C6, failing input: a single trivial level of size 65536.  The product `n * n` of the
dispatch test wraps to `0`, the size of the empty `U.val`, so the level is sent to the
dense branch, whose first elimination step reads `U.val[1]` outside the buffer. -/
theorem identity_65536_takes_dense_branch :
    ∃ s1, MILUsolve [trivLevel 65536 0] (List.replicate 65536 1) (List.replicate 65536 0) []
        = .error (Fault.Load 1, s1) ∧ s1.b = List.replicate 65536 1 :=
  trivial_dense_misdispatch 65536 (by omega) (by decide) _ _ _ (List.length_replicate _ _)
    (le_of_eq (List.length_replicate _ _).symm)

theorem goodOn_ok {ρ : Type} (π : ρ → St) (s : St) (r : ρ) (h : lens (π r) = lens s) :
    GoodOn π s (.ok r) := h

theorem goodOn_congr {ρ : Type} (π : ρ → St) {s s2 : St} (h : lens s = lens s2)
    {r : Run St ρ} (hr : GoodOn π s r) : GoodOn π s2 r := by
  cases r with
  | ok r2 =>
    simp only [GoodOn] at hr ⊢
    rw [hr, h]
  | error e => exact hr

theorem goodOn_bind {ρ1 ρ2 : Type} (π1 : ρ1 → St) (π2 : ρ2 → St) (s : St) (m : Run St ρ1)
    (f : ρ1 → Run St ρ2) (hm : GoodOn π1 s m)
    (hf : ∀ r1, lens (π1 r1) = lens s → GoodOn π2 s (f r1)) : GoodOn π2 s (m >>= f) := by
  cases m with
  | ok r1 => exact hf r1 hm
  | error e => exact hm

theorem goodOn_load_bind {α ρ : Type} (π : ρ → St) (s0 : St) (a : List α) (i : Int) (s : St)
    (f : α → Run St ρ) (h : ∀ v, GoodOn π s0 (f v)) : GoodOn π s0 (load a i s >>= f) := by
  unfold load
  cases rd a i with
  | none => simp [GoodOn, bind, Except.bind]
  | some v => exact h v

theorem good_store_y1 (i : Int) (v : ℚ) (s : St) : GoodOn id s (store_y1 i v s) := by
  unfold store_y1 wr
  split
  · rename_i l hl
    split at hl
    · injection hl with hl
      subst hl
      simp [GoodOn, lens]
    · simp at hl
  · simp [GoodOn]

theorem good_store_y2 (i : Int) (v : ℚ) (s : St) : GoodOn id s (store_y2 i v s) := by
  unfold store_y2 wr
  split
  · rename_i l hl
    split at hl
    · injection hl with hl
      subst hl
      simp [GoodOn, lens]
    · simp at hl
  · simp [GoodOn]

theorem good_store_b (i : Int) (v : ℚ) (s : St) : GoodOn id s (store_b i v s) := by
  unfold store_b
  split
  · simp [GoodOn, lens]
  · simp [GoodOn]

theorem goodOn_forUp {ρ : Type} (π : ρ → St) (body : Int → ρ → Run St ρ)
    (hb : ∀ i r, GoodOn π (π r) (body i r)) :
    ∀ (cnt : Nat) (lo : Int) (r : ρ), GoodOn π (π r) (forUp body lo cnt r) := by
  intro cnt
  induction cnt with
  | zero =>
    intro lo r
    exact rfl
  | succ c ih =>
    intro lo r
    simp only [forUp]
    exact goodOn_bind π π (π r) (body lo r) _ (hb lo r)
      (fun r1 h1 => goodOn_congr π h1 (ih (lo + 1) r1))

theorem goodOn_forDown {ρ : Type} (π : ρ → St) (body : Int → ρ → Run St ρ)
    (hb : ∀ i r, GoodOn π (π r) (body i r)) :
    ∀ (cnt : Nat) (hi : Int) (r : ρ), GoodOn π (π r) (forDown body hi cnt r) := by
  intro cnt
  induction cnt with
  | zero =>
    intro hi r
    exact rfl
  | succ c ih =>
    intro hi r
    simp only [forDown]
    exact goodOn_bind π π (π r) (body hi r) _ (hb hi r)
      (fun r1 h1 => goodOn_congr π h1 (ih (hi - 1) r1))

theorem good_gather (lv : Level) (offset nB n : Int) (s : St) :
    GoodOn id s (gather lv offset nB n s) := by
  unfold gather
  refine goodOn_bind id id s _ _ (goodOn_forUp id _ (fun i r => ?_) _ _ s)
    (fun r1 h1 => goodOn_congr id h1 (goodOn_forUp id _ (fun i r => ?_) _ _ r1))
  · unfold gather_fine
    exact goodOn_load_bind _ _ _ _ _ _ fun _ => goodOn_load_bind _ _ _ _ _ _ fun _ =>
      goodOn_load_bind _ _ _ _ _ _ fun _ => good_store_y1 _ _ _
  · unfold gather_trail
    exact goodOn_load_bind _ _ _ _ _ _ fun _ => goodOn_load_bind _ _ _ _ _ _ fun _ =>
      goodOn_load_bind _ _ _ _ _ _ fun _ => good_store_y2 _ _ _

theorem good_write_back (offset nB : Int) (s : St) : GoodOn id s (write_back offset nB s) := by
  unfold write_back
  refine goodOn_forUp id _ (fun i r => ?_) _ _ s
  unfold write_back_body
  exact goodOn_load_bind _ _ _ _ _ _ fun _ => good_store_b _ _ _

theorem good_store_trailing (lv : Level) (offset nB n : Int) (s : St) :
    GoodOn id s (store_trailing lv offset nB n s) := by
  unfold store_trailing
  refine goodOn_forUp id _ (fun i r => ?_) _ _ s
  unfold store_trailing_body
  exact goodOn_load_bind _ _ _ _ _ _ fun _ => good_store_b _ _ _

theorem good_reload (lv : Level) (offset nB n : Int) (s : St) :
    GoodOn id s (reload lv offset nB n s) := by
  unfold reload
  refine goodOn_bind id id s _ _ (goodOn_forUp id _ (fun i r => ?_) _ _ s)
    (fun r1 h1 => goodOn_congr id h1 (goodOn_forUp id _ (fun i r => ?_) _ _ r1))
  · unfold reload_fine
    exact goodOn_load_bind _ _ _ _ _ _ fun _ => good_store_y1 _ _ _
  · unfold reload_trail
    exact goodOn_load_bind _ _ _ _ _ _ fun _ => good_store_y2 _ _ _

theorem good_scatter (lv : Level) (offset nB n : Int) (s : St) :
    GoodOn id s (scatter lv offset nB n s) := by
  unfold scatter
  refine goodOn_bind id id s _ _ (goodOn_forUp id _ (fun i r => ?_) _ _ s)
    (fun r1 h1 => goodOn_congr id h1 (goodOn_forUp id _ (fun i r => ?_) _ _ r1))
  · unfold scatter_fine
    exact goodOn_load_bind _ _ _ _ _ _ fun _ => goodOn_load_bind _ _ _ _ _ _ fun _ =>
      goodOn_load_bind _ _ _ _ _ _ fun _ => good_store_b _ _ _
  · unfold scatter_trail
    exact goodOn_load_bind _ _ _ _ _ _ fun _ => goodOn_load_bind _ _ _ _ _ _ fun _ =>
      goodOn_load_bind _ _ _ _ _ _ fun _ => good_store_b _ _ _

theorem good_col_sweep (A : CCS) (j : Int) (s : St) : GoodOn id s (col_sweep A j s) := by
  unfold col_sweep
  refine goodOn_load_bind _ _ _ _ _ _ fun lo => goodOn_load_bind _ _ _ _ _ _ fun hi => ?_
  refine goodOn_forUp id _ (fun i r => ?_) _ _ s
  unfold col_update
  exact goodOn_load_bind _ _ _ _ _ _ fun _ => goodOn_load_bind _ _ _ _ _ _ fun _ =>
    goodOn_load_bind _ _ _ _ _ _ fun _ => goodOn_load_bind _ _ _ _ _ _ fun _ =>
      good_store_y1 _ _ _

theorem good_sparse_solve (lv : Level) (nB : Int) (s : St) :
    GoodOn id s (sparse_solve lv nB s) := by
  unfold sparse_solve
  refine goodOn_bind id id s _ _ (goodOn_forUp id _ (fun i r => good_col_sweep _ _ _) _ _ s)
    (fun r1 h1 => goodOn_congr id h1 ?_)
  refine goodOn_bind id id r1 _ _ (goodOn_forUp id _ (fun i r => ?_) _ _ r1)
    (fun r2 h2 => goodOn_congr id h2
      (goodOn_forDown id _ (fun i r => good_col_sweep _ _ _) _ _ r2))
  unfold div_body
  exact goodOn_load_bind _ _ _ _ _ _ fun _ => goodOn_load_bind _ _ _ _ _ _ fun _ =>
    good_store_y1 _ _ _

theorem good_dense_fwd (lv : Level) (nB : Int) (j : Int) (sk : St × Int) :
    GoodOn Prod.fst sk.1 (dense_fwd lv nB j sk) := by
  unfold dense_fwd
  refine goodOn_forUp Prod.fst _ (fun i r => ?_) _ _ (sk.1, sk.2 + j)
  unfold dense_fwd_inner
  refine goodOn_load_bind _ _ _ _ _ _ fun _ => goodOn_load_bind _ _ _ _ _ _ fun _ =>
    goodOn_load_bind _ _ _ _ _ _ fun _ => ?_
  exact goodOn_bind id Prod.fst r.1 _ _ (good_store_y1 _ _ _) (fun r1 h1 => h1)

theorem good_dense_bwd (lv : Level) (nB : Int) (j : Int) (sk : St × Int) :
    GoodOn Prod.fst sk.1 (dense_bwd lv nB j sk) := by
  unfold dense_bwd
  refine goodOn_load_bind _ _ _ _ _ _ fun _ => goodOn_load_bind _ _ _ _ _ _ fun _ => ?_
  refine goodOn_bind id Prod.fst sk.1 _ _ (good_store_y1 _ _ _) (fun s1 h1 => ?_)
  refine goodOn_bind Prod.fst Prod.fst sk.1 _ _
    (goodOn_congr Prod.fst h1 (goodOn_forDown Prod.fst _ (fun i r => ?_) _ _ (s1, sk.2)))
    (fun r2 h2 => h2)
  unfold dense_bwd_inner
  refine goodOn_load_bind _ _ _ _ _ _ fun _ => goodOn_load_bind _ _ _ _ _ _ fun _ =>
    goodOn_load_bind _ _ _ _ _ _ fun _ => ?_
  exact goodOn_bind id Prod.fst r.1 _ _ (good_store_y1 _ _ _) (fun r1 h1 => h1)

theorem good_dense_solve (lv : Level) (nB : Int) (s : St) :
    GoodOn id s (dense_solve lv nB s) := by
  unfold dense_solve
  refine goodOn_bind Prod.fst id s _ _
    (goodOn_forUp Prod.fst _ (fun i r => good_dense_fwd lv nB i r) _ _ (s, 0))
    (fun r1 h1 => ?_)
  refine goodOn_bind Prod.fst id s _ _
    (goodOn_congr Prod.fst h1 (goodOn_forDown Prod.fst _
      (fun i r => good_dense_bwd lv nB i r) _ _ (r1.1, _)))
    (fun r2 h2 => h2)

/-- A successful `forUp` loop keeps every property its body keeps. -/
theorem forUp_ok_inv {ε ρ : Type} (body : Int → ρ → Except ε ρ) (P : ρ → Prop)
    (hb : ∀ i r r2, P r → body i r = .ok r2 → P r2) :
    ∀ (cnt : Nat) (lo : Int) (r r2 : ρ), P r → forUp body lo cnt r = .ok r2 → P r2 := by
  intro cnt
  induction cnt with
  | zero =>
    intro lo r r2 hP h
    simp only [forUp] at h
    injection h with h
    rw [← h]
    exact hP
  | succ c ih =>
    intro lo r r2 hP h
    simp only [forUp] at h
    cases hbr : body lo r with
    | error e =>
      rw [hbr] at h
      simp [Except.bind] at h
    | ok r1 =>
      rw [hbr] at h
      exact ih (lo + 1) r1 r2 (hb lo r r1 hP hbr) h

/-- The kernel keeps the length of `y`. -/
theorem crs_Axpy_kernel_length {row_ptr col_ind : List Int} {val x y y2 : List ℚ}
    {nrows : Int} (h : crs_Axpy_kernel row_ptr col_ind val x y nrows = .ok y2) :
    y2.length = y.length := by
  refine forUp_ok_inv (crs_body row_ptr col_ind val x) (fun w => w.length = y.length) ?_
    _ _ _ _ rfl h
  intro i r r2 hr hb
  unfold crs_body at hb
  cases h1 : load r i r with
  | error e => rw [h1] at hb; simp [bind, Except.bind] at hb
  | ok t =>
    cases h2 : load row_ptr i r with
    | error e => rw [h1, h2] at hb; simp [bind, Except.bind] at hb
    | ok lo =>
      cases h3 : load row_ptr (i + 1) r with
      | error e => rw [h1, h2, h3] at hb; simp [bind, Except.bind] at hb
      | ok hi =>
        cases h4 : crs_row col_ind val x r lo (hi - lo).toNat t with
        | error e => rw [h1, h2, h3] at hb; simp [bind, Except.bind, h4] at hb
        | ok t2 =>
          rw [h1, h2, h3] at hb
          simp only [bind, Except.bind, h4] at hb
          unfold wr at hb
          split at hb
          · rename_i l hl
            split at hl
            · injection hl with hl
              injection hb with hb
              rw [← hb, ← hl]
              simp [hr]
            · simp at hl
          · simp at hb

/-- Step 5a ends well when `y2` has at least `negE.nrows` entries. -/
theorem good_couple_E (lv : Level) (s : St) (h : lv.negE.nrows ≤ (s.y2.length : Int)) :
    GoodOn id s (couple_E lv s) := by
  have hn : ¬ ((s.y2.length : Int) < lv.negE.nrows) := by omega
  simp only [couple_E, hn, if_false]
  cases hk : crs_Axpy_kernel lv.negE.row_ptr lv.negE.col_ind lv.negE.val s.b_y1 s.y2
      lv.negE.nrows with
  | ok y =>
    simp only [GoodOn, lens, id]
    rw [crs_Axpy_kernel_length hk]
  | error e =>
    obtain ⟨f, y⟩ := e
    exact crs_Axpy_kernel_fault hk

/-- Step 5e ends well when `b_y1` has at least `negF.nrows` entries. -/
theorem good_couple_F (lv : Level) (s : St) (h : lv.negF.nrows ≤ (s.b_y1.length : Int)) :
    GoodOn id s (couple_F lv s) := by
  have hn : ¬ ((s.b_y1.length : Int) < lv.negF.nrows) := by omega
  simp only [couple_F, hn, if_false]
  cases hk : crs_Axpy_kernel lv.negF.row_ptr lv.negF.col_ind lv.negF.val s.y2 s.b_y1
      lv.negF.nrows with
  | ok y =>
    simp only [GoodOn, lens, id]
    rw [crs_Axpy_kernel_length hk]
  | error e =>
    obtain ⟨f, y⟩ := e
    exact crs_Axpy_kernel_fault hk

theorem solve_milu_none (M : List Level) (lvl : Nat) (offset : Int) (s : St)
    (h : rd M ((lvl : Int) - 1) = none) :
    solve_milu M lvl offset s = .error (Fault.Load ((lvl : Int) - 1), s) := by
  rw [solve_milu]
  split
  · rfl
  · rename_i lv2 h2
    rw [h] at h2
    exact absurd h2 (by simp)

theorem rd_append_nil_none {α : Type} (l1 : List α) :
    rd (l1 ++ []) (((l1.length + 1 : Nat) : Int) - 1) = none := by
  have h : ((l1.length + 1 : Nat) : Int) - 1 = ((l1.length : Nat) : Int) := by
    push_cast
    ring
  rw [h, rd_natCast, List.append_nil]
  exact List.get?_eq_none.2 le_rfl

/-- With scratch buffers that fit every level the recursion visits, the level solver
keeps the scratch lengths or stops with a fault other than `BufferTooSmall`. -/
theorem good_solve_milu : ∀ (suf pre : List Level) (s : St) (offset : Int),
    fits suf (s.b_y1.length : Int) (s.y2.length : Int) →
    GoodOn id s (solve_milu (pre ++ suf) (pre.length + 1) offset s) := by
  intro suf
  induction suf with
  | nil =>
    intro pre s offset _
    rw [solve_milu_none _ _ _ _ (rd_append_nil_none pre)]
    simp [GoodOn]
  | cons lv rest ih =>
    intro pre s offset hf
    obtain ⟨_, hF, hE, hrest⟩ := hf
    rw [solve_milu_eq _ _ _ _ lv (rd_append_cons pre lv rest)]
    refine goodOn_bind id id s _ _ (good_gather _ _ _ _ _) (fun s1 h1 => ?_)
    refine goodOn_bind id id s _ _ ?_ (fun s2 h2 => ?_)
    · split
      · exact goodOn_congr id h1 (good_write_back _ _ _)
      · exact h1
    refine goodOn_bind id id s _ _ ?_ (fun s3 h3 => ?_)
    · split
      · exact goodOn_congr id h2 (good_dense_solve _ _ _)
      · exact goodOn_congr id h2 (good_sparse_solve _ _ _)
    refine goodOn_bind id id s _ _ ?_ (fun s9 h9 => goodOn_congr id h9 (good_scatter _ _ _ _ _))
    split
    · rename_i hgt
      have hpos : 0 < lv.negE.nrows := by omega
      have l3 : s3.b_y1.length = s.b_y1.length ∧ s3.y2.length = s.y2.length := by
        have := h3
        simp only [lens, id, Prod.mk.injEq] at this
        exact this
      refine goodOn_bind id id s _ _
        (goodOn_congr id h3 (good_couple_E lv s3 (by rw [l3.2]; exact hE))) (fun s4 h4 => ?_)
      refine goodOn_bind id id s _ _
        (goodOn_congr id h4 (good_store_trailing _ _ _ _ _)) (fun s5 h5 => ?_)
      have l5 : s5.b_y1.length = s.b_y1.length ∧ s5.y2.length = s.y2.length := by
        have := h5
        simp only [lens, id, Prod.mk.injEq] at this
        exact this
      refine goodOn_bind id id s _ _ ?_ (fun s6 h6 => ?_)
      · have hih := ih (pre ++ [lv]) s5 (offset + lv.L.nrows)
          (by rw [l5.1, l5.2]; exact hrest hpos)
        rw [List.append_assoc, List.length_append] at hih
        exact goodOn_congr id h5 hih
      refine goodOn_bind id id s _ _
        (goodOn_congr id h6 (good_reload _ _ _ _ _)) (fun s7 h7 => ?_)
      have l7 : s7.b_y1.length = s.b_y1.length ∧ s7.y2.length = s.y2.length := by
        have := h7
        simp only [lens, id, Prod.mk.injEq] at this
        exact this
      refine goodOn_bind id id s _ _
        (goodOn_congr id h7 (good_couple_F lv s7 (by rw [l7.1]; exact hF))) (fun s8 h8 => ?_)
      exact goodOn_congr id h8 (good_sparse_solve _ _ _)
    · exact h3

theorem fits_mono : ∀ (M : List Level) (l1 l2 k1 k2 : Int), l1 ≤ k1 → l2 ≤ k2 →
    fits M l1 l2 → fits M k1 k2 := by
  intro M
  induction M with
  | nil => intro _ _ _ _ _ _ _; trivial
  | cons lv rest ih =>
    intro l1 l2 k1 k2 h1 h2 hf
    obtain ⟨a, b, c, d⟩ := hf
    exact ⟨by omega, by omega, by omega, fun hp => ih _ _ _ _ h1 h2 (d hp)⟩

/-- Block sizes do not increase down a well-formed chain: scratch buffers of the sizes
`n` and `n` of the first level of a chain fit every level. -/
theorem fits_of_chain : ∀ (M : List Level) (n : Int), chain_ok M → next_n M = some n →
    fits M n n := by
  intro M
  induction M with
  | nil => intro _ _ _; trivial
  | cons lv rest ih =>
    intro n hok hn
    obtain ⟨hB, hE, hF, hrest⟩ := hok
    simp only [next_n, Option.some.injEq] at hn
    refine ⟨by omega, by omega, by omega, fun hp => ?_⟩
    obtain ⟨h1, h2⟩ := hrest hp
    exact fits_mono rest _ _ _ _ (by omega) (by omega) (ih _ h2 h1)

/-- C9: on a well-formed chain (at every level `nB ≥ 1`, `negE.nrows = n - nB ≥ 0`,
`negF.nrows = nB`, and the next level has total size `n - nB`) the scratch lengths
`max(nB_1, nTrail_1)` and `nTrail_1` taken from level 1 fit every level of the chain
(`nB_k`, `negF_k.nrows` within the first, `negE_k.nrows` within the second), and
`MILUsolve_2args` never stops with `BufferTooSmall`. -/
theorem auto_scratch_never_too_small (lv : Level) (rest : List Level) (b : List ℚ)
    (hok : chain_ok (lv :: rest)) :
    fits (lv :: rest) (max lv.L.nrows lv.negE.nrows) lv.negE.nrows ∧
      ∀ s, MILUsolve_2args (lv :: rest) b ≠ .error (Fault.BufferTooSmall, s) := by
  have hfit : fits (lv :: rest) (max lv.L.nrows lv.negE.nrows) lv.negE.nrows := by
    obtain ⟨hB, hE, hF, hrest⟩ := hok
    refine ⟨le_max_left _ _, by rw [hF]; exact le_max_left _ _, le_rfl, fun hp => ?_⟩
    obtain ⟨h1, h2⟩ := hrest hp
    exact fits_mono rest _ _ _ _ (le_max_right _ _) le_rfl (fits_of_chain rest _ h2 h1)
  refine ⟨hfit, fun s hs => ?_⟩
  have hB : 1 ≤ lv.L.nrows := hok.1
  have hE : 0 ≤ lv.negE.nrows := hok.2.1
  have hu : (if lv.L.nrows > lv.negE.nrows then lv.L.nrows else lv.negE.nrows)
      = max lv.L.nrows lv.negE.nrows := by
    split
    · rw [max_eq_left]; omega
    · rw [max_eq_right]; omega
  have hgood := good_solve_milu (lv :: rest) []
    ⟨b, List.replicate (max lv.L.nrows lv.negE.nrows).toNat 0,
      List.replicate lv.negE.nrows.toNat 0⟩ 0
    (by
      simp only [List.length_replicate]
      rw [Int.toNat_of_nonneg (le_trans hE (le_max_right _ _)), Int.toNat_of_nonneg hE]
      exact hfit)
  have hrd : rd (lv :: rest) 0 = some lv := rfl
  simp only [MILUsolve_2args, hrd, hu] at hs
  simp only [List.nil_append, List.length_nil, Nat.zero_add] at hgood
  cases hr : solve_milu (lv :: rest) 1 0
      ⟨b, List.replicate (max lv.L.nrows lv.negE.nrows).toNat 0,
        List.replicate lv.negE.nrows.toNat 0⟩ with
  | ok s2 =>
    rw [hr] at hs
    simp [Except.map] at hs
  | error e =>
    rw [hr] at hs hgood
    simp only [Except.map, Except.error.injEq] at hs
    exact hgood (by rw [hs])

theorem auto_scratch_never_too_small_witness :
    chain_ok [trivLevel 2 3, trivLevel 1 2, trivLevel 2 0] ∧
      (fits [trivLevel 2 3, trivLevel 1 2, trivLevel 2 0]
          (max (trivLevel 2 3).L.nrows (trivLevel 2 3).negE.nrows) (trivLevel 2 3).negE.nrows ∧
        ∀ s, MILUsolve_2args [trivLevel 2 3, trivLevel 1 2, trivLevel 2 0] [1, 2, 3, 4, 5]
          ≠ .error (Fault.BufferTooSmall, s)) :=
  have h : chain_ok [trivLevel 2 3, trivLevel 1 2, trivLevel 2 0] := by
    simp [chain_ok, next_n, trivLevel, emptyCCS, emptyCRS]
  ⟨h, auto_scratch_never_too_small _ _ _ h⟩

/-- C14: on a sparse level whose `L` stores only entries strictly below the diagonal and
`U` only entries strictly above it (column pointers of length `nB + 1`, row indices in
`1..nB`) and whose `d` has no zero entry, the forward-substitute / divide-by-`d` /
back-substitute procedure returns, for every content `y` of the first `nB` entries of
`b_y1`, the unique `z` with `(I + L) * diag(d) * (I + U) * z = y`, and leaves `b`, `y2` and
the length of `b_y1` unchanged. -/
theorem sparse_fine_block_solves (lv : Level) (m : Nat) (s : St) (hok : sparse_ok lv m)
    (hy : (m : Int) ≤ (s.b_y1.length : Int)) :
    ∃ s2, sparse_solve lv lv.L.nrows s = .ok s2 ∧ s2.b = s.b ∧ s2.y2 = s.y2 ∧
      s2.b_y1.length = s.b_y1.length ∧
      (fine_matrix lv m).mulVec (vec s2.b_y1 m) = vec s.b_y1 m ∧
      ∀ z : Fin m → ℚ, (fine_matrix lv m).mulVec z = vec s.b_y1 m → z = vec s2.b_y1 m := by
  obtain ⟨s2, r, hb, h2, hl, hz⟩ := sparse_solve_run lv m s hok hy
  refine ⟨s2, r, hb, h2, hl, hz, fun z hzz => ?_⟩
  have hdet : IsUnit (fine_matrix lv m).det :=
    (Matrix.isUnit_iff_isUnit_det _).1 (fine_matrix_isUnit lv m hok)
  have hinv : (fine_matrix lv m)⁻¹ * fine_matrix lv m = 1 := Matrix.nonsing_inv_mul _ hdet
  calc z = ((fine_matrix lv m)⁻¹ * fine_matrix lv m).mulVec z := by
        rw [hinv, Matrix.one_mulVec]
    _ = ((fine_matrix lv m)⁻¹ * fine_matrix lv m).mulVec (vec s2.b_y1 m) := by
        rw [← Matrix.mulVec_mulVec, ← Matrix.mulVec_mulVec, hzz, hz]
    _ = vec s2.b_y1 m := by rw [hinv, Matrix.one_mulVec]

theorem sparse_fine_block_solves_witness :
    ∃ s2, sparse_solve sampleLevel sampleLevel.L.nrows ⟨[], [1, 2], []⟩ = .ok s2 ∧
      s2.b = [] ∧ s2.y2 = [] ∧ s2.b_y1.length = 2 ∧
      (fine_matrix sampleLevel 2).mulVec (vec s2.b_y1 2) = vec [1, 2] 2 ∧
      ∀ z : Fin 2 → ℚ, (fine_matrix sampleLevel 2).mulVec z = vec [1, 2] 2 →
        z = vec s2.b_y1 2 :=
  sparse_fine_block_solves sampleLevel 2 ⟨[], [1, 2], []⟩ sampleLevel_sparse_ok (by decide)

/-- C19, failing input: for the level size `n = 65536 < 2^31` the 32-bit product `n * n`
of the dispatch test is `0`, not the square `2^32`, and the diagonal-only level of that
size, whose `L` and `U` value arrays are both empty, passes the dense-dispatch test. -/
theorem square_wraps_at_65536 :
    mul32 65536 65536 = 0 ∧ (65536 : Int) * 65536 = 4294967296 ∧
      (trivLevel 65536 0).L.val = [] ∧ (trivLevel 65536 0).U.val = [] ∧
      dense_test (trivLevel 65536 0)
        ((trivLevel 65536 0).L.nrows + (trivLevel 65536 0).negE.nrows) = true := by
  refine ⟨by decide, by decide, rfl, rfl, ?_⟩
  have h1 : (trivLevel 65536 0).L.nrows + (trivLevel 65536 0).negE.nrows = 65536 := by
    show ((65536 : Nat) : Int) + ((0 : Nat) : Int) = 65536
    decide
  have h2 : mul32 65536 65536 = 0 := by decide
  rw [h1]
  simp only [dense_test, trivLevel, emptyCCS, List.length_nil, Nat.cast_zero, h2,
    decide_True, Bool.and_self]

/-- The dispatch without wraparound: on a level of total size `n = nB + nTrail` with
`n * n < 2^31` the dense path is taken exactly when `L.val` is empty and `U.val` has
exactly `n * n` entries; on a terminal level (`nTrail = 0`) this is the specification's
signal with `nB²`, and the level solver is gather, the fine-block solve selected by that
signal, scatter. -/
theorem dense_dispatch (M : List Level) (lvl : Nat) (offset : Int) (s : St) (lv : Level)
    (h : rd M ((lvl : Int) - 1) = some lv)
    (hsq : (lv.L.nrows + lv.negE.nrows) * (lv.L.nrows + lv.negE.nrows) < 2147483648) :
    (dense_test lv (lv.L.nrows + lv.negE.nrows) = true ↔
        lv.L.val.length = 0 ∧ (lv.U.val.length : Int)
          = (lv.L.nrows + lv.negE.nrows) * (lv.L.nrows + lv.negE.nrows)) ∧
      (lv.negE.nrows = 0 →
        dense_test lv (lv.L.nrows + lv.negE.nrows) = dense_signal_spec lv ∧
        solve_milu M lvl offset s =
          (gather lv offset lv.L.nrows (lv.L.nrows + lv.negE.nrows) s).bind fun s =>
          (if dense_signal_spec lv then dense_solve lv lv.L.nrows s
            else sparse_solve lv lv.L.nrows s).bind fun s =>
          scatter lv offset lv.L.nrows (lv.L.nrows + lv.negE.nrows) s) := by
  have hw : mul32 (lv.L.nrows + lv.negE.nrows) (lv.L.nrows + lv.negE.nrows)
      = (lv.L.nrows + lv.negE.nrows) * (lv.L.nrows + lv.negE.nrows) :=
    wrap32_small _ (mul_self_nonneg _) hsq
  have hiff : dense_test lv (lv.L.nrows + lv.negE.nrows) = true ↔
      lv.L.val.length = 0 ∧ (lv.U.val.length : Int)
        = (lv.L.nrows + lv.negE.nrows) * (lv.L.nrows + lv.negE.nrows) := by
    simp only [dense_test, hw, Bool.and_eq_true, decide_eq_true_eq, Nat.cast_eq_zero]
  refine ⟨hiff, fun hT => ?_⟩
  have hds : dense_test lv (lv.L.nrows + lv.negE.nrows) = dense_signal_spec lv := by
    have hw2 := hw
    rw [hT, add_zero] at hw2
    simp only [dense_test, dense_signal_spec, hT, add_zero, hw2]
  refine ⟨hds, ?_⟩
  rw [solve_milu_last M lvl offset s lv h hT, hds]

theorem dense_dispatch_witness :
    (dense_test denseLevel (denseLevel.L.nrows + denseLevel.negE.nrows) = true ↔
        denseLevel.L.val.length = 0 ∧ (denseLevel.U.val.length : Int)
          = (denseLevel.L.nrows + denseLevel.negE.nrows)
            * (denseLevel.L.nrows + denseLevel.negE.nrows)) ∧
      (denseLevel.negE.nrows = 0 →
        dense_test denseLevel (denseLevel.L.nrows + denseLevel.negE.nrows)
          = dense_signal_spec denseLevel ∧
        solve_milu [denseLevel] 1 0 ⟨[1, 2], [0, 0], []⟩ =
          (gather denseLevel 0 denseLevel.L.nrows
            (denseLevel.L.nrows + denseLevel.negE.nrows) ⟨[1, 2], [0, 0], []⟩).bind fun s =>
          (if dense_signal_spec denseLevel then dense_solve denseLevel denseLevel.L.nrows s
            else sparse_solve denseLevel denseLevel.L.nrows s).bind fun s =>
          scatter denseLevel 0 denseLevel.L.nrows
            (denseLevel.L.nrows + denseLevel.negE.nrows) s) :=
  dense_dispatch [denseLevel] 1 0 ⟨[1, 2], [0, 0], []⟩ denseLevel rfl (by decide)

/-- Counterexample to C17 as stated: the forward sweep of lines 86-92 applies a stored
entry above the diagonal (row 1 of column 2: `b_y1[0]` becomes `1 - 3 * 1`) and a stored
entry on the diagonal (row 1 of column 1: `b_y1[0]` becomes `1 - 3 * 1`). -/
theorem forward_sweep_applies_upper_entry :
    forUp (col_sweep upperInL) 1 (upperInL.col_ptr.length - 1) ⟨[], [1, 1], []⟩
        = .ok ⟨[], [-2, 1], []⟩ ∧
      forUp (col_sweep diagInL) 1 (diagInL.col_ptr.length - 1) ⟨[], [1, 1], []⟩
        = .ok ⟨[], [-2, 1], []⟩ := by
  constructor <;> with_unfolding_all rfl

/-- C17 (amended): the step of the forward sweep for column `j` applies the update
`b_y1[i] -= val * b_y1[j]` for every stored entry `(i, val)` of the column, wherever it
lies relative to the diagonal: if the column stores no entry on the diagonal itself, every
`b_y1[i]` decreases by the sum of the stored values of row `i` in column `j` times
`b_y1[j]`. -/
theorem forward_column_applies_every_entry (A : CCS) (j : Int) (s : St) (hj : 1 ≤ j)
    (hcp : j < (A.col_ptr.length : Int))
    (hv : ∀ k ∈ col_positions A (j - 1),
      0 ≤ k ∧ k < (A.row_ind.length : Int) ∧ k < (A.val.length : Int) ∧
        1 ≤ atI A.row_ind k ∧ atI A.row_ind k ≤ (s.b_y1.length : Int) ∧ atI A.row_ind k ≠ j)
    (hy : j ≤ (s.b_y1.length : Int)) :
    ∃ s2, col_sweep A j s = .ok s2 ∧ s2.b = s.b ∧ s2.y2 = s.y2 ∧
      s2.b_y1.length = s.b_y1.length ∧
      (∀ i : Int,
        at0 s2.b_y1 i = at0 s.b_y1 i - col_entry A i (j - 1) * at0 s.b_y1 (j - 1)) ∧
      ∀ i : Int, col_entry A i (j - 1) ≠ 0 → at0 s.b_y1 (j - 1) ≠ 0 →
        at0 s2.b_y1 i ≠ at0 s.b_y1 i := by
  obtain ⟨s2, r, hb, h2, hl, hval⟩ := col_sweep_run A j s hj hcp hv hy
  refine ⟨s2, r, hb, h2, hl, hval, fun i hc hyj heq => ?_⟩
  rw [hval i] at heq
  have hz : col_entry A i (j - 1) * at0 s.b_y1 (j - 1) = 0 := by linarith
  rcases mul_eq_zero.1 hz with h0 | h0
  · exact hc h0
  · exact hyj h0

theorem forward_column_applies_every_entry_witness :
    ∃ s2, col_sweep upperInL 2 ⟨[], [1, 1], []⟩ = .ok s2 ∧ s2.b = [] ∧ s2.y2 = [] ∧
      s2.b_y1.length = 2 ∧
      (∀ i : Int, at0 s2.b_y1 i
        = at0 [1, 1] i - col_entry upperInL i (2 - 1) * at0 [1, 1] (2 - 1)) ∧
      ∀ i : Int, col_entry upperInL i (2 - 1) ≠ 0 → at0 [1, 1] (2 - 1) ≠ 0 →
        at0 s2.b_y1 i ≠ at0 [1, 1] i :=
  forward_column_applies_every_entry upperInL 2 ⟨[], [1, 1], []⟩ (by decide) (by decide)
    (by decide) (by decide)

/-- C18: on a level with `nTrail > 0` whose `U` stores at most `nB (nB - 1) / 2` values
and whose `n * n` does not overflow, the dispatch test is false, so the level solver runs
the sparse forward/divide/backward procedure `sparse_solve` both before the recursion
(step 4) and after it (step 5f). -/
theorem trailing_level_solves_sparse_twice (M : List Level) (lvl : Nat) (offset : Int)
    (s : St) (lv : Level) (h : rd M ((lvl : Int) - 1) = some lv)
    (hT : 0 < lv.negE.nrows) (hB : 0 ≤ lv.L.nrows)
    (hU : 2 * (lv.U.val.length : Int) ≤ lv.L.nrows * (lv.L.nrows - 1))
    (hsq : (lv.L.nrows + lv.negE.nrows) * (lv.L.nrows + lv.negE.nrows) < 2147483648) :
    dense_test lv (lv.L.nrows + lv.negE.nrows) = false ∧
      solve_milu M lvl offset s =
        (gather lv offset lv.L.nrows (lv.L.nrows + lv.negE.nrows) s).bind fun s =>
        (write_back offset lv.L.nrows s).bind fun s =>
        (sparse_solve lv lv.L.nrows s).bind fun s =>
        ((couple_E lv s).bind fun s =>
          (store_trailing lv offset lv.L.nrows (lv.L.nrows + lv.negE.nrows) s).bind fun s =>
          (solve_milu M (lvl + 1) (offset + lv.L.nrows) s).bind fun s =>
          (reload lv offset lv.L.nrows (lv.L.nrows + lv.negE.nrows) s).bind fun s =>
          (couple_F lv s).bind fun s =>
          sparse_solve lv lv.L.nrows s).bind fun s =>
        scatter lv offset lv.L.nrows (lv.L.nrows + lv.negE.nrows) s := by
  have hw : mul32 (lv.L.nrows + lv.negE.nrows) (lv.L.nrows + lv.negE.nrows)
      = (lv.L.nrows + lv.negE.nrows) * (lv.L.nrows + lv.negE.nrows) :=
    wrap32_small _ (mul_self_nonneg _) hsq
  have hlt : (lv.U.val.length : Int)
      < (lv.L.nrows + lv.negE.nrows) * (lv.L.nrows + lv.negE.nrows) := by
    nlinarith [mul_nonneg hB hB, mul_nonneg hB (le_of_lt hT), mul_pos hT hT]
  have hdt : dense_test lv (lv.L.nrows + lv.negE.nrows) = false := by
    simp only [dense_test, hw, Bool.and_eq_false_imp, decide_eq_true_eq, decide_eq_false_iff_not]
    intro _
    omega
  have hgt : lv.L.nrows + lv.negE.nrows > lv.L.nrows := by omega
  refine ⟨hdt, ?_⟩
  rw [solve_milu_eq M lvl offset s lv h]
  simp only [hgt, if_true, hdt, Bool.false_eq_true, if_false]

theorem trailing_level_solves_sparse_twice_witness :
    dense_test coupledLevel (coupledLevel.L.nrows + coupledLevel.negE.nrows) = false ∧
      solve_milu [coupledLevel, trivLevel 1 0] 1 0 ⟨[1, 2, 3], [0, 0], [0]⟩ =
        (gather coupledLevel 0 coupledLevel.L.nrows
          (coupledLevel.L.nrows + coupledLevel.negE.nrows) ⟨[1, 2, 3], [0, 0], [0]⟩).bind
        fun s =>
        (write_back 0 coupledLevel.L.nrows s).bind fun s =>
        (sparse_solve coupledLevel coupledLevel.L.nrows s).bind fun s =>
        ((couple_E coupledLevel s).bind fun s =>
          (store_trailing coupledLevel 0 coupledLevel.L.nrows
            (coupledLevel.L.nrows + coupledLevel.negE.nrows) s).bind fun s =>
          (solve_milu [coupledLevel, trivLevel 1 0] (1 + 1) (0 + coupledLevel.L.nrows) s).bind
          fun s =>
          (reload coupledLevel 0 coupledLevel.L.nrows
            (coupledLevel.L.nrows + coupledLevel.negE.nrows) s).bind fun s =>
          (couple_F coupledLevel s).bind fun s =>
          sparse_solve coupledLevel coupledLevel.L.nrows s).bind fun s =>
        scatter coupledLevel 0 coupledLevel.L.nrows
          (coupledLevel.L.nrows + coupledLevel.negE.nrows) s :=
  trailing_level_solves_sparse_twice [coupledLevel, trivLevel 1 0] 1 0
    ⟨[1, 2, 3], [0, 0], [0]⟩ coupledLevel rfl (by decide) (by decide) (by decide) (by decide)

/-- One level with a nonempty trailing block, generic in what the sparse fine-block
solve (`Rel`, input and output of `sparse_solve` on the first `m` entries of `b_y1`) and
the solve of the next level (`Rec`, the segment of `b` handed over and the segment
returned) are known to do. -/
theorem level_core (M : List Level) (lvl : Nat) (offset : Int) (s : St) (lv : Level)
    (m t : Nat) (Rel : (Fin m → ℚ) → (Fin m → ℚ) → Prop)
    (Rec : (Fin t → ℚ) → (Fin t → ℚ) → Prop) (h : rd M ((lvl : Int) - 1) = some lv)
    (hm : lv.L.nrows = (m : Int)) (ht : lv.negE.nrows = (t : Int)) (htpos : 0 < t)
    (hsp : dense_test lv (lv.L.nrows + lv.negE.nrows) = false)
    (hfine : ∀ s1 : St, (m : Int) ≤ (s1.b_y1.length : Int) →
      ∃ s2, sparse_solve lv lv.L.nrows s1 = .ok s2 ∧ s2.b = s1.b ∧ s2.y2 = s1.y2 ∧
        s2.b_y1.length = s1.b_y1.length ∧ Rel (vec s1.b_y1 m) (vec s2.b_y1 m))
    (hE : crs_valid lv.negE.row_ptr lv.negE.col_ind lv.negE.val m lv.negE.nrows)
    (hFn : lv.negF.nrows = (m : Int))
    (hF : crs_valid lv.negF.row_ptr lv.negF.col_ind lv.negF.val t lv.negF.nrows)
    (hp : perm_ok lv.p (m + t)) (hq : perm_ok lv.q (m + t))
    (hr : ((m + t : Nat) : Int) ≤ (lv.rowscal.length : Int))
    (hc : ((m + t : Nat) : Int) ≤ (lv.colscal.length : Int))
    (ho : 0 ≤ offset) (hb : offset + ((m + t : Nat) : Int) ≤ (s.b.length : Int))
    (hy1 : (m : Int) ≤ (s.b_y1.length : Int)) (hy2 : (t : Int) ≤ (s.y2.length : Int))
    (hrec : ∀ s1 : St, s1.b.length = s.b.length → s1.b_y1.length = s.b_y1.length →
      s1.y2.length = s.y2.length →
      ∃ s2, solve_milu M (lvl + 1) (offset + (m : Int)) s1 = .ok s2 ∧
        s2.b.length = s1.b.length ∧ s2.b_y1.length = s1.b_y1.length ∧
        s2.y2.length = s1.y2.length ∧
        (∀ i : Int, i < offset + (m : Int) ∨ offset + (m : Int) + (t : Int) ≤ i →
          at0 s2.b i = at0 s1.b i) ∧
        Rec (seg s1.b (offset + (m : Int)) t) (seg s2.b (offset + (m : Int)) t)) :
    ∃ s2, ∃ z1 : Fin m → ℚ, solve_milu M lvl offset s = .ok s2 ∧
      s2.b.length = s.b.length ∧ s2.b_y1.length = s.b_y1.length ∧
      s2.y2.length = s.y2.length ∧
      (∀ j : Int, j < offset ∨ offset + ((m + t : Nat) : Int) ≤ j → at0 s2.b j = at0 s.b j) ∧
      Rel (fun i : Fin m => gval lv offset s.b ((i : Nat) : Int)) z1 ∧
      Rec ((fun i : Fin t => gval lv offset s.b ((m : Int) + ((i : Nat) : Int)))
          + (crs_matrix lv.negE t m).mulVec z1) (vec s2.y2 t) ∧
      Rel ((fun i : Fin m => gval lv offset s.b ((i : Nat) : Int))
          + (crs_matrix lv.negF m t).mulVec (vec s2.y2 t)) (vec s2.b_y1 m) ∧
      ∀ i : Int, 0 ≤ i → i < ((m + t : Nat) : Int) →
        at0 s2.b ((atI lv.q i + offset) - 1) = sval lv m s2.b_y1 s2.y2 i := by
  have hn : lv.L.nrows + lv.negE.nrows = ((m + t : Nat) : Int) := by
    push_cast
    omega
  have hgt : lv.L.nrows + lv.negE.nrows > lv.L.nrows := by omega
  have hmt : ((m + t : Nat) : Int) = (m : Int) + (t : Int) := by push_cast; ring
  -- gather
  obtain ⟨s1, r1, b1, u1, v1⟩ := gather_run lv offset s (by omega) (by omega)
    (by rw [hn]; exact gather_ok_of_perm_at hp hr ho hb) (by omega) (by omega)
  -- write back
  obtain ⟨s2, r2, y12, y22, w2⟩ := write_back_run offset lv.L.nrows s1 ho
    (by rw [b1]; omega) (by rw [u1.1]; omega)
  -- first fine-block solve
  obtain ⟨s3, r3, b3, y23, l3, p3⟩ := hfine s2
    (by rw [y12, u1.1]; exact hy1)
  -- coupling with negE
  obtain ⟨s4, r4, b4, y14, l4, p4⟩ := couple_E_run lv m t s3 ht hE
    (by rw [l3, y12, u1.1]; exact hy1) (by rw [y23, y22, v1.1]; exact hy2)
  -- store the trailing part
  have hb4 : s4.b.length = s.b.length := by rw [b4, b3, w2.1, b1]
  obtain ⟨s5, r5, y15, y25, w5⟩ := store_trailing_run lv offset s4 (by omega) ho
    (by rw [hb4]; omega) (by rw [l4, y23, y22, v1.1]; omega)
  have hb5 : s5.b.length = s.b.length := by rw [w5.1, hb4]
  have h15 : s5.b_y1.length = s.b_y1.length := by rw [y15, y14, l3, y12, u1.1]
  have h25 : s5.y2.length = s.y2.length := by rw [y25, l4, y23, y22, v1.1]
  -- recursive call
  obtain ⟨s6, r6, hb6, h16, h26, f6, p6⟩ := hrec s5 hb5 h15 h25
  -- reload
  obtain ⟨s7, r7, b7, u7, v7⟩ := reload_run lv offset s6 (by omega) (by omega) ho
    (by rw [hb6, hb5]; omega) (by rw [h16, h15]; omega) (by rw [h26, h25]; omega)
  -- coupling with negF
  obtain ⟨s8, r8, b8, y28, l8, p8⟩ := couple_F_run lv m t s7 hFn hF
    (by rw [u7.1, h16, h15]; exact hy1) (by rw [v7.1, h26, h25]; exact hy2)
  -- second fine-block solve
  obtain ⟨s9, r9, b9, y29, l9, p9⟩ := hfine s8
    (by rw [l8, u7.1, h16, h15]; exact hy1)
  -- scatter
  have hb9 : s9.b.length = s.b.length := by rw [b9, b8, b7, hb6, hb5]
  obtain ⟨s10, r10, y110, y210, S10⟩ := scatter_run lv offset s9 (by omega) (by omega)
    (by rw [hn, hb9]; exact scatter_ok_of_perm_at hq hc ho hb)
    (by rw [l9, l8, u7.1, h16, h15]; omega) (by rw [y29, y28, v7.1, h26, h25]; omega)
  -- the gathered vectors
  have hy1v : vec s1.b_y1 m = (fun i : Fin m => gval lv offset s.b ((i : Nat) : Int)) := by
    ext i
    have hi : ((i : Nat) : Int) < (m : Int) := by exact_mod_cast i.2
    simp only [vec]
    rw [u1.2, if_pos ⟨by omega, by rw [hm]; simp⟩]
  have hy2v : vec s1.y2 t
      = (fun i : Fin t => gval lv offset s.b ((m : Int) + ((i : Nat) : Int))) := by
    ext i
    have hi : ((i : Nat) : Int) < (t : Int) := by exact_mod_cast i.2
    simp only [vec]
    rw [v1.2, if_pos ⟨by omega, by rw [ht]; simp⟩, hm]
  -- what the recursion was handed and what it returned
  have hseg5 : seg s5.b (offset + (m : Int)) t = vec s4.y2 t := by
    ext i
    have hi : ((i : Nat) : Int) < (t : Int) := by exact_mod_cast i.2
    simp only [seg, vec]
    rw [w5.2, if_pos ⟨by omega, by rw [hm, ht]; simp⟩, hm]
    simp only [add_sub_cancel_left]
  have hx2 : vec s7.y2 t = seg s6.b (offset + (m : Int)) t := by
    ext i
    have hi : ((i : Nat) : Int) < (t : Int) := by exact_mod_cast i.2
    simp only [seg, vec]
    rw [v7.2, if_pos ⟨by omega, by rw [ht]; simp⟩, hm]
  have hy1r : vec s7.b_y1 m = vec s1.b_y1 m := by
    ext i
    have hi : ((i : Nat) : Int) < (m : Int) := by exact_mod_cast i.2
    simp only [vec]
    rw [u7.2, if_pos ⟨by omega, by rw [hm]; simp⟩]
    simp only
    rw [f6 _ (Or.inl (by omega)), w5.2, if_neg (by omega), b4, b3, w2.2,
      if_pos ⟨by omega, by rw [hm]; simp⟩]
    simp only [add_sub_cancel_left]
  refine ⟨s10, vec s3.b_y1 m, ?_, ?_, ?_, ?_, ?_, ?_, ?_, ?_, ?_⟩
  · rw [solve_milu_eq M lvl offset s lv h]
    rw [hm] at r1 r2 r3 r5 r7 r9 r10 hgt hsp
    simp only [hm, r1, Except.bind, hgt, if_true, r2, hsp, Bool.false_eq_true, if_false, r3, r4,
      r5, r6, r7, r8, r9]
    exact r10
  · rw [S10.1, hb9]
  · rw [y110, l9, l8, u7.1, h16, h15]
  · rw [y210, y29, y28, v7.1, h26, h25]
  · intro j hj
    have hnot : ∀ i : Int, 0 ≤ i → i < lv.L.nrows + lv.negE.nrows →
        (atI lv.q i + offset) - 1 ≠ j := by
      intro i hi0 hi1
      obtain ⟨q1, q2⟩ := hq.2.1 i (mem_positions.2 ⟨hi0, by omega⟩)
      omega
    rw [S10.2.2 j hnot, b9, b8, b7, f6 j (by omega), w5.2, if_neg (by omega), b4, b3, w2.2,
      if_neg (by omega), b1]
  · rw [y12, hy1v] at p3
    exact p3
  · rw [hseg5, p4, y23, y22, hy2v] at p6
    rw [y210, y29, y28, hx2]
    exact p6
  · rw [p8, hy1r, hy1v] at p9
    rw [y110, y210, y29, y28]
    exact p9
  · intro i hi0 hi1
    have := S10.2.1 i hi0 (by omega)
    rw [this, hm, y110, y210]

/-- A level without trailing block, generic in what the fine-block solve (`Rel`) is known
to do. -/
theorem single_core (M : List Level) (lvl : Nat) (offset : Int) (s : St) (lv : Level)
    (m : Nat) (Rel : (Fin m → ℚ) → (Fin m → ℚ) → Prop) (h : rd M ((lvl : Int) - 1) = some lv)
    (hT : lv.negE.nrows = 0) (hm : lv.L.nrows = (m : Int))
    (hfine : ∀ s1 : St, (m : Int) ≤ (s1.b_y1.length : Int) →
      ∃ s2, (if dense_test lv (lv.L.nrows + lv.negE.nrows) then dense_solve lv lv.L.nrows s1
          else sparse_solve lv lv.L.nrows s1) = .ok s2 ∧ s2.b = s1.b ∧ s2.y2 = s1.y2 ∧
        s2.b_y1.length = s1.b_y1.length ∧ Rel (vec s1.b_y1 m) (vec s2.b_y1 m))
    (hp : gather_ok lv offset m s.b.length) (hq : scatter_ok lv offset m s.b.length)
    (hy : (m : Int) ≤ (s.b_y1.length : Int)) :
    ∃ s2, solve_milu M lvl offset s = .ok s2 ∧ s2.y2 = s.y2 ∧
      s2.b_y1.length = s.b_y1.length ∧
      Rel (fun i : Fin m => gval lv offset s.b ((i : Nat) : Int)) (vec s2.b_y1 m) ∧
      Scat s.b s2.b (fun i => (atI lv.q i + offset) - 1) m (sval lv m s2.b_y1 s.y2) := by
  have hn : lv.L.nrows + lv.negE.nrows = (m : Int) := by omega
  have hm0 : (0 : Int) ≤ (m : Int) := Int.natCast_nonneg m
  obtain ⟨s1, r1, b1, u1, v1⟩ := gather_run lv offset s (by omega) (by omega)
    (by rw [hn]; exact hp) (by omega) (by omega)
  rw [hT] at v1
  have hy2 : s1.y2 = s.y2 := Upd_zero_eq v1
  obtain ⟨s2, r2, b2, y2, l2, p2⟩ := hfine s1 (by rw [u1.1]; exact hy)
  obtain ⟨s3, r3, y13, y23, S3⟩ := scatter_run lv offset s2 (by omega) (by omega)
    (by rw [hn, b2, b1]; exact hq) (by rw [l2, u1.1]; omega) (by rw [y2, hy2]; omega)
  refine ⟨s3, ?_, (y23.trans y2).trans hy2, ?_, ?_, ?_⟩
  · rw [solve_milu_last M lvl offset s lv h hT]
    simp only [r1, Except.bind, r2]
    exact r3
  · rw [y13, l2, u1.1]
  · have hv : vec s1.b_y1 m = (fun i : Fin m => gval lv offset s.b ((i : Nat) : Int)) := by
      ext i
      simp only [vec]
      have hi : ((i : Nat) : Int) < (m : Int) := by exact_mod_cast i.2
      rw [u1.2, if_pos ⟨by omega, by rw [hm]; simp⟩]
    rw [hv] at p2
    rw [y13]
    exact p2
  · rw [hn, hm, b2, b1, y2, hy2] at S3
    rw [y13]
    exact S3


theorem fine_ok_nrows (lv : Level) (m : Nat) (hok : fine_ok lv m) : lv.L.nrows = (m : Int) := by
  unfold fine_ok at hok
  split at hok
  · exact hok.1
  · exact hok.1

/-- The fine-block solve of the representation the data signal inverts
`level_fine_matrix`. -/
theorem fine_solve_signal (lv : Level) (m : Nat) (s : St) (hok : fine_ok lv m)
    (hy : (m : Int) ≤ (s.b_y1.length : Int)) :
    ∃ s2, (if dense_signal_spec lv then dense_solve lv lv.L.nrows s
        else sparse_solve lv lv.L.nrows s) = .ok s2 ∧ s2.b = s.b ∧ s2.y2 = s.y2 ∧
      s2.b_y1.length = s.b_y1.length ∧
      (level_fine_matrix lv m).mulVec (vec s2.b_y1 m) = vec s.b_y1 m := by
  unfold fine_ok at hok
  unfold level_fine_matrix
  by_cases hd : dense_signal_spec lv = true
  · rw [if_pos hd] at hok ⊢
    rw [if_pos hd]
    exact dense_solve_run lv m s hok hy
  · rw [if_neg hd] at hok ⊢
    rw [if_neg hd]
    exact sparse_solve_run lv m s hok hy

/-- Where the dispatch test of the code decides as the signal, the fine-block solve it
selects inverts `level_fine_matrix`. -/
theorem fine_solve_run (lv : Level) (m : Nat) (s : St) (hok : fine_ok lv m)
    (hdt : dense_test lv (lv.L.nrows + lv.negE.nrows) = dense_signal_spec lv)
    (hy : (m : Int) ≤ (s.b_y1.length : Int)) :
    ∃ s2, (if dense_test lv (lv.L.nrows + lv.negE.nrows) then dense_solve lv lv.L.nrows s
        else sparse_solve lv lv.L.nrows s) = .ok s2 ∧ s2.b = s.b ∧ s2.y2 = s.y2 ∧
      s2.b_y1.length = s.b_y1.length ∧
      (level_fine_matrix lv m).mulVec (vec s2.b_y1 m) = vec s.b_y1 m := by
  rw [hdt]
  exact fine_solve_signal lv m s hok hy

theorem level_fine_matrix_isUnit (lv : Level) (m : Nat) (hok : fine_ok lv m) :
    IsUnit (level_fine_matrix lv m) := by
  rw [← Matrix.mulVec_surjective_iff_isUnit]
  intro v
  obtain ⟨s2, _, _, _, _, h⟩ := fine_solve_signal lv m ⟨[], List.ofFn v, []⟩ hok (by simp)
  exact ⟨vec s2.b_y1 m, by rw [h, vec_ofFn]⟩

/-- A solution of `F z = y` for an invertible `F` is unique. -/
theorem mulVec_injective_of_isUnit {m : Nat} (F : Matrix (Fin m) (Fin m) ℚ) (hF : IsUnit F)
    (z w : Fin m → ℚ) (h : F.mulVec z = F.mulVec w) : z = w := by
  have hdet : IsUnit F.det := (Matrix.isUnit_iff_isUnit_det _).1 hF
  have hinv : F⁻¹ * F = 1 := Matrix.nonsing_inv_mul _ hdet
  calc z = (F⁻¹ * F).mulVec z := by rw [hinv, Matrix.one_mulVec]
    _ = (F⁻¹ * F).mulVec w := by rw [← Matrix.mulVec_mulVec, ← Matrix.mulVec_mulVec, h]
    _ = w := by rw [hinv, Matrix.one_mulVec]

/-- The single-level gather/solve/scatter formula where `nB * nB` does not wrap: a level
without trailing block (`nTrail = 0`) with a well-formed fine block, `p` and `q`
bijections onto `1..nB` and `nB * nB < 2^31`: the run returns, `rhs` keeps its length and
its entries outside `[offset, offset + nB)`, and
`rhs[offset + q[i] - 1] = colscal[q[i] - 1] * z[i]` for every `i < nB`, where `z` is the
fine-block solve of `y`, `y[i] = rowscal[p[i] - 1] * rhs_in[offset + p[i] - 1]`. -/
theorem single_level_formula (M : List Level) (lvl : Nat) (offset : Int) (s : St)
    (lv : Level) (m : Nat) (h : rd M ((lvl : Int) - 1) = some lv) (hT : lv.negE.nrows = 0)
    (hsq : (lv.L.nrows + lv.negE.nrows) * (lv.L.nrows + lv.negE.nrows) < 2147483648)
    (hok : fine_ok lv m) (hp : perm_ok lv.p m) (hq : perm_ok lv.q m)
    (hr : (m : Int) ≤ (lv.rowscal.length : Int)) (hc : (m : Int) ≤ (lv.colscal.length : Int))
    (ho : 0 ≤ offset) (hb : offset + (m : Int) ≤ (s.b.length : Int))
    (hy : (m : Int) ≤ (s.b_y1.length : Int)) :
    ∃ s2, ∃ z : Fin m → ℚ, solve_milu M lvl offset s = .ok s2 ∧
      s2.b.length = s.b.length ∧
      (level_fine_matrix lv m).mulVec z
        = (fun i : Fin m => at0 lv.rowscal (atI lv.p ((i : Nat) : Int) - 1)
            * at0 s.b ((atI lv.p ((i : Nat) : Int) + offset) - 1)) ∧
      (∀ i : Fin m, at0 s2.b ((atI lv.q ((i : Nat) : Int) + offset) - 1)
        = z i * at0 lv.colscal (atI lv.q ((i : Nat) : Int) - 1)) ∧
      ∀ j : Int, j < offset ∨ offset + (m : Int) ≤ j → at0 s2.b j = at0 s.b j := by
  have hm := fine_ok_nrows lv m hok
  obtain ⟨s2, hrun, _, _, hz, hS⟩ := single_core M lvl offset s lv m
    (fun y z => (level_fine_matrix lv m).mulVec z = y) h hT hm
    (fun s1 h1 => fine_solve_run lv m s1 hok (dense_test_eq_signal lv hT hsq) h1)
    (gather_ok_of_perm_at hp hr ho hb) (scatter_ok_of_perm_at hq hc ho hb) hy
  refine ⟨s2, vec s2.b_y1 m, hrun, hS.1, hz, fun i => ?_, fun j hj => ?_⟩
  · have hi : ((i : Nat) : Int) < (m : Int) := by exact_mod_cast i.2
    rw [hS.2.1 ((i : Nat) : Int) (Int.natCast_nonneg _) hi]
    simp only [sval, if_pos hi, vec]
  · refine hS.2.2 j (fun i hi0 hi1 => ?_)
    obtain ⟨q1, q2⟩ := hq.2.1 i (mem_positions.2 ⟨hi0, by omega⟩)
    show (atI lv.q i + offset) - 1 ≠ j
    omega

theorem sampleLevel_fine_ok : fine_ok sampleLevel 2 := by
  unfold fine_ok
  rw [if_neg (by decide)]
  exact sampleLevel_sparse_ok

theorem single_level_formula_witness :
    ∃ s2, ∃ z : Fin 2 → ℚ, solve_milu [sampleLevel] 1 0 ⟨[1, 2], [0, 0], []⟩ = .ok s2 ∧
      s2.b.length = 2 ∧
      (level_fine_matrix sampleLevel 2).mulVec z
        = (fun i : Fin 2 => at0 sampleLevel.rowscal (atI sampleLevel.p ((i : Nat) : Int) - 1)
            * at0 [1, 2] ((atI sampleLevel.p ((i : Nat) : Int) + 0) - 1)) ∧
      (∀ i : Fin 2, at0 s2.b ((atI sampleLevel.q ((i : Nat) : Int) + 0) - 1)
        = z i * at0 sampleLevel.colscal (atI sampleLevel.q ((i : Nat) : Int) - 1)) ∧
      ∀ j : Int, j < 0 ∨ 0 + ((2 : Nat) : Int) ≤ j → at0 s2.b j = at0 [1, 2] j :=
  single_level_formula [sampleLevel] 1 0 ⟨[1, 2], [0, 0], []⟩ sampleLevel 2 rfl rfl
    (by decide) sampleLevel_fine_ok (by unfold perm_ok; decide) (by unfold perm_ok; decide)
    (by decide) (by decide) (by decide) (by decide) (by decide)

/-- Index safety of one column step: valid positions and row indices inside `b_y1` make
the step return, touching only the content of `b_y1`. -/
theorem col_sweep_safe (A : CCS) (j : Int) (s : St) (hj : 1 ≤ j)
    (hcp : j < (A.col_ptr.length : Int))
    (hv : ∀ k ∈ col_positions A (j - 1),
      0 ≤ k ∧ k < (A.row_ind.length : Int) ∧ k < (A.val.length : Int) ∧
        1 ≤ atI A.row_ind k ∧ atI A.row_ind k ≤ (s.b_y1.length : Int))
    (hy : j ≤ (s.b_y1.length : Int)) :
    ∃ s2, col_sweep A j s = .ok s2 ∧ s2.b = s.b ∧ s2.y2 = s.y2 ∧
      s2.b_y1.length = s.b_y1.length := by
  have e1 : load A.col_ptr (j - 1) s = .ok (atI A.col_ptr (j - 1)) :=
    load_ok (rd_atI (by omega) (by omega))
  have e2 : load A.col_ptr j s = .ok (atI A.col_ptr j) := load_ok (rd_atI (by omega) hcp)
  have hj1 : j - 1 + 1 = j := by ring
  unfold col_positions at hv
  rw [hj1] at hv
  simp only [col_sweep, e1, e2, bind, Except.bind]
  generalize atI A.col_ptr (j - 1) - 1 = lo at hv ⊢
  generalize (atI A.col_ptr j - atI A.col_ptr (j - 1)).toNat = cnt at hv ⊢
  refine forUp_inv (col_update A j) cnt lo
    (fun _ w => w.b = s.b ∧ w.y2 = s.y2 ∧ w.b_y1.length = s.b_y1.length) s
    ⟨rfl, rfl, rfl⟩ ?_
  intro t w ht ⟨hwb, hw2, hlen⟩
  obtain ⟨v1, v2, v3, v4, v5⟩ := hv (lo + t) (mem_positions.2 ⟨by omega, by omega⟩)
  have f1 : load A.row_ind (lo + (t : Int)) w = .ok (atI A.row_ind (lo + t)) :=
    load_ok (rd_atI v1 v2)
  have f2 : load w.b_y1 (atI A.row_ind (lo + t) - 1) w
      = .ok (at0 w.b_y1 (atI A.row_ind (lo + t) - 1)) :=
    load_ok (rd_at0 (by omega) (by rw [hlen]; omega))
  have f3 : load A.val (lo + (t : Int)) w = .ok (at0 A.val (lo + t)) :=
    load_ok (rd_at0 v1 v3)
  have f4 : load w.b_y1 (j - 1) w = .ok (at0 w.b_y1 (j - 1)) :=
    load_ok (rd_at0 (by omega) (by rw [hlen]; omega))
  have f5 := @store_y1_ok (atI A.row_ind (lo + t) - 1)
    (at0 w.b_y1 (atI A.row_ind (lo + t) - 1) - at0 A.val (lo + t) * at0 w.b_y1 (j - 1)) w
    (by omega) (by rw [hlen]; omega)
  refine ⟨_, (by simp only [col_update, f1, f2, f3, f4, bind, Except.bind]; exact f5), ?_⟩
  exact ⟨hwb, hw2, by simp [hlen]⟩

/-- Index safety of the sparse fine-block solve: valid `L` and `U` of order `m` and a `d`
of at least `m` entries make it return, touching only the content of `b_y1`. -/
theorem sparse_solve_safe (lv : Level) (m : Nat) (s : St) (hm : lv.L.nrows = (m : Int))
    (hL : ccs_valid lv.L m) (hU : ccs_valid lv.U m) (hd : (m : Int) ≤ (lv.d.length : Int))
    (hy : (m : Int) ≤ (s.b_y1.length : Int)) :
    ∃ s2, sparse_solve lv lv.L.nrows s = .ok s2 ∧ s2.b = s.b ∧ s2.y2 = s.y2 ∧
      s2.b_y1.length = s.b_y1.length := by
  have hLl : lv.L.col_ptr.length - 1 = m := by have := hL.1; omega
  have hUl : lv.U.col_ptr.length - 1 = m := by have := hU.1; omega
  obtain ⟨s1, r1, b1, y1, l1⟩ := forUp_inv (col_sweep lv.L) (lv.L.col_ptr.length - 1) 1
    (fun _ w => w.b = s.b ∧ w.y2 = s.y2 ∧ w.b_y1.length = s.b_y1.length) s ⟨rfl, rfl, rfl⟩
    (by
      intro k w hk ⟨hwb, hw2, hlen⟩
      obtain ⟨w2, hr, hb2, h22, hl2⟩ := col_sweep_safe lv.L (1 + (k : Int)) w (by omega)
        (by have := hL.1; omega)
        (by
          intro p hp
          have hc : (1 : Int) + (k : Int) - 1 = (k : Int) := by ring
          rw [hc] at hp
          obtain ⟨a1, a2, a3, a4, a5⟩ := hL.2 (k : Int)
            (mem_positions.2 ⟨by omega, by simp only [Int.toNat_ofNat]; omega⟩) p hp
          exact ⟨a1, a2, a3, a4, by rw [hlen]; omega⟩)
        (by rw [hlen]; omega)
      exact ⟨w2, hr, hb2.trans hwb, h22.trans hw2, hl2.trans hlen⟩)
  obtain ⟨s2, r2, b2, y2, u2⟩ := div_run lv lv.L.nrows s1 (by rw [hm]; exact hd)
    (by rw [l1, hm]; exact hy)
  obtain ⟨s3, r3, b3, y3, l3⟩ := forDown_inv (col_sweep lv.U)
    (lv.U.col_ptr.length - 1) ((lv.U.col_ptr.length : Int) - 1)
    (fun _ w => w.b = s.b ∧ w.y2 = s.y2 ∧ w.b_y1.length = s.b_y1.length) s2
    ⟨b2.trans b1, y2.trans y1, u2.1.trans l1⟩
    (by
      intro k w hk ⟨hwb, hw2, hlen⟩
      obtain ⟨w2, hr, hb2, h22, hl2⟩ := col_sweep_safe lv.U
        ((lv.U.col_ptr.length : Int) - 1 - (k : Int)) w (by omega) (by omega)
        (by
          intro p hp
          obtain ⟨a1, a2, a3, a4, a5⟩ := hU.2 ((lv.U.col_ptr.length : Int) - 1 - (k : Int) - 1)
            (mem_positions.2 ⟨by omega, by simp only [Int.toNat_ofNat]; omega⟩) p hp
          exact ⟨a1, a2, a3, a4, by rw [hlen]; omega⟩)
        (by rw [hlen]; omega)
      exact ⟨w2, hr, hb2.trans hwb, h22.trans hw2, hl2.trans hlen⟩)
  refine ⟨s3, ?_, b3, y3, l3⟩
  simp only [sparse_solve, bind, Except.bind, r1, r2]
  exact r3

/-- Index safety of the dense back substitution. -/
theorem dense_bwd_loop_safe (lv : Level) (m : Nat) (s : St) (hA : lv.U.val.length = m * m)
    (hy : (m : Int) ≤ (s.b_y1.length : Int)) :
    ∃ s2 k2, forDown (dense_bwd lv m) ((m : Int) - 1) m (s, (m : Int) * (m : Int) - 1)
        = .ok (s2, k2) ∧ s2.b = s.b ∧ s2.y2 = s.y2 ∧ s2.b_y1.length = s.b_y1.length := by
  obtain ⟨⟨s2, k2⟩, hrun, hk, hb, hy2, hlen⟩ := forDown_inv (dense_bwd lv m) m
    ((m : Int) - 1)
    (fun k (wk : St × Int) =>
      wk.2 = ((m : Int) - 1 - (k : Int)) * (m : Int) + ((m : Int) - 1 - (k : Int)) ∧
      wk.1.b = s.b ∧ wk.1.y2 = s.y2 ∧ wk.1.b_y1.length = s.b_y1.length)
    (s, (m : Int) * (m : Int) - 1)
    ⟨by simp only [Nat.cast_zero, sub_zero]; ring, rfl, rfl, rfl⟩
    (by
      intro k wk hk ⟨hk2, hwb, hw2, hlen⟩
      obtain ⟨w, kk⟩ := wk
      simp only at hk2 hwb hw2 hlen
      obtain ⟨w2, hr, hb2, h22, hl2, _⟩ := dense_bwd_run lv m ((m : Int) - 1 - (k : Int)) w
        (by omega) (by omega) hA (by rw [hlen]; exact hy)
      refine ⟨(w2, ((m : Int) - 1 - (k : Int) - 1) * (m : Int) + ((m : Int) - 1 - (k : Int) - 1)),
        ?_, ?_, hb2.trans hwb, h22.trans hw2, hl2.trans hlen⟩
      · rw [hk2]
        exact hr
      · push_cast
        ring)
  exact ⟨s2, k2, hrun, hb, hy2, hlen⟩

/-- Index safety of the dense fine-block solve: a buffer of exactly `m * m` entries, a
size that fits an `int`, makes it return, touching only the content of `b_y1`. -/
theorem dense_solve_safe (lv : Level) (m : Nat) (s : St) (hm : lv.L.nrows = (m : Int))
    (hA : lv.U.val.length = m * m) (hrep : m * m < 2147483648)
    (hy : (m : Int) ≤ (s.b_y1.length : Int)) :
    ∃ s2, dense_solve lv lv.L.nrows s = .ok s2 ∧ s2.b = s.b ∧ s2.y2 = s.y2 ∧
      s2.b_y1.length = s.b_y1.length := by
  obtain ⟨s1, r1, b1, y1, l1, _⟩ := dense_fwd_loop_run lv m s hA hy
  obtain ⟨s2, k2, r2, b2, y2, l2⟩ := dense_bwd_loop_safe lv m s1 hA (by rw [l1]; exact hy)
  have hmul : mul32 (m : Int) (m : Int) = (m : Int) * (m : Int) := by
    unfold mul32
    apply wrap32_small
    · positivity
    · have : ((m * m : Nat) : Int) < 2147483648 := by omega
      push_cast at this
      exact this
  refine ⟨s2, ?_, b2.trans b1, y2.trans y1, l2.trans l1⟩
  simp only [dense_solve, hm, Int.toNat_ofNat, r1, bind, Except.bind, hmul, r2, pure,
    Except.pure]

theorem fits_of_valid : ∀ (M : List Level) (n : Nat) (l1 l2 : Int), chain_valid M n →
    (n : Int) ≤ l1 → (n : Int) ≤ l2 → fits M l1 l2 := by
  intro M
  induction M with
  | nil => intro _ _ _ _ _ _; trivial
  | cons lv rest ih =>
    intro n l1 l2 hv h1 h2
    obtain ⟨m, t, rfl, hlv, hrest⟩ := hv
    obtain ⟨hm, ht, _, _, _, _, _, hF, _⟩ := hlv
    push_cast at h1 h2
    refine ⟨by omega, by omega, by omega, fun hp => ?_⟩
    exact ih t l1 l2 (hrest (by omega)) (by omega) (by omega)

/-- On a well-formed chain whose sizes are small (no wraparound in the dispatch test),
with buffers that are long enough, the level solver returns, keeps the length of every
buffer and changes `b` only inside `[offset, offset + n)`. -/
theorem chain_safe : ∀ (suf pre : List Level) (n : Nat) (offset : Int) (s : St),
    chain_valid suf n → chain_small suf → 0 ≤ offset →
    offset + (n : Int) ≤ (s.b.length : Int) →
    fits suf (s.b_y1.length : Int) (s.y2.length : Int) →
    ∃ s2, solve_milu (pre ++ suf) (pre.length + 1) offset s = .ok s2 ∧
      s2.b.length = s.b.length ∧ s2.b_y1.length = s.b_y1.length ∧
      s2.y2.length = s.y2.length ∧
      ∀ j : Int, j < offset ∨ offset + (n : Int) ≤ j → at0 s2.b j = at0 s.b j := by
  intro suf
  induction suf with
  | nil =>
    intro pre n offset s hv
    exact absurd hv id
  | cons lv rest ih =>
    intro pre n offset s hv hs ho hb hfit
    obtain ⟨m, t, rfl, hlv, hrest⟩ := hv
    obtain ⟨hsq, hsU⟩ := hs
    obtain ⟨_, hdisp⟩ := level_dispatch lv m t hlv hsq (fun h => (hsU h).1)
    obtain ⟨hm, ht, hp, hq, hr, hc, hE, hFn, hF, _⟩ := hlv
    obtain ⟨f1, f2, f3, f4⟩ := hfit
    have hrd := rd_append_cons pre lv rest
    by_cases ht0 : t = 0
    · subst ht0
      simp only [Nat.add_zero] at hp hq hr hc hb ⊢
      obtain ⟨s2, hrun, h2, h1, _, hS⟩ := single_core (pre ++ lv :: rest) (pre.length + 1)
        offset s lv m (fun _ _ => True) hrd (by rw [ht]; rfl) hm
        (fun s1 h1 => by
          by_cases hd : dense_test lv (lv.L.nrows + lv.negE.nrows) = true
          · rw [if_pos hd] at hdisp ⊢
            obtain ⟨w, hw, a, b, c⟩ := dense_solve_safe lv m s1 hm hdisp.2.1 hdisp.2.2 h1
            exact ⟨w, hw, a, b, c, trivial⟩
          · rw [if_neg hd] at hdisp ⊢
            obtain ⟨w, hw, a, b, c⟩ := sparse_solve_safe lv m s1 hm hdisp.1 hdisp.2.1
              hdisp.2.2 h1
            exact ⟨w, hw, a, b, c, trivial⟩)
        (gather_ok_of_perm_at hp hr ho hb) (scatter_ok_of_perm_at hq hc ho hb)
        (by rw [← hm]; exact f1)
      refine ⟨s2, hrun, hS.1, h1, by rw [h2], fun j hj => ?_⟩
      refine hS.2.2 j (fun i hi0 hi1 => ?_)
      obtain ⟨q1, q2⟩ := hq.2.1 i (mem_positions.2 ⟨hi0, by omega⟩)
      show (atI lv.q i + offset) - 1 ≠ j
      omega
    · have htpos : 0 < t := Nat.pos_of_ne_zero ht0
      have hsp : dense_test lv (lv.L.nrows + lv.negE.nrows) = false := by
        by_cases hd : dense_test lv (lv.L.nrows + lv.negE.nrows) = true
        · rw [if_pos hd] at hdisp
          exact absurd hdisp.1 ht0
        · simpa using hd
      rw [hsp] at hdisp
      simp only [Bool.false_eq_true, if_false] at hdisp
      have hEpos : 0 < lv.negE.nrows := by rw [ht]; exact_mod_cast htpos
      obtain ⟨s2, _, hrun, hb2, h12, h22, hfr, _⟩ := level_core (pre ++ lv :: rest)
        (pre.length + 1) offset s lv m t (fun _ _ => True) (fun _ _ => True) hrd hm ht htpos
        hsp
        (fun s1 h1 => by
          obtain ⟨w, hw, a, b, c⟩ := sparse_solve_safe lv m s1 hm hdisp.1 hdisp.2.1
            hdisp.2.2 h1
          exact ⟨w, hw, a, b, c, trivial⟩)
        hE hFn hF hp hq hr hc ho hb (by rw [← hm]; exact f1) (by rw [← ht]; exact f3)
        (fun s1 e1 e2 e3 => by
          obtain ⟨w, hw, a, b, c, d⟩ := ih (pre ++ [lv]) t (offset + (m : Int)) s1
            (hrest htpos) (hsU hEpos).2 (by omega) (by rw [e1]; push_cast at hb; omega)
            (by rw [e2, e3]; exact f4 hEpos)
          rw [List.append_assoc, List.length_append] at hw
          exact ⟨w, hw, a, b, c, fun i hi => d i (by omega), trivial⟩)
      exact ⟨s2, hrun, hb2, h12, h22, hfr⟩

/-- A trivial level with `nB ≥ 1` is in sparse mode: its empty `U.val` does not have
`nB²` entries. -/
theorem signal_trivLevel (nB nT : Nat) (h1 : 1 ≤ nB) :
    dense_signal_spec (trivLevel nB nT) = false := by
  have hne : ((0 : Nat) : Int) ≠ (nB : Int) * (nB : Int) := by
    have : (0 : Int) < (nB : Int) * (nB : Int) := by positivity
    omega
  have hL : ((trivLevel nB nT).U.val.length : Int) = ((0 : Nat) : Int) := rfl
  have hn : (trivLevel nB nT).L.nrows = (nB : Int) := rfl
  simp only [dense_signal_spec, hL, hn, hne, decide_False, Bool.and_false]

theorem level_valid_trivLevel (nB nT : Nat) (h1 : 1 ≤ nB) :
    level_valid (trivLevel nB nT) nB nT := by
  refine ⟨rfl, rfl, perm_ok_idPerm _, perm_ok_idPerm _, ?_, ?_, crs_valid_emptyCRS nT nB, rfl,
    crs_valid_emptyCRS nB nT, ?_⟩
  · simp [trivLevel]
  · simp [trivLevel]
  · rw [signal_trivLevel nB nT h1]
    simp only [Bool.false_eq_true, if_false]
    exact ⟨ccs_valid_emptyCCS nB, ccs_valid_emptyCCS nB, by simp [trivLevel]⟩

theorem level_valid_coupledLevel : level_valid coupledLevel 2 1 := by
  refine ⟨rfl, rfl, perm_ok_idPerm 3, perm_ok_idPerm 3, by decide, by decide, by decide, rfl,
    by decide, ?_⟩
  rw [if_neg (by decide)]
  exact ⟨coupledLevel_sparse_ok.2.1, coupledLevel_sparse_ok.2.2.2.1, by decide⟩

theorem chain_valid_coupled : chain_valid [coupledLevel, trivLevel 1 0] 3 :=
  ⟨2, 1, rfl, level_valid_coupledLevel, fun _ =>
    ⟨1, 0, rfl, level_valid_trivLevel 1 0 (by decide), fun h => absurd h (by decide)⟩⟩

theorem chain_small_coupled : chain_small [coupledLevel, trivLevel 1 0] :=
  ⟨by decide, fun _ => ⟨by decide, by decide, fun h => absurd h (by decide)⟩⟩

theorem fits_coupled : fits [coupledLevel, trivLevel 1 0] 2 1 := by
  refine ⟨by decide, by decide, by decide, fun _ => ?_⟩
  exact ⟨by decide, by decide, by decide, fun h => absurd h (by decide)⟩

/-- The in-place frame where the dispatch test does not wrap: on a well-formed chain
(every `q` a bijection onto `1..n_k`, see `chain_valid`) whose sizes are small
(`chain_small`), with buffers that are long enough, the call of the level solver at level
`k` (the levels `pre` before it, the levels `suf` from it on, total size `n` of level `k`)
with offset `offset` returns, `rhs` keeps its length, and every entry of `rhs` outside
`[offset, offset + n)` is unchanged.  The recursive call made by level `k` is the
instance at level `k + 1` with offset `offset + nB` and size `n - nB`; the top-level
`MILUsolve` is the instance `pre = []`, `offset = 0`. -/
theorem in_place_frame (pre suf : List Level) (n : Nat) (offset : Int) (s : St)
    (hv : chain_valid suf n) (hs : chain_small suf) (ho : 0 ≤ offset)
    (hb : offset + (n : Int) ≤ (s.b.length : Int))
    (hfit : fits suf (s.b_y1.length : Int) (s.y2.length : Int)) :
    ∃ s2, solve_milu (pre ++ suf) (pre.length + 1) offset s = .ok s2 ∧
      s2.b.length = s.b.length ∧
      (∀ j : Int, j < offset ∨ offset + (n : Int) ≤ j → at0 s2.b j = at0 s.b j) ∧
      (pre = [] → offset = 0 → MILUsolve suf s.b s.b_y1 s.y2 = .ok s2) := by
  obtain ⟨s2, hrun, hlen, _, _, hfr⟩ := chain_safe suf pre n offset s hv hs ho hb hfit
  refine ⟨s2, hrun, hlen, hfr, fun hpre hoff => ?_⟩
  subst hpre
  subst hoff
  exact hrun

theorem in_place_frame_witness :
    ∃ s2, solve_milu ([] ++ [coupledLevel, trivLevel 1 0]) (([] : List Level).length + 1) 0
        ⟨[1, 2, 3, 9], [0, 0], [0]⟩ = .ok s2 ∧
      s2.b.length = 4 ∧
      (∀ j : Int, j < 0 ∨ 0 + ((3 : Nat) : Int) ≤ j → at0 s2.b j = at0 [1, 2, 3, 9] j) ∧
      (([] : List Level) = [] → (0 : Int) = 0 →
        MILUsolve [coupledLevel, trivLevel 1 0] [1, 2, 3, 9] [0, 0] [0] = .ok s2) :=
  in_place_frame [] [coupledLevel, trivLevel 1 0] 3 0 ⟨[1, 2, 3, 9], [0, 0], [0]⟩
    chain_valid_coupled chain_small_coupled (by decide) (by decide) fits_coupled

/-- The auto-sizing entry point on a single trivial level whose size makes `n * n` wrap
to `0`: the run stops at the read of `U.val[1]`. -/
theorem trivial_dense_misdispatch_auto (n : Nat) (hn : 2 ≤ n)
    (hw : mul32 (n : Int) (n : Int) = 0) (b : List ℚ) (hb : b.length = n) :
    ∃ s1, MILUsolve_2args [trivLevel n 0] b = .error (Fault.Load 1, s1) := by
  have hrd : rd [trivLevel n 0] 0 = some (trivLevel n 0) := rfl
  have hLn : (trivLevel n 0).L.nrows = (n : Int) := rfl
  have hEn : (trivLevel n 0).negE.nrows = ((0 : Nat) : Int) := rfl
  have hu : (if (trivLevel n 0).L.nrows > (trivLevel n 0).negE.nrows
      then (trivLevel n 0).L.nrows else (trivLevel n 0).negE.nrows) = (n : Int) := by
    rw [hLn, hEn]
    split
    · rfl
    · omega
  obtain ⟨s1, h1, _⟩ := trivial_dense_misdispatch n hn hw b (List.replicate n 0)
    (List.replicate 0 0) hb (by simp)
  refine ⟨s1, ?_⟩
  unfold MILUsolve at h1
  simp only [MILUsolve_2args, hrd, hu, Int.toNat_ofNat]
  rw [hEn, Int.toNat_ofNat, h1]
  rfl

/-- The diagonal-only level of size `n` meets the index-level conditions on a level:
valid `L` and `U` with column pointers of length `n + 1`, `d`, `rowscal`, `colscal` of
length `n`, `p` and `q` bijections, `negE` with `0` rows, `negF` with `n` rows. -/
theorem trivLevel_listed (n : Nat) :
    ccs_valid (trivLevel n 0).L n ∧ ccs_valid (trivLevel n 0).U n ∧
      (trivLevel n 0).d.length = n ∧
      perm_ok (trivLevel n 0).p n ∧ perm_ok (trivLevel n 0).q n ∧
      (trivLevel n 0).rowscal.length = n ∧ (trivLevel n 0).colscal.length = n ∧
      (trivLevel n 0).negE.nrows = 0 ∧
      (trivLevel n 0).negF.nrows = (trivLevel n 0).L.nrows ∧
      (trivLevel n 0).L.val.length = 0 ∧ (trivLevel n 0).U.val.length = 0 :=
  ⟨ccs_valid_emptyCCS n, ccs_valid_emptyCCS n, List.length_replicate _ _,
    perm_ok_idPerm n, perm_ok_idPerm n, List.length_replicate _ _,
    List.length_replicate _ _, rfl, rfl, rfl, rfl⟩

/-- C20, failing input: the diagonal-only level of size 65536 meets every listed
condition (valid `L` and `U` with column pointers of length `nB + 1`, `d`, `rowscal`,
`colscal` of length `n`, `p` and `q` bijections, `negE` with `0` rows, `negF` with `nB`
rows, no dense buffer), and `MILUsolve_2args` on it with a right-hand side of length `n`
stops at a read outside `U.val`. -/
theorem wellformed_level_reads_out_of_bounds :
    (ccs_valid (trivLevel 65536 0).L 65536 ∧ ccs_valid (trivLevel 65536 0).U 65536 ∧
      (trivLevel 65536 0).d.length = 65536 ∧
      perm_ok (trivLevel 65536 0).p 65536 ∧ perm_ok (trivLevel 65536 0).q 65536 ∧
      (trivLevel 65536 0).rowscal.length = 65536 ∧
      (trivLevel 65536 0).colscal.length = 65536 ∧
      (trivLevel 65536 0).negE.nrows = 0 ∧
      (trivLevel 65536 0).negF.nrows = (trivLevel 65536 0).L.nrows ∧
      (trivLevel 65536 0).L.val.length = 0 ∧ (trivLevel 65536 0).U.val.length = 0) ∧
      ∃ s1, MILUsolve_2args [trivLevel 65536 0] (List.replicate 65536 1)
        = .error (Fault.Load 1, s1) :=
  ⟨trivLevel_listed 65536,
    trivial_dense_misdispatch_auto 65536 (by omega) (by decide) _ (List.length_replicate _ _)⟩

theorem solve_milu_tr_none (M : List Level) (lvl : Nat) (offset : Int) (s : St)
    (h : rd M ((lvl : Int) - 1) = none) :
    solve_milu_tr M lvl offset s = .error (Fault.Load ((lvl : Int) - 1), s) := by
  rw [solve_milu_tr]
  split
  · rfl
  · rename_i lv2 h2
    rw [h] at h2
    exact absurd h2 (by simp)

theorem solve_milu_tr_eq (M : List Level) (lvl : Nat) (offset : Int) (s : St) (lv : Level)
    (h : rd M ((lvl : Int) - 1) = some lv) :
    solve_milu_tr M lvl offset s =
      (gather lv offset lv.L.nrows (lv.L.nrows + lv.negE.nrows) s).bind fun s =>
      (if lv.L.nrows + lv.negE.nrows > lv.L.nrows then write_back offset lv.L.nrows s
        else .ok s).bind fun s =>
      (if dense_test lv (lv.L.nrows + lv.negE.nrows) then dense_solve lv lv.L.nrows s
        else sparse_solve lv lv.L.nrows s).bind fun s =>
      (if lv.L.nrows + lv.negE.nrows > lv.L.nrows then
        (couple_E lv s).bind fun s =>
        (store_trailing lv offset lv.L.nrows (lv.L.nrows + lv.negE.nrows) s).bind fun s =>
        (solve_milu_tr M (lvl + 1) (offset + lv.L.nrows) s).bind fun r =>
        (reload lv offset lv.L.nrows (lv.L.nrows + lv.negE.nrows) r.1).bind fun s =>
        (couple_F lv s).bind fun s =>
        (sparse_solve lv lv.L.nrows s).bind fun s => .ok (s, r.2)
      else .ok (s, [])).bind fun r =>
      (scatter lv offset lv.L.nrows (lv.L.nrows + lv.negE.nrows) r.1).bind fun s =>
        .ok (s, (lvl, offset) :: r.2) := by
  rw [solve_milu_tr]
  split
  · rename_i h2
    rw [h] at h2
    exact absurd h2 (by simp)
  · rename_i lv2 h2
    rw [h] at h2
    have : lv = lv2 := by injection h2
    subst this
    rfl

theorem exc_bind_assoc {ε α β γ : Type} (m : Except ε α) (f : α → Except ε β)
    (g : β → Except ε γ) : (m.bind f).bind g = m.bind fun a => (f a).bind g := by
  cases m <;> rfl

theorem exc_map_bind {ε α β γ : Type} (m : Except ε α) (g : α → Except ε β) (f : β → γ) :
    (m.bind g).map f = m.bind fun a => (g a).map f := by
  cases m <;> rfl

theorem exc_bind_map {ε α β γ : Type} (m : Except ε α) (h : α → β) (g : β → Except ε γ) :
    (m.map h).bind g = m.bind fun a => g (h a) := by
  cases m <;> rfl

theorem exc_map_def {ε α β : Type} (m : Except ε α) (f : α → β) :
    m.map f = m.bind fun a => .ok (f a) := by
  cases m <;> rfl

theorem exc_ok_bind {ε α β : Type} (a : α) (f : α → Except ε β) :
    (Except.ok a : Except ε α).bind f = f a := rfl

/-- The instrumented solver is `solve_milu` together with the invocation list `calls`. -/
theorem solve_milu_tr_eq_map : ∀ (suf pre : List Level) (offset : Int) (s : St),
    solve_milu_tr (pre ++ suf) (pre.length + 1) offset s =
      (solve_milu (pre ++ suf) (pre.length + 1) offset s).map
        fun s2 => (s2, calls suf (pre.length + 1) offset) := by
  intro suf
  induction suf with
  | nil =>
    intro pre offset s
    rw [solve_milu_tr_none _ _ _ _ (rd_append_nil_none pre),
      solve_milu_none _ _ _ _ (rd_append_nil_none pre)]
    rfl
  | cons lv rest ih =>
    intro pre offset s
    have ih2 : ∀ (off : Int) (s : St),
        solve_milu_tr (pre ++ lv :: rest) (pre.length + 1 + 1) off s =
          (solve_milu (pre ++ lv :: rest) (pre.length + 1 + 1) off s).map
            fun s2 => (s2, calls rest (pre.length + 1 + 1) off) := by
      intro off s
      have := ih (pre ++ [lv]) off s
      rw [List.append_assoc, List.length_append] at this
      exact this
    rw [solve_milu_tr_eq _ _ _ _ lv (rd_append_cons pre lv rest),
      solve_milu_eq _ _ _ _ lv (rd_append_cons pre lv rest)]
    by_cases hgt : lv.L.nrows + lv.negE.nrows > lv.L.nrows
    · simp only [hgt, if_true, calls, ih2, exc_bind_assoc, exc_map_bind, exc_bind_map,
        exc_ok_bind, exc_map_def]
    · simp only [hgt, if_false, calls, exc_bind_assoc, exc_map_bind, exc_bind_map,
        exc_ok_bind, exc_map_def]

theorem calls_eq_call_list : ∀ (M : List Level) (lvl : Nat) (offset : Int),
    terminal_at_end M → calls M lvl offset = call_list M lvl offset := by
  intro M
  induction M with
  | nil => intro _ _ h; exact absurd h id
  | cons lv rest ih =>
    intro lvl offset h
    cases rest with
    | nil =>
      have h0 : lv.negE.nrows = 0 := h
      have hn : ¬ (lv.L.nrows + lv.negE.nrows > lv.L.nrows) := by omega
      simp only [calls, call_list, hn, if_false]
    | cons nx rest2 =>
      obtain ⟨hpos, hrest⟩ := h
      have hn : lv.L.nrows + lv.negE.nrows > lv.L.nrows := by omega
      show (lvl, offset) :: (if lv.L.nrows + lv.negE.nrows > lv.L.nrows then
          calls (nx :: rest2) (lvl + 1) (offset + lv.L.nrows) else [])
        = (lvl, offset) :: call_list (nx :: rest2) (lvl + 1) (offset + lv.L.nrows)
      rw [if_pos hn, ih _ _ hrest]

theorem call_list_length : ∀ (M : List Level) (lvl : Nat) (offset : Int),
    (call_list M lvl offset).length = M.length := by
  intro M
  induction M with
  | nil => intro _ _; rfl
  | cons lv rest ih =>
    intro lvl offset
    simp only [call_list, List.length_cons, ih]

theorem call_list_get? : ∀ (M : List Level) (lvl : Nat) (offset : Int) (k : Nat),
    k < M.length →
    (call_list M lvl offset).get? k
      = some (lvl + k, offset + ((M.take k).map fun lv => lv.L.nrows).sum) := by
  intro M
  induction M with
  | nil => intro _ _ k h; exact absurd h (Nat.not_lt_zero _)
  | cons lv rest ih =>
    intro lvl offset k hk
    cases k with
    | zero => simp [call_list]
    | succ k =>
      simp only [call_list, List.get?_cons_succ, List.take_succ_cons, List.map_cons,
        List.sum_cons]
      rw [ih (lvl + 1) (offset + lv.L.nrows) k (by simpa using hk)]
      congr 2
      · omega
      · ring

/-- Termination and depth where the dispatch test does not wrap: on a well-formed chain
of `L` levels whose last level is the first one without trailing block and whose sizes
are small (`chain_small`), with buffers that are long enough, `MILUsolve` returns, and
the level solver is invoked exactly once per level, in the order `1, 2, ..., L`, level
`k` at the offset that is the sum of the fine-block sizes of the levels before it; no
level beyond `L` is visited. -/
theorem solve_visits_each_level_once (M : List Level) (n : Nat) (s : St)
    (hv : chain_valid M n) (hs : chain_small M) (hterm : terminal_at_end M)
    (hb : (n : Int) ≤ (s.b.length : Int))
    (hfit : fits M (s.b_y1.length : Int) (s.y2.length : Int)) :
    ∃ s2, MILUsolve M s.b s.b_y1 s.y2 = .ok s2 ∧
      solve_milu_tr M 1 0 s = .ok (s2, call_list M 1 0) ∧
      (call_list M 1 0).length = M.length ∧
      ∀ k : Nat, k < M.length →
        (call_list M 1 0).get? k
          = some (k + 1, ((M.take k).map fun lv => lv.L.nrows).sum) := by
  obtain ⟨s2, hrun, _⟩ := chain_safe M [] n 0 s hv hs le_rfl (by omega) hfit
  have htr := solve_milu_tr_eq_map M [] 0 s
  simp only [List.nil_append, List.length_nil, Nat.zero_add] at hrun htr
  refine ⟨s2, hrun, ?_, call_list_length M 1 0, fun k hk => ?_⟩
  · rw [htr, hrun, calls_eq_call_list M 1 0 hterm]
    rfl
  · rw [call_list_get? M 1 0 k hk, zero_add, Nat.add_comm]

theorem solve_visits_each_level_once_witness :
    ∃ s2, MILUsolve [coupledLevel, trivLevel 1 0] [1, 2, 3] [0, 0] [0] = .ok s2 ∧
      solve_milu_tr [coupledLevel, trivLevel 1 0] 1 0 ⟨[1, 2, 3], [0, 0], [0]⟩
        = .ok (s2, call_list [coupledLevel, trivLevel 1 0] 1 0) ∧
      (call_list [coupledLevel, trivLevel 1 0] 1 0).length
        = [coupledLevel, trivLevel 1 0].length ∧
      ∀ k : Nat, k < [coupledLevel, trivLevel 1 0].length →
        (call_list [coupledLevel, trivLevel 1 0] 1 0).get? k
          = some (k + 1,
              (([coupledLevel, trivLevel 1 0].take k).map fun lv => lv.L.nrows).sum) :=
  solve_visits_each_level_once [coupledLevel, trivLevel 1 0] 3 ⟨[1, 2, 3], [0, 0], [0]⟩
    chain_valid_coupled chain_small_coupled ⟨by decide, rfl⟩ (by decide) fits_coupled

/-- A valid level with a trailing block whose sizes are small is sent to the sparse
branch, and its data signal sparse mode. -/
theorem level_valid_sparse (lv : Level) (m t : Nat) (hlv : level_valid lv m t)
    (htpos : 0 < t) (hs : chain_small [lv]) :
    dense_test lv (lv.L.nrows + lv.negE.nrows) = false ∧ dense_signal_spec lv = false := by
  have hpos : 0 < lv.negE.nrows := by
    rw [hlv.2.1]
    exact_mod_cast htpos
  obtain ⟨hdt, hdisp⟩ := level_dispatch lv m t hlv hs.1 (fun h => (hs.2 h).1)
  have hf : dense_test lv (lv.L.nrows + lv.negE.nrows) = false := by
    by_cases hd : dense_test lv (lv.L.nrows + lv.negE.nrows) = true
    · rw [if_pos hd] at hdisp
      omega
    · simpa using hd
  exact ⟨hf, by rw [← hdt]; exact hf⟩

theorem chain_small_head (lv : Level) (rest : List Level) (hs : chain_small (lv :: rest)) :
    chain_small [lv] :=
  ⟨hs.1, fun h => ⟨(hs.2 h).1, trivial⟩⟩

/-- The multi-level recursion where the dispatch test does not wrap: a level with
`nTrail > 0` and a well-formed sparse fine block `B`, followed by a well-formed chain for
its trailing block, all of small sizes (`chain_small`), with buffers that are long
enough.  With
`y1[i] = rowscal[p[i]-1] * rhs_in[offset+p[i]-1]` for `i < nB` and `y2` likewise for
`nB ≤ i < n`: the level solver returns; the recursive call at level `k + 1`, offset
`offset + nB`, is made on a state `sA` whose segment of `rhs` is `y2 + negE * z1`,
`B z1 = y1`, and returns a state `sB` whose segment is `x2`; `x1` is the fine-block solve
`B x1 = y1 + negF * x2`; and the final `rhs` holds `colscal[q[i]-1] * x1[i]` at
`offset + q[i] - 1` for `i < nB` and `colscal[q[i]-1] * x2[i-nB]` for `nB ≤ i < n`. -/
theorem multi_level_recursion (pre : List Level) (lv : Level) (rest : List Level)
    (m t : Nat) (offset : Int) (s : St) (hlv : level_valid lv m t) (htpos : 0 < t)
    (hok : sparse_ok lv m) (hrest : chain_valid rest t) (hs : chain_small (lv :: rest))
    (ho : 0 ≤ offset)
    (hb : offset + ((m + t : Nat) : Int) ≤ (s.b.length : Int))
    (hfit : fits (lv :: rest) (s.b_y1.length : Int) (s.y2.length : Int)) :
    ∃ s2 sA sB : St, ∃ z1 x1 : Fin m → ℚ, ∃ x2 : Fin t → ℚ,
      solve_milu (pre ++ lv :: rest) (pre.length + 1) offset s = .ok s2 ∧
      (fine_matrix lv m).mulVec z1 = (fun i : Fin m => gval lv offset s.b ((i : Nat) : Int)) ∧
      seg sA.b (offset + (m : Int)) t
        = (fun i : Fin t => gval lv offset s.b ((m : Int) + ((i : Nat) : Int)))
          + (crs_matrix lv.negE t m).mulVec z1 ∧
      solve_milu (pre ++ lv :: rest) (pre.length + 1 + 1) (offset + (m : Int)) sA = .ok sB ∧
      x2 = seg sB.b (offset + (m : Int)) t ∧
      (fine_matrix lv m).mulVec x1
        = (fun i : Fin m => gval lv offset s.b ((i : Nat) : Int))
          + (crs_matrix lv.negF m t).mulVec x2 ∧
      (∀ i : Fin m, at0 s2.b ((atI lv.q ((i : Nat) : Int) + offset) - 1)
        = x1 i * at0 lv.colscal (atI lv.q ((i : Nat) : Int) - 1)) ∧
      ∀ i : Fin t, at0 s2.b ((atI lv.q ((m : Int) + ((i : Nat) : Int)) + offset) - 1)
        = x2 i * at0 lv.colscal (atI lv.q ((m : Int) + ((i : Nat) : Int)) - 1) := by
  have hsp := (level_valid_sparse lv m t hlv htpos (chain_small_head lv rest hs)).1
  obtain ⟨hm, ht, hp, hq, hr, hc, hE, hFn, hF, _⟩ := hlv
  obtain ⟨f1, f2, f3, f4⟩ := hfit
  have hEpos : 0 < lv.negE.nrows := by rw [ht]; exact_mod_cast htpos
  obtain ⟨s2, z1, hrun, _, _, _, _, hz1, ⟨sA, sB, hrec, hA, hB⟩, hx1, hsc⟩ :=
    level_core (pre ++ lv :: rest) (pre.length + 1) offset s lv m t
      (fun y z => (fine_matrix lv m).mulVec z = y)
      (fun y x => ∃ sA sB : St,
        solve_milu (pre ++ lv :: rest) (pre.length + 1 + 1) (offset + (m : Int)) sA = .ok sB ∧
          seg sA.b (offset + (m : Int)) t = y ∧ seg sB.b (offset + (m : Int)) t = x)
      (rd_append_cons pre lv rest) hm ht htpos hsp
      (fun s1 h1 => sparse_solve_run lv m s1 hok h1)
      hE hFn hF hp hq hr hc ho hb (by rw [← hm]; exact f1) (by rw [← ht]; exact f3)
      (fun s1 e1 e2 e3 => by
        obtain ⟨w, hw, a, b, c, d⟩ := chain_safe rest (pre ++ [lv]) t (offset + (m : Int)) s1
          hrest (hs.2 hEpos).2 (by omega) (by rw [e1]; push_cast at hb; omega)
          (by rw [e2, e3]; exact f4 hEpos)
        rw [List.append_assoc, List.length_append] at hw
        exact ⟨w, hw, a, b, c, fun i hi => d i (by omega), s1, w, hw, rfl, rfl⟩)
  refine ⟨s2, sA, sB, z1, vec s2.b_y1 m, vec s2.y2 t, hrun, hz1, hA, hrec, hB.symm, hx1,
    fun i => ?_, fun i => ?_⟩
  · have hi : ((i : Nat) : Int) < (m : Int) := by exact_mod_cast i.2
    rw [hsc ((i : Nat) : Int) (Int.natCast_nonneg _) (by push_cast; omega)]
    simp only [sval, if_pos hi, vec]
  · have hi : ((i : Nat) : Int) < (t : Int) := by exact_mod_cast i.2
    rw [hsc ((m : Int) + ((i : Nat) : Int)) (by omega) (by push_cast; omega)]
    have hnot : ¬ ((m : Int) + ((i : Nat) : Int) < (m : Int)) := by omega
    simp only [sval, if_neg hnot, vec, add_sub_cancel_left]

theorem chain_valid_identity : chain_valid [trivLevel 1 0] 1 :=
  ⟨1, 0, rfl, level_valid_trivLevel 1 0 (by decide), fun h => absurd h (by decide)⟩

theorem multi_level_recursion_witness :
    ∃ s2 sA sB : St, ∃ z1 x1 : Fin 2 → ℚ, ∃ x2 : Fin 1 → ℚ,
      solve_milu ([] ++ coupledLevel :: [trivLevel 1 0]) (([] : List Level).length + 1) 0
        ⟨[1, 2, 3], [0, 0], [0]⟩ = .ok s2 ∧
      (fine_matrix coupledLevel 2).mulVec z1
        = (fun i : Fin 2 => gval coupledLevel 0 [1, 2, 3] ((i : Nat) : Int)) ∧
      seg sA.b (0 + ((2 : Nat) : Int)) 1
        = (fun i : Fin 1 => gval coupledLevel 0 [1, 2, 3] (((2 : Nat) : Int) + ((i : Nat) : Int)))
          + (crs_matrix coupledLevel.negE 1 2).mulVec z1 ∧
      solve_milu ([] ++ coupledLevel :: [trivLevel 1 0]) (([] : List Level).length + 1 + 1)
        (0 + ((2 : Nat) : Int)) sA = .ok sB ∧
      x2 = seg sB.b (0 + ((2 : Nat) : Int)) 1 ∧
      (fine_matrix coupledLevel 2).mulVec x1
        = (fun i : Fin 2 => gval coupledLevel 0 [1, 2, 3] ((i : Nat) : Int))
          + (crs_matrix coupledLevel.negF 2 1).mulVec x2 ∧
      (∀ i : Fin 2, at0 s2.b ((atI coupledLevel.q ((i : Nat) : Int) + 0) - 1)
        = x1 i * at0 coupledLevel.colscal (atI coupledLevel.q ((i : Nat) : Int) - 1)) ∧
      ∀ i : Fin 1,
        at0 s2.b ((atI coupledLevel.q (((2 : Nat) : Int) + ((i : Nat) : Int)) + 0) - 1)
          = x2 i * at0 coupledLevel.colscal
              (atI coupledLevel.q (((2 : Nat) : Int) + ((i : Nat) : Int)) - 1) :=
  multi_level_recursion [] coupledLevel [trivLevel 1 0] 2 1 0 ⟨[1, 2, 3], [0, 0], [0]⟩
    level_valid_coupledLevel (by decide) coupledLevel_sparse_ok chain_valid_identity
    chain_small_coupled (by decide) (by decide) fits_coupled

theorem load_state {σ α : Type} {a : List α} {i : Int} {s : σ} {e : Fault × σ}
    (h : load a i s = .error e) : e.2 = s := by
  unfold load at h
  cases hr : rd a i with
  | none =>
    rw [hr] at h
    simp only [Except.error.injEq] at h
    rw [← h]
  | some v =>
    rw [hr] at h
    simp at h

/-- A fault inside the inner loop of the kernel carries the `y` the row started with. -/
theorem crs_row_state (col_ind : List Int) (val x y : List ℚ) :
    ∀ (c : Nat) (j : Int) (t : ℚ) e, crs_row col_ind val x y j c t = .error e → e.2 = y := by
  intro c
  induction c with
  | zero =>
    intro j t e h
    simp [crs_row] at h
  | succ c ih =>
    intro j t e h
    unfold crs_row at h
    revert h
    refine bind_fault (fun e => e.2 = y) _ _ (fun e h => load_state h) ?_ e
    intro v
    refine bind_fault (fun e => e.2 = y) _ _ (fun e h => load_state h) ?_
    intro ci
    refine bind_fault (fun e => e.2 = y) _ _ (fun e h => load_state h) ?_
    intro xv e2 h2
    exact ih _ _ e2 h2

/-- One row of the kernel either stores a value at `y[i]`, the old value when the row's
range is empty, or stops with `y` as it was. -/
theorem crs_body_cases (row_ptr col_ind : List Int) (val x : List ℚ) (i : Int) (y : List ℚ) :
    (∃ t : ℚ, crs_body row_ptr col_ind val x i y = .ok (y.set i.toNat t) ∧ 0 ≤ i ∧
        i < (y.length : Int) ∧ (atI row_ptr (i + 1) ≤ atI row_ptr i → t = at0 y i)) ∨
      ∃ e, crs_body row_ptr col_ind val x i y = .error e ∧ e.2 = y := by
  unfold crs_body load
  cases h1 : rd y i with
  | none => exact Or.inr ⟨_, rfl, rfl⟩
  | some t0 =>
    cases h2 : rd row_ptr i with
    | none => exact Or.inr ⟨_, rfl, rfl⟩
    | some lo =>
      cases h3 : rd row_ptr (i + 1) with
      | none => exact Or.inr ⟨_, rfl, rfl⟩
      | some hi =>
        simp only [bind, Except.bind]
        cases h4 : crs_row col_ind val x y lo (hi - lo).toNat t0 with
        | error e => exact Or.inr ⟨e, rfl, crs_row_state _ _ _ _ _ _ _ _ h4⟩
        | ok t =>
          simp only
          cases h5 : wr y i t with
          | none => exact Or.inr ⟨_, rfl, rfl⟩
          | some l =>
            left
            unfold wr at h5
            split at h5
            · rename_i hb
              simp only [Option.some.injEq] at h5
              refine ⟨t, by rw [h5], hb.1, by omega, fun hemp => ?_⟩
              have e1 : atI row_ptr i = lo := by simp [atI, h2]
              have e2 : atI row_ptr (i + 1) = hi := by simp [atI, h3]
              have hz : (hi - lo).toNat = 0 := by omega
              rw [hz] at h4
              simp only [crs_row, Except.ok.injEq] at h4
              rw [← h4]
              simp [at0, h1]
            · exact absurd h5 (by simp)

/-- Loop rule for `forUp` covering both outcomes: the invariant at the end of a run that
returns, the property `Q` of the state of a run that stops. -/
theorem forUp_both {ρ : Type} (body : Int → ρ → Run ρ ρ) (Q : ρ → Prop) :
    ∀ (cnt : Nat) (lo : Int) (P : Nat → ρ → Prop) (r : ρ), P 0 r →
      (∀ (k : Nat) (r : ρ), k < cnt → P k r →
        (∃ r2, body (lo + (k : Int)) r = .ok r2 ∧ P (k + 1) r2) ∨
          ∃ e, body (lo + (k : Int)) r = .error e ∧ Q e.2) →
      (∃ r2, forUp body lo cnt r = .ok r2 ∧ P cnt r2) ∨
        ∃ e, forUp body lo cnt r = .error e ∧ Q e.2 := by
  intro cnt
  induction cnt with
  | zero =>
    intro lo P r h0 _
    exact Or.inl ⟨r, rfl, h0⟩
  | succ c ih =>
    intro lo P r h0 hstep
    rcases hstep 0 r (Nat.succ_pos c) h0 with ⟨r1, hb, hP1⟩ | ⟨e, hb, hQ⟩
    · simp only [Nat.cast_zero, add_zero] at hb
      rcases ih (lo + 1) (fun k => P (k + 1)) r1 hP1 (by
        intro k r hk hP
        have hc : lo + 1 + (k : Int) = lo + ((k + 1 : Nat) : Int) := by push_cast; ring
        rw [hc]
        exact hstep (k + 1) r (by omega) hP) with ⟨r2, hl, hP2⟩ | ⟨e, hl, hQ⟩
      · exact Or.inl ⟨r2, by simp only [forUp, hb, Except.bind]; exact hl, hP2⟩
      · exact Or.inr ⟨e, by simp only [forUp, hb, Except.bind]; exact hl, hQ⟩
    · simp only [Nat.cast_zero, add_zero] at hb
      exact Or.inr ⟨e, by simp only [forUp, hb, Except.bind], hQ⟩

theorem at0_neg (a : List ℚ) (i : Int) (h : i < 0) : at0 a i = 0 := by
  simp [at0, rd_neg a i h]

/-- C23: for every input, the content of `y` a run of `crs_Axpy_kernel` ends with (the
result, or the content when the run stops at a fault) has the length of the initial `y`,
the same entries at all `i ≥ nrows`, and the same entries at the rows `i < nrows` whose
range is empty (`row_ptr[i] ≥ row_ptr[i+1]`); with `nrows ≤ 0` the kernel returns `y`.
The vector `x` and the matrix arrays are read-only arguments. -/
theorem kernel_frame_holds (row_ptr col_ind : List Int) (val x y : List ℚ) (nrows : Int) :
    kernel_frame row_ptr nrows y (final_y (crs_Axpy_kernel row_ptr col_ind val x y nrows)) ∧
      (nrows ≤ 0 → crs_Axpy_kernel row_ptr col_ind val x y nrows = .ok y) := by
  constructor
  · have key := forUp_both (crs_body row_ptr col_ind val x)
      (kernel_frame row_ptr nrows y) nrows.toNat 0
      (fun k w => w.length = y.length ∧ (∀ j : Int, (k : Int) ≤ j → at0 w j = at0 y j) ∧
        (∀ j : Int, 0 ≤ j → j < (k : Int) → atI row_ptr (j + 1) ≤ atI row_ptr j →
          at0 w j = at0 y j)) y
      ⟨rfl, fun _ _ => rfl, fun j h0 h1 => absurd h1 (by simpa using h0)⟩
      (by
        intro k w hk ⟨hlen, hge, hlt⟩
        have hfr : kernel_frame row_ptr nrows y w := by
          refine ⟨hlen, fun j hj => hge j (by omega), fun j h0 h1 hemp => ?_⟩
          by_cases hjk : j < (k : Int)
          · exact hlt j h0 hjk hemp
          · exact hge j (by omega)
        rcases crs_body_cases row_ptr col_ind val x (0 + (k : Int)) w with
          ⟨t, hrun, hi0, hi1, hemp⟩ | ⟨e, hrun, he⟩
        · left
          refine ⟨_, hrun, by simp [hlen], fun j hj => ?_, fun j h0 h1 hej => ?_⟩
          · have hne : (0 : Int) + (k : Int) ≠ j := by push_cast at hj; omega
            have h2 := @at0_set_ne w _ _ t hi0 hne
            rw [h2]
            exact hge j (by push_cast at hj; omega)
          · by_cases hjk : j = 0 + (k : Int)
            · subst hjk
              have h2 := @at0_set_eq w _ t hi0 hi1
              rw [h2, hemp hej]
              exact hge _ (by omega)
            · have h2 := @at0_set_ne w _ _ t hi0 (fun h => hjk h.symm)
              rw [h2]
              exact hlt j h0 (by push_cast at h1; omega) hej
        · right
          exact ⟨e, hrun, by rw [he]; exact hfr⟩)
    rcases key with ⟨y2, hrun, hlen, hge, hlt⟩ | ⟨e, hrun, hQ⟩
    · have hr : crs_Axpy_kernel row_ptr col_ind val x y nrows = .ok y2 := hrun
      rw [hr]
      refine ⟨hlen, fun j hj => ?_, fun j h0 h1 hemp => hlt j h0 (by omega) hemp⟩
      by_cases hj0 : j < 0
      · rw [at0_neg _ _ hj0, at0_neg _ _ hj0]
      · exact hge j (by omega)
    · have hr : crs_Axpy_kernel row_ptr col_ind val x y nrows = .error e := hrun
      rw [hr]
      exact hQ
  · intro h0
    have hz : nrows.toNat = 0 := by omega
    simp only [crs_Axpy_kernel, hz, forUp]

theorem chain_valid_of_wf : ∀ (M : List Level) (n : Nat), chain_wf M n → chain_valid M n := by
  intro M
  induction M with
  | nil => intro _ h; exact h
  | cons lv rest ih =>
    intro n h
    obtain ⟨m, t, hn, hlv, _, hrest⟩ := h
    exact ⟨m, t, hn, hlv, fun ht => ih t (hrest ht)⟩

/-- The gathered value is linear in the window of `b` it reads. -/
theorem gval_linear (lv : Level) (n : Nat) (offset : Int) (a b : ℚ) (bu bv bw : List ℚ)
    (hp : perm_ok lv.p n)
    (hrel : ∀ k : Int, 0 ≤ k → k < (n : Int) →
      at0 bw (offset + k) = a * at0 bu (offset + k) + b * at0 bv (offset + k))
    (i : Int) (hi0 : 0 ≤ i) (hi1 : i < (n : Int)) :
    gval lv offset bw i = a * gval lv offset bu i + b * gval lv offset bv i := by
  obtain ⟨p1, p2⟩ := hp.2.1 i (mem_positions.2 ⟨hi0, by omega⟩)
  have hidx : (atI lv.p i + offset) - 1 = offset + (atI lv.p i - 1) := by ring
  simp only [gval, hidx]
  rw [hrel (atI lv.p i - 1) (by omega) (by omega)]
  ring

/-- Every index of the window is hit by the scatter. -/
theorem perm_cover (q : List Int) (n : Nat) (hq : perm_ok q n) (k : Int) (h0 : 0 ≤ k)
    (h1 : k < (n : Int)) : ∃ i : Int, 0 ≤ i ∧ i < (n : Int) ∧ atI q i = k + 1 := by
  obtain ⟨i, hi, hqi⟩ := hq.2.2.2 k (mem_positions.2 ⟨h0, by omega⟩)
  obtain ⟨i0, i1⟩ := mem_positions.1 hi
  exact ⟨i, i0, by omega, hqi⟩

/-- One run of a level with a nonempty trailing block, with the state handed to the
recursive call and the state it returned. -/
theorem level_char (pre : List Level) (lv : Level) (rest : List Level)
    (m t : Nat) (offset : Int) (s : St) (hlv : level_valid lv m t) (htpos : 0 < t)
    (hok : sparse_ok lv m) (hrest : chain_valid rest t) (hs : chain_small (lv :: rest))
    (ho : 0 ≤ offset)
    (hb : offset + ((m + t : Nat) : Int) ≤ (s.b.length : Int))
    (hfit : fits (lv :: rest) (s.b_y1.length : Int) (s.y2.length : Int)) :
    ∃ s2 sA sB : St, ∃ z1 : Fin m → ℚ,
      solve_milu (pre ++ lv :: rest) (pre.length + 1) offset s = .ok s2 ∧
      sA.b.length = s.b.length ∧ sA.b_y1.length = s.b_y1.length ∧
      sA.y2.length = s.y2.length ∧
      (fine_matrix lv m).mulVec z1 = (fun i : Fin m => gval lv offset s.b ((i : Nat) : Int)) ∧
      seg sA.b (offset + (m : Int)) t
        = (fun i : Fin t => gval lv offset s.b ((m : Int) + ((i : Nat) : Int)))
          + (crs_matrix lv.negE t m).mulVec z1 ∧
      solve_milu (pre ++ lv :: rest) (pre.length + 1 + 1) (offset + (m : Int)) sA = .ok sB ∧
      vec s2.y2 t = seg sB.b (offset + (m : Int)) t ∧
      (fine_matrix lv m).mulVec (vec s2.b_y1 m)
        = (fun i : Fin m => gval lv offset s.b ((i : Nat) : Int))
          + (crs_matrix lv.negF m t).mulVec (vec s2.y2 t) ∧
      ∀ i : Int, 0 ≤ i → i < ((m + t : Nat) : Int) →
        at0 s2.b ((atI lv.q i + offset) - 1) = sval lv m s2.b_y1 s2.y2 i := by
  have hsp := (level_valid_sparse lv m t hlv htpos (chain_small_head lv rest hs)).1
  obtain ⟨hm, ht, hp, hq, hr, hc, hE, hFn, hF, _⟩ := hlv
  obtain ⟨f1, f2, f3, f4⟩ := hfit
  have hEpos : 0 < lv.negE.nrows := by rw [ht]; exact_mod_cast htpos
  obtain ⟨s2, z1, hrun, _, _, _, _, hz1, ⟨sA, sB, hrec, l1, l2, l3, hA, hB⟩, hx1, hsc⟩ :=
    level_core (pre ++ lv :: rest) (pre.length + 1) offset s lv m t
      (fun y z => (fine_matrix lv m).mulVec z = y)
      (fun y x => ∃ sA sB : St,
        solve_milu (pre ++ lv :: rest) (pre.length + 1 + 1) (offset + (m : Int)) sA = .ok sB ∧
          sA.b.length = s.b.length ∧ sA.b_y1.length = s.b_y1.length ∧
          sA.y2.length = s.y2.length ∧
          seg sA.b (offset + (m : Int)) t = y ∧ seg sB.b (offset + (m : Int)) t = x)
      (rd_append_cons pre lv rest) hm ht htpos hsp
      (fun s1 h1 => sparse_solve_run lv m s1 hok h1)
      hE hFn hF hp hq hr hc ho hb (by rw [← hm]; exact f1) (by rw [← ht]; exact f3)
      (fun s1 e1 e2 e3 => by
        obtain ⟨w, hw, a, b, c, d⟩ := chain_safe rest (pre ++ [lv]) t (offset + (m : Int)) s1
          hrest (hs.2 hEpos).2 (by omega) (by rw [e1]; push_cast at hb; omega)
          (by rw [e2, e3]; exact f4 hEpos)
        rw [List.append_assoc, List.length_append] at hw
        exact ⟨w, hw, a, b, c, fun i hi => d i (by omega), s1, w, hw, e1, e2, e3, rfl, rfl⟩)
  exact ⟨s2, sA, sB, z1, hrun, l1, l2, l3, hz1, hA, hrec, hB.symm, hx1, hsc⟩

theorem vec_apply_int (a : List ℚ) (m : Nat) (i : Int) (h0 : 0 ≤ i) (h1 : i < (m : Int)) :
    vec a m ⟨i.toNat, by omega⟩ = at0 a i := by
  simp only [vec]
  rw [Int.toNat_of_nonneg h0]

theorem seg_apply_int (a : List ℚ) (off : Int) (t : Nat) (k : Int) (h0 : 0 ≤ k)
    (h1 : k < (t : Int)) : seg a off t ⟨k.toNat, by omega⟩ = at0 a (off + k) := by
  simp only [seg]
  rw [Int.toNat_of_nonneg h0]

theorem lin_apply {m : Nat} (f g h : Fin m → ℚ) (a b : ℚ) (H : h = a • f + b • g)
    (i : Fin m) : h i = a * f i + b * g i := by
  rw [H]
  simp only [Pi.add_apply, Pi.smul_apply, smul_eq_mul]

/-- The solution of `F z = y` depends linearly on `y`. -/
theorem solve_linear {m : Nat} (F : Matrix (Fin m) (Fin m) ℚ) (hF : IsUnit F)
    (a b : ℚ) (yu yv yw zu zv zw : Fin m → ℚ) (hu : F.mulVec zu = yu) (hv : F.mulVec zv = yv)
    (hw : F.mulVec zw = yw) (hy : yw = a • yu + b • yv) : zw = a • zu + b • zv := by
  apply mulVec_injective_of_isUnit F hF
  rw [hw, Matrix.mulVec_add, Matrix.mulVec_smul, Matrix.mulVec_smul, hu, hv, hy]

/-- Terminal level: the final window of `b` is linear in the initial window. -/
theorem terminal_linear (pre : List Level) (lv : Level) (rest : List Level) (m : Nat)
    (offset : Int) (a b : ℚ) (su sv sw : St) (hlv : level_valid lv m 0) (hfine : fine_ok lv m)
    (hsq : (lv.L.nrows + lv.negE.nrows) * (lv.L.nrows + lv.negE.nrows) < 2147483648)
    (ho : 0 ≤ offset)
    (hbu : offset + (m : Int) ≤ (su.b.length : Int))
    (hbv : offset + (m : Int) ≤ (sv.b.length : Int))
    (hbw : offset + (m : Int) ≤ (sw.b.length : Int))
    (fu : (m : Int) ≤ (su.b_y1.length : Int)) (fv : (m : Int) ≤ (sv.b_y1.length : Int))
    (fw : (m : Int) ≤ (sw.b_y1.length : Int))
    (hrel : ∀ k : Int, 0 ≤ k → k < (m : Int) →
      at0 sw.b (offset + k) = a * at0 su.b (offset + k) + b * at0 sv.b (offset + k)) :
    ∃ ru rv rw : St,
      solve_milu (pre ++ lv :: rest) (pre.length + 1) offset su = .ok ru ∧
      solve_milu (pre ++ lv :: rest) (pre.length + 1) offset sv = .ok rv ∧
      solve_milu (pre ++ lv :: rest) (pre.length + 1) offset sw = .ok rw ∧
      ∀ k : Int, 0 ≤ k → k < (m : Int) →
        at0 rw.b (offset + k) = a * at0 ru.b (offset + k) + b * at0 rv.b (offset + k) := by
  obtain ⟨hm, ht, hp, hq, hr, hc, _⟩ := hlv
  simp only [Nat.add_zero] at hp hq hr hc
  have hT : lv.negE.nrows = 0 := by rw [ht]; rfl
  have hrd := rd_append_cons pre lv rest
  have run : ∀ s : St, offset + (m : Int) ≤ (s.b.length : Int) →
      (m : Int) ≤ (s.b_y1.length : Int) →
      ∃ s2, solve_milu (pre ++ lv :: rest) (pre.length + 1) offset s = .ok s2 ∧
        (level_fine_matrix lv m).mulVec (vec s2.b_y1 m)
          = (fun i : Fin m => gval lv offset s.b ((i : Nat) : Int)) ∧
        ∀ i : Int, 0 ≤ i → i < (m : Int) →
          at0 s2.b ((atI lv.q i + offset) - 1)
            = at0 s2.b_y1 i * at0 lv.colscal (atI lv.q i - 1) := by
    intro s hb hy
    obtain ⟨s2, hrun, _, _, hz, hS⟩ := single_core (pre ++ lv :: rest) (pre.length + 1)
      offset s lv m (fun y z => (level_fine_matrix lv m).mulVec z = y) hrd hT hm
      (fun s1 h1 => fine_solve_run lv m s1 hfine (dense_test_eq_signal lv hT hsq) h1)
      (gather_ok_of_perm_at hp hr ho hb) (scatter_ok_of_perm_at hq hc ho hb) hy
    refine ⟨s2, hrun, hz, fun i i0 i1 => ?_⟩
    have := hS.2.1 i i0 i1
    simp only [sval, if_pos i1] at this
    exact this
  obtain ⟨ru, hru, hzu, hSu⟩ := run su hbu fu
  obtain ⟨rv, hrv, hzv, hSv⟩ := run sv hbv fv
  obtain ⟨rw, hrw, hzw, hSw⟩ := run sw hbw fw
  have hy : (fun i : Fin m => gval lv offset sw.b ((i : Nat) : Int))
      = a • (fun i : Fin m => gval lv offset su.b ((i : Nat) : Int))
        + b • (fun i : Fin m => gval lv offset sv.b ((i : Nat) : Int)) := by
    funext i
    simp only [Pi.add_apply, Pi.smul_apply, smul_eq_mul]
    exact gval_linear lv m offset a b su.b sv.b sw.b hp hrel _ (Int.natCast_nonneg _)
      (by exact_mod_cast i.2)
  have hz := solve_linear _ (level_fine_matrix_isUnit lv m hfine) a b _ _ _ _ _ _
    hzu hzv hzw hy
  refine ⟨ru, rv, rw, hru, hrv, hrw, fun k k0 k1 => ?_⟩
  obtain ⟨i, i0, i1, hqi⟩ := perm_cover lv.q m hq k k0 k1
  have hidx : offset + k = (atI lv.q i + offset) - 1 := by omega
  rw [hidx, hSu i i0 i1, hSv i i0 i1, hSw i i0 i1]
  have hzi := lin_apply _ _ _ a b hz ⟨i.toNat, by omega⟩
  rw [vec_apply_int _ _ _ i0 i1, vec_apply_int _ _ _ i0 i1, vec_apply_int _ _ _ i0 i1] at hzi
  rw [hzi]
  ring

theorem fine_ok_sparse (lv : Level) (m : Nat) (hfine : fine_ok lv m)
    (hsp : dense_signal_spec lv = false) : sparse_ok lv m := by
  unfold fine_ok at hfine
  rw [hsp] at hfine
  simpa using hfine

/-- Linearity of the level solver on a well-formed chain of small sizes, as a statement
about three runs: if the window of `b` of the third state is the combination `a * u + b * v` of the
windows of the first two, the three runs return and the same holds for the final
windows.  The contents of the scratch buffers of the three states are arbitrary. -/
theorem chain_linear : ∀ (suf pre : List Level) (n : Nat) (offset : Int) (a b : ℚ)
    (su sv sw : St), chain_wf suf n → chain_small suf → 0 ≤ offset →
    offset + (n : Int) ≤ (su.b.length : Int) → offset + (n : Int) ≤ (sv.b.length : Int) →
    offset + (n : Int) ≤ (sw.b.length : Int) →
    fits suf (su.b_y1.length : Int) (su.y2.length : Int) →
    fits suf (sv.b_y1.length : Int) (sv.y2.length : Int) →
    fits suf (sw.b_y1.length : Int) (sw.y2.length : Int) →
    (∀ k : Int, 0 ≤ k → k < (n : Int) →
      at0 sw.b (offset + k) = a * at0 su.b (offset + k) + b * at0 sv.b (offset + k)) →
    ∃ ru rv rw : St,
      solve_milu (pre ++ suf) (pre.length + 1) offset su = .ok ru ∧
      solve_milu (pre ++ suf) (pre.length + 1) offset sv = .ok rv ∧
      solve_milu (pre ++ suf) (pre.length + 1) offset sw = .ok rw ∧
      ∀ k : Int, 0 ≤ k → k < (n : Int) →
        at0 rw.b (offset + k) = a * at0 ru.b (offset + k) + b * at0 rv.b (offset + k) := by
  intro suf
  induction suf with
  | nil =>
    intro pre n offset a b su sv sw hwf
    exact absurd hwf id
  | cons lv rest ih =>
    intro pre n offset a b su sv sw hwf hs ho hbu hbv hbw fu fv fw hrel
    obtain ⟨m, t, rfl, hlv, hfine, hrest⟩ := hwf
    by_cases ht0 : t = 0
    · subst ht0
      have hm := hlv.1
      exact terminal_linear pre lv rest m offset a b su sv sw hlv hfine hs.1 ho hbu hbv hbw
        (by rw [← hm]; exact fu.1) (by rw [← hm]; exact fv.1) (by rw [← hm]; exact fw.1) hrel
    · have htpos : 0 < t := Nat.pos_of_ne_zero ht0
      have hsp := level_valid_sparse lv m t hlv htpos (chain_small_head lv rest hs)
      have hok := fine_ok_sparse lv m hfine hsp.2
      have hvr := chain_valid_of_wf rest t (hrest htpos)
      have hm := hlv.1
      have ht := hlv.2.1
      have hp := hlv.2.2.1
      have hq := hlv.2.2.2.1
      have hEpos : 0 < lv.negE.nrows := by rw [ht]; exact_mod_cast htpos
      have hmt : ((m + t : Nat) : Int) = (m : Int) + (t : Int) := by push_cast; ring
      obtain ⟨ru, Au, Bu, zu, hru, lu1, lu2, lu3, hzu, hAu, hrecu, hx2u, hx1u, hscu⟩ :=
        level_char pre lv rest m t offset su hlv htpos hok hvr hs ho hbu fu
      obtain ⟨rv, Av, Bv, zv, hrv, lv1, lv2, lv3, hzv, hAv, hrecv, hx2v, hx1v, hscv⟩ :=
        level_char pre lv rest m t offset sv hlv htpos hok hvr hs ho hbv fv
      obtain ⟨rw, Aw, Bw, zw, hrw, lw1, lw2, lw3, hzw, hAw, hrecw, hx2w, hx1w, hscw⟩ :=
        level_char pre lv rest m t offset sw hlv htpos hok hvr hs ho hbw fw
      have hB := fine_matrix_isUnit lv m hok
      -- the gathered vectors are linear in the window
      have hy1 : (fun i : Fin m => gval lv offset sw.b ((i : Nat) : Int))
          = a • (fun i : Fin m => gval lv offset su.b ((i : Nat) : Int))
            + b • (fun i : Fin m => gval lv offset sv.b ((i : Nat) : Int)) := by
        funext i
        simp only [Pi.add_apply, Pi.smul_apply, smul_eq_mul]
        have hi : ((i : Nat) : Int) < (m : Int) := by exact_mod_cast i.2
        exact gval_linear lv (m + t) offset a b su.b sv.b sw.b hp hrel _
          (Int.natCast_nonneg _) (by omega)
      have hy2 : (fun i : Fin t => gval lv offset sw.b ((m : Int) + ((i : Nat) : Int)))
          = a • (fun i : Fin t => gval lv offset su.b ((m : Int) + ((i : Nat) : Int)))
            + b • (fun i : Fin t => gval lv offset sv.b ((m : Int) + ((i : Nat) : Int))) := by
        funext i
        simp only [Pi.add_apply, Pi.smul_apply, smul_eq_mul]
        have hi : ((i : Nat) : Int) < (t : Int) := by exact_mod_cast i.2
        exact gval_linear lv (m + t) offset a b su.b sv.b sw.b hp hrel _
          (by omega) (by omega)
      have hz := solve_linear _ hB a b _ _ _ zu zv zw hzu hzv hzw hy1
      -- so is the window handed to the recursive call
      have hA : seg Aw.b (offset + (m : Int)) t
          = a • seg Au.b (offset + (m : Int)) t + b • seg Av.b (offset + (m : Int)) t := by
        rw [hAu, hAv, hAw, hy2, hz, Matrix.mulVec_add, Matrix.mulVec_smul, Matrix.mulVec_smul]
        simp only [smul_add]
        abel
      -- the recursive calls
      obtain ⟨r2u, r2v, r2w, e2u, e2v, e2w, hrec⟩ := ih (pre ++ [lv]) t (offset + (m : Int))
        a b Au Av Aw (hrest htpos) (hs.2 hEpos).2 (by omega)
        (by rw [lu1]; omega) (by rw [lv1]; omega) (by rw [lw1]; omega)
        (by rw [lu2, lu3]; exact fu.2.2.2 hEpos) (by rw [lv2, lv3]; exact fv.2.2.2 hEpos)
        (by rw [lw2, lw3]; exact fw.2.2.2 hEpos)
        (fun k k0 k1 => by
          have h := lin_apply _ _ _ a b hA ⟨k.toNat, by omega⟩
          rw [seg_apply_int _ _ _ _ k0 k1, seg_apply_int _ _ _ _ k0 k1,
            seg_apply_int _ _ _ _ k0 k1] at h
          exact h)
      rw [List.append_assoc, List.length_append] at e2u e2v e2w
      have eu : r2u = Bu := Except.ok.inj (e2u.symm.trans hrecu)
      have ev : r2v = Bv := Except.ok.inj (e2v.symm.trans hrecv)
      have ew : r2w = Bw := Except.ok.inj (e2w.symm.trans hrecw)
      subst eu
      subst ev
      subst ew
      have hx2 : vec rw.y2 t = a • vec ru.y2 t + b • vec rv.y2 t := by
        rw [hx2u, hx2v, hx2w]
        funext i
        simp only [Pi.add_apply, Pi.smul_apply, smul_eq_mul, seg]
        have hi : ((i : Nat) : Int) < (t : Int) := by exact_mod_cast i.2
        exact hrec _ (Int.natCast_nonneg _) hi
      have hx1 := solve_linear _ hB a b _ _ _ _ _ _ hx1u hx1v hx1w (by
        rw [hy1, hx2, Matrix.mulVec_add, Matrix.mulVec_smul, Matrix.mulVec_smul]
        simp only [smul_add]
        abel)
      refine ⟨ru, rv, rw, hru, hrv, hrw, fun k k0 k1 => ?_⟩
      obtain ⟨i, i0, i1, hqi⟩ := perm_cover lv.q (m + t) hq k k0 k1
      have hidx : offset + k = (atI lv.q i + offset) - 1 := by omega
      rw [hidx, hscu i i0 i1, hscv i i0 i1, hscw i i0 i1]
      by_cases him : i < (m : Int)
      · have h := lin_apply _ _ _ a b hx1 ⟨i.toNat, by omega⟩
        rw [vec_apply_int _ _ _ i0 him, vec_apply_int _ _ _ i0 him,
          vec_apply_int _ _ _ i0 him] at h
        simp only [sval, if_pos him, h]
        ring
      · have j0 : 0 ≤ i - (m : Int) := by omega
        have j1 : i - (m : Int) < (t : Int) := by omega
        have h := lin_apply _ _ _ a b hx2 ⟨(i - (m : Int)).toNat, by omega⟩
        rw [vec_apply_int _ _ _ j0 j1, vec_apply_int _ _ _ j0 j1,
          vec_apply_int _ _ _ j0 j1] at h
        simp only [sval, if_neg him, h]
        ring

/-- Two runs of `MILUsolve` on the same `rhs` with scratch buffers of arbitrary contents
(and lengths that fit) leave the same `rhs`, on a well-formed chain of small sizes. -/
theorem scratch_independent_core (M : List Level) (n : Nat) (b y1 y2 y1' y2' : List ℚ)
    (hwf : chain_wf M n) (hs : chain_small M) (hb : (n : Int) ≤ (b.length : Int))
    (hfit : fits M (y1.length : Int) (y2.length : Int))
    (hfit' : fits M (y1'.length : Int) (y2'.length : Int)) :
    ∃ r r' : St, MILUsolve M b y1 y2 = .ok r ∧ MILUsolve M b y1' y2' = .ok r' ∧
      r'.b = r.b := by
  have hv := chain_valid_of_wf M n hwf
  obtain ⟨r, hr, hlen, _, _, hfr⟩ := chain_safe M [] n 0 ⟨b, y1, y2⟩ hv hs le_rfl
    (by simpa using hb) hfit
  obtain ⟨r', hr', hlen', _, _, hfr'⟩ := chain_safe M [] n 0 ⟨b, y1', y2'⟩ hv hs le_rfl
    (by simpa using hb) hfit'
  obtain ⟨ru, rv, rw, eu, ev, ew, hlin⟩ := chain_linear M [] n 0 1 0 ⟨b, y1, y2⟩ ⟨b, y1, y2⟩
    ⟨b, y1', y2'⟩ hwf hs le_rfl (by simpa using hb) (by simpa using hb) (by simpa using hb)
    hfit hfit hfit' (fun k _ _ => by ring)
  have e1 : ru = r := Except.ok.inj (eu.symm.trans hr)
  have e2 : rw = r' := Except.ok.inj (ew.symm.trans hr')
  subst e1
  subst e2
  simp only [List.nil_append, List.length_nil, Nat.zero_add] at hr hr'
  refine ⟨ru, rw, hr, hr', ?_⟩
  refine eq_of_segment 0 n (by rw [hlen', hlen]) (fun j hj => ?_) (fun i i0 i1 => ?_)
  · rw [hfr' j hj, hfr j hj]
  · rw [hlin i i0 i1]
    ring

theorem fits_auto (lv : Level) (rest : List Level) (n : Nat)
    (hv : chain_valid (lv :: rest) n) :
    fits (lv :: rest)
      ((List.replicate (if lv.L.nrows > lv.negE.nrows then lv.L.nrows
        else lv.negE.nrows).toNat (0 : ℚ)).length : Int)
      ((List.replicate lv.negE.nrows.toNat (0 : ℚ)).length : Int) := by
  obtain ⟨m, t, _, hlv, hrest⟩ := hv
  obtain ⟨hm, ht, _, _, _, _, _, hF, _⟩ := hlv
  simp only [List.length_replicate]
  have h1 : ((if lv.L.nrows > lv.negE.nrows then lv.L.nrows else lv.negE.nrows).toNat : Int)
      = max (m : Int) (t : Int) := by
    rw [hm, ht]
    split
    · rw [max_eq_left (by omega)]
      omega
    · rw [max_eq_right (by omega)]
      omega
  have h2 : (lv.negE.nrows.toNat : Int) = (t : Int) := by rw [ht]; rfl
  rw [h1, h2]
  refine ⟨by rw [hm]; exact le_max_left _ _, by rw [hF]; exact le_max_left _ _,
    by rw [ht], fun hp => ?_⟩
  exact fits_of_valid rest t _ _ (hrest (by omega)) (le_max_right _ _) le_rfl

/-- Scratch independence where the dispatch test does not wrap: on a well-formed chain
of small sizes (`chain_small`), for every `rhs` and every two pairs of scratch buffers
whose lengths fit, with arbitrary initial contents, `MILUsolve` returns on both and
leaves the same `rhs`; it is also what `MILUsolve_2args`, which fills its scratch with
zeros, returns. -/
theorem scratch_independent (M : List Level) (n : Nat) (b y1 y2 y1' y2' : List ℚ)
    (hwf : chain_wf M n) (hs : chain_small M) (hb : (n : Int) ≤ (b.length : Int))
    (hfit : fits M (y1.length : Int) (y2.length : Int))
    (hfit' : fits M (y1'.length : Int) (y2'.length : Int)) :
    ∃ r r' : St, MILUsolve M b y1 y2 = .ok r ∧ MILUsolve M b y1' y2' = .ok r' ∧
      r'.b = r.b ∧ MILUsolve_2args M b = .ok r.b := by
  obtain ⟨r, r', hr, hr', hbb⟩ := scratch_independent_core M n b y1 y2 y1' y2' hwf hs hb
    hfit hfit'
  refine ⟨r, r', hr, hr', hbb, ?_⟩
  cases M with
  | nil => exact absurd hwf id
  | cons lv rest =>
    obtain ⟨r1, r2, h1, h2, h12⟩ := scratch_independent_core (lv :: rest) n b y1 y2 _ _ hwf hs
      hb hfit (fits_auto lv rest n (chain_valid_of_wf _ n hwf))
    have e1 : r1 = r := Except.ok.inj (h1.symm.trans hr)
    subst e1
    have hrd : rd (lv :: rest) 0 = some lv := rfl
    unfold MILUsolve at h2
    simp only [MILUsolve_2args, hrd]
    rw [h2]
    simp only [Except.map, h12]

theorem fine_ok_coupledLevel : fine_ok coupledLevel 2 := by
  unfold fine_ok
  rw [if_neg (by decide)]
  exact coupledLevel_sparse_ok

theorem fine_ok_trivLevel (nB nT : Nat) (h1 : 1 ≤ nB) :
    fine_ok (trivLevel nB nT) nB := by
  unfold fine_ok
  rw [signal_trivLevel nB nT h1]
  simp only [Bool.false_eq_true, if_false]
  exact sparse_ok_trivLevel nB nT

theorem chain_wf_coupled : chain_wf [coupledLevel, trivLevel 1 0] 3 :=
  ⟨2, 1, rfl, level_valid_coupledLevel, fine_ok_coupledLevel, fun _ =>
    ⟨1, 0, rfl, level_valid_trivLevel 1 0 (by decide),
      fine_ok_trivLevel 1 0 (by decide), fun h => absurd h (by decide)⟩⟩

theorem scratch_independent_witness :
    ∃ r r' : St, MILUsolve [coupledLevel, trivLevel 1 0] [1, 2, 3] [0, 0] [0] = .ok r ∧
      MILUsolve [coupledLevel, trivLevel 1 0] [1, 2, 3] [5, 7, 8] [9, 4] = .ok r' ∧
      r'.b = r.b ∧ MILUsolve_2args [coupledLevel, trivLevel 1 0] [1, 2, 3] = .ok r.b :=
  scratch_independent [coupledLevel, trivLevel 1 0] 3 [1, 2, 3] [0, 0] [0] [5, 7, 8] [9, 4]
    chain_wf_coupled chain_small_coupled (by decide) fits_coupled
    (by
      refine ⟨by decide, by decide, by decide, fun _ => ?_⟩
      exact ⟨by decide, by decide, by decide, fun h => absurd h (by decide)⟩)

theorem at0_ge (a : List ℚ) (i : Int) (h : (a.length : Int) ≤ i) : at0 a i = 0 := by
  have h0 : 0 ≤ i := by omega
  simp only [at0, rd, h0, if_true]
  rw [List.get?_eq_none.2 (by omega)]
  rfl

theorem lin_comb_length (α β : ℚ) (b c : List ℚ) (n : Nat) (hb : b.length = n)
    (hc : c.length = n) : (lin_comb α β b c).length = n := by
  simp [lin_comb, hb, hc]

theorem at0_lin_comb (α β : ℚ) : ∀ (b c : List ℚ) (k : Nat), k < b.length → k < c.length →
    at0 (lin_comb α β b c) (k : Int) = α * at0 b (k : Int) + β * at0 c (k : Int) := by
  intro b c k hb hc
  have hl : k < (List.zipWith (fun x y => α * x + β * y) b c).length := by
    simp only [List.length_zipWith]
    omega
  simp only [lin_comb, at0, rd_natCast, List.get?_eq_getElem?, List.getElem?_eq_getElem hl,
    List.getElem?_eq_getElem hb, List.getElem?_eq_getElem hc, Option.getD_some,
    List.getElem_zipWith]

theorem at0_replicate_zero (n : Nat) (k : Int) : at0 (List.replicate n (0 : ℚ)) k = 0 := by
  by_cases h0 : 0 ≤ k
  · by_cases h1 : k < (n : Int)
    · have hk : k.toNat < (List.replicate n (0 : ℚ)).length := by
        simp only [List.length_replicate]
        omega
      simp only [at0, rd, h0, if_true, List.get?_eq_getElem?, List.getElem?_eq_getElem hk,
        List.getElem_replicate, Option.getD_some]
    · exact at0_ge _ _ (by simp only [List.length_replicate]; omega)
  · exact at0_neg _ _ (by omega)

/-- Linearity where the dispatch test does not wrap: on a well-formed chain of small
sizes (`chain_small`) with scratch buffers that fit, `MILUsolve` is a linear map of the
right-hand side in exact arithmetic: for right-hand sides `b`, `c` of length
`n` and scalars `α`, `β` the three runs return and the result for `α * b + β * c` is
`α` times the result for `b` plus `β` times the result for `c`; the result for the zero
vector is the zero vector. -/
theorem solve_is_linear (M : List Level) (n : Nat) (α β : ℚ) (b c y1 y2 : List ℚ)
    (hwf : chain_wf M n) (hsm : chain_small M) (hb : b.length = n) (hc : c.length = n)
    (hfit : fits M (y1.length : Int) (y2.length : Int)) :
    (∃ rb rc rs : St, MILUsolve M b y1 y2 = .ok rb ∧ MILUsolve M c y1 y2 = .ok rc ∧
        MILUsolve M (lin_comb α β b c) y1 y2 = .ok rs ∧
        rs.b = lin_comb α β rb.b rc.b) ∧
      ∃ r0 : St, MILUsolve M (List.replicate n 0) y1 y2 = .ok r0 ∧
        r0.b = List.replicate n 0 := by
  have hv := chain_valid_of_wf M n hwf
  have hs := lin_comb_length α β b c n hb hc
  have lenOf : ∀ (x : List ℚ) (r : St), x.length = n →
      solve_milu ([] ++ M) (([] : List Level).length + 1) 0 ⟨x, y1, y2⟩ = .ok r →
      r.b.length = n := by
    intro x r hx hr
    obtain ⟨r2, hr2, hlen, _⟩ := chain_safe M [] n 0 ⟨x, y1, y2⟩ hv hsm le_rfl
      (by simp [hx]) hfit
    have e : r2 = r := Except.ok.inj (hr2.symm.trans hr)
    rw [← e, hlen]
    exact hx
  constructor
  · obtain ⟨rb, rc, rs, eb, ec, es, hlin⟩ := chain_linear M [] n 0 α β ⟨b, y1, y2⟩
      ⟨c, y1, y2⟩ ⟨lin_comb α β b c, y1, y2⟩ hwf hsm le_rfl (by simp [hb]) (by simp [hc])
      (by simp [hs]) hfit hfit hfit (fun k k0 k1 => by
        have hk : ((k.toNat : Nat) : Int) = k := Int.toNat_of_nonneg k0
        have := at0_lin_comb α β b c k.toNat (by omega) (by omega)
        rw [hk] at this
        simpa using this)
    have lb := lenOf b rb hb eb
    have lc := lenOf c rc hc ec
    have ls := lenOf _ rs hs es
    simp only [List.nil_append, List.length_nil, Nat.zero_add] at eb ec es
    refine ⟨rb, rc, rs, eb, ec, es, ?_⟩
    apply at0_ext (by rw [ls, lin_comb_length α β _ _ n lb lc])
    intro j
    by_cases h0 : 0 ≤ j
    · by_cases h1 : j < (n : Int)
      · have hk : ((j.toNat : Nat) : Int) = j := Int.toNat_of_nonneg h0
        have h2 := at0_lin_comb α β rb.b rc.b j.toNat (by omega) (by omega)
        rw [hk] at h2
        have h3 := hlin j h0 h1
        simp only [zero_add] at h3
        rw [h3, h2]
      · rw [at0_ge _ _ (by omega),
          at0_ge _ _ (by rw [lin_comb_length α β _ _ n lb lc]; omega)]
    · rw [at0_neg _ _ (by omega), at0_neg _ _ (by omega)]
  · have hz : (List.replicate n (0 : ℚ)).length = n := List.length_replicate _ _
    obtain ⟨_, _, r0, _, _, e0, hlin⟩ := chain_linear M [] n 0 0 0
      ⟨List.replicate n 0, y1, y2⟩ ⟨List.replicate n 0, y1, y2⟩ ⟨List.replicate n 0, y1, y2⟩
      hwf hsm le_rfl (by simp) (by simp) (by simp) hfit hfit hfit (fun k _ _ => by
        simp only [at0_replicate_zero]
        ring)
    have l0 := lenOf _ r0 hz e0
    simp only [List.nil_append, List.length_nil, Nat.zero_add] at e0
    refine ⟨r0, e0, ?_⟩
    apply at0_ext (by rw [l0, hz])
    intro j
    rw [at0_replicate_zero]
    by_cases h0 : 0 ≤ j
    · by_cases h1 : j < (n : Int)
      · have h3 := hlin j h0 h1
        simp only [zero_add, zero_mul, add_zero] at h3
        exact h3
      · exact at0_ge _ _ (by omega)
    · exact at0_neg _ _ (by omega)

theorem solve_is_linear_witness :
    (∃ rb rc rs : St,
        MILUsolve [coupledLevel, trivLevel 1 0] [1, 2, 3] [0, 0] [0] = .ok rb ∧
        MILUsolve [coupledLevel, trivLevel 1 0] [4, 5, 6] [0, 0] [0] = .ok rc ∧
        MILUsolve [coupledLevel, trivLevel 1 0] (lin_comb 2 3 [1, 2, 3] [4, 5, 6]) [0, 0] [0]
          = .ok rs ∧
        rs.b = lin_comb 2 3 rb.b rc.b) ∧
      ∃ r0 : St, MILUsolve [coupledLevel, trivLevel 1 0] (List.replicate 3 0) [0, 0] [0]
          = .ok r0 ∧
        r0.b = List.replicate 3 0 :=
  solve_is_linear [coupledLevel, trivLevel 1 0] 3 2 3 [1, 2, 3] [4, 5, 6] [0, 0] [0]
    chain_wf_coupled chain_small_coupled rfl rfl fits_coupled

theorem get_ok {α : Type} {a : List α} {i : Int} {v : α} (h : rd a i = some v) :
    get a i = .ok v := by
  simp only [get, h]

theorem put_ok {α : Type} {a : List α} {i : Int} (v : α) (h0 : 0 ≤ i)
    (h1 : i < (a.length : Int)) : put a i v = .ok (a.set i.toNat v) := by
  have : 0 ≤ i ∧ i.toNat < a.length := ⟨h0, by omega⟩
  simp only [put, wr, this, and_self, if_true]

theorem atI_set_eq {a : List Int} {i : Int} (v : Int) (h0 : 0 ≤ i)
    (h1 : i < (a.length : Int)) : atI (a.set i.toNat v) i = v := by
  have h2 : i.toNat < a.length := by omega
  simp [atI, rd, h0, List.getElem?_set, h2]

theorem atI_set_ne {a : List Int} {i j : Int} (v : Int) (h0 : 0 ≤ i) (hij : i ≠ j) :
    atI (a.set i.toNat v) j = atI a j := by
  unfold atI rd
  split
  · have h3 : i.toNat ≠ j.toNat := by omega
    simp [List.getElem?_set, h3]
  · rfl

theorem take_set_self {α : Type} (v : α) : ∀ (l : List α) (p : Nat),
    (l.set p v).take p = l.take p := by
  intro l
  induction l with
  | nil => intro p; simp
  | cons x l ih =>
    intro p
    cases p with
    | zero => simp
    | succ p => simp [ih p]

theorem take_set_succ {α : Type} (v : α) (l : List α) (p : Nat) (h : p < l.length) :
    (l.set p v).take (p + 1) = l.take p ++ [v] := by
  rw [List.take_succ, take_set_self, List.getElem?_set_self h]
  rfl

/-- The inner loop of the Hermitian conversion on column `c`: the entries of the column
with row index `k ≥ c` are appended, conjugated and with index `k + 1`, to what has been
stored, and `A.ia[c+1]` advances with them. -/
theorem zhpd_inner_run (A_ja : List Int) (A_R A_I : List ℚ) (c : Nat) (lo : Int) :
    ∀ (cnt : Nat) (s : ZSt) (F : List (Int × (ℚ × ℚ))), 0 ≤ lo →
      lo + (cnt : Int) ≤ (A_ja.length : Int) → lo + (cnt : Int) ≤ (A_R.length : Int) →
      lo + (cnt : Int) ≤ (A_I.length : Int) → lo + (cnt : Int) ≤ (s.ja.length : Int) →
      s.a.length = s.ja.length → (c : Int) + 1 < (s.ia.length : Int) →
      (F.length : Int) ≤ lo → s.ja.take F.length = F.map Prod.fst →
      s.a.take F.length = F.map Prod.snd → atI s.ia ((c : Int) + 1) = 1 + (F.length : Int) →
      ∃ s2, forUp (zhpd_inner A_ja A_R A_I (c : Int)) lo cnt s = .ok s2 ∧
        s2.ia.length = s.ia.length ∧ s2.ja.length = s.ja.length ∧
        s2.a.length = s.a.length ∧
        (∀ i : Int, i ≠ (c : Int) + 1 → atI s2.ia i = atI s.ia i) ∧
        (∃ F2, F2 = F ++ (((positions lo cnt).filter fun j => decide (atI A_ja j ≥ (c : Int))).map
            fun j => (atI A_ja j + 1, (at0 A_R j, -at0 A_I j))) ∧
          (F2.length : Int) ≤ lo + (cnt : Int) ∧
          s2.ja.take F2.length = F2.map Prod.fst ∧ s2.a.take F2.length = F2.map Prod.snd ∧
          atI s2.ia ((c : Int) + 1) = 1 + (F2.length : Int)) := by
  intro cnt s F hlo hja hR hI hcap hlen hia hF hj ha hp
  obtain ⟨s2, hrun, hinv⟩ := forUp_inv (zhpd_inner A_ja A_R A_I (c : Int)) cnt lo
    (fun t w => w.ia.length = s.ia.length ∧ w.ja.length = s.ja.length ∧
      w.a.length = s.a.length ∧
      (∀ i : Int, i ≠ (c : Int) + 1 → atI w.ia i = atI s.ia i) ∧
      ∃ F2, F2 = F ++ (((positions lo t).filter fun j => decide (atI A_ja j ≥ (c : Int))).map
          fun j => (atI A_ja j + 1, (at0 A_R j, -at0 A_I j))) ∧
        (F2.length : Int) ≤ lo + (t : Int) ∧
        w.ja.take F2.length = F2.map Prod.fst ∧ w.a.take F2.length = F2.map Prod.snd ∧
        atI w.ia ((c : Int) + 1) = 1 + (F2.length : Int)) s
    ⟨rfl, rfl, rfl, fun _ _ => rfl, F, by simp [positions], by simpa using hF, hj, ha, hp⟩
    (by
      intro t w ht ⟨l1, l2, l3, hother, F2, hF2, hb, hj2, ha2, hp2⟩
      have hjpos : 0 ≤ lo + (t : Int) := by omega
      have e1 : get A_ja (lo + (t : Int)) = .ok (atI A_ja (lo + t)) :=
        get_ok (rd_atI hjpos (by omega))
      by_cases hk : atI A_ja (lo + (t : Int)) ≥ (c : Int)
      · have e2 : get w.ia ((c : Int) + 1) = .ok (1 + (F2.length : Int)) := by
          rw [← hp2]
          exact get_ok (rd_atI (by omega) (by rw [l1]; exact hia))
        have hl : (1 + (F2.length : Int)) - 1 = (F2.length : Int) := by ring
        have hlt : (F2.length : Int) < (w.ja.length : Int) := by rw [l2]; omega
        have e3 := @put_ok _ w.ja (F2.length : Int) (atI A_ja (lo + t) + 1)
          (Int.natCast_nonneg _) hlt
        have e4 : get A_R (lo + (t : Int)) = .ok (at0 A_R (lo + t)) :=
          get_ok (rd_at0 hjpos (by omega))
        have e5 : get A_I (lo + (t : Int)) = .ok (at0 A_I (lo + t)) :=
          get_ok (rd_at0 hjpos (by omega))
        have e6 := @put_ok _ w.a (F2.length : Int) (at0 A_R (lo + t), -at0 A_I (lo + t))
          (Int.natCast_nonneg _) (by rw [l3, hlen, ← l2]; exact hlt)
        have e7 := @put_ok _ w.ia ((c : Int) + 1) ((F2.length : Int) + 2) (by omega)
          (by rw [l1]; exact hia)
        refine ⟨_, (by
          simp only [zhpd_inner, e1, bind, Except.bind, hk, if_true, e2, hl, e3, e4, e5, e6, e7,
            pure, Except.pure]
          rfl), ?_⟩
        simp only [Int.toNat_ofNat]
        refine ⟨by simp [l1], by simp [l2], by simp [l3], fun i hi => ?_,
          F2 ++ [(atI A_ja (lo + t) + 1, (at0 A_R (lo + t), -at0 A_I (lo + t)))], ?_, ?_, ?_, ?_,
          ?_⟩
        · rw [atI_set_ne _ (by omega) (fun h => hi h.symm)]
          exact hother i hi
        · rw [hF2, positions_snoc, List.filter_append, List.map_append, List.append_assoc]
          simp [hk]
        · simp only [List.length_append, List.length_singleton]
          push_cast
          omega
        · rw [List.length_append, List.length_singleton, List.map_append,
            take_set_succ _ _ _ (by omega), hj2]
          rfl
        · rw [List.length_append, List.length_singleton, List.map_append,
            take_set_succ _ _ _ (by rw [l3, hlen, ← l2]; omega), ha2]
          rfl
        · rw [atI_set_eq _ (by omega) (by rw [l1]; exact hia)]
          simp only [List.length_append, List.length_singleton]
          push_cast
          ring
      · refine ⟨w, (by
          simp only [zhpd_inner, e1, bind, Except.bind, hk, if_false, pure, Except.pure]), ?_⟩
        refine ⟨l1, l2, l3, hother, F2, ?_, by push_cast; omega, hj2, ha2, hp2⟩
        rw [hF2, positions_snoc, List.filter_append, List.map_append]
        simp [hk])
  exact ⟨s2, hrun, hinv⟩

theorem csc_mono (n : Nat) (A_ia : List Int) (len : Nat) (hv : csc_valid n A_ia len)
    (a : Nat) : ∀ b : Nat, a ≤ b → b ≤ n → atI A_ia (a : Int) ≤ atI A_ia (b : Int) := by
  intro b hab
  induction b, hab using Nat.le_induction with
  | base => intro _; exact le_rfl
  | succ b _ ih =>
    intro hb
    have h1 := hv.2.2.1 b (by omega)
    have h2 := ih (by omega)
    have e1 : ((b + 1 : Nat) : Int) = (b : Int) + 1 := by push_cast; ring
    rw [e1]
    omega

/-- The Hermitian conversion returns; `A.ia[i] = 1 +` the number of entries of the blocks
before `i`, and `A.ja`, `A.a` start with the blocks `0, ..., n - 1` one after the
other. -/
theorem zhpd_convert_run (n : Nat) (A_ia A_ja : List Int) (A_R A_I : List ℚ) (s0 : ZSt)
    (hv : csc_valid n A_ia A_ja.length) (hR : atI A_ia (n : Int) ≤ (A_R.length : Int))
    (hI : atI A_ia (n : Int) ≤ (A_I.length : Int)) (hia : s0.ia.length = n + 1)
    (hcap : atI A_ia (n : Int) ≤ (s0.ja.length : Int)) (hlen : s0.a.length = s0.ja.length) :
    ∃ s, zhpd_convert n A_ia A_ja A_R A_I s0 = .ok s ∧ s.ia.length = n + 1 ∧
      s.ja.length = s0.ja.length ∧ s.a.length = s0.a.length ∧
      (∀ i : Nat, i ≤ n → atI s.ia (i : Int) = 1 + ((zflat A_ia A_ja A_R A_I i).length : Int)) ∧
      s.ja.take (zflat A_ia A_ja A_R A_I n).length = (zflat A_ia A_ja A_R A_I n).map Prod.fst ∧
      s.a.take (zflat A_ia A_ja A_R A_I n).length
        = (zflat A_ia A_ja A_R A_I n).map Prod.snd := by
  have e0 := @put_ok _ s0.ia 0 1 le_rfl (by rw [hia]; push_cast; omega)
  obtain ⟨s, hrun, l1, l2, l3, hiaI, _, hj, ha⟩ := forUp_inv (zhpd_outer A_ia A_ja A_R A_I) n 0
    (fun c w => w.ia.length = n + 1 ∧ w.ja.length = s0.ja.length ∧
      w.a.length = s0.a.length ∧
      (∀ i : Nat, i ≤ c → atI w.ia (i : Int) = 1 + ((zflat A_ia A_ja A_R A_I i).length : Int)) ∧
      ((zflat A_ia A_ja A_R A_I c).length : Int) ≤ atI A_ia (c : Int) ∧
      w.ja.take (zflat A_ia A_ja A_R A_I c).length = (zflat A_ia A_ja A_R A_I c).map Prod.fst ∧
      w.a.take (zflat A_ia A_ja A_R A_I c).length = (zflat A_ia A_ja A_R A_I c).map Prod.snd)
    ⟨s0.ia.set (0 : Int).toNat 1, s0.ja, s0.a⟩
    ⟨by simp [hia], rfl, rfl,
      fun i hi => by
        have hi0 : i = 0 := by omega
        subst hi0
        have := @atI_set_eq s0.ia 0 1 le_rfl (by rw [hia]; push_cast; omega)
        simpa [zflat] using this,
      by simpa [zflat] using hv.2.1, by simp [zflat], by simp [zflat]⟩
    (by
      intro c w hc ⟨l1, l2, l3, hiaI, hbound, hj, ha⟩
      have hlo0 : 0 ≤ atI A_ia (c : Int) := le_trans (Int.natCast_nonneg _) hbound
      have hstep := hv.2.2.1 c hc
      have hmono := csc_mono n A_ia _ hv (c + 1) n (by omega) le_rfl
      have ec1 : ((c + 1 : Nat) : Int) = (c : Int) + 1 := by push_cast; ring
      rw [ec1] at hmono
      have f1 : get w.ia (0 + (c : Int)) = .ok (1 + ((zflat A_ia A_ja A_R A_I c).length : Int)) := by
        rw [← hiaI c le_rfl, zero_add]
        exact get_ok (rd_atI (Int.natCast_nonneg _) (by rw [l1]; push_cast; omega))
      have f2 := @put_ok _ w.ia (0 + (c : Int) + 1)
        (1 + ((zflat A_ia A_ja A_R A_I c).length : Int)) (by omega)
        (by rw [l1]; push_cast; omega)
      have f3 : get A_ia (0 + (c : Int)) = .ok (atI A_ia (c : Int)) := by
        rw [zero_add]
        exact get_ok (rd_atI (Int.natCast_nonneg _) (by rw [hv.1]; push_cast; omega))
      have f4 : get A_ia (0 + (c : Int) + 1) = .ok (atI A_ia ((c : Int) + 1)) := by
        rw [zero_add]
        exact get_ok (rd_atI (by omega) (by rw [hv.1]; push_cast; omega))
      have hcnt : atI A_ia (c : Int)
          + (((atI A_ia ((c : Int) + 1) - atI A_ia (c : Int)).toNat : Nat) : Int)
          = atI A_ia ((c : Int) + 1) := by omega
      obtain ⟨s2, hrun2, m1, m2, m3, hother, F2, hF2, hb2, hj2, ha2, hp2⟩ :=
        zhpd_inner_run A_ja A_R A_I c (atI A_ia (c : Int))
          (atI A_ia ((c : Int) + 1) - atI A_ia (c : Int)).toNat
          ⟨w.ia.set (0 + (c : Int) + 1).toNat (1 + ((zflat A_ia A_ja A_R A_I c).length : Int)),
            w.ja, w.a⟩ (zflat A_ia A_ja A_R A_I c) hlo0
          (by rw [hcnt]; exact le_trans hmono hv.2.2.2)
          (by rw [hcnt]; exact le_trans hmono hR) (by rw [hcnt]; exact le_trans hmono hI)
          (by rw [hcnt]; show _ ≤ (w.ja.length : Int); rw [l2]; exact le_trans hmono hcap)
          (by show w.a.length = w.ja.length; rw [l3, l2, hlen])
          (by simp only [List.length_set]; rw [l1]; push_cast; omega)
          hbound hj ha
          (by
            have := @atI_set_eq w.ia (0 + (c : Int) + 1)
              (1 + ((zflat A_ia A_ja A_R A_I c).length : Int)) (by omega)
              (by rw [l1]; push_cast; omega)
            rw [zero_add] at this
            simpa using this)
      have hF3 : F2 = zflat A_ia A_ja A_R A_I (c + 1) := by
        rw [hF2]
        rfl
      subst hF3
      refine ⟨s2, (by
        have hz : zhpd_inner A_ja A_R A_I (0 + (c : Int)) = zhpd_inner A_ja A_R A_I (c : Int) := by
          rw [zero_add]
        simp only [zhpd_outer, f1, f2, f3, f4, bind, Except.bind]
        rw [hz]
        exact hrun2), ?_⟩
      refine ⟨by rw [m1]; simp [l1], by rw [m2]; exact l2, by rw [m3]; exact l3,
        fun i hi => ?_, by rw [ec1, ← hcnt]; exact hb2, hj2, ha2⟩
      by_cases hic : i = c + 1
      · subst hic
        rw [ec1]
        exact hp2
      · rw [hother (i : Int) (by omega)]
        have hne : (0 : Int) + (c : Int) + 1 ≠ (i : Int) := by omega
        have := @atI_set_ne w.ia (0 + (c : Int) + 1) (i : Int)
          (1 + ((zflat A_ia A_ja A_R A_I c).length : Int)) (by omega) hne
        rw [this]
        exact hiaI i (by omega))
  refine ⟨s, ?_, l1, l2, l3, hiaI, hj, ha⟩
  simp only [zhpd_convert, e0, bind, Except.bind]
  exact hrun

theorem zflat_split (A_ia A_ja : List Int) (A_R A_I : List ℚ) (i : Nat) :
    ∀ n : Nat, i < n → ∃ rest, zflat A_ia A_ja A_R A_I n
      = zflat A_ia A_ja A_R A_I i ++ zkept A_ia A_ja A_R A_I (i : Int) ++ rest := by
  intro n
  induction n with
  | zero => intro h; exact absurd h (Nat.not_lt_zero _)
  | succ n ih =>
    intro h
    by_cases hin : i = n
    · subst hin
      exact ⟨[], by simp [zflat]⟩
    · obtain ⟨rest, hr⟩ := ih (by omega)
      exact ⟨rest ++ zkept A_ia A_ja A_R A_I (n : Int), by
        simp only [zflat, hr, List.append_assoc]⟩

/-- A segment of a list whose prefix is known. -/
theorem drop_take_of_prefix {α : Type} (X F K R : List α) (h : X.take (F ++ K ++ R).length
    = F ++ K ++ R) : (X.drop F.length).take K.length = K := by
  have hX := List.take_append_drop (F ++ K ++ R).length X
  rw [h] at hX
  rw [← hX, List.append_assoc, List.append_assoc, List.drop_left' rfl,
    List.take_left' rfl]

theorem zconj_sum {ι : Type} (g : ι → ℚ × ℚ) : ∀ l : List ι,
    (l.map fun j => zconj (g j)).sum = zconj (l.map g).sum := by
  intro l
  induction l with
  | nil => simp [zconj]
  | cons x l ih =>
    simp only [List.map_cons, List.sum_cons, ih]
    simp [zconj, Prod.ext_iff]
    ring

theorem zconj_zconj (z : ℚ × ℚ) : zconj (zconj z) = z := by
  simp [zconj]

/-- The entries of the blocks, read as a matrix: above and on the diagonal the conjugate
of the transposed input entry, nothing below. -/
theorem zkept_entry (A_ia A_ja : List Int) (A_R A_I : List ℚ) (i k : Int) :
    (((zkept A_ia A_ja A_R A_I i).filter fun e => decide (e.1 = k + 1)).map Prod.snd).sum
      = if k ≥ i then zconj (zin_entry A_ia A_ja A_R A_I k i) else 0 := by
  simp only [zkept, List.filter_map, List.filter_filter, List.map_map]
  split
  · rename_i hki
    rw [zin_entry, ← zconj_sum]
    have hf : (in_positions A_ia i).filter
          ((fun e : Int × (ℚ × ℚ) => decide (e.1 = k + 1)) ∘
            (fun j => (atI A_ja j + 1, (at0 A_R j, -at0 A_I j)))
            |> fun p => fun a => p a && decide (atI A_ja a ≥ i))
        = (in_positions A_ia i).filter fun j => decide (atI A_ja j = k) := by
      apply List.filter_congr
      intro j _
      simp only [Function.comp, Bool.and_eq_true, decide_eq_true_eq]
      by_cases h : atI A_ja j = k
      · simp [h, hki]
      · have : ¬ (atI A_ja j + 1 = k + 1) := by omega
        simp [h, this]
    simp only [Function.comp] at hf ⊢
    rw [hf]
    rfl
  · rename_i hki
    have hf : (in_positions A_ia i).filter
          (fun a => ((fun e : Int × (ℚ × ℚ) => decide (e.1 = k + 1)) ∘
            (fun j => (atI A_ja j + 1, (at0 A_R j, -at0 A_I j)))) a
              && decide (atI A_ja a ≥ i)) = [] := by
      rw [List.filter_eq_nil_iff]
      intro j _
      simp only [Function.comp, Bool.and_eq_true, decide_eq_true_eq, not_and]
      intro h1 h2
      omega
    rw [hf]
    rfl

/-- C25: for a valid 0-based compressed-column input with `n` columns (and output arrays
of `nnz ≥ A_ia[n]` entries with arbitrary initial content) the conversion of
`ZHPDilupackfactor.c` returns with `A.ia[0] = 1`; for every `i < n`,
`A.ia[i+1] - A.ia[i]` is the number of stored entries of input column `i` whose row index
`k` satisfies `k ≥ i`, and block `i` of `A.ja`, `A.a` holds exactly those entries in
their stored order, with index `k + 1` and conjugated value.  Read as rows, the blocks
represent `conj(A[k,i])` at `(i, k)` for `k ≥ i` and nothing below the diagonal; for a
Hermitian input this is the upper triangle, diagonal included, of the input matrix. -/
theorem hermitian_conversion (n : Nat) (A_ia A_ja : List Int) (A_R A_I : List ℚ) (s0 : ZSt)
    (hv : csc_valid n A_ia A_ja.length) (hR : atI A_ia (n : Int) ≤ (A_R.length : Int))
    (hI : atI A_ia (n : Int) ≤ (A_I.length : Int)) (hia : s0.ia.length = n + 1)
    (hcap : atI A_ia (n : Int) ≤ (s0.ja.length : Int)) (hlen : s0.a.length = s0.ja.length) :
    ∃ s, zhpd_convert n A_ia A_ja A_R A_I s0 = .ok s ∧ atI s.ia 0 = 1 ∧
      (∀ i : Nat, i < n →
        atI s.ia ((i : Int) + 1) - atI s.ia (i : Int)
          = ((zkept A_ia A_ja A_R A_I (i : Int)).length : Int) ∧
        zblock s (i : Int) = zkept A_ia A_ja A_R A_I (i : Int)) ∧
      (∀ i : Nat, i < n → ∀ k : Int,
        zout_entry s (i : Int) k
          = if k ≥ (i : Int) then zconj (zin_entry A_ia A_ja A_R A_I k (i : Int)) else 0) ∧
      ((∀ r c : Int, zin_entry A_ia A_ja A_R A_I r c
          = zconj (zin_entry A_ia A_ja A_R A_I c r)) →
        ∀ i : Nat, i < n → ∀ k : Int,
          zout_entry s (i : Int) k
            = if k ≥ (i : Int) then zin_entry A_ia A_ja A_R A_I (i : Int) k else 0) := by
  obtain ⟨s, hrun, l1, l2, l3, hiaI, hj, ha⟩ :=
    zhpd_convert_run n A_ia A_ja A_R A_I s0 hv hR hI hia hcap hlen
  have hzip : (s.ja.zip s.a).take (zflat A_ia A_ja A_R A_I n).length
      = zflat A_ia A_ja A_R A_I n := by
    rw [List.zip, List.take_zipWith, hj, ha]
    exact (List.zip_of_prod rfl rfl).symm
  have hblock : ∀ i : Nat, i < n →
      atI s.ia ((i : Int) + 1) - atI s.ia (i : Int)
          = ((zkept A_ia A_ja A_R A_I (i : Int)).length : Int) ∧
        zblock s (i : Int) = zkept A_ia A_ja A_R A_I (i : Int) := by
    intro i hi
    have e1 := hiaI i (by omega)
    have e2 := hiaI (i + 1) (by omega)
    have ec : ((i + 1 : Nat) : Int) = (i : Int) + 1 := by push_cast; ring
    rw [ec] at e2
    have e3 : (zflat A_ia A_ja A_R A_I (i + 1)).length
        = (zflat A_ia A_ja A_R A_I i).length + (zkept A_ia A_ja A_R A_I (i : Int)).length := by
      simp [zflat]
    have hd : atI s.ia ((i : Int) + 1) - atI s.ia (i : Int)
        = ((zkept A_ia A_ja A_R A_I (i : Int)).length : Int) := by
      rw [e1, e2, e3]
      push_cast
      ring
    refine ⟨hd, ?_⟩
    obtain ⟨rest, hrest⟩ := zflat_split A_ia A_ja A_R A_I i n hi
    rw [hrest] at hzip
    have := drop_take_of_prefix _ _ _ _ hzip
    show ((s.ja.zip s.a).drop (atI s.ia (i : Int) - 1).toNat).take
        (atI s.ia ((i : Int) + 1) - atI s.ia (i : Int)).toNat = _
    rw [hd, e1]
    simp only [Int.toNat_ofNat, add_sub_cancel_left]
    exact this
  have hentry : ∀ i : Nat, i < n → ∀ k : Int,
      zout_entry s (i : Int) k
        = if k ≥ (i : Int) then zconj (zin_entry A_ia A_ja A_R A_I k (i : Int)) else 0 := by
    intro i hi k
    rw [zout_entry, (hblock i hi).2]
    exact zkept_entry A_ia A_ja A_R A_I (i : Int) k
  refine ⟨s, hrun, ?_, hblock, hentry, fun hherm i hi k => ?_⟩
  · have := hiaI 0 (Nat.zero_le _)
    simpa [zflat] using this
  · rw [hentry i hi k, hherm (i : Int) k]

theorem hermitian_conversion_witness :
    ∃ s, zhpd_convert 2 hermIa hermJa hermR hermI hermOut = .ok s ∧ atI s.ia 0 = 1 ∧
      (∀ i : Nat, i < 2 →
        atI s.ia ((i : Int) + 1) - atI s.ia (i : Int)
          = ((zkept hermIa hermJa hermR hermI (i : Int)).length : Int) ∧
        zblock s (i : Int) = zkept hermIa hermJa hermR hermI (i : Int)) ∧
      (∀ i : Nat, i < 2 → ∀ k : Int,
        zout_entry s (i : Int) k
          = if k ≥ (i : Int) then zconj (zin_entry hermIa hermJa hermR hermI k (i : Int))
            else 0) ∧
      ((∀ r c : Int, zin_entry hermIa hermJa hermR hermI r c
          = zconj (zin_entry hermIa hermJa hermR hermI c r)) →
        ∀ i : Nat, i < 2 → ∀ k : Int,
          zout_entry s (i : Int) k
            = if k ≥ (i : Int) then zin_entry hermIa hermJa hermR hermI (i : Int) k else 0) :=
  hermitian_conversion 2 hermIa hermJa hermR hermI hermOut (by unfold csc_valid; decide)
    (by decide) (by decide) rfl (by decide) rfl


theorem visits_split (A_ia : List Int) (c : Nat) :
    ∀ n : Nat, c < n → ∃ rest, visits A_ia n
      = visits A_ia c ++ ((in_positions A_ia (c : Int)).map fun j => ((c : Int), j)) ++ rest := by
  intro n
  induction n with
  | zero => intro h; exact absurd h (Nat.not_lt_zero _)
  | succ n ih =>
    intro h
    by_cases hcn : c = n
    · subst hcn
      exact ⟨[], by simp [visits]⟩
    · obtain ⟨rest, hr⟩ := ih (by omega)
      exact ⟨rest ++ (in_positions A_ia (n : Int)).map fun j => ((n : Int), j), by
        simp only [visits, hr, List.append_assoc]⟩

theorem positions_split (lo : Int) (t cnt : Nat) (h : t < cnt) :
    ∃ rest, positions lo cnt = positions lo t ++ (lo + (t : Int)) :: rest := by
  obtain ⟨d, rfl⟩ := Nat.exists_eq_add_of_lt h
  refine ⟨positions (lo + (t : Int) + 1) d, ?_⟩
  induction d with
  | zero =>
    have h0 : positions (lo + (t : Int) + 1) 0 = [] := rfl
    rw [h0]
    exact positions_snoc lo t
  | succ d ih =>
    have e : t + (d + 1) + 1 = (t + d + 1) + 1 := by omega
    rw [e, positions_snoc, ih (by omega), positions_snoc, List.append_assoc, List.cons_append]
    congr 3
    have e2 : lo + ((t + d + 1 : Nat) : Int) = lo + (t : Int) + 1 + (d : Int) := by
      push_cast
      omega
    rw [e2]

/-- Loop rule for the nested loop over the stored entries of all columns: an invariant of
the list of visits made so far is carried from the empty list to the list of all
visits. -/
theorem nested_run {σ : Type} (A_ia : List Int) (n len : Nat) (hv : csc_valid n A_ia len)
    (inner : Int → Int → σ → Except Unit σ) (Inv : List (Int × Int) → σ → Prop) (s : σ)
    (h0 : Inv [] s)
    (hstep : ∀ (V : List (Int × Int)) (c : Nat) (j : Int) (w : σ), c < n →
      atI A_ia (c : Int) ≤ j → j < atI A_ia ((c : Int) + 1) →
      (∃ R, visits A_ia n = V ++ ((c : Int), j) :: R) → Inv V w →
      ∃ w2, inner (c : Int) j w = .ok w2 ∧ Inv (V ++ [((c : Int), j)]) w2) :
    ∃ s2, forUp (for_entries A_ia inner) 0 n s = .ok s2 ∧ Inv (visits A_ia n) s2 := by
  refine forUp_inv (for_entries A_ia inner) n 0 (fun c w => Inv (visits A_ia c) w) s h0 ?_
  intro c w hc hInv
  have f3 : get A_ia (0 + (c : Int)) = .ok (atI A_ia (c : Int)) := by
    rw [zero_add]
    exact get_ok (rd_atI (Int.natCast_nonneg _) (by rw [hv.1]; push_cast; omega))
  have f4 : get A_ia (0 + (c : Int) + 1) = .ok (atI A_ia ((c : Int) + 1)) := by
    rw [zero_add]
    exact get_ok (rd_atI (by omega) (by rw [hv.1]; push_cast; omega))
  have hstepc := hv.2.2.1 c hc
  obtain ⟨rest, hrest⟩ := visits_split A_ia c n hc
  obtain ⟨w2, hrun, hI2⟩ := forUp_inv (inner (c : Int))
    (atI A_ia ((c : Int) + 1) - atI A_ia (c : Int)).toNat (atI A_ia (c : Int))
    (fun t w => Inv (visits A_ia c ++ (positions (atI A_ia (c : Int)) t).map
      fun j => ((c : Int), j)) w) w (by simpa [positions] using hInv)
    (by
      intro t u ht hu
      obtain ⟨prest, hp⟩ := positions_split (atI A_ia (c : Int)) t _ ht
      obtain ⟨u2, hr, hI⟩ := hstep _ c (atI A_ia (c : Int) + (t : Int)) u hc (by omega)
        (by omega)
        ⟨(prest.map fun j => ((c : Int), j)) ++ rest, by
          rw [hrest, in_positions, hp]
          simp only [List.map_append, List.map_cons, List.append_assoc, List.cons_append]⟩ hu
      refine ⟨u2, hr, ?_⟩
      show Inv (visits A_ia c ++ (positions (atI A_ia (c : Int)) (t + 1)).map
        fun j => ((c : Int), j)) u2
      rw [positions_snoc, List.map_append, ← List.append_assoc]
      exact hI)
  refine ⟨w2, ?_, ?_⟩
  · have hz : inner (0 + (c : Int)) = inner (c : Int) := by rw [zero_add]
    simp only [for_entries, f3, f4, bind, Except.bind]
    rw [hz]
    exact hrun
  · exact hI2

theorem cntV_append (A_ja : List Int) (V W : List (Int × Int)) (r : Int) :
    cntV A_ja (V ++ W) r = cntV A_ja V r + cntV A_ja W r := by
  simp [cntV, List.filter_append]

theorem cntV_single (A_ja : List Int) (v : Int × Int) (r : Int) :
    cntV A_ja [v] r = if atI A_ja v.2 = r then 1 else 0 := by
  by_cases h : atI A_ja v.2 = r
  · simp [cntV, h]
  · simp [cntV, h]

theorem blockV_append (A_ja : List Int) (A_R : List ℚ) (V W : List (Int × Int)) (r : Int) :
    blockV A_ja A_R (V ++ W) r = blockV A_ja A_R V r ++ blockV A_ja A_R W r := by
  simp [blockV, List.filter_append]

theorem blockV_length (A_ja : List Int) (A_R : List ℚ) (V : List (Int × Int)) (r : Int) :
    (blockV A_ja A_R V r).length = cntV A_ja V r := by
  simp [blockV, cntV]

theorem blockV_single (A_ja : List Int) (A_R : List ℚ) (v : Int × Int) (r : Int) :
    blockV A_ja A_R [v] r = if atI A_ja v.2 = r then [(v.1 + 1, at0 A_R v.2)] else [] := by
  by_cases h : atI A_ja v.2 = r
  · simp [blockV, h]
  · simp [blockV, h]

theorem dstart_append (A_ja : List Int) (V W : List (Int × Int)) :
    ∀ r : Nat, dstart A_ja (V ++ W) r = dstart A_ja V r + dstart A_ja W r := by
  intro r
  induction r with
  | zero => rfl
  | succ r ih =>
    simp only [dstart, ih, cntV_append]
    omega

theorem dstart_single (A_ja : List Int) (v : Int × Int) :
    ∀ r : Nat, dstart A_ja [v] r
      = if 0 ≤ atI A_ja v.2 ∧ atI A_ja v.2 < (r : Int) then 1 else 0 := by
  intro r
  induction r with
  | zero =>
    have : ¬ (0 ≤ atI A_ja v.2 ∧ atI A_ja v.2 < ((0 : Nat) : Int)) := by
      simp only [Nat.cast_zero]
      omega
    rw [if_neg this]
    rfl
  | succ r ih =>
    simp only [dstart, ih, cntV_single]
    by_cases h1 : atI A_ja v.2 = (r : Int)
    · have h2 : ¬ (0 ≤ atI A_ja v.2 ∧ atI A_ja v.2 < (r : Int)) := by omega
      have h3 : 0 ≤ atI A_ja v.2 ∧ atI A_ja v.2 < ((r + 1 : Nat) : Int) := by
        push_cast
        omega
      rw [if_pos h1, if_neg h2, if_pos h3]
    · by_cases h2 : 0 ≤ atI A_ja v.2 ∧ atI A_ja v.2 < (r : Int)
      · have h3 : 0 ≤ atI A_ja v.2 ∧ atI A_ja v.2 < ((r + 1 : Nat) : Int) := by
          push_cast
          omega
        rw [if_neg h1, if_pos h2, if_pos h3]
      · have h3 : ¬ (0 ≤ atI A_ja v.2 ∧ atI A_ja v.2 < ((r + 1 : Nat) : Int)) := by
          push_cast
          omega
        rw [if_neg h1, if_neg h2, if_neg h3]

theorem dstart_le_length (A_ja : List Int) (r : Nat) :
    ∀ V : List (Int × Int), dstart A_ja V r ≤ V.length := by
  intro V
  induction V with
  | nil =>
    have : ∀ r : Nat, dstart A_ja [] r = 0 := by
      intro r
      induction r with
      | zero => rfl
      | succ r ih => simp [dstart, ih, cntV]
    rw [this]
    exact Nat.zero_le _
  | cons v V ih =>
    have := dstart_append A_ja [v] V r
    rw [List.singleton_append] at this
    rw [this, dstart_single, List.length_cons]
    split <;> omega

theorem dstart_eq_length (A_ja : List Int) (n : Nat) :
    ∀ V : List (Int × Int), (∀ v ∈ V, 0 ≤ atI A_ja v.2 ∧ atI A_ja v.2 < (n : Int)) →
      dstart A_ja V n = V.length := by
  intro V
  induction V with
  | nil =>
    intro _
    have := dstart_le_length A_ja n []
    simpa using this
  | cons v V ih =>
    intro h
    have h1 := dstart_append A_ja [v] V n
    rw [List.singleton_append] at h1
    rw [h1, dstart_single, if_pos (h v (List.mem_cons_self _ _)),
      ih (fun w hw => h w (List.mem_cons_of_mem _ hw)), List.length_cons]
    omega

theorem dstart_mono (A_ja : List Int) (V : List (Int × Int)) (a : Nat) :
    ∀ b : Nat, a ≤ b → dstart A_ja V a ≤ dstart A_ja V b := by
  intro b hab
  induction b, hab using Nat.le_induction with
  | base => exact le_rfl
  | succ b _ ih =>
    simp only [dstart]
    omega

theorem mem_visits (A_ia : List Int) : ∀ (n : Nat) (v : Int × Int), v ∈ visits A_ia n →
    ∃ c : Nat, c < n ∧ v.1 = (c : Int) ∧ v.2 ∈ in_positions A_ia (c : Int) := by
  intro n
  induction n with
  | zero => intro v h; simp [visits] at h
  | succ n ih =>
    intro v h
    simp only [visits, List.mem_append, List.mem_map] at h
    rcases h with h | ⟨j, hj, rfl⟩
    · obtain ⟨c, hc, h1, h2⟩ := ih v h
      exact ⟨c, by omega, h1, h2⟩
    · exact ⟨n, by omega, rfl, hj⟩

theorem visits_length (A_ia : List Int) (n len : Nat) (hv : csc_valid n A_ia len) :
    ∀ c : Nat, c ≤ n →
      ((visits A_ia c).length : Int) = atI A_ia (c : Int) - atI A_ia 0 := by
  intro c
  induction c with
  | zero => intro _; simp [visits]
  | succ c ih =>
    intro hc
    have h1 := hv.2.2.1 c (by omega)
    have h2 := ih (by omega)
    simp only [visits, List.length_append, List.length_map, in_positions, positions,
      List.length_range]
    push_cast
    omega

/-- Lines 147-148: the counters are cleared. -/
theorem dgnl_zero_run (n : Nat) (s : DSt) (hib : s.ibuff.length = n + 1) :
    ∃ s2, forUp dgnl_zero 0 (n + 1) s = .ok s2 ∧ s2.ibuff.length = n + 1 ∧
      (∀ i : Int, 0 ≤ i → i ≤ (n : Int) → atI s2.ibuff i = 0) ∧
      s2.ia = s.ia ∧ s2.ja = s.ja ∧ s2.a = s.a := by
  obtain ⟨s2, hrun, h1, h2, h3, h4, h5⟩ := forUp_inv dgnl_zero (n + 1) 0
    (fun k w => w.ibuff.length = n + 1 ∧
      (∀ i : Int, 0 ≤ i → i < (k : Int) → atI w.ibuff i = 0) ∧
      w.ia = s.ia ∧ w.ja = s.ja ∧ w.a = s.a) s
    ⟨hib, fun i h0 h1 => absurd h1 (by simpa using h0), rfl, rfl, rfl⟩
    (by
      intro k w hk ⟨l1, hz, e1, e2, e3⟩
      have f1 := @put_ok _ w.ibuff (0 + (k : Int)) 0 (by omega) (by rw [l1]; push_cast; omega)
      refine ⟨_, (by simp only [dgnl_zero, f1, bind, Except.bind, pure, Except.pure]; rfl), ?_⟩
      refine ⟨by simp [l1], fun i h0 h1 => ?_, e1, e2, e3⟩
      by_cases hik : i = 0 + (k : Int)
      · subst hik
        exact atI_set_eq _ (by omega) (by rw [l1]; push_cast; omega)
      · rw [atI_set_ne _ (by omega) (fun h => hik h.symm)]
        exact hz i h0 (by push_cast at h1; omega))
  exact ⟨s2, hrun, h1, fun i h0 hi => h2 i h0 (by push_cast; omega), h3, h4, h5⟩

theorem visits_row (n len : Nat) (A_ia : List Int) (hv : csc_valid n A_ia len)
    (c : Nat) (j : Int) (hc : c < n) (h1 : atI A_ia (c : Int) ≤ j)
    (h2 : j < atI A_ia ((c : Int) + 1)) :
    0 ≤ j ∧ j < (len : Int) ∧ j ∈ in_positions A_ia (c : Int) := by
  have m0 := csc_mono n A_ia len hv 0 c (Nat.zero_le _) (by omega)
  have m1 := csc_mono n A_ia len hv (c + 1) n (by omega) le_rfl
  have ec : ((c + 1 : Nat) : Int) = (c : Int) + 1 := by push_cast; ring
  rw [ec] at m1
  have h0 := hv.2.1
  have h3 := hv.2.2.2
  simp only [Nat.cast_zero] at m0
  refine ⟨by omega, by omega, ?_⟩
  rw [in_positions, mem_positions]
  omega

/-- Lines 150-155: the entries of every row are counted. -/
theorem dgnl_count_run (n : Nat) (A_ia A_ja : List Int) (hv : csc_valid n A_ia A_ja.length)
    (hrows : rows_valid n A_ia A_ja) (s : DSt) (hib : s.ibuff.length = n + 1)
    (hz : ∀ i : Int, 0 ≤ i → i ≤ (n : Int) → atI s.ibuff i = 0) :
    ∃ s2, forUp (for_entries A_ia (dgnl_count A_ja)) 0 n s = .ok s2 ∧
      s2.ibuff.length = n + 1 ∧ atI s2.ibuff 0 = 0 ∧
      (∀ r : Nat, r < n →
        atI s2.ibuff ((r : Int) + 1) = (cntV A_ja (visits A_ia n) (r : Int) : Int)) ∧
      s2.ia = s.ia ∧ s2.ja = s.ja ∧ s2.a = s.a := by
  refine nested_run A_ia n _ hv (dgnl_count A_ja)
    (fun V w => w.ibuff.length = n + 1 ∧ atI w.ibuff 0 = 0 ∧
      (∀ r : Nat, r < n → atI w.ibuff ((r : Int) + 1) = (cntV A_ja V (r : Int) : Int)) ∧
      w.ia = s.ia ∧ w.ja = s.ja ∧ w.a = s.a) s
    ⟨hib, hz 0 le_rfl (Int.natCast_nonneg _),
      fun r hr => by simpa [cntV] using hz ((r : Int) + 1) (by omega) (by omega),
      rfl, rfl, rfl⟩ ?_
  intro V c j w hc h1 h2 _ ⟨l1, hw0, hcnt, e1, e2, e3⟩
  obtain ⟨j0, j1, jmem⟩ := visits_row n _ A_ia hv c j hc h1 h2
  obtain ⟨k0, k1⟩ := hrows c hc j jmem
  have f1 : get A_ja j = .ok (atI A_ja j) := get_ok (rd_atI j0 j1)
  have f2 : get w.ibuff (atI A_ja j + 1) = .ok (atI w.ibuff (atI A_ja j + 1)) :=
    get_ok (rd_atI (by omega) (by rw [l1]; push_cast; omega))
  have f3 := @put_ok _ w.ibuff (atI A_ja j + 1) (atI w.ibuff (atI A_ja j + 1) + 1) (by omega)
    (by rw [l1]; push_cast; omega)
  refine ⟨_, (by simp only [dgnl_count, f1, f2, f3, bind, Except.bind, pure, Except.pure]; rfl),
    ?_⟩
  refine ⟨by simp [l1], ?_, fun r hr => ?_, e1, e2, e3⟩
  · rw [atI_set_ne _ (by omega) (by omega)]
    exact hw0
  · rw [cntV_append, cntV_single]
    by_cases hrk : atI A_ja j = (r : Int)
    · rw [if_pos hrk, ← hrk, atI_set_eq _ (by omega) (by rw [l1]; push_cast; omega), hrk,
        hcnt r hr]
      push_cast
      ring
    · rw [if_neg hrk, atI_set_ne _ (by omega) (by omega), hcnt r hr]
      simp

/-- Lines 159-160: the counts become the row starts. -/
theorem dgnl_prefix_run (n : Nat) (A_ja : List Int) (V : List (Int × Int)) (s : DSt)
    (hib : s.ibuff.length = n + 1) (h0 : atI s.ibuff 0 = 0)
    (hc : ∀ r : Nat, r < n → atI s.ibuff ((r : Int) + 1) = (cntV A_ja V (r : Int) : Int)) :
    ∃ s2, forUp dgnl_prefix 0 n s = .ok s2 ∧ s2.ibuff.length = n + 1 ∧
      (∀ r : Nat, r ≤ n → atI s2.ibuff (r : Int) = (dstart A_ja V r : Int)) ∧
      s2.ia = s.ia ∧ s2.ja = s.ja ∧ s2.a = s.a := by
  obtain ⟨s2, hrun, l1, hst, _, e1, e2, e3⟩ := forUp_inv dgnl_prefix n 0
    (fun i w => w.ibuff.length = n + 1 ∧
      (∀ r : Nat, r ≤ i → atI w.ibuff (r : Int) = (dstart A_ja V r : Int)) ∧
      (∀ r : Nat, i ≤ r → r < n →
        atI w.ibuff ((r : Int) + 1) = (cntV A_ja V (r : Int) : Int)) ∧
      w.ia = s.ia ∧ w.ja = s.ja ∧ w.a = s.a) s
    ⟨hib, fun r hr => by
        have : r = 0 := by omega
        subst this
        simpa [dstart] using h0,
      fun r _ hr => hc r hr, rfl, rfl, rfl⟩
    (by
      intro i w hi ⟨l1, hst, hcn, e1, e2, e3⟩
      have f1 : get w.ibuff (0 + (i : Int) + 1) = .ok ((cntV A_ja V (i : Int) : Nat) : Int) := by
        rw [zero_add, ← hcn i le_rfl hi]
        exact get_ok (rd_atI (by omega) (by rw [l1]; push_cast; omega))
      have f2 : get w.ibuff (0 + (i : Int)) = .ok ((dstart A_ja V i : Nat) : Int) := by
        rw [zero_add, ← hst i le_rfl]
        exact get_ok (rd_atI (by omega) (by rw [l1]; push_cast; omega))
      have f3 := @put_ok _ w.ibuff (0 + (i : Int) + 1)
        (((cntV A_ja V (i : Int) : Nat) : Int) + ((dstart A_ja V i : Nat) : Int)) (by omega)
        (by rw [l1]; push_cast; omega)
      refine ⟨_, (by
        simp only [ dgnl_prefix, f1, f2, f3, bind, Except.bind, pure, Except.pure]; rfl), ?_⟩
      refine ⟨by simp [l1], fun r hr => ?_, fun r hr1 hr2 => ?_, e1, e2, e3⟩
      · by_cases hri : r = i + 1
        · subst hri
          have e : ((i + 1 : Nat) : Int) = 0 + (i : Int) + 1 := by push_cast; ring
          rw [e, atI_set_eq _ (by omega) (by rw [l1]; push_cast; omega)]
          simp only [dstart]
          push_cast
          ring
        · rw [atI_set_ne _ (by omega) (by omega)]
          exact hst r (by omega)
      · rw [atI_set_ne _ (by omega) (by omega)]
        exact hcn r (by omega) hr2)
  exact ⟨s2, hrun, l1, hst, e1, e2, e3⟩

/-- Lines 175-176: the 1-based row pointers `A.ia[n], ..., A.ia[1]`. -/
theorem dgnl_ia_run (n : Nat) (D : Nat → Int) (s : DSt) (hia : s.ia.length = n + 1)
    (hib : s.ibuff.length = n + 1)
    (h : ∀ r : Nat, r < n → atI s.ibuff (r : Int) = D (r + 1)) :
    ∃ s2, forDown dgnl_ia (n : Int) n s = .ok s2 ∧ s2.ia.length = n + 1 ∧
      (∀ i : Nat, 1 ≤ i → i ≤ n → atI s2.ia (i : Int) = D i + 1) ∧
      s2.ibuff = s.ibuff ∧ s2.ja = s.ja ∧ s2.a = s.a := by
  obtain ⟨s2, hrun, l1, hst, e1, e2, e3⟩ := forDown_inv dgnl_ia n (n : Int)
    (fun k w => w.ia.length = n + 1 ∧
      (∀ i : Nat, n - k < i → i ≤ n → atI w.ia (i : Int) = D i + 1) ∧
      w.ibuff = s.ibuff ∧ w.ja = s.ja ∧ w.a = s.a) s
    ⟨hia, fun i h1 h2 => absurd h1 (by omega), rfl, rfl, rfl⟩
    (by
      intro k w hk ⟨l1, hst, e1, e2, e3⟩
      have hD := h (n - k - 1) (by omega)
      have ec : ((n - k - 1 : Nat) : Int) = (n : Int) - (k : Int) - 1 := by omega
      rw [ec] at hD
      have ed : n - k - 1 + 1 = n - k := by omega
      rw [ed] at hD
      have f1 : get w.ibuff ((n : Int) - (k : Int) - 1) = .ok (D (n - k)) := by
        rw [e1, ← hD]
        exact get_ok (rd_atI (by omega) (by rw [hib]; push_cast; omega))
      have f2 := @put_ok _ w.ia ((n : Int) - (k : Int)) (D (n - k) + 1) (by omega)
        (by rw [l1]; push_cast; omega)
      refine ⟨_, (by simp only [dgnl_ia, f1, f2, bind, Except.bind, pure, Except.pure]; rfl),
        ?_⟩
      refine ⟨by simp [l1], fun i h1 h2 => ?_, e1, e2, e3⟩
      by_cases hik : i = n - k
      · subst hik
        have e : ((n - k : Nat) : Int) = (n : Int) - (k : Int) := by omega
        rw [e, atI_set_eq _ (by omega) (by rw [l1]; push_cast; omega)]
      · rw [atI_set_ne _ (by omega) (by omega)]
        exact hst i (by omega) h2)
  exact ⟨s2, hrun, l1, fun i h1 h2 => hst i (by omega) h2, e1, e2, e3⟩

theorem zip_set {α β : Type} (x : α) (y : β) : ∀ (l1 : List α) (l2 : List β) (k : Nat),
    (l1.set k x).zip (l2.set k y) = (l1.zip l2).set k (x, y) := by
  intro l1
  induction l1 with
  | nil => intro l2 k; simp
  | cons u l1 ih =>
    intro l2 k
    cases l2 with
    | nil => simp
    | cons v l2 =>
      cases k with
      | zero => simp
      | succ k => simp [ih]

theorem drop_take_ext {α : Type} (L B : List α) (d c : Nat) (hl : B.length = c)
    (h : ∀ p : Nat, p < c → L[d + p]? = B[p]?) : (L.drop d).take c = B := by
  apply List.ext_getElem?
  intro p
  by_cases hp : p < c
  · rw [List.getElem?_take_of_lt hp, List.getElem?_drop]
    exact h p hp
  · have h1 : ((L.drop d).take c).length ≤ p := by
      rw [List.length_take]
      omega
    rw [List.getElem?_eq_none h1, List.getElem?_eq_none (by omega)]

theorem cntV_split (A_ja : List Int) (V R : List (Int × Int)) (v : Int × Int) (r : Int) :
    cntV A_ja (V ++ v :: R) r
      = cntV A_ja V r + (if atI A_ja v.2 = r then 1 else 0) + cntV A_ja R r := by
  have e : V ++ v :: R = V ++ ([v] ++ R) := rfl
  rw [e, cntV_append, cntV_append, cntV_single]
  omega

/-- Lines 162-173: every entry is moved to the next free place of its row. -/
theorem dgnl_fill_run (n : Nat) (A_ia A_ja : List Int) (A_R : List ℚ)
    (hv : csc_valid n A_ia A_ja.length) (hR : atI A_ia (n : Int) ≤ (A_R.length : Int))
    (hrows : rows_valid n A_ia A_ja) (s : DSt) (hib : s.ibuff.length = n + 1)
    (hcap : atI A_ia (n : Int) ≤ (s.ja.length : Int)) (hlen : s.a.length = s.ja.length)
    (hst : ∀ r : Nat, r ≤ n →
      atI s.ibuff (r : Int) = (dstart A_ja (visits A_ia n) r : Int)) :
    ∃ s2, forUp (for_entries A_ia (dgnl_fill A_ja A_R)) 0 n s = .ok s2 ∧
      s2.ibuff.length = n + 1 ∧ s2.ia = s.ia ∧ s2.ja.length = s.ja.length ∧
      s2.a.length = s.ja.length ∧
      (∀ r : Nat, r < n →
        atI s2.ibuff (r : Int) = (dstart A_ja (visits A_ia n) (r + 1) : Int)) ∧
      (∀ r : Nat, r < n → ∀ p : Nat, p < cntV A_ja (visits A_ia n) (r : Int) →
        (s2.ja.zip s2.a)[dstart A_ja (visits A_ia n) r + p]?
          = (blockV A_ja A_R (visits A_ia n) (r : Int))[p]?) := by
  obtain ⟨s2, hrun, l1, e1, l2, l3, hcnt, hblk⟩ := nested_run A_ia n _ hv (dgnl_fill A_ja A_R)
    (fun V w => w.ibuff.length = n + 1 ∧ w.ia = s.ia ∧ w.ja.length = s.ja.length ∧
      w.a.length = s.ja.length ∧
      (∀ r : Nat, r < n → atI w.ibuff (r : Int)
        = ((dstart A_ja (visits A_ia n) r + cntV A_ja V (r : Int) : Nat) : Int)) ∧
      (∀ r : Nat, r < n → ∀ p : Nat, p < cntV A_ja V (r : Int) →
        (w.ja.zip w.a)[dstart A_ja (visits A_ia n) r + p]?
          = (blockV A_ja A_R V (r : Int))[p]?)) s
    ⟨hib, rfl, rfl, hlen, fun r hr => by simpa [cntV] using hst r (by omega),
      fun r hr p hp => absurd hp (by simp [cntV])⟩ (by
    intro V c j w hc h1 h2 ⟨R, hsplit⟩ ⟨l1, e1, l2, l3, hcnt, hblk⟩
    obtain ⟨j0, j1, jmem⟩ := visits_row n _ A_ia hv c j hc h1 h2
    obtain ⟨_, j2, _⟩ := visits_row n _ A_ia ⟨hv.1, hv.2.1, hv.2.2.1, hR⟩ c j hc h1 h2
    obtain ⟨k0, k1⟩ := hrows c hc j jmem
    obtain ⟨lN, hl⟩ := Int.eq_ofNat_of_zero_le k0
    have hlN : lN < n := by omega
    have hsp : ∀ r : Int, cntV A_ja (visits A_ia n) r
        = cntV A_ja V r + (if atI A_ja j = r then 1 else 0) + cntV A_ja R r := by
      intro r
      rw [hsplit]
      exact cntV_split A_ja V R ((c : Int), j) r
    have hstep : ∀ r : Int, cntV A_ja (V ++ [((c : Int), j)]) r
        = cntV A_ja V r + (if atI A_ja j = r then 1 else 0) := by
      intro r
      rw [cntV_append, cntV_single]
    have hsucc : ∀ r : Nat, dstart A_ja (visits A_ia n) (r + 1)
        = dstart A_ja (visits A_ia n) r + cntV A_ja (visits A_ia n) (r : Int) := fun _ => rfl
    obtain ⟨K, hKdef⟩ : ∃ K : Nat,
        K = dstart A_ja (visits A_ia n) lN + cntV A_ja V (lN : Int) := ⟨_, rfl⟩
    have hK : atI w.ibuff (lN : Int) = (K : Int) := by rw [hKdef]; exact hcnt lN hlN
    have hb1 : K + 1 ≤ dstart A_ja (visits A_ia n) (lN + 1) := by
      have := hsp (lN : Int)
      rw [if_pos hl] at this
      rw [hsucc]
      omega
    have hb2 := dstart_mono A_ja (visits A_ia n) (lN + 1) n (by omega)
    have hb3 := dstart_le_length A_ja n (visits A_ia n)
    have hb4 := visits_length A_ia n _ hv n le_rfl
    have h00 := hv.2.1
    have hKlt : (K : Int) < (s.ja.length : Int) := by omega
    have f1 : get A_ja j = .ok (lN : Int) := by
      rw [← hl]
      exact get_ok (rd_atI j0 j1)
    have f2 : get w.ibuff (lN : Int) = .ok (K : Int) := by
      rw [← hK]
      exact get_ok (rd_atI (Int.natCast_nonneg _) (by rw [l1]; push_cast; omega))
    have f3 := @put_ok _ w.ja (K : Int) ((c : Int) + 1) (Int.natCast_nonneg _)
      (by rw [l2]; exact hKlt)
    have f4 : get A_R j = .ok (at0 A_R j) := get_ok (rd_at0 j0 j2)
    have f5 := @put_ok _ w.a (K : Int) (at0 A_R j) (Int.natCast_nonneg _)
      (by rw [l3]; exact hKlt)
    have f6 := @put_ok _ w.ibuff (lN : Int) ((K : Int) + 1) (Int.natCast_nonneg _)
      (by rw [l1]; push_cast; omega)
    refine ⟨_, (by
      simp only [dgnl_fill, f1, f2, f3, f4, f5, f6, bind, Except.bind, pure, Except.pure]
      rfl), ?_⟩
    have hKz : K < (w.ja.zip w.a).length := by
      rw [List.length_zip, l2, l3, Nat.min_self]
      omega
    refine ⟨by simp [l1], e1, by simp [l2], by simp [l3], fun r hr => ?_, fun r hr p hp => ?_⟩
    · show atI (w.ibuff.set (lN : Int).toNat ((K : Int) + 1)) (r : Int) = _
      rw [hstep]
      by_cases hrl : r = lN
      · subst hrl
        rw [atI_set_eq _ (Int.natCast_nonneg _) (by rw [l1]; push_cast; omega), if_pos hl, hKdef]
        push_cast
        ring
      · have hne : atI A_ja j ≠ (r : Int) := by omega
        rw [atI_set_ne _ (Int.natCast_nonneg _) (by omega), if_neg hne, hcnt r hr]
        rfl
    · show ((w.ja.set (K : Int).toNat ((c : Int) + 1)).zip
          (w.a.set (K : Int).toNat (at0 A_R j)))[dstart A_ja (visits A_ia n) r + p]? = _
      rw [hstep] at hp
      rw [Int.toNat_ofNat, zip_set, blockV_append, blockV_single]
      by_cases hrl : r = lN
      · subst hrl
        rw [if_pos hl] at hp
        rw [if_pos hl]
        by_cases hpl : p < cntV A_ja V (r : Int)
        · rw [List.getElem?_set_ne (by omega), hblk r hr p hpl,
            List.getElem?_append_left (by rw [blockV_length]; exact hpl)]
        · have hpe : p = cntV A_ja V (r : Int) := by omega
          rw [hpe, ← hKdef, List.getElem?_set_self hKz,
            List.getElem?_append_right (by rw [blockV_length]), blockV_length, Nat.sub_self]
          rfl
      · have hne : atI A_ja j ≠ (r : Int) := by omega
        rw [if_neg hne] at hp
        rw [if_neg hne, List.append_nil]
        have hidx : K ≠ dstart A_ja (visits A_ia n) r + p := by
          have hr1 := hsp (r : Int)
          rw [if_neg hne] at hr1
          have hr2 := hsucc r
          rcases Nat.lt_or_gt_of_ne hrl with hlt | hgt
          · have := dstart_mono A_ja (visits A_ia n) (r + 1) lN (by omega)
            omega
          · have := dstart_mono A_ja (visits A_ia n) (lN + 1) r (by omega)
            omega
        rw [List.getElem?_set_ne hidx]
        exact hblk r hr p (by simpa using hp))
  exact ⟨s2, hrun, l1, e1, l2, l3, fun r hr => by rw [hcnt r hr]; rfl, hblk⟩

/-- The whole conversion: it returns, the row pointers are the row starts plus one, and
the places of every row hold its entries in the order of the visits. -/
theorem dgnl_convert_run (n : Nat) (A_ia A_ja : List Int) (A_R : List ℚ) (s0 : DSt)
    (hv : csc_valid n A_ia A_ja.length) (hR : atI A_ia (n : Int) ≤ (A_R.length : Int))
    (hrows : rows_valid n A_ia A_ja) (hib : s0.ibuff.length = n + 1)
    (hia : s0.ia.length = n + 1) (hcap : atI A_ia (n : Int) ≤ (s0.ja.length : Int))
    (hlen : s0.a.length = s0.ja.length) :
    ∃ s, dgnl_convert n A_ia A_ja A_R s0 = .ok s ∧
      (∀ i : Nat, i ≤ n → atI s.ia (i : Int) = (dstart A_ja (visits A_ia n) i : Int) + 1) ∧
      (∀ r : Nat, r < n → ∀ p : Nat, p < cntV A_ja (visits A_ia n) (r : Int) →
        (s.ja.zip s.a)[dstart A_ja (visits A_ia n) r + p]?
          = (blockV A_ja A_R (visits A_ia n) (r : Int))[p]?) := by
  obtain ⟨s1, r1, a1, a2, a3, a4, a5⟩ := dgnl_zero_run n s0 hib
  obtain ⟨s2, r2, b1, b2, b3, b4, b5, b6⟩ := dgnl_count_run n A_ia A_ja hv hrows s1 a1 a2
  obtain ⟨s3, r3, c1, c2, c3, c4, c5⟩ :=
    dgnl_prefix_run n A_ja (visits A_ia n) s2 b1 b2 b3
  obtain ⟨s4, r4, d1, d2, d3, d4, d5, d6⟩ := dgnl_fill_run n A_ia A_ja A_R hv hR hrows s3 c1
    (by rw [c4, b5, a4]; exact hcap) (by rw [c5, c4, b6, b5, a5, a4]; exact hlen) c2
  obtain ⟨s5, r5, g1, g2, g3, g4, g5⟩ := dgnl_ia_run n
    (fun i => (dstart A_ja (visits A_ia n) i : Int)) s4
    (by rw [d2, c3, b4, a3]; exact hia) d1 d5
  have f6 := @put_ok _ s5.ia 0 1 le_rfl (by rw [g1]; push_cast; omega)
  refine ⟨_, (by
    simp only [dgnl_convert, r1, r2, r3, r4, r5, f6, bind, Except.bind, pure, Except.pure]
    rfl), fun i hi => ?_, fun r hr p hp => ?_⟩
  · show atI (s5.ia.set (0 : Int).toNat 1) (i : Int) = _
    by_cases hi0 : i = 0
    · subst hi0
      rw [Nat.cast_zero, atI_set_eq _ le_rfl (by rw [g1]; push_cast; omega)]
      rfl
    · rw [atI_set_ne _ le_rfl (by omega)]
      exact g2 i (by omega) hi
  · show (s5.ja.zip s5.a)[dstart A_ja (visits A_ia n) r + p]? = _
    rw [g4, g5]
    exact d6 r hr p hp

theorem visits_filter_none (A_ia : List Int) (c : Nat) : ∀ n : Nat, n ≤ c →
    (visits A_ia n).filter (fun v => decide (v.1 = (c : Int))) = [] := by
  intro n hn
  rw [List.filter_eq_nil_iff]
  intro v hv
  obtain ⟨d, hd, e, _⟩ := mem_visits A_ia n v hv
  simp only [decide_eq_true_eq]
  omega

theorem visits_filter_col (A_ia : List Int) (c : Nat) : ∀ n : Nat, c < n →
    (visits A_ia n).filter (fun v => decide (v.1 = (c : Int)))
      = (in_positions A_ia (c : Int)).map fun j => ((c : Int), j) := by
  intro n
  induction n with
  | zero => intro h; exact absurd h (Nat.not_lt_zero _)
  | succ n ih =>
    intro h
    simp only [visits, List.filter_append]
    by_cases hcn : c = n
    · subst hcn
      rw [visits_filter_none A_ia c c le_rfl, List.nil_append, List.filter_eq_self]
      intro v hv
      obtain ⟨j, _, rfl⟩ := List.mem_map.1 hv
      simp
    · rw [ih (by omega)]
      have : ((in_positions A_ia (n : Int)).map fun j => ((n : Int), j)).filter
          (fun v => decide (v.1 = (c : Int))) = [] := by
        rw [List.filter_eq_nil_iff]
        intro v hv
        obtain ⟨j, _, rfl⟩ := List.mem_map.1 hv
        simp only [decide_eq_true_eq]
        omega
      rw [this, List.append_nil]

theorem blockV_entry (A_ja : List Int) (A_R : List ℚ) (r c : Int) :
    ∀ V : List (Int × Int),
      (((blockV A_ja A_R V r).filter fun e => decide (e.1 = c + 1)).map Prod.snd).sum
        = ((((V.filter fun v => decide (v.1 = c)).filter
            fun v => decide (atI A_ja v.2 = r)).map fun v => at0 A_R v.2)).sum := by
  intro V
  induction V with
  | nil => rfl
  | cons v V ih =>
    have e : v :: V = [v] ++ V := rfl
    rw [e, blockV_append, blockV_single, List.filter_append, List.map_append, List.sum_append,
      ih, List.filter_append, List.filter_append, List.map_append, List.sum_append]
    congr 1
    by_cases h1 : atI A_ja v.2 = r
    · by_cases h2 : v.1 = c
      · simp [h1, h2]
      · simp [h1, h2]
    · by_cases h2 : v.1 = c
      · simp [h1, h2]
      · simp [h1, h2]

theorem visits_sorted (A_ia : List Int) : ∀ n : Nat,
    (visits A_ia n).Pairwise fun u v => u.1 ≤ v.1 := by
  intro n
  induction n with
  | zero => exact List.Pairwise.nil
  | succ n ih =>
    simp only [visits]
    rw [List.pairwise_append]
    refine ⟨ih, ?_, ?_⟩
    · rw [List.pairwise_map]
      exact List.pairwise_of_forall (fun _ _ => le_rfl)
    · intro u hu v hv
      obtain ⟨d, hd, e, _⟩ := mem_visits A_ia n u hu
      obtain ⟨j, _, rfl⟩ := List.mem_map.1 hv
      show u.1 ≤ (n : Int)
      omega

theorem blockV_sorted (A_ia A_ja : List Int) (A_R : List ℚ) (n : Nat) (r : Int) :
    ((blockV A_ja A_R (visits A_ia n) r).map Prod.fst).Pairwise fun x y => x ≤ y := by
  rw [blockV, List.map_map, List.pairwise_map]
  refine ((visits_sorted A_ia n).sublist (List.filter_sublist _)).imp ?_
  intro u v h
  show u.1 + 1 ≤ v.1 + 1
  omega

theorem blockV_strict (A_ia A_ja : List Int) (A_R : List ℚ) (r : Int) : ∀ n : Nat,
    (∀ c : Nat, c < n → ((in_positions A_ia (c : Int)).map (atI A_ja)).Nodup) →
    ((blockV A_ja A_R (visits A_ia n) r).map Prod.fst).Pairwise fun x y => x < y := by
  intro n
  induction n with
  | zero => intro _; exact List.Pairwise.nil
  | succ n ih =>
    intro hd
    simp only [visits]
    rw [blockV_append, List.map_append, List.pairwise_append]
    refine ⟨ih (fun c hc => hd c (by omega)), ?_, ?_⟩
    · have h1 := hd n (Nat.lt_succ_self n)
      rw [List.Nodup, List.pairwise_map] at h1
      rw [blockV, List.map_map, List.pairwise_map, List.filter_map, List.pairwise_map]
      refine List.Pairwise.imp_of_mem ?_ (h1.sublist (List.filter_sublist _))
      intro a b ha hb hne
      have ea := (List.mem_filter.1 ha).2
      have eb := (List.mem_filter.1 hb).2
      simp only [Function.comp, decide_eq_true_eq] at ea eb
      exact absurd (ea.trans eb.symm) hne
    · intro x hx y hy
      obtain ⟨e1, he1, rfl⟩ := List.mem_map.1 hx
      obtain ⟨e2, he2, rfl⟩ := List.mem_map.1 hy
      rw [blockV] at he1 he2
      obtain ⟨u, hu, rfl⟩ := List.mem_map.1 he1
      obtain ⟨v, hv, rfl⟩ := List.mem_map.1 he2
      obtain ⟨d, hdn, e, _⟩ := mem_visits A_ia n u (List.mem_filter.1 hu).1
      obtain ⟨j, _, rfl⟩ := List.mem_map.1 (List.mem_filter.1 hv).1
      show u.1 + 1 < (n : Int) + 1
      omega

/-- C24: for a valid 0-based compressed-column input of a square `n x n` matrix (column
pointers nondecreasing, row indices in `0..n-1`; buffers `ibuff`, `A.ia` of `n + 1` and
`A.ja`, `A.a` of `nnz ≥ A_ia[n]` entries with arbitrary initial content) the conversion of
`DGNLilupackfactor.c` returns with `A.ia[0] = 1`; for every `i < n`, `A.ia[i+1] - A.ia[i]`
is the number of stored entries of row `i` and row `i` of `A.ja`, `A.a` holds exactly the
input entries of row `i`, in the order of the columns, each with index `c + 1` and
unchanged value; `A.ia[n]` is the number of stored entries plus one; the column indices
of every row ascend, strictly if no column stores a row index twice; and the result
represents the same matrix as the input. -/
theorem general_conversion (n : Nat) (A_ia A_ja : List Int) (A_R : List ℚ) (s0 : DSt)
    (hv : csc_valid n A_ia A_ja.length) (hR : atI A_ia (n : Int) ≤ (A_R.length : Int))
    (hrows : rows_valid n A_ia A_ja) (hib : s0.ibuff.length = n + 1)
    (hia : s0.ia.length = n + 1) (hcap : atI A_ia (n : Int) ≤ (s0.ja.length : Int))
    (hlen : s0.a.length = s0.ja.length) :
    ∃ s, dgnl_convert n A_ia A_ja A_R s0 = .ok s ∧ atI s.ia 0 = 1 ∧
      (∀ i : Nat, i < n →
        atI s.ia ((i : Int) + 1) - atI s.ia (i : Int)
          = (cntV A_ja (visits A_ia n) (i : Int) : Int) ∧
        dblock s (i : Int) = blockV A_ja A_R (visits A_ia n) (i : Int)) ∧
      atI s.ia (n : Int) = ((visits A_ia n).length : Int) + 1 ∧
      ((visits A_ia n).length : Int) = atI A_ia (n : Int) - atI A_ia 0 ∧
      (∀ i : Nat, i < n → ((dblock s (i : Int)).map Prod.fst).Pairwise fun x y => x ≤ y) ∧
      ((∀ c : Nat, c < n → ((in_positions A_ia (c : Int)).map (atI A_ja)).Nodup) →
        ∀ i : Nat, i < n → ((dblock s (i : Int)).map Prod.fst).Pairwise fun x y => x < y) ∧
      (∀ r c : Nat, r < n → c < n →
        dout_entry s (r : Int) (c : Int) = din_entry A_ia A_ja A_R (r : Int) (c : Int)) := by
  obtain ⟨s, hrun, hiaI, hblk⟩ := dgnl_convert_run n A_ia A_ja A_R s0 hv hR hrows hib hia hcap hlen
  have hblock : ∀ i : Nat, i < n →
      atI s.ia ((i : Int) + 1) - atI s.ia (i : Int)
          = (cntV A_ja (visits A_ia n) (i : Int) : Int) ∧
        dblock s (i : Int) = blockV A_ja A_R (visits A_ia n) (i : Int) := by
    intro i hi
    have e1 := hiaI i (by omega)
    have e2 := hiaI (i + 1) (by omega)
    have ec : ((i + 1 : Nat) : Int) = (i : Int) + 1 := by push_cast; ring
    rw [ec] at e2
    have e3 : dstart A_ja (visits A_ia n) (i + 1)
        = dstart A_ja (visits A_ia n) i + cntV A_ja (visits A_ia n) (i : Int) := rfl
    have hd : atI s.ia ((i : Int) + 1) - atI s.ia (i : Int)
        = (cntV A_ja (visits A_ia n) (i : Int) : Int) := by
      rw [e1, e2, e3]
      push_cast
      ring
    refine ⟨hd, ?_⟩
    show ((s.ja.zip s.a).drop (atI s.ia (i : Int) - 1).toNat).take
      (atI s.ia ((i : Int) + 1) - atI s.ia (i : Int)).toNat = _
    rw [hd, e1]
    simp only [Int.toNat_ofNat, add_sub_cancel_right]
    exact drop_take_ext _ _ _ _ (blockV_length _ _ _ _) (hblk i hi)
  have hall : ∀ v ∈ visits A_ia n, 0 ≤ atI A_ja v.2 ∧ atI A_ja v.2 < (n : Int) := by
    intro v hvm
    obtain ⟨c, hc, _, hj⟩ := mem_visits A_ia n v hvm
    exact hrows c hc v.2 hj
  refine ⟨s, hrun, ?_, hblock, ?_, visits_length A_ia n _ hv n le_rfl, fun i hi => ?_,
    fun hd i hi => ?_, fun r c hr hc => ?_⟩
  · simpa [dstart] using hiaI 0 (Nat.zero_le _)
  · rw [hiaI n le_rfl, dstart_eq_length A_ja n _ hall]
  · rw [(hblock i hi).2]
    exact blockV_sorted A_ia A_ja A_R n (i : Int)
  · rw [(hblock i hi).2]
    exact blockV_strict A_ia A_ja A_R (i : Int) n hd
  · rw [dout_entry, (hblock r hr).2, blockV_entry, visits_filter_col A_ia c n hc, din_entry,
      List.filter_map, List.map_map]
    rfl

theorem general_conversion_witness :
    ∃ s, dgnl_convert 3 dgnlIa dgnlJa dgnlR dgnlOut = .ok s ∧ atI s.ia 0 = 1 ∧
      (∀ i : Nat, i < 3 →
        atI s.ia ((i : Int) + 1) - atI s.ia (i : Int)
          = (cntV dgnlJa (visits dgnlIa 3) (i : Int) : Int) ∧
        dblock s (i : Int) = blockV dgnlJa dgnlR (visits dgnlIa 3) (i : Int)) ∧
      atI s.ia ((3 : Nat) : Int) = ((visits dgnlIa 3).length : Int) + 1 ∧
      ((visits dgnlIa 3).length : Int) = atI dgnlIa ((3 : Nat) : Int) - atI dgnlIa 0 ∧
      (∀ i : Nat, i < 3 → ((dblock s (i : Int)).map Prod.fst).Pairwise fun x y => x ≤ y) ∧
      ((∀ c : Nat, c < 3 → ((in_positions dgnlIa (c : Int)).map (atI dgnlJa)).Nodup) →
        ∀ i : Nat, i < 3 → ((dblock s (i : Int)).map Prod.fst).Pairwise fun x y => x < y) ∧
      (∀ r c : Nat, r < 3 → c < 3 →
        dout_entry s (r : Int) (c : Int) = din_entry dgnlIa dgnlJa dgnlR (r : Int) (c : Int)) :=
  general_conversion 3 dgnlIa dgnlJa dgnlR dgnlOut (by unfold csc_valid; decide)
    (by decide) (by unfold rows_valid; decide) rfl rfl (by decide) rfl

/-- The dispatch test holds on a trivial level whose total size `n` makes the 32-bit
product `n * n` wrap to `0`: `L.val` is empty and `U.val` has `0` entries. -/
theorem dense_test_trivLevel_wrap (nB nT : Nat)
    (hw : mul32 ((nB : Int) + (nT : Int)) ((nB : Int) + (nT : Int)) = 0) :
    dense_test (trivLevel nB nT)
      ((trivLevel nB nT).L.nrows + (trivLevel nB nT).negE.nrows) = true := by
  have hLn : (trivLevel nB nT).L.nrows = (nB : Int) := rfl
  have hEn : (trivLevel nB nT).negE.nrows = (nT : Int) := rfl
  rw [hLn, hEn]
  simp only [dense_test, trivLevel, emptyCCS, List.length_nil, Nat.cast_zero, hw,
    decide_True, Bool.and_self]

/-- A trivial level with fine block `nB ≥ 2` whose total size `n` makes the 32-bit product
`n * n` wrap to `0`, at any position of a chain: the dispatch test of line 63 holds
(`U.val` is empty), and the dense branch stops at its first read `U.val[1]`. -/
theorem trivLevel_wrap_fault (pre rest : List Level) (nB nT : Nat) (offset : Int) (s : St)
    (hn : 2 ≤ nB) (hw : mul32 ((nB : Int) + (nT : Int)) ((nB : Int) + (nT : Int)) = 0)
    (ho : 0 ≤ offset) (hb : offset + ((nB + nT : Nat) : Int) ≤ (s.b.length : Int))
    (hy1 : nB ≤ s.b_y1.length) (hy2 : nT ≤ s.y2.length) :
    ∃ s1, solve_milu (pre ++ trivLevel nB nT :: rest) (pre.length + 1) offset s
        = .error (Fault.Load 1, s1) ∧ s1.b.length = s.b.length := by
  have h0 := rd_append_cons pre (trivLevel nB nT) rest
  have hLn : (trivLevel nB nT).L.nrows = (nB : Int) := rfl
  have hEn : (trivLevel nB nT).negE.nrows = (nT : Int) := rfl
  have hrs : (trivLevel nB nT).rowscal.length = nB + nT := List.length_replicate _ _
  obtain ⟨s1, r1, b1, u1, _⟩ := gather_run (trivLevel nB nT) offset s (by rw [hLn]; omega)
    (by rw [hEn]; omega)
    (by
      have := @gather_ok_of_perm_at (trivLevel nB nT) (nB + nT) s.b.length offset
        (perm_ok_idPerm _) (by rw [hrs]) ho hb
      rw [hLn, hEn]
      push_cast at this
      exact this)
    (by rw [hLn]; exact_mod_cast hy1) (by rw [hEn]; exact_mod_cast hy2)
  have hlen1 : s1.b_y1.length = s.b_y1.length := u1.1
  obtain ⟨s2, r2, hb2, hl2⟩ : ∃ s2,
      (if (trivLevel nB nT).L.nrows + (trivLevel nB nT).negE.nrows > (trivLevel nB nT).L.nrows
        then write_back offset (trivLevel nB nT).L.nrows s1 else .ok s1) = .ok s2 ∧
      s2.b.length = s.b.length ∧ s2.b_y1.length = s.b_y1.length := by
    by_cases hgt :
        (trivLevel nB nT).L.nrows + (trivLevel nB nT).negE.nrows > (trivLevel nB nT).L.nrows
    · rw [if_pos hgt, hLn]
      obtain ⟨w, hw1, hw2, _, hw4⟩ := write_back_run offset (nB : Int) s1 ho
        (by rw [b1]; push_cast at hb; omega) (by rw [hlen1]; exact_mod_cast hy1)
      exact ⟨w, hw1, by rw [hw4.1, b1], by rw [hw2, hlen1]⟩
    · rw [if_neg hgt]
      exact ⟨s1, rfl, by rw [b1], hlen1⟩
  have hdt := dense_test_trivLevel_wrap nB nT hw
  have e1 : load s2.b_y1 1 s2 = .ok (at0 s2.b_y1 1) :=
    load_ok (rd_at0 (by omega) (by rw [hl2]; omega))
  have e2 : load (trivLevel nB nT).U.val (0 + 1) s2 = .error (Fault.Load 1, s2) := by
    simp [load, rd, trivLevel, emptyCCS]
  have hinner : dense_fwd_inner (trivLevel nB nT) 1 1 (s2, 0 + 1)
      = .error (Fault.Load 1, s2) := by
    simp only [dense_fwd_inner, e1, e2, bind, Except.bind]
  have houter : dense_fwd (trivLevel nB nT) (trivLevel nB nT).L.nrows 1 (s2, 0)
      = .error (Fault.Load 1, s2) := by
    rw [hLn]
    have hc : ((nB : Int) - 1).toNat = (nB - 2) + 1 := by omega
    simp only [dense_fwd, hc]
    exact forUp_first_error _ _ _ _ _ hinner
  have hsolve : dense_solve (trivLevel nB nT) (trivLevel nB nT).L.nrows s2
      = .error (Fault.Load 1, s2) := by
    have hc : (trivLevel nB nT).L.nrows.toNat = (nB - 1) + 1 := by
      rw [hLn]
      omega
    simp only [dense_solve, hc, forUp_first_error _ _ _ _ _ houter, bind, Except.bind]
  refine ⟨s2, ?_, hb2⟩
  rw [solve_milu_eq _ _ offset s (trivLevel nB nT) h0, bind_ok_eq _ r1]
  rw [bind_ok_eq _ r2]
  rw [hdt, if_pos rfl]
  exact bind_error_eq _ hsolve

theorem chain_valid_wrap : chain_valid [trivLevel 65536 0] 65536 :=
  ⟨65536, 0, rfl, level_valid_trivLevel 65536 0 (by decide), fun h => absurd h (by decide)⟩

theorem chain_wf_wrap : chain_wf [trivLevel 65536 0] 65536 :=
  ⟨65536, 0, rfl, level_valid_trivLevel 65536 0 (by decide),
    fine_ok_trivLevel 65536 0 (by decide), fun h => absurd h (by decide)⟩

/-- A single trivial level of size 65536 at offset `offset`: the run stops at the read of
`U.val[1]`. -/
theorem wrap_level_fault (offset : Int) (s : St) (ho : 0 ≤ offset)
    (hb : offset + 65536 ≤ (s.b.length : Int)) (hy1 : 65536 ≤ s.b_y1.length) :
    ∃ s1, solve_milu [trivLevel 65536 0] 1 offset s = .error (Fault.Load 1, s1) := by
  obtain ⟨s1, h1, _⟩ := trivLevel_wrap_fault [] [] 65536 0 offset s (by decide) (by decide) ho
    (by push_cast; omega) hy1 (Nat.zero_le _)
  exact ⟨s1, h1⟩

/-- The same on buffers given as constant vectors: `b` holds `k` entries, `b_y1` holds
65536 entries. -/
theorem wrap_level_fault_rep (offset : Int) (k : Nat) (v w : ℚ) (y2 : List ℚ) (ho : 0 ≤ offset)
    (hk : offset + 65536 ≤ (k : Int)) :
    ∃ s1, solve_milu [trivLevel 65536 0] 1 offset
        ⟨List.replicate k v, List.replicate 65536 w, y2⟩ = .error (Fault.Load 1, s1) :=
  wrap_level_fault offset _ ho (by simp only [List.length_replicate]; exact hk)
    (by simp only [List.length_replicate]; exact le_rfl)

/-- A trivial two-level chain of total size 65536 on buffers given as constant vectors. -/
theorem wrap_chain_fault_rep (nB nT : Nat) (v w : ℚ) (y2 : List ℚ) (hn : 2 ≤ nB)
    (hw : mul32 ((nB : Int) + (nT : Int)) ((nB : Int) + (nT : Int)) = 0) (hy2 : nT ≤ y2.length) :
    ∃ s1, solve_milu [trivLevel nB nT, trivLevel nT 0] 1 0
        ⟨List.replicate (nB + nT) v, List.replicate nB w, y2⟩ = .error (Fault.Load 1, s1) := by
  obtain ⟨s1, h1, _⟩ := trivLevel_wrap_fault [] [trivLevel nT 0] nB nT 0
    ⟨List.replicate (nB + nT) v, List.replicate nB w, y2⟩ hn hw le_rfl
    (by simp only [List.length_replicate, zero_add]; exact le_rfl)
    (by simp only [List.length_replicate]; exact le_rfl) hy2
  exact ⟨s1, h1⟩

/-- The permutations and scalings of a trivial level are the identity and all ones. -/
theorem trivLevel_fields (nB nT : Nat) :
    (trivLevel nB nT).p = idPerm (nB + nT) ∧ (trivLevel nB nT).q = idPerm (nB + nT) ∧
      (trivLevel nB nT).rowscal = List.replicate (nB + nT) 1 ∧
      (trivLevel nB nT).colscal = List.replicate (nB + nT) 1 :=
  ⟨rfl, rfl, rfl, rfl⟩

/-- C4, failing input: a two-level factorization whose level 1 is the diagonal level with
fine block 65535 and trailing block 1 (identity permutations, unit scaling, sparse fine
block `B = I`, `E = 0`, `F = 0`) and whose level 2 is the 1x1 identity solve.  The input
meets the conditions of the claim, but the total size `n = 65536` makes `n * n` wrap to
`0`, the size of the empty `U.val`: level 1 is sent to the dense branch and the solve
stops at the read of `U.val[1]` instead of leaving the solution `x = b`. -/
theorem two_level_65536_stops :
    sparse_ok (trivLevel 65535 1) 65535 ∧ fine_matrix (trivLevel 65535 1) 65535 = 1 ∧
      (trivLevel 65535 1).p = idPerm (65535 + 1) ∧ (trivLevel 65535 1).q = idPerm (65535 + 1) ∧
      (trivLevel 65535 1).rowscal = List.replicate (65535 + 1) 1 ∧
      (trivLevel 65535 1).colscal = List.replicate (65535 + 1) 1 ∧
      crs_matrix (trivLevel 65535 1).negE 1 65535 = 0 ∧
      crs_matrix (trivLevel 65535 1).negF 65535 1 = 0 ∧
      (∀ s1 : St, (65536 : Int) ≤ (s1.b.length : Int) → 1 ≤ s1.b_y1.length →
        ∃ s2, solve_milu [trivLevel 65535 1, trivLevel 1 0] 2 65535 s1 = .ok s2 ∧
          (1 : Matrix (Fin 1) (Fin 1) ℚ).mulVec (seg s2.b 65535 1) = seg s1.b 65535 1) ∧
      ∃ s1, MILUsolve [trivLevel 65535 1, trivLevel 1 0] (List.replicate 65536 1)
          (List.replicate 65535 0) [0] = .error (Fault.Load 1, s1) := by
  refine ⟨sparse_ok_trivLevel 65535 1, fine_matrix_trivLevel 65535 1,
    (trivLevel_fields 65535 1).1, (trivLevel_fields 65535 1).2.1,
    (trivLevel_fields 65535 1).2.2.1, (trivLevel_fields 65535 1).2.2.2,
    crs_matrix_emptyCRS 1 65535, crs_matrix_emptyCRS 65535 1, fun s1 h1 h2 => ?_, ?_⟩
  · obtain ⟨s2, hrun, _, _, _, _, hS⟩ := identity_level_contract (trivLevel 65535 1) 65535 s1
      (by decide) (by omega) h2
    exact ⟨s2, hrun, hS⟩
  · exact wrap_chain_fault_rep 65535 1 1 0 [0] (by decide) (by decide) (by decide)

/-- C11, failing input: in the well-formed chain of a diagonal level with fine block 1 and
trailing block 65536 followed by the diagonal level of size 65536 (every `p`, `q` the
identity permutation), the call of the level solver at level 2 with offset 1 does not
return: `n * n` wraps to `0` for `n = 65536`, the level is sent to the dense branch, and
the run stops at the read of `U.val[1]`, whatever the buffers hold. -/
theorem level_call_stops_at_65536 :
    chain_valid [trivLevel 1 65536, trivLevel 65536 0] 65537 ∧
      perm_ok (trivLevel 65536 0).q 65536 ∧
      ∀ s : St, (65537 : Int) ≤ (s.b.length : Int) → 65536 ≤ s.b_y1.length →
        ∃ s1, solve_milu [trivLevel 1 65536, trivLevel 65536 0] 2 1 s
          = .error (Fault.Load 1, s1) := by
  refine ⟨⟨1, 65536, rfl, level_valid_trivLevel 1 65536 (by decide), fun _ =>
    ⟨65536, 0, rfl, level_valid_trivLevel 65536 0 (by decide), fun h => absurd h (by decide)⟩⟩,
    (trivLevel_listed 65536).2.2.2.2.1, fun s hb hy => ?_⟩
  obtain ⟨s1, h1, _⟩ := trivLevel_wrap_fault [trivLevel 1 65536] [] 65536 0 1 s (by decide)
    (by decide) (by decide) (by push_cast; omega) hy (Nat.zero_le _)
  exact ⟨s1, h1⟩

/-- C12, failing input: the chain of one diagonal level of size 65536 is well formed and
ends at its level without trailing block, but the solve, instrumented with the list of
invocations, does not return: it stops inside its only invocation at the read of
`U.val[1]`. -/
theorem solve_stops_before_returning :
    terminal_at_end [trivLevel 65536 0] ∧ chain_valid [trivLevel 65536 0] 65536 ∧
      fits [trivLevel 65536 0] 65536 0 ∧
      ∃ s1, solve_milu_tr [trivLevel 65536 0] 1 0
          ⟨List.replicate 65536 1, List.replicate 65536 0, []⟩ = .error (Fault.Load 1, s1) := by
  refine ⟨rfl, chain_valid_wrap, ⟨by decide, by decide, by decide, fun h => absurd h (by decide)⟩,
    ?_⟩
  obtain ⟨s1, h1⟩ := wrap_level_fault_rep 0 65536 1 0 [] le_rfl (by decide)
  refine ⟨s1, ?_⟩
  have htr := solve_milu_tr_eq_map [trivLevel 65536 0] [] 0
    ⟨List.replicate 65536 1, List.replicate 65536 0, []⟩
  simp only [List.nil_append, List.length_nil, Nat.zero_add] at htr
  rw [htr, h1]
  rfl

/-- C13, failing input: the single diagonal level of size 65536 (`nTrail = 0`, `p` and `q`
the identity permutation, fine block the identity matrix), called at offset 3 on a buffer
of 65540 entries: the formula of the claim gives `rhs[3 + i] = rhs_in[3 + i]`, but the
call does not return; it stops at the read of `U.val[1]`. -/
theorem single_level_65536_stops :
    (trivLevel 65536 0).negE.nrows = 0 ∧ perm_ok (trivLevel 65536 0).p 65536 ∧
      perm_ok (trivLevel 65536 0).q 65536 ∧ fine_ok (trivLevel 65536 0) 65536 ∧
      level_fine_matrix (trivLevel 65536 0) 65536 = 1 ∧
      ∃ s1, solve_milu [trivLevel 65536 0] 1 3
          ⟨List.replicate 65540 2, List.replicate 65536 0, []⟩ = .error (Fault.Load 1, s1) := by
  refine ⟨rfl, (trivLevel_listed 65536).2.2.2.1, (trivLevel_listed 65536).2.2.2.2.1,
    fine_ok_trivLevel 65536 0 (by decide), ?_, ?_⟩
  · unfold level_fine_matrix
    rw [signal_trivLevel 65536 0 (by decide)]
    simp only [Bool.false_eq_true, if_false]
    exact fine_matrix_trivLevel 65536 0
  · exact wrap_level_fault_rep 3 65540 2 0 [] (by decide) (by decide)

/-- C15, failing input: the valid level with sparse fine block of size 65534 (the
identity) and trailing block of size 2, followed by the diagonal level of size 2, with
scratch buffers of the sizes 65534 and 2: the total size `n = 65536` makes `n * n` wrap
to `0`, step 4 runs the dense branch instead of the sparse fine-block solve `T`, and the
level solver stops at the read of `U.val[1]`. -/
theorem trailing_level_65536_stops :
    level_valid (trivLevel 65534 2) 65534 2 ∧ sparse_ok (trivLevel 65534 2) 65534 ∧
      chain_valid [trivLevel 2 0] 2 ∧
      dense_test (trivLevel 65534 2)
        ((trivLevel 65534 2).L.nrows + (trivLevel 65534 2).negE.nrows) = true ∧
      ∃ s1, solve_milu [trivLevel 65534 2, trivLevel 2 0] 1 0
          ⟨List.replicate 65536 1, List.replicate 65534 0, [0, 0]⟩
        = .error (Fault.Load 1, s1) := by
  refine ⟨level_valid_trivLevel 65534 2 (by decide), sparse_ok_trivLevel 65534 2,
    ⟨2, 0, rfl, level_valid_trivLevel 2 0 (by decide), fun h => absurd h (by decide)⟩,
    dense_test_trivLevel_wrap 65534 2 (by decide), ?_⟩
  exact wrap_chain_fault_rep 65534 2 1 0 [0, 0] (by decide) (by decide) (by decide)

/-- C16, failing input: on the valid diagonal level of size 65536 the signal of the
claim is false (`L.val` is empty, but `U.val` has `0` entries, not `nB² = 2^32`), yet the
level solver takes the dense-fallback path: it is gather, `dense_solve`, scatter. -/
theorem dispatch_differs_from_signal :
    level_valid (trivLevel 65536 0) 65536 0 ∧ dense_signal_spec (trivLevel 65536 0) = false ∧
      ∀ s : St, solve_milu [trivLevel 65536 0] 1 0 s =
        (gather (trivLevel 65536 0) 0 (trivLevel 65536 0).L.nrows
          ((trivLevel 65536 0).L.nrows + (trivLevel 65536 0).negE.nrows) s).bind fun s =>
        (dense_solve (trivLevel 65536 0) (trivLevel 65536 0).L.nrows s).bind fun s =>
        scatter (trivLevel 65536 0) 0 (trivLevel 65536 0).L.nrows
          ((trivLevel 65536 0).L.nrows + (trivLevel 65536 0).negE.nrows) s := by
  refine ⟨level_valid_trivLevel 65536 0 (by decide), signal_trivLevel 65536 0 (by decide),
    fun s => ?_⟩
  rw [solve_milu_last [trivLevel 65536 0] 1 0 s (trivLevel 65536 0) rfl rfl,
    dense_test_trivLevel_wrap 65536 0 (by decide)]
  rfl

/-- C21, failing input: on the well-formed chain of one diagonal level of size 65536, with
scratch buffers of sufficient lengths, neither the run with zero-filled scratch nor the
run with scratch filled with sevens nor `MILUsolve_2args` returns a final `rhs`: each
stops at the read of `U.val[1]`. -/
theorem scratch_runs_stop_at_65536 :
    chain_wf [trivLevel 65536 0] 65536 ∧ fits [trivLevel 65536 0] 65536 0 ∧
      (∃ s1, MILUsolve [trivLevel 65536 0] (List.replicate 65536 3) (List.replicate 65536 0) []
        = .error (Fault.Load 1, s1)) ∧
      (∃ s1, MILUsolve [trivLevel 65536 0] (List.replicate 65536 3) (List.replicate 65536 7) []
        = .error (Fault.Load 1, s1)) ∧
      ∃ s1, MILUsolve_2args [trivLevel 65536 0] (List.replicate 65536 3)
        = .error (Fault.Load 1, s1) :=
  ⟨chain_wf_wrap, ⟨by decide, by decide, by decide, fun h => absurd h (by decide)⟩,
    wrap_level_fault_rep 0 65536 3 0 [] le_rfl (by decide),
    wrap_level_fault_rep 0 65536 3 7 [] le_rfl (by decide),
    trivial_dense_misdispatch_auto 65536 (by omega) (by decide) _ (List.length_replicate _ _)⟩

/-- C22, failing input: on the well-formed chain of one diagonal level of size 65536 the
solve of the zero vector does not return the zero vector, and no combination
`α * b + β * c` of right-hand sides of length 65536 has a result: every run stops at the
read of `U.val[1]`. -/
theorem solve_of_zero_stops_at_65536 :
    chain_wf [trivLevel 65536 0] 65536 ∧
      (∃ s1, MILUsolve [trivLevel 65536 0] (List.replicate 65536 0) (List.replicate 65536 0) []
        = .error (Fault.Load 1, s1)) ∧
      ∀ (α β : ℚ) (b c y1 : List ℚ), b.length = 65536 → c.length = 65536 →
        65536 ≤ y1.length →
        ∃ s1, MILUsolve [trivLevel 65536 0] (lin_comb α β b c) y1 []
          = .error (Fault.Load 1, s1) :=
  ⟨chain_wf_wrap,
    wrap_level_fault_rep 0 65536 0 0 [] le_rfl (by decide),
    fun α β b c y1 hb hc hy =>
      wrap_level_fault 0 ⟨lin_comb α β b c, y1, []⟩ le_rfl
        (by
          have := lin_comb_length α β b c 65536 hb hc
          show (0 : Int) + 65536 ≤ ((lin_comb α β b c).length : Int)
          rw [this]
          decide)
        hy⟩

end MILU
